import Mathlib

/-!
BusTub storage core: buffer pool and extendible hash table.

A shallow embedding of `src/buffer/lru_replacer.cpp`,
`src/buffer/buffer_pool_manager_instance.cpp`,
`src/storage/page/hash_table_bucket_page.cpp` and
`src/container/hash/extendible_hash_table.cpp`, followed by theorems about them.

Conventions.
* Page ids (`page_id_t`, a signed 32-bit integer) are `Int`; allocation never
  comes near the 32-bit bound in any statement below.
* Frame ids (`frame_id_t`) are `Nat`; the sentinel `-1` returned by `FindPg` and
  `GetPg` is `none`.
* C arrays are total maps from the index; `std::list` is `List`;
  `std::unordered_map` is an association list with one entry per key.
* A member function becomes a function from the object before the call to the
  returned value paired with the object after the call.
-/

namespace Bustub

/-! ## Section 1: LRU replacer (`src/buffer/lru_replacer.cpp`) -/

/-- State of `LRUReplacer`: `replace_frames_` (front of the `std::list` first),
the key set of `replace_map_` (each key is mapped to the list node holding that
frame) and the counter `size_` (a `size_t`). -/
structure LRUReplacer where
  replace_frames : List Nat
  replace_map : List Nat
  size : Nat

/-- Constructor `LRUReplacer(num_pages)`: empty list, empty index, `size_ = 0`. -/
def LRUReplacer.init : LRUReplacer :=
  { replace_frames := [], replace_map := [], size := 0 }

/-- Decrement of a `size_t` (wraps at 0). -/
def size_t_dec (n : Nat) : Nat := (n + (2 ^ 64 - 1)) % 2 ^ 64

/-- Increment of a `size_t`. -/
def size_t_inc (n : Nat) : Nat := (n + 1) % 2 ^ 64

/-- Member `LRUReplacer::Victim`: `none` when the list is empty, else the back of
the list, which is popped and erased from the index. -/
def LRUReplacer.Victim (r : LRUReplacer) : Option Nat × LRUReplacer :=
  match r.replace_frames.getLast? with
  | none => (none, r)
  | some f =>
    (some f,
      { replace_frames := r.replace_frames.dropLast
        replace_map := r.replace_map.erase f
        size := size_t_dec r.size })

/-- Member `LRUReplacer::Pin`: no-op when the frame is not indexed, else the node
the index points to is erased from the list and the key from the index. -/
def LRUReplacer.Pin (r : LRUReplacer) (frame_id : Nat) : LRUReplacer :=
  if frame_id ∈ r.replace_map then
    { replace_frames := r.replace_frames.erase frame_id
      replace_map := r.replace_map.erase frame_id
      size := size_t_dec r.size }
  else r

/-- Member `LRUReplacer::Unpin`: no-op when the frame is indexed, else pushed to
the front of the list and indexed. -/
def LRUReplacer.Unpin (r : LRUReplacer) (frame_id : Nat) : LRUReplacer :=
  if frame_id ∈ r.replace_map then r
  else
    { replace_frames := frame_id :: r.replace_frames
      replace_map := frame_id :: r.replace_map
      size := size_t_inc r.size }

/-- Member `LRUReplacer::Size`. -/
def LRUReplacer.Size (r : LRUReplacer) : Nat := r.size

/-! ## Section 2: buffer pool manager instance
(`src/buffer/buffer_pool_manager_instance.cpp`) -/

/-- Sentinel `INVALID_PAGE_ID`. -/
def INVALID_PAGE_ID : Int := -1

/-- Number of bytes of a page (`PAGE_SIZE` of `common/config.h`). -/
def PAGE_SIZE : Nat := 4096

/-- The bytes written by `memset(GetData(), 0, PAGE_SIZE)`. -/
def zeroData : List Nat := List.replicate PAGE_SIZE 0

/-- A frame of the pool (class `Page`): bytes and metadata. -/
structure Page where
  data : List Nat
  page_id : Int
  pin_count : Int
  is_dirty : Bool

/-- Assignment to one cell of a C array. -/
def setAt {α : Type} (a : Nat → α) (i : Nat) (v : α) : Nat → α :=
  fun j => if j = i then v else a j

/-- Lookup `std::unordered_map::find`. -/
def tableFind : List (Int × Nat) → Int → Option Nat
  | [], _ => none
  | (q, f) :: t, p => if q = p then some f else tableFind t p

/-- Removal `std::unordered_map::erase(key)`. -/
def tableErase : List (Int × Nat) → Int → List (Int × Nat)
  | [], _ => []
  | (q, f) :: t, p => if q = p then tableErase t p else (q, f) :: tableErase t p

/-- Assignment `map[key] = value`: replaces the entry of the key if there is one. -/
def tableSet (t : List (Int × Nat)) (p : Int) (f : Nat) : List (Int × Nat) :=
  (p, f) :: tableErase t p

/-- Disk manager, as a map from page id to the bytes last written there. -/
abbrev Disk := Int → List Nat

/-- Call `DiskManager::WritePage`. -/
def Disk.WritePage (d : Disk) (p : Int) (bytes : List Nat) : Disk :=
  fun q => if q = p then bytes else d q

/-- The value of a 32-bit two's complement word (`int32_t`, the type of
`page_id_t`) whose bits are those of `x`. -/
def toInt32 (x : Int) : Int :=
  (x + 2147483648) % 4294967296 - 2147483648

/-- State of a `BufferPoolManagerInstance` together with its disk.  The field
`out_of_bounds` is not a member of the class: it records that the source has
indexed `pages_` at `-1` (in `FlushPg`), after which what the source does is
not defined and the other fields no longer describe it. -/
structure BufferPoolManagerInstance where
  pool_size : Nat
  num_instances : Nat
  instance_index : Nat
  next_page_id : Int
  pages : Nat → Page
  page_table : List (Int × Nat)
  free_list : List Nat
  replacer : LRUReplacer
  disk : Disk
  out_of_bounds : Bool

/-- Constructor: every frame is in the free list (in increasing order) with
`page_id_ = INVALID_PAGE_ID`, `is_dirty_ = false`, `pin_count_ = 0`; the source
asserts `num_instances > 0` and `instance_index < num_instances`.  The member
`next_page_id_` (an `int32_t`) is initialised from `instance_index` (a
`uint32_t`). -/
def BufferPoolManagerInstance.init (pool_size num_instances instance_index : Nat)
    (disk : Disk) : BufferPoolManagerInstance :=
  { pool_size := pool_size
    num_instances := num_instances
    instance_index := instance_index
    next_page_id := toInt32 instance_index
    pages := fun _ =>
      { data := zeroData, page_id := INVALID_PAGE_ID, pin_count := 0, is_dirty := false }
    page_table := []
    free_list := List.range pool_size
    replacer := LRUReplacer.init
    disk := disk
    out_of_bounds := false }

/-- Helper `FindPg`. -/
def FindPg (b : BufferPoolManagerInstance) (page_id : Int) : Option Nat :=
  tableFind b.page_table page_id

/-- Helper `FlushPg`: writes the frame of the page when it is dirty; the dirty
flag is left as it is.  The source does not test the result of `FindPg`: when
the page is not in the page table it indexes `pages_[-1]`, which is recorded in
`out_of_bounds`. -/
def FlushPg (b : BufferPoolManagerInstance) (page_id : Int) : BufferPoolManagerInstance :=
  match FindPg b page_id with
  | none => { b with out_of_bounds := true }
  | some f =>
    if (b.pages f).is_dirty then
      { b with disk := b.disk.WritePage page_id (b.pages f).data }
    else b

/-- Member `FlushPgImp`. -/
def FlushPgImp (b : BufferPoolManagerInstance) (page_id : Int) :
    Bool × BufferPoolManagerInstance :=
  match FindPg b page_id with
  | none => (false, b)
  | some f =>
    let b1 :=
      if (b.pages f).is_dirty then
        { b with disk := b.disk.WritePage page_id (b.pages f).data }
      else b
    (true, { b1 with pages := setAt b1.pages f { b1.pages f with is_dirty := false } })

/-- Member `FlushAllPgsImp`: `FlushPgImp` on every key of the page table. -/
def FlushAllPgsImp (b : BufferPoolManagerInstance) : BufferPoolManagerInstance :=
  (b.page_table.map Prod.fst).foldl (fun acc p => (FlushPgImp acc p).2) b

/-- Helper `GetPg`: the front of the free list if there is one, else the
replacer's victim, flushed and unmapped. -/
def GetPg (b : BufferPoolManagerInstance) : Option Nat × BufferPoolManagerInstance :=
  match b.free_list with
  | f :: rest => (some f, { b with free_list := rest })
  | [] =>
    match b.replacer.Victim with
    | (none, r) => (none, { b with replacer := r })
    | (some f, r) =>
      let page_id := (b.pages f).page_id
      let b1 := FlushPg { b with replacer := r } page_id
      let b2 := { b1 with page_table := tableErase b1.page_table page_id }
      (some f, { b2 with pages := setAt b2.pages f { b2.pages f with is_dirty := false } })

/-- Check of `ValidatePageId` (an `assert` in the source):
`page_id % num_instances_ == instance_index_`, the `page_id_t` being converted
to `uint32_t` for the division. -/
def ValidatePageId (b : BufferPoolManagerInstance) (page_id : Int) : Bool :=
  (page_id % 4294967296) % (b.num_instances : Int) = (b.instance_index : Int)

/-- Helper `AllocatePage`: returns `next_page_id_` and advances it by
`num_instances_`; the sum of the `int32_t` and the `uint32_t` is taken modulo
`2 ^ 32` and stored as an `int32_t`. -/
def AllocatePage (b : BufferPoolManagerInstance) : Int × BufferPoolManagerInstance :=
  (b.next_page_id, { b with next_page_id := toInt32 (b.next_page_id + (b.num_instances : Int)) })

/-- Member `NewPgImp`: `none` for `nullptr`, else the frame returned and the
page id stored through the out-parameter. -/
def NewPgImp (b : BufferPoolManagerInstance) :
    Option (Nat × Int) × BufferPoolManagerInstance :=
  match GetPg b with
  | (none, b1) => (none, b1)
  | (some f, b1) =>
    let a := AllocatePage b1
    let page_id := a.1
    let b2 := a.2
    let pg := b2.pages f
    (some (f, page_id),
      { b2 with
        pages := setAt b2.pages f
          { pg with page_id := page_id, pin_count := pg.pin_count + 1, data := zeroData }
        page_table := tableSet b2.page_table page_id f })

/-- Member `FetchPgImp`: `none` for `nullptr`, else the frame returned. -/
def FetchPgImp (b : BufferPoolManagerInstance) (page_id : Int) :
    Option Nat × BufferPoolManagerInstance :=
  match FindPg b page_id with
  | some f =>
    let pg := b.pages f
    (some f,
      { b with
        replacer := b.replacer.Pin f
        pages := setAt b.pages f { pg with pin_count := pg.pin_count + 1, is_dirty := true } })
  | none =>
    match GetPg b with
    | (some f, b1) =>
      let pg := b1.pages f
      (some f,
        { b1 with
          page_table := tableSet b1.page_table page_id f
          replacer := b1.replacer.Pin f
          pages := setAt b1.pages f
            { page_id := page_id, pin_count := pg.pin_count + 1, is_dirty := false,
              data := b1.disk page_id } })
    | (none, b1) => (none, b1)

/-- Member `DeletePgImp` (`DeallocatePage` does nothing). -/
def DeletePgImp (b : BufferPoolManagerInstance) (page_id : Int) :
    Bool × BufferPoolManagerInstance :=
  match FindPg b page_id with
  | none => (true, b)
  | some f =>
    if (b.pages f).pin_count ≠ 0 then (false, b)
    else
      (true,
        { b with
          page_table := tableErase b.page_table page_id
          pages := setAt b.pages f
            { b.pages f with page_id := INVALID_PAGE_ID, is_dirty := false, data := zeroData }
          free_list := b.free_list ++ [f] })

/-- Member `UnpinPgImp`. -/
def UnpinPgImp (b : BufferPoolManagerInstance) (page_id : Int) (is_dirty : Bool) :
    Bool × BufferPoolManagerInstance :=
  match FindPg b page_id with
  | none => (false, b)
  | some f =>
    if (b.pages f).pin_count = 0 then (false, b)
    else
      let pg := b.pages f
      let b1 :=
        { b with
          pages := setAt b.pages f { pg with is_dirty := is_dirty, pin_count := pg.pin_count - 1 } }
      if (b1.pages f).pin_count = 0 then
        (true, FlushPg { b1 with replacer := b1.replacer.Unpin f } page_id)
      else (true, b1)

/-- A holder of the `Page *` of a resident page overwrites its bytes. -/
def WriteData (b : BufferPoolManagerInstance) (page_id : Int) (bytes : List Nat) :
    BufferPoolManagerInstance :=
  match FindPg b page_id with
  | none => b
  | some f => { b with pages := setAt b.pages f { b.pages f with data := bytes } }

/-- One call on the public interface of the instance, or a write through a
page pointer. -/
inductive BpmOp where
  | NewPage
  | FetchPage (page_id : Int)
  | UnpinPage (page_id : Int) (is_dirty : Bool)
  | FlushPage (page_id : Int)
  | FlushAllPages
  | DeletePage (page_id : Int)
  | WriteData (page_id : Int) (bytes : List Nat)

/-- State after one call. -/
def BpmOp.apply (b : BufferPoolManagerInstance) : BpmOp → BufferPoolManagerInstance
  | .NewPage => (NewPgImp b).2
  | .FetchPage p => (FetchPgImp b p).2
  | .UnpinPage p d => (UnpinPgImp b p d).2
  | .FlushPage p => (FlushPgImp b p).2
  | .FlushAllPages => FlushAllPgsImp b
  | .DeletePage p => (DeletePgImp b p).2
  | .WriteData p bytes => Bustub.WriteData b p bytes

/-- State after a sequence of calls. -/
def runOps (b : BufferPoolManagerInstance) (ops : List BpmOp) : BufferPoolManagerInstance :=
  ops.foldl BpmOp.apply b

/-! ## Section 3: hash table bucket page
(`src/storage/page/hash_table_bucket_page.cpp`)

`BUCKET_ARRAY_SIZE` is the parameter `B`.  The bitmaps `occupied_` and
`readable_` are arrays of `char`, here bytes `Fin 256`; arithmetic on a byte is
done on its value, as C does after integer promotion, and the result is cut to
8 bits when it is stored.  The comparator `cmp(a, b) == 0` is equality of
keys. -/

/-- Conversion of an integer value to a `char` (its low 8 bits). -/
def toChar (x : Nat) : Fin 256 := ⟨x % 256, Nat.mod_lt _ (by decide)⟩

/-- Layout of `HashTableBucketPage`: `occupied_`, `readable_`, `array_`. -/
structure HashTableBucketPage (K V : Type) where
  occupied : Nat → Fin 256
  readable : Nat → Fin 256
  array : Nat → K × V

section Bucket

variable {K V : Type} [DecidableEq K] [DecidableEq V] [Inhabited K] [Inhabited V]

/-- A page of zero bytes, read as a bucket. -/
def HashTableBucketPage.zero : HashTableBucketPage K V :=
  { occupied := fun _ => 0, readable := fun _ => 0, array := fun _ => (default, default) }

/-- Member `IsOccupied`. -/
def HashTableBucketPage.IsOccupied (b : HashTableBucketPage K V) (bucket_idx : Nat) : Bool :=
  ((b.occupied (bucket_idx >>> 3)).val &&& (1 <<< (bucket_idx &&& 7))) != 0

/-- Member `SetOccupied`. -/
def HashTableBucketPage.SetOccupied (b : HashTableBucketPage K V) (bucket_idx : Nat) :
    HashTableBucketPage K V :=
  { b with
    occupied := setAt b.occupied (bucket_idx >>> 3)
      (toChar ((b.occupied (bucket_idx >>> 3)).val ||| (1 <<< (bucket_idx &&& 7)))) }

/-- Member `IsReadable`. -/
def HashTableBucketPage.IsReadable (b : HashTableBucketPage K V) (bucket_idx : Nat) : Bool :=
  ((b.readable (bucket_idx >>> 3)).val &&& (1 <<< (bucket_idx &&& 7))) != 0

/-- Member `SetReadable`. -/
def HashTableBucketPage.SetReadable (b : HashTableBucketPage K V) (bucket_idx : Nat) :
    HashTableBucketPage K V :=
  { b with
    readable := setAt b.readable (bucket_idx >>> 3)
      (toChar ((b.readable (bucket_idx >>> 3)).val ||| (1 <<< (bucket_idx &&& 7)))) }

/-- Member `RemoveAt`: `readable_[idx] &= ~(1 << offset)`; of the complement only
the low 8 bits, `255 ^ (1 << offset)`, meet the byte. -/
def HashTableBucketPage.RemoveAt (b : HashTableBucketPage K V) (bucket_idx : Nat) :
    HashTableBucketPage K V :=
  { b with
    readable := setAt b.readable (bucket_idx >>> 3)
      (toChar ((b.readable (bucket_idx >>> 3)).val &&& (255 ^^^ (1 <<< (bucket_idx &&& 7))))) }

/-- Member `KeyAt`: the stored key of a readable slot, else `{}`. -/
def HashTableBucketPage.KeyAt (b : HashTableBucketPage K V) (bucket_idx : Nat) : K :=
  if b.IsReadable bucket_idx then (b.array bucket_idx).1 else default

/-- Member `ValueAt`: the stored value of a readable slot, else `{}`. -/
def HashTableBucketPage.ValueAt (b : HashTableBucketPage K V) (bucket_idx : Nat) : V :=
  if b.IsReadable bucket_idx then (b.array bucket_idx).2 else default

/-- The `for` loop of `GetValue`, with `n` iterations left at index `i`. -/
def HashTableBucketPage.getValueLoop (b : HashTableBucketPage K V) (key : K) :
    Nat → Nat → Bool → List V → Bool × List V
  | 0, _, done, result => (done, result)
  | n + 1, i, done, result =>
    let hit := b.IsReadable i && decide ((b.array i).1 = key)
    let result1 := if hit then result ++ [(b.array i).2] else result
    let done1 := if hit then true else done
    if !b.IsOccupied i then (done1, result1)
    else getValueLoop b key n (i + 1) done1 result1

/-- Member `GetValue`: the returned flag and the vector `*result` after the call. -/
def HashTableBucketPage.GetValue (B : Nat) (b : HashTableBucketPage K V) (key : K)
    (result : List V) : Bool × List V :=
  b.getValueLoop key B 0 false result

/-- The `for` loop of `Insert`, with `n` iterations left at index `i`: `none`
when the loop returns false (duplicate pair), else the final value of `idx`. -/
def HashTableBucketPage.insertLoop (B : Nat) (b : HashTableBucketPage K V) (key : K)
    (value : V) : Nat → Nat → Nat → Option Nat
  | 0, _, idx => some idx
  | n + 1, i, idx =>
    if b.IsReadable i then
      if (b.array i).1 = key ∧ b.ValueAt i = value then none
      else insertLoop B b key value n (i + 1) idx
    else
      let idx1 := if idx = B then i else idx
      if !b.IsOccupied i then some idx1
      else insertLoop B b key value n (i + 1) idx1

/-- Member `Insert`. -/
def HashTableBucketPage.Insert (B : Nat) (b : HashTableBucketPage K V) (key : K) (value : V) :
    Bool × HashTableBucketPage K V :=
  match b.insertLoop B key value B 0 B with
  | none => (false, b)
  | some idx =>
    if idx = B then (false, b)
    else
      (true,
        (({ b with array := setAt b.array idx (key, value) } :
          HashTableBucketPage K V).SetOccupied idx).SetReadable idx)

/-- The `for` loop of `Remove`, with `n` iterations left at index `i`: the slot
removed, if any. -/
def HashTableBucketPage.removeLoop (b : HashTableBucketPage K V) (key : K) (value : V) :
    Nat → Nat → Option Nat
  | 0, _ => none
  | n + 1, i =>
    if b.IsReadable i ∧ b.KeyAt i = key ∧ value = b.ValueAt i then some i
    else if !b.IsOccupied i then none
    else removeLoop b key value n (i + 1)

/-- Member `Remove`. -/
def HashTableBucketPage.Remove (B : Nat) (b : HashTableBucketPage K V) (key : K) (value : V) :
    Bool × HashTableBucketPage K V :=
  match b.removeLoop key value B 0 with
  | some i => (true, b.RemoveAt i)
  | none => (false, b)

/-- Member `IsFull`. -/
def HashTableBucketPage.IsFull (B : Nat) (b : HashTableBucketPage K V) : Bool :=
  let size := B / 8
  if (List.range size).all (fun i => b.readable i = toChar 0xff) then
    let remainder := B - size * 8
    !(remainder != 0 && b.readable size != toChar ((1 <<< remainder) - 1))
  else false

/-- The `while (n != 0)` loop of `NumReadable` on one byte: `n &= n - 1`,
`count++`, at most `fuel` times. -/
def clearLowestLoop : Nat → Nat → Nat → Nat
  | 0, _, count => count
  | fuel + 1, n, count =>
    if n = 0 then count else clearLowestLoop fuel (n &&& (n - 1)) (count + 1)

/-- Member `NumReadable`: a byte has 8 bits, so 8 rounds of the inner loop
reach `n = 0`. -/
def HashTableBucketPage.NumReadable (B : Nat) (b : HashTableBucketPage K V) : Nat :=
  (List.range ((B - 1) / 8 + 1)).foldl
    (fun count i => clearLowestLoop 8 (b.readable i).val count) 0

/-- Member `IsEmpty`. -/
def HashTableBucketPage.IsEmpty (B : Nat) (b : HashTableBucketPage K V) : Bool :=
  (List.range ((B - 1) / 8 + 1)).all (fun i => b.readable i = toChar 0)

end Bucket

/-! ## Section 4: hash table directory page

`hash_table_directory_page.cpp` is not among the sources; its accessors are
taken from the specification (section 4.5). -/

/-- Modelled from the spec: the fields `global_depth`, `local_depths` and
`bucket_page_ids` of the directory page (class `HashTableDirectoryPage`,
whose source file is missing).  The two arrays have `2 ^ MAX_DEPTH` cells in
the page; here they are maps on all indices, and the field `overrun`, which is
not a member of the class, records that cells beyond the arrays have been
written, after which the other fields no longer describe the page. -/
structure HashTableDirectoryPage where
  global_depth : Nat
  local_depths : Nat → Nat
  bucket_page_ids : Nat → Int
  overrun : Bool

/-- Modelled from the spec: bound `MAX_DEPTH` on the global depth (9, so that
the two arrays have 512 cells). -/
def MAX_DEPTH : Nat := 9

/-- Modelled from the spec: a directory page of zero bytes, as `NewPage`
returns it. -/
def HashTableDirectoryPage.zero : HashTableDirectoryPage :=
  { global_depth := 0, local_depths := fun _ => 0, bucket_page_ids := fun _ => 0,
    overrun := false }

/-- Modelled from the spec: accessor `GetGlobalDepth`. -/
def HashTableDirectoryPage.GetGlobalDepth (d : HashTableDirectoryPage) : Nat := d.global_depth

/-- Modelled from the spec: `GetGlobalDepthMask = (1 << global_depth) - 1`. -/
def HashTableDirectoryPage.GetGlobalDepthMask (d : HashTableDirectoryPage) : Nat :=
  (1 <<< d.global_depth) - 1

/-- Modelled from the spec: `Size() = 1 << global_depth`. -/
def HashTableDirectoryPage.Size (d : HashTableDirectoryPage) : Nat := 1 <<< d.global_depth

/-- Modelled from the spec: `IncrGlobalDepth`, "directory doubles: new slots
mirror old".  At a global depth of `MAX_DEPTH` or more the new slots lie beyond
the `2 ^ MAX_DEPTH` cells of the arrays, which `overrun` records. -/
def HashTableDirectoryPage.IncrGlobalDepth (d : HashTableDirectoryPage) :
    HashTableDirectoryPage :=
  { global_depth := d.global_depth + 1
    local_depths := fun i =>
      if d.Size ≤ i ∧ i < 2 * d.Size then d.local_depths (i - d.Size) else d.local_depths i
    bucket_page_ids := fun i =>
      if d.Size ≤ i ∧ i < 2 * d.Size then d.bucket_page_ids (i - d.Size)
      else d.bucket_page_ids i
    overrun := d.overrun || decide (MAX_DEPTH ≤ d.global_depth) }

/-- Modelled from the spec: `DecrGlobalDepth`. -/
def HashTableDirectoryPage.DecrGlobalDepth (d : HashTableDirectoryPage) :
    HashTableDirectoryPage :=
  { d with global_depth := d.global_depth - 1 }

/-- Modelled from the spec: accessor `GetLocalDepth(i)`. -/
def HashTableDirectoryPage.GetLocalDepth (d : HashTableDirectoryPage) (i : Nat) : Nat :=
  d.local_depths i

/-- Modelled from the spec: mutator `SetLocalDepth(i, depth)`. -/
def HashTableDirectoryPage.SetLocalDepth (d : HashTableDirectoryPage) (i depth : Nat) :
    HashTableDirectoryPage :=
  { d with local_depths := setAt d.local_depths i depth }

/-- Modelled from the spec: mutator `IncrLocalDepth(i)`. -/
def HashTableDirectoryPage.IncrLocalDepth (d : HashTableDirectoryPage) (i : Nat) :
    HashTableDirectoryPage :=
  { d with local_depths := setAt d.local_depths i (d.local_depths i + 1) }

/-- Modelled from the spec: mutator `DecrLocalDepth(i)`. -/
def HashTableDirectoryPage.DecrLocalDepth (d : HashTableDirectoryPage) (i : Nat) :
    HashTableDirectoryPage :=
  { d with local_depths := setAt d.local_depths i (d.local_depths i - 1) }

/-- Modelled from the spec: `GetLocalDepthMask(i) = (1 << local_depths[i]) - 1`. -/
def HashTableDirectoryPage.GetLocalDepthMask (d : HashTableDirectoryPage) (i : Nat) : Nat :=
  (1 <<< d.local_depths i) - 1

/-- Modelled from the spec: accessor `GetBucketPageId(i)`. -/
def HashTableDirectoryPage.GetBucketPageId (d : HashTableDirectoryPage) (i : Nat) : Int :=
  d.bucket_page_ids i

/-- Modelled from the spec: mutator `SetBucketPageId(i, pid)`. -/
def HashTableDirectoryPage.SetBucketPageId (d : HashTableDirectoryPage) (i : Nat) (pid : Int) :
    HashTableDirectoryPage :=
  { d with bucket_page_ids := setAt d.bucket_page_ids i pid }

/-- Modelled from the spec: `GetSplitImageIndex(i) = i XOR (1 << (local_depths[i] - 1))`
(the spec leaves it undefined at local depth 0, where no caller uses it). -/
def HashTableDirectoryPage.GetSplitImageIndex (d : HashTableDirectoryPage) (i : Nat) : Nat :=
  i ^^^ (1 <<< (d.local_depths i - 1))

/-- Modelled from the spec: `CanShrink() = ∀ i < Size(): local_depths[i] < global_depth`. -/
def HashTableDirectoryPage.CanShrink (d : HashTableDirectoryPage) : Bool :=
  (List.range d.Size).all (fun i => decide (d.local_depths i < d.global_depth))

/-! ## Section 5: extendible hash table
(`src/container/hash/extendible_hash_table.cpp`)

The table reaches its pages through the `BufferPoolManager` interface.  The
source dereferences the result of every `FetchPage` and `NewPage` unchecked, so
the pool is taken as a store in which both succeed: `FetchPage(p)` gives the
content last left in page `p`, `NewPage` gives a zeroed page under an id never
handed out before, `UnpinPage` and the latches leave the content alone, and
`DeletePage` is recorded. -/

/-- State of an `ExtendibleHashTable` and of the pages it owns: the directory
page, every other page read as a bucket, the id the next `NewPage` returns and
the ids passed to `DeletePage` (latest first). -/
structure ExtendibleHashTable (K V : Type) where
  hash_fn : K → Nat
  directory_page_id : Int
  dir : HashTableDirectoryPage
  buckets : Int → HashTableBucketPage K V
  next_page_id : Int
  deleted : List Int

section Table

variable {K V : Type} [DecidableEq K] [DecidableEq V] [Inhabited K] [Inhabited V]

/-- Assignment to the content of one page. -/
def setPage (m : Int → HashTableBucketPage K V) (p : Int) (b : HashTableBucketPage K V) :
    Int → HashTableBucketPage K V :=
  fun q => if q = p then b else m q

/-- Constructor: `NewPage` for the directory, `NewPage` for the first bucket,
`SetBucketPageId(0, bucket_page_id)`; `first_page_id` is the id the pool hands
out first. -/
def ExtendibleHashTable.init (hash_fn : K → Nat) (first_page_id : Int) :
    ExtendibleHashTable K V :=
  { hash_fn := hash_fn
    directory_page_id := first_page_id
    dir := HashTableDirectoryPage.zero.SetBucketPageId 0 (first_page_id + 1)
    buckets := fun _ => HashTableBucketPage.zero
    next_page_id := first_page_id + 2
    deleted := [] }

/-- Helper `Hash`: the hash function's output cast to `uint32_t`. -/
def ExtendibleHashTable.Hash (t : ExtendibleHashTable K V) (key : K) : Nat :=
  t.hash_fn key % 2 ^ 32

/-- Helper `KeyToDirectoryIndex`. -/
def ExtendibleHashTable.KeyToDirectoryIndex (t : ExtendibleHashTable K V) (key : K)
    (dir_page : HashTableDirectoryPage) : Nat :=
  t.Hash key &&& dir_page.GetGlobalDepthMask

/-- Helper `KeyToPageId`. -/
def ExtendibleHashTable.KeyToPageId (t : ExtendibleHashTable K V) (key : K)
    (dir_page : HashTableDirectoryPage) : Int :=
  dir_page.GetBucketPageId (t.KeyToDirectoryIndex key dir_page)

/-- Member `GetValue`: the returned flag and `*result` after the call. -/
def ExtendibleHashTable.GetValue (B : Nat) (t : ExtendibleHashTable K V) (key : K)
    (result : List V) : Bool × List V :=
  let dir_page := t.dir
  let bucket_page_id := t.KeyToPageId key dir_page
  let bucket_page := t.buckets bucket_page_id
  bucket_page.GetValue B key result

/-- The directory loop of `SplitInsert` (lines 159-167) at index `i`. -/
def splitDirStep (bucket_page_id new_bucket_page_id : Int)
    (bucket_idx new_local_depth new_local_mask : Nat)
    (dir_page : HashTableDirectoryPage) (i : Nat) : HashTableDirectoryPage :=
  let page_id := dir_page.GetBucketPageId i
  if page_id = bucket_page_id then
    let d1 := dir_page.SetLocalDepth i new_local_depth
    if (i &&& new_local_mask) ≠ (bucket_idx &&& new_local_mask) then
      d1.SetBucketPageId i new_bucket_page_id
    else d1
  else dir_page

/-- The rehash loop of `SplitInsert` (lines 170-181) at slot `i`, on the pair
(old bucket, new bucket). -/
def ExtendibleHashTable.rehashStep (B : Nat) (t : ExtendibleHashTable K V)
    (dir_page : HashTableDirectoryPage) (new_bucket_idx : Nat)
    (bs : HashTableBucketPage K V × HashTableBucketPage K V) (i : Nat) :
    HashTableBucketPage K V × HashTableBucketPage K V :=
  if !bs.1.IsReadable i then bs
  else
    let bucket_key := bs.1.KeyAt i
    let bucket_value := bs.1.ValueAt i
    let new_idx := t.KeyToDirectoryIndex bucket_key dir_page
    if new_idx = new_bucket_idx then
      (bs.1.RemoveAt i, (bs.2.Insert B bucket_key bucket_value).2)
    else bs

/-- Lines 145-155 of `SplitInsert`: the directory after
`IncrGlobalDepth` (when the local depth of the bucket equals the global depth)
and `IncrLocalDepth(bucket_idx)`. -/
def ExtendibleHashTable.splitDepths (t : ExtendibleHashTable K V) (key : K) :
    HashTableDirectoryPage :=
  let dir_page := t.dir
  let bucket_idx := t.KeyToDirectoryIndex key dir_page
  let dir1 :=
    if dir_page.GetLocalDepth bucket_idx = dir_page.GetGlobalDepth then
      dir_page.IncrGlobalDepth
    else dir_page
  dir1.IncrLocalDepth bucket_idx

/-- Lines 156-167 of `SplitInsert`: the directory after the loop that sets the
local depth of every index of the old page and re-points those that differ from
`bucket_idx` under the new mask. -/
def ExtendibleHashTable.splitDirectory (t : ExtendibleHashTable K V) (key : K) :
    HashTableDirectoryPage :=
  let bucket_idx := t.KeyToDirectoryIndex key t.dir
  let bucket_page_id := t.dir.GetBucketPageId bucket_idx
  let new_bucket_page_id := t.next_page_id
  let dir2 := t.splitDepths key
  let new_local_depth := dir2.GetLocalDepth bucket_idx
  let new_local_mask := dir2.GetLocalDepthMask bucket_idx
  (List.range dir2.Size).foldl
    (splitDirStep bucket_page_id new_bucket_page_id bucket_idx new_local_depth new_local_mask)
    dir2

/-- Lines 168-181 of `SplitInsert`: the old bucket and the new (zeroed) bucket
after the rehash loop. -/
def ExtendibleHashTable.splitBuckets (B : Nat) (t : ExtendibleHashTable K V) (key : K) :
    HashTableBucketPage K V × HashTableBucketPage K V :=
  let bucket_idx := t.KeyToDirectoryIndex key t.dir
  let bucket_page := t.buckets (t.dir.GetBucketPageId bucket_idx)
  let new_bucket_idx := (t.splitDepths key).GetSplitImageIndex bucket_idx
  (List.range B).foldl (t.rehashStep B (t.splitDirectory key) new_bucket_idx)
    (bucket_page, HashTableBucketPage.zero)

/-- Member `SplitInsert`. -/
def ExtendibleHashTable.SplitInsert (B : Nat) (t : ExtendibleHashTable K V) (key : K)
    (value : V) : Bool × ExtendibleHashTable K V :=
  let dir_page := t.dir
  let bucket_idx := t.KeyToDirectoryIndex key dir_page
  let bucket_page_id := dir_page.GetBucketPageId bucket_idx
  let bucket_page := t.buckets bucket_page_id
  if !bucket_page.IsFull B then
    let r := bucket_page.Insert B key value
    (r.1, { t with buckets := setPage t.buckets bucket_page_id r.2 })
  else
    let new_bucket_page_id := t.next_page_id
    let dir3 := t.splitDirectory key
    let bs := t.splitBuckets B key
    let new_idx := t.KeyToPageId key dir3
    let r :=
      if new_idx = bucket_page_id then
        let r1 := bs.1.Insert B key value
        (r1.1, r1.2, bs.2)
      else
        let r2 := bs.2.Insert B key value
        (r2.1, bs.1, r2.2)
    (r.1,
      { t with
        dir := dir3
        buckets := setPage (setPage t.buckets bucket_page_id r.2.1) new_bucket_page_id r.2.2
        next_page_id := t.next_page_id + 1 })

/-- Member `Insert`. -/
def ExtendibleHashTable.Insert (B : Nat) (t : ExtendibleHashTable K V) (key : K) (value : V) :
    Bool × ExtendibleHashTable K V :=
  let dir_page := t.dir
  let bucket_page_id := t.KeyToPageId key dir_page
  let bucket_page := t.buckets bucket_page_id
  let full := bucket_page.IsFull B
  if !full then
    let r := bucket_page.Insert B key value
    (r.1, { t with buckets := setPage t.buckets bucket_page_id r.2 })
  else t.SplitInsert B key value

/-- The redirect loop of `Merge` (lines 259-265) at index `i`. -/
def mergeDirStep (bucket_page_id image_page_id : Int) (dir_page : HashTableDirectoryPage)
    (i : Nat) : HashTableDirectoryPage :=
  let page_id := dir_page.GetBucketPageId i
  if page_id = bucket_page_id ∨ page_id = image_page_id then
    (dir_page.SetBucketPageId i image_page_id).DecrLocalDepth i
  else dir_page

/-- The loop `while (dir_page->CanShrink()) dir_page->DecrGlobalDepth()`, at
most `fuel` rounds. -/
def shrinkLoop : Nat → HashTableDirectoryPage → HashTableDirectoryPage
  | 0, d => d
  | fuel + 1, d => if d.CanShrink then shrinkLoop fuel d.DecrGlobalDepth else d

/-- Member `Merge`; the shrink loop gets `global_depth + 1` rounds, one more
than it can use. -/
def ExtendibleHashTable.Merge (B : Nat) (t : ExtendibleHashTable K V) (key : K) (_value : V) :
    ExtendibleHashTable K V :=
  let dir_page := t.dir
  let bucket_idx := t.KeyToDirectoryIndex key dir_page
  let bucket_local_depth := dir_page.GetLocalDepth bucket_idx
  if bucket_local_depth = 0 then t
  else
    let split_idx := dir_page.GetSplitImageIndex bucket_idx
    let image_local_depth := dir_page.GetLocalDepth split_idx
    if image_local_depth ≠ bucket_local_depth then t
    else
      let bucket_page_id := dir_page.GetBucketPageId bucket_idx
      let bucket_page := t.buckets bucket_page_id
      if !bucket_page.IsEmpty B then t
      else
        let image_page_id := dir_page.GetBucketPageId split_idx
        let dir1 := (List.range dir_page.Size).foldl
          (mergeDirStep bucket_page_id image_page_id) dir_page
        let dir2 := shrinkLoop (dir1.global_depth + 1) dir1
        { t with dir := dir2, deleted := bucket_page_id :: t.deleted }

/-- Member `Remove`. -/
def ExtendibleHashTable.Remove (B : Nat) (t : ExtendibleHashTable K V) (key : K) (value : V) :
    Bool × ExtendibleHashTable K V :=
  let dir_page := t.dir
  let bucket_idx := t.KeyToDirectoryIndex key dir_page
  let bucket_page_id := dir_page.GetBucketPageId bucket_idx
  let bucket_page := t.buckets bucket_page_id
  let r := bucket_page.Remove B key value
  let bucket_size := r.2.NumReadable B
  let t1 := { t with buckets := setPage t.buckets bucket_page_id r.2 }
  if bucket_size = 0 then (r.1, t1.Merge B key value) else (r.1, t1)

/-- Member `GetGlobalDepth`. -/
def ExtendibleHashTable.GetGlobalDepth (t : ExtendibleHashTable K V) : Nat :=
  t.dir.GetGlobalDepth

/-- One call of `Insert` or `Remove`. -/
inductive TableOp (K V : Type) where
  | Insert (key : K) (value : V)
  | Remove (key : K) (value : V)

/-- State after one call. -/
def TableOp.apply (B : Nat) (t : ExtendibleHashTable K V) : TableOp K V → ExtendibleHashTable K V
  | .Insert k v => (t.Insert B k v).2
  | .Remove k v => (t.Remove B k v).2

/-- State after a sequence of calls. -/
def runTable (B : Nat) (t : ExtendibleHashTable K V) (ops : List (TableOp K V)) :
    ExtendibleHashTable K V :=
  ops.foldl (TableOp.apply B) t

end Table

/-! ## Section 6: predicates used in the statements -/

/-- A call that fetches a page does so under an id below `next_page_id_`, that
is, an id that `AllocatePage` can no longer hand out. -/
def BpmOp.Allocated (b : BufferPoolManagerInstance) : BpmOp → Prop
  | .FetchPage p => p < b.next_page_id
  | _ => True

/-- Every call of the sequence is `Allocated` in the state it is made in. -/
def Disciplined (b : BufferPoolManagerInstance) : List BpmOp → Prop
  | [] => True
  | op :: ops => op.Allocated b ∧ Disciplined (op.apply b) ops

/-- Frame accounting of the pool: the free list has no repetition and holds
frames of the pool; a page table entry `p ↦ f` names a frame of the pool whose
`page_id_` is `p` and which is not free; every frame is free or mapped; the
replacer holds frames of the pool. -/
structure BpmInv (b : BufferPoolManagerInstance) : Prop where
  free_nodup : b.free_list.Nodup
  free_lt : ∀ f ∈ b.free_list, f < b.pool_size
  mapped : ∀ p f, tableFind b.page_table p = some f →
    f < b.pool_size ∧ (b.pages f).page_id = p ∧ f ∉ b.free_list
  covered : ∀ f, f < b.pool_size → f ∈ b.free_list ∨ ∃ p, tableFind b.page_table p = some f
  repl_lt : ∀ f ∈ b.replacer.replace_frames, f < b.pool_size

/-- Frame accounting while frame `g` has left the free list or the page table
and is not mapped again yet (between `GetPg` and the page table update). -/
structure BpmInvExcept (b : BufferPoolManagerInstance) (g : Nat) : Prop where
  free_nodup : b.free_list.Nodup
  free_lt : ∀ f ∈ b.free_list, f < b.pool_size
  mapped : ∀ p f, tableFind b.page_table p = some f →
    f < b.pool_size ∧ (b.pages f).page_id = p ∧ f ∉ b.free_list
  covered : ∀ f, f < b.pool_size → f ≠ g →
    f ∈ b.free_list ∨ ∃ p, tableFind b.page_table p = some f
  repl_lt : ∀ f ∈ b.replacer.replace_frames, f < b.pool_size
  g_lt : g < b.pool_size
  g_not_free : g ∉ b.free_list
  g_unmapped : ∀ p, tableFind b.page_table p ≠ some g

/-- Two states with the same frame accounting data. -/
def SameFrames (b c : BufferPoolManagerInstance) : Prop :=
  c.pool_size = b.pool_size ∧ c.num_instances = b.num_instances ∧
  c.next_page_id = b.next_page_id ∧ c.page_table = b.page_table ∧
  c.free_list = b.free_list ∧ c.replacer = b.replacer ∧
  ∀ f, (c.pages f).page_id = (b.pages f).page_id

/-- Decision procedure for `BpmOp.Allocated`. -/
instance BpmOp.decAllocated (b : BufferPoolManagerInstance) :
    (op : BpmOp) → Decidable (op.Allocated b)
  | .FetchPage p => inferInstanceAs (Decidable (p < b.next_page_id))
  | .NewPage => inferInstanceAs (Decidable True)
  | .UnpinPage _ _ => inferInstanceAs (Decidable True)
  | .FlushPage _ => inferInstanceAs (Decidable True)
  | .FlushAllPages => inferInstanceAs (Decidable True)
  | .DeletePage _ => inferInstanceAs (Decidable True)
  | .WriteData _ _ => inferInstanceAs (Decidable True)

/-- Decision procedure for `Disciplined`. -/
instance Disciplined.dec : (ops : List BpmOp) → (b : BufferPoolManagerInstance) →
    Decidable (Disciplined b ops)
  | [], _ => inferInstanceAs (Decidable True)
  | op :: ops, b =>
    @instDecidableAnd _ _ (BpmOp.decAllocated b op) (Disciplined.dec ops (op.apply b))

/-- The id that `NewPage` is about to hand out is not in the page table once
`GetPg` has chosen the frame, so that the assignment
`page_table_[*page_id] = frame_id` of `NewPgImp` adds an entry and overwrites
none; a `NewPage` for which `GetPg` finds no frame hands out no id. -/
def NewPageFresh (b : BufferPoolManagerInstance) : Prop :=
  (GetPg b).1 = none ∨ FindPg (GetPg b).2 b.next_page_id = none

/-- A call that, if it is `NewPage`, is `NewPageFresh` in the state it is made
in. -/
def BpmOp.Fresh (b : BufferPoolManagerInstance) : BpmOp → Prop
  | .NewPage => NewPageFresh b
  | _ => True

/-- No `NewPage` call of the sequence is handed an id that is in the page
table at that moment. -/
def FreshRun (b : BufferPoolManagerInstance) : List BpmOp → Prop
  | [] => True
  | op :: ops => op.Fresh b ∧ FreshRun (op.apply b) ops

/-- Decision procedure for `BpmOp.Fresh`. -/
instance BpmOp.decFresh (b : BufferPoolManagerInstance) :
    (op : BpmOp) → Decidable (op.Fresh b)
  | .NewPage =>
    inferInstanceAs (Decidable ((GetPg b).1 = none ∨ FindPg (GetPg b).2 b.next_page_id = none))
  | .FetchPage _ => inferInstanceAs (Decidable True)
  | .UnpinPage _ _ => inferInstanceAs (Decidable True)
  | .FlushPage _ => inferInstanceAs (Decidable True)
  | .FlushAllPages => inferInstanceAs (Decidable True)
  | .DeletePage _ => inferInstanceAs (Decidable True)
  | .WriteData _ _ => inferInstanceAs (Decidable True)

/-- Decision procedure for `FreshRun`. -/
instance FreshRun.dec : (ops : List BpmOp) → (b : BufferPoolManagerInstance) →
    Decidable (FreshRun b ops)
  | [], _ => inferInstanceAs (Decidable True)
  | op :: ops, b =>
    @instDecidableAnd _ _ (BpmOp.decFresh b op) (FreshRun.dec ops (op.apply b))

/-- Frame `f` is in exactly one place: once in the free list and the image of
no page id, or not in the free list and the image of exactly one page id, which
is the frame's own `page_id_`. -/
def FrameAccounted (b : BufferPoolManagerInstance) (f : Nat) : Prop :=
  (b.free_list.count f = 1 ∧ ∀ p, FindPg b p ≠ some f) ∨
  (f ∉ b.free_list ∧
    ∃ p, FindPg b p = some f ∧ (b.pages f).page_id = p ∧ ∀ q, FindPg b q = some f → q = p)

/-- A disk on which every page reads as zero bytes. -/
def zeroDisk : Disk := fun _ => zeroData

/-- A pool of one frame (one instance, index 0) over the zero disk. -/
def pool1 : BufferPoolManagerInstance := BufferPoolManagerInstance.init 1 1 0 zeroDisk

/-- A pool of two frames (one instance, index 0) over the zero disk. -/
def pool2 : BufferPoolManagerInstance := BufferPoolManagerInstance.init 2 1 0 zeroDisk

/-- Frame `f` holds a page that is resident with a positive pin count. -/
def PinnedIn (b : BufferPoolManagerInstance) (page_id : Int) (f : Nat) : Prop :=
  FindPg b page_id = some f ∧ 0 < (b.pages f).pin_count

/-- Create page 0, unpin it, delete it, create page 1 (left pinned). -/
def staleTrace : List BpmOp :=
  [.NewPage, .UnpinPage 0 false, .DeletePage 0, .NewPage]

/-- Create page 0, unpin it, delete it. -/
def deleteTrace : List BpmOp :=
  [.NewPage, .UnpinPage 0 false, .DeletePage 0]

/-- A page of `PAGE_SIZE` bytes, all equal to 7. -/
def sevenData : List Nat := List.replicate PAGE_SIZE 7

/-- Fetch page `p` (not handed out by `NewPage` so far) and unpin it; let
`NewPage` hand out a page and unpin page `p`; create one more page.  When `p` is
the first id that `NewPage` hands out, two frames carry the id `p` after the
third call, and the fifth call evicts the first of them and with it the page
table entry of `p`. -/
def unmappedTrace (p : Int) : List BpmOp :=
  [.FetchPage p, .UnpinPage p false, .NewPage, .UnpinPage p false, .NewPage]

/-- Create page 0 (pin 1), fetch it again (pin 2), write to it, unpin it as
dirty (pin 1). -/
def twoPinTrace : List BpmOp :=
  [.NewPage, .FetchPage 0, .WriteData 0 sevenData, .UnpinPage 0 true]

/-- A call that neither deletes page `P` nor writes to it through a page
pointer. -/
def BpmOp.Leaves (P : Int) : BpmOp → Prop
  | .DeletePage p => p ≠ P
  | .WriteData p _ => p ≠ P
  | _ => True

/-- Decision procedure for `BpmOp.Leaves`. -/
instance BpmOp.decLeaves (P : Int) : (op : BpmOp) → Decidable (op.Leaves P)
  | .DeletePage p => inferInstanceAs (Decidable (p ≠ P))
  | .WriteData p _ => inferInstanceAs (Decidable (p ≠ P))
  | .NewPage => inferInstanceAs (Decidable True)
  | .FetchPage _ => inferInstanceAs (Decidable True)
  | .UnpinPage _ _ => inferInstanceAs (Decidable True)
  | .FlushPage _ => inferInstanceAs (Decidable True)
  | .FlushAllPages => inferInstanceAs (Decidable True)

/-- A call that, if it is `NewPage`, does not return the page id `P`. -/
def BpmOp.Spares (P : Int) (b : BufferPoolManagerInstance) : BpmOp → Prop
  | .NewPage => (NewPgImp b).1.map Prod.snd ≠ some P
  | _ => True

/-- No `NewPage` call of the sequence returns the page id `P`. -/
def SparesRun (P : Int) (b : BufferPoolManagerInstance) : List BpmOp → Prop
  | [] => True
  | op :: ops => op.Spares P b ∧ SparesRun P (op.apply b) ops

/-- Decision procedure for `BpmOp.Spares`. -/
instance BpmOp.decSpares (P : Int) (b : BufferPoolManagerInstance) :
    (op : BpmOp) → Decidable (op.Spares P b)
  | .NewPage => inferInstanceAs (Decidable ((NewPgImp b).1.map Prod.snd ≠ some P))
  | .FetchPage _ => inferInstanceAs (Decidable True)
  | .UnpinPage _ _ => inferInstanceAs (Decidable True)
  | .FlushPage _ => inferInstanceAs (Decidable True)
  | .FlushAllPages => inferInstanceAs (Decidable True)
  | .DeletePage _ => inferInstanceAs (Decidable True)
  | .WriteData _ _ => inferInstanceAs (Decidable True)

/-- Decision procedure for `SparesRun`. -/
instance SparesRun.dec (P : Int) : (ops : List BpmOp) → (b : BufferPoolManagerInstance) →
    Decidable (SparesRun P b ops)
  | [], _ => inferInstanceAs (Decidable True)
  | op :: ops, b =>
    @instDecidableAnd _ _ (BpmOp.decSpares P b op) (SparesRun.dec P ops (op.apply b))

/-- The bytes `D` of page `P` are kept: the disk holds `D` under `P`, and the
frame of `P`, if `P` is resident, holds `D`. -/
def BytesKept (b : BufferPoolManagerInstance) (P : Int) (D : List Nat) : Prop :=
  b.disk P = D ∧ ∀ f, FindPg b P = some f → (b.pages f).data = D

/-- Well-formed bucket: a readable slot is occupied, the occupied slots are
closed downwards, and no bit is set at or beyond `BUCKET_ARRAY_SIZE`. -/
structure BucketInv {K V : Type} (B : Nat) (b : HashTableBucketPage K V) : Prop where
  readable_occupied : ∀ i, b.IsReadable i = true → b.IsOccupied i = true
  occupied_closed : ∀ i j, b.IsOccupied i = true → j < i → b.IsOccupied j = true
  occupied_lt : ∀ i, b.IsOccupied i = true → i < B

/-- A readable slot of the bucket holds the pair `(key, value)`. -/
def HashTableBucketPage.Holds {K V : Type} (B : Nat) (b : HashTableBucketPage K V) (key : K)
    (value : V) : Prop :=
  ∃ j, j < B ∧ b.IsReadable j = true ∧ b.array j = (key, value)

/-- The bucket after `array_[idx] = {key, value}; SetOccupied(idx);
SetReadable(idx)`. -/
def HashTableBucketPage.put {K V : Type} (b : HashTableBucketPage K V) (idx : Nat) (key : K)
    (value : V) : HashTableBucketPage K V :=
  (({ b with array := setAt b.array idx (key, value) } :
    HashTableBucketPage K V).SetOccupied idx).SetReadable idx

/-- Directory well-formedness: local depths are at most the global depth; two
active indices that agree on the low `local_depth` bits of the first point to
the same page; two active indices that point to the same page have the same
local depth and agree on that many low bits. -/
structure DirInv (d : HashTableDirectoryPage) : Prop where
  depth_le : ∀ i, i < 2 ^ d.global_depth → d.local_depths i ≤ d.global_depth
  same_low : ∀ i j, i < 2 ^ d.global_depth → j < 2 ^ d.global_depth →
    i % 2 ^ d.local_depths i = j % 2 ^ d.local_depths i →
    d.bucket_page_ids i = d.bucket_page_ids j
  same_page : ∀ i j, i < 2 ^ d.global_depth → j < 2 ^ d.global_depth →
    d.bucket_page_ids i = d.bucket_page_ids j →
    d.local_depths i = d.local_depths j ∧
      i % 2 ^ d.local_depths i = j % 2 ^ d.local_depths i

/-- The directory invariant as the specification writes it: for every index
`i < Size()`, `local_depths[i] <= global_depth` and
`bucket_page_ids[i] == bucket_page_ids[i & ((1 << local_depths[i]) - 1)]`. -/
def DirectoryInvariant (d : HashTableDirectoryPage) : Prop :=
  ∀ i, i < d.Size →
    d.local_depths i ≤ d.global_depth ∧
    d.bucket_page_ids i = d.bucket_page_ids (i &&& d.GetLocalDepthMask i)

/-- All indices that share the low `local_depth` bits of an index point to the
same bucket page as that index. -/
def SharedLowBits (d : HashTableDirectoryPage) : Prop :=
  ∀ i j, i < d.Size → j < d.Size →
    j &&& d.GetLocalDepthMask i = i &&& d.GetLocalDepthMask i →
    d.bucket_page_ids j = d.bucket_page_ids i

/-- Well-formed table: well-formed directory, every directory entry below the
next page id, every page a well-formed bucket. -/
structure TableInv {K V : Type} (B : Nat) (t : ExtendibleHashTable K V) : Prop where
  dir_inv : DirInv t.dir
  fresh : ∀ i, i < 2 ^ t.dir.global_depth → t.dir.bucket_page_ids i < t.next_page_id
  buckets_inv : ∀ p, BucketInv B (t.buckets p)

/-- A bucket filled from a zeroed page without removals: exactly the first `m`
slots are readable and occupied. -/
def Compact {K V : Type} (b : HashTableBucketPage K V) (m : Nat) : Prop :=
  ∀ j, b.IsReadable j = decide (j < m) ∧ b.IsOccupied j = decide (j < m)

/-- Slot `j` of the bucket `orig` is moved by the rehash loop of `SplitInsert`:
it is readable and its key's directory index is `new_bucket_idx`. -/
def ExtendibleHashTable.moved {K V : Type} (t : ExtendibleHashTable K V)
    (dir_page : HashTableDirectoryPage) (new_bucket_idx : Nat) (orig : HashTableBucketPage K V)
    (j : Nat) : Bool :=
  orig.IsReadable j && decide (t.KeyToDirectoryIndex (orig.array j).1 dir_page = new_bucket_idx)

/-- Number of slots below `n` that the rehash loop moves. -/
def ExtendibleHashTable.movedCount {K V : Type} (t : ExtendibleHashTable K V)
    (dir_page : HashTableDirectoryPage) (new_bucket_idx : Nat) (orig : HashTableBucketPage K V) :
    Nat → Nat
  | 0 => 0
  | n + 1 =>
    t.movedCount dir_page new_bucket_idx orig n +
      (if t.moved dir_page new_bucket_idx orig n then 1 else 0)

/-- State of the rehash loop after the slots below `i`. -/
structure RehashInv {K V : Type} [DecidableEq K] [DecidableEq V] [Inhabited K] [Inhabited V] (B : Nat)
    (t : ExtendibleHashTable K V) (d : HashTableDirectoryPage) (nbi : Nat)
    (orig : HashTableBucketPage K V) (i : Nat)
    (bs : HashTableBucketPage K V × HashTableBucketPage K V) : Prop where
  inv1 : BucketInv B bs.1
  inv2 : BucketInv B bs.2
  array1 : bs.1.array = orig.array
  occupied1 : ∀ j, bs.1.IsOccupied j = orig.IsOccupied j
  readable1 : ∀ j, bs.1.IsReadable j =
    if j < i then (orig.IsReadable j && !t.moved d nbi orig j) else orig.IsReadable j
  compact2 : ∃ m, m ≤ t.movedCount d nbi orig i ∧ Compact bs.2 m
  holds2 : ∀ k v, bs.2.Holds B k v ↔
    ∃ j, j < i ∧ orig.IsReadable j = true ∧ orig.array j = (k, v) ∧
      t.KeyToDirectoryIndex k d = nbi

/-- A table of bucket capacity 2 with the identity hash after one split: keys 0
and 2 in the original bucket (page 1), key 1 in the new bucket (page 2). -/
def splitExample : ExtendibleHashTable Nat Nat :=
  runTable 2 (ExtendibleHashTable.init (fun k : Nat => k) 0)
    [.Insert 0 0, .Insert 2 0, .Insert 1 0]

/-- A table of which only the directory, the next page id and the hash function
(the identity on `Nat` keys) matter: the three things the directory part of
`SplitInsert` reads. -/
def dirOnly (D : HashTableDirectoryPage) (n : Int) : ExtendibleHashTable Nat Nat :=
  { hash_fn := fun k => k
    directory_page_id := 0
    dir := D
    buckets := fun _ => HashTableBucketPage.zero
    next_page_id := n
    deleted := [] }

/-- Directory of a new table whose pool hands out page 0 first. -/
def strandDir0 : HashTableDirectoryPage :=
  (ExtendibleHashTable.init (fun k : Nat => k) 0 : ExtendibleHashTable Nat Nat).dir

/-- Directory after the split that the insert of key 1 causes at depth 0. -/
def strandDir1 : HashTableDirectoryPage := (dirOnly strandDir0 2).splitDirectory 1

/-- Directory after the split that the insert of key 3 causes next. -/
def strandDir2 : HashTableDirectoryPage := (dirOnly strandDir1 3).splitDirectory 3

/-- Directory after the split that the insert of key 5 causes next. -/
def strandDir3 : HashTableDirectoryPage := (dirOnly strandDir2 4).splitDirectory 5

/-- Directory after the split that the insert of key 0 causes next. -/
def strandDir4 : HashTableDirectoryPage := (dirOnly strandDir3 5).splitDirectory 0

/-- The pairs `(c + 8 j, 0)` for `j < n`. -/
def strandPairs (c n : Nat) : List (Nat × Nat) :=
  (List.range n).map fun j => (c + 8 * j, 0)

/-- Calls that fill the first bucket with `B` keys congruent to 6 modulo 8,
split it with key 1, fill the bucket of key 1 with keys congruent to 1 modulo 8,
and split that bucket twice, with keys 3 and 5: the directory reaches global
depth 3 while the first bucket keeps local depth 1. -/
def strandTrace (B : Nat) : List (TableOp Nat Nat) :=
  (strandPairs 6 B).map (fun kv => TableOp.Insert kv.1 kv.2) ++ [TableOp.Insert 1 0] ++
    (strandPairs 9 (B - 1)).map (fun kv => TableOp.Insert kv.1 kv.2) ++
    [TableOp.Insert 3 0, TableOp.Insert 5 0]

/-- What the trace keeps about a table of capacity `B`: it is well-formed, its
directory is `D`, its next page id is `n`, its hash function is the identity,
and page 1 (the first bucket) is full of keys congruent to 6 modulo 8, the pair
`(6, 0)` sitting in slot 0. -/
def StrandState (B : Nat) (t : ExtendibleHashTable Nat Nat) (D : HashTableDirectoryPage)
    (n : Int) : Prop :=
  TableInv B t ∧ t.dir = D ∧ t.next_page_id = n ∧ t.hash_fn = (fun k => k) ∧
    Compact (t.buckets 1) B ∧ (∀ j, j < B → ((t.buckets 1).array j).1 % 8 = 6) ∧
    (t.buckets 1).array 0 = (6, 0)

/-- One call on an `LRUReplacer`. -/
inductive ReplacerOp where
  | Unpin (frame_id : Nat)
  | Pin (frame_id : Nat)
  | Victim

/-- Replacer after one call. -/
def ReplacerOp.apply (r : LRUReplacer) : ReplacerOp → LRUReplacer
  | .Unpin f => r.Unpin f
  | .Pin f => r.Pin f
  | .Victim => r.Victim.2

/-- Replacer after a sequence of calls on a newly constructed one. -/
def runReplacer (ops : List ReplacerOp) : LRUReplacer :=
  ops.foldl ReplacerOp.apply LRUReplacer.init

/-- A replacer observed from outside: the number of calls made so far (`clock`)
and, for each frame, the time of the latest `Unpin` call that put it into the
sequence (`added`); this is how the specification orders the frames ("least
recently unpinned"). -/
structure TimedReplacer where
  replacer : LRUReplacer
  clock : Nat
  added : Nat → Nat

/-- A newly constructed replacer at time 0. -/
def TimedReplacer.init : TimedReplacer :=
  { replacer := LRUReplacer.init, clock := 0, added := fun _ => 0 }

/-- One call: the replacer does what the code does; the observer notes the time
of an `Unpin` of a frame that is not in the sequence. -/
def TimedReplacer.step (s : TimedReplacer) (op : ReplacerOp) : TimedReplacer :=
  { replacer := op.apply s.replacer
    clock := s.clock + 1
    added :=
      match op with
      | .Unpin f => if f ∈ s.replacer.replace_frames then s.added else setAt s.added f s.clock
      | .Pin _ => s.added
      | .Victim => s.added }

/-- The observed replacer after a sequence of calls on a newly constructed one. -/
def runTimed (ops : List ReplacerOp) : TimedReplacer :=
  ops.foldl TimedReplacer.step TimedReplacer.init

/-- Consistency of the three fields of a replacer: no frame twice in the list,
the index has the frames of the list, each once, and `size_` counts them (as a
`size_t`). -/
structure ReplacerWf (r : LRUReplacer) : Prop where
  frames_nodup : r.replace_frames.Nodup
  map_nodup : r.replace_map.Nodup
  map_iff : ∀ f, f ∈ r.replace_map ↔ f ∈ r.replace_frames
  size_eq : r.size = r.replace_frames.length % 2 ^ 64

/-- The list of an observed replacer is in the order of the times of addition,
latest first, and all those times are in the past. -/
structure TimedWf (s : TimedReplacer) : Prop where
  wf : ReplacerWf s.replacer
  ordered : s.replacer.replace_frames.Pairwise (fun a b => s.added b < s.added a)
  past : ∀ f, f ∈ s.replacer.replace_frames → s.added f < s.clock

/-- What every state of the pool reached through its interface satisfies,
whatever page ids are fetched: the free list has no repetition; a free frame is
clean, unpinned and the image of no page id; a page table entry `p ↦ f` names a
frame whose `page_id_` is `p`; pin counts are not negative; the replacer is
consistent. -/
structure PoolWf (b : BufferPoolManagerInstance) : Prop where
  free_nodup : b.free_list.Nodup
  free_clean : ∀ f, f ∈ b.free_list → (b.pages f).is_dirty = false ∧ (b.pages f).pin_count = 0
  free_unmapped : ∀ f, f ∈ b.free_list → ∀ p, tableFind b.page_table p ≠ some f
  table_ids : ∀ p f, tableFind b.page_table p = some f → (b.pages f).page_id = p
  pin_nonneg : ∀ f, 0 ≤ (b.pages f).pin_count
  repl_wf : ReplacerWf b.replacer

/-- Number of `NewPage` calls of the sequence that return a frame, the sequence
being run from state `b`. -/
def newPageCount (b : BufferPoolManagerInstance) : List BpmOp → Nat
  | [] => 0
  | op :: ops =>
    (match op with
      | .NewPage => if (NewPgImp b).1.isSome then 1 else 0
      | _ => 0) + newPageCount (op.apply b) ops

/-- Calls that insert the pairs `(j, 0)` for `j < B + n`: with a hash function
that sends every key to 0, the first `B` of them fill the first bucket and each
of the other `n` finds it full. -/
def collideTrace (B n : Nat) : List (TableOp Nat Nat) :=
  ((List.range B).map fun j => ((j, 0) : Nat × Nat)).map (fun kv => TableOp.Insert kv.1 kv.2) ++
    ((List.range n).map fun j => ((B + j, 0) : Nat × Nat)).map
      (fun kv => TableOp.Insert kv.1 kv.2)

/-- What the colliding inserts keep about a table of capacity `B`: it is
well-formed, every key hashes to 0, the global depth is `g`, index 0 has local
depth `g`, and the bucket of index 0 is full. -/
def Collided (B : Nat) (t : ExtendibleHashTable Nat Nat) (g : Nat) : Prop :=
  TableInv B t ∧ t.hash_fn = (fun _ => 0) ∧ t.dir.global_depth = g ∧
    t.dir.local_depths 0 = g ∧ Compact (t.buckets (t.dir.bucket_page_ids 0)) B

/-- Frame `f` was unpinned and not since pinned or chosen as victim: some call of
the sequence is `Unpin f`, no later call is `Pin f`, and no later `Victim` call
returned `f`. -/
def Waiting (ops : List ReplacerOp) (f : Nat) : Prop :=
  ∃ pre post, ops = pre ++ ReplacerOp.Unpin f :: post ∧ ReplacerOp.Pin f ∉ post ∧
    ∀ mid rest, post = mid ++ ReplacerOp.Victim :: rest →
      (runReplacer (pre ++ ReplacerOp.Unpin f :: mid)).Victim.1 ≠ some f

/-- One call that changes a bucket page of capacity `B`; `RemoveAt` is given a
slot index, as in its callers (`Remove` and the rehash loop of `SplitInsert`). -/
inductive BucketOp (B : Nat) (K V : Type) where
  | Insert (key : K) (value : V)
  | Remove (key : K) (value : V)
  | RemoveAt (bucket_idx : Fin B)

/-- Bucket after one call. -/
def BucketOp.apply {K V : Type} [DecidableEq K] [DecidableEq V] [Inhabited K] [Inhabited V]
    {B : Nat} (b : HashTableBucketPage K V) : BucketOp B K V → HashTableBucketPage K V
  | .Insert key value => (b.Insert B key value).2
  | .Remove key value => (b.Remove B key value).2
  | .RemoveAt bucket_idx => b.RemoveAt bucket_idx.val

/-- Bucket reached from an all-zero page by a sequence of calls. -/
def runBucket {K V : Type} [DecidableEq K] [DecidableEq V] [Inhabited K] [Inhabited V]
    (B : Nat) (ops : List (BucketOp B K V)) : HashTableBucketPage K V :=
  ops.foldl BucketOp.apply HashTableBucketPage.zero

/-- No two readable slots hold the same pair. -/
def DistinctPairs {K V : Type} (b : HashTableBucketPage K V) : Prop :=
  ∀ i j, b.IsReadable i = true → b.IsReadable j = true → b.array i = b.array j → i = j

/-- Number of readable slots below `n`. -/
def readableCount {K V : Type} (b : HashTableBucketPage K V) (n : Nat) : Nat :=
  ((Finset.range n).filter (fun i => b.IsReadable i = true)).card

/-- The values of the readable slots below `B` whose key is `key`, in increasing
slot order. -/
def HashTableBucketPage.valuesOf {K V : Type} [DecidableEq K] (B : Nat)
    (b : HashTableBucketPage K V) (key : K) : List V :=
  ((List.range B).filter (fun i => b.IsReadable i && decide ((b.array i).1 = key))).map
    (fun i => (b.array i).2)

/-! ## Section 7: parallel buffer pool manager
(`src/buffer/parallel_buffer_pool_manager.cpp`)

The header of the class is not among the sources; the members are those the
`.cpp` file uses: `bpmis_` (a `std::vector` of instances, here its size and a
map from the index), `pool_size_` and `last_alloc_index_` (taken as unbounded, its type being
declared in the header).  All instances are
constructed on the same `DiskManager`, the field `disk`; the field `disk` of a
stored instance is not read. -/

/-- State of a `ParallelBufferPoolManager` together with the disk. -/
structure ParallelBufferPoolManager where
  num_instances : Nat
  bpmis : Nat → BufferPoolManagerInstance
  pool_size : Nat
  last_alloc_index : Nat
  disk : Disk

/-- Constructor: instance `i` is `BufferPoolManagerInstance(pool_size,
num_instances, i, disk_manager, log_manager)`.  The constructor does not assign
`last_alloc_index_`; its first value, set in the header, is the parameter
`c`. -/
def ParallelBufferPoolManager.init (num_instances pool_size c : Nat) (disk : Disk) :
    ParallelBufferPoolManager :=
  { num_instances := num_instances
    bpmis := fun i => BufferPoolManagerInstance.init pool_size num_instances i disk
    pool_size := pool_size
    last_alloc_index := c
    disk := disk }

/-- Member `GetPoolSize` (a `size_t` product). -/
def ParallelBufferPoolManager.GetPoolSize (p : ParallelBufferPoolManager) : Nat :=
  (p.num_instances * p.pool_size) % 2 ^ 64

/-- Instance `i` as it runs: on the disk that all instances share. -/
def ParallelBufferPoolManager.bpmi (p : ParallelBufferPoolManager) (i : Nat) :
    BufferPoolManagerInstance :=
  { p.bpmis i with disk := p.disk }

/-- A member call `bpmis_[i]->f(...)`: instance `i` runs on the shared disk; the
instance after the call is stored and the disk after the call is the shared
disk. -/
def ParallelBufferPoolManager.call {α : Type} (p : ParallelBufferPoolManager) (i : Nat)
    (f : BufferPoolManagerInstance → α × BufferPoolManagerInstance) :
    α × ParallelBufferPoolManager :=
  ((f (p.bpmi i)).1,
    { p with
      bpmis := setAt p.bpmis i { (f (p.bpmi i)).2 with disk := (p.bpmis i).disk }
      disk := (f (p.bpmi i)).2.disk })

/-- Member `GetBufferPoolManager`, as the index of the instance returned:
`page_id % bpmis_.size()`, the `page_id_t` being converted to `size_t` for the
division. -/
def ParallelBufferPoolManager.GetBufferPoolManager (p : ParallelBufferPoolManager)
    (page_id : Int) : Nat :=
  (page_id % 2 ^ 64).toNat % p.num_instances

/-- Member `FetchPgImp`: `none` for `nullptr`, else the instance and the frame
of the page returned. -/
def ParallelBufferPoolManager.FetchPgImp (p : ParallelBufferPoolManager) (page_id : Int) :
    Option (Nat × Nat) × ParallelBufferPoolManager :=
  (((p.call (p.GetBufferPoolManager page_id) (fun b => Bustub.FetchPgImp b page_id)).1).map
      (fun f => (p.GetBufferPoolManager page_id, f)),
    (p.call (p.GetBufferPoolManager page_id) (fun b => Bustub.FetchPgImp b page_id)).2)

/-- Member `UnpinPgImp`. -/
def ParallelBufferPoolManager.UnpinPgImp (p : ParallelBufferPoolManager) (page_id : Int)
    (is_dirty : Bool) : Bool × ParallelBufferPoolManager :=
  p.call (p.GetBufferPoolManager page_id) (fun b => Bustub.UnpinPgImp b page_id is_dirty)

/-- Member `FlushPgImp`. -/
def ParallelBufferPoolManager.FlushPgImp (p : ParallelBufferPoolManager) (page_id : Int) :
    Bool × ParallelBufferPoolManager :=
  p.call (p.GetBufferPoolManager page_id) (fun b => Bustub.FlushPgImp b page_id)

/-- Member `DeletePgImp`. -/
def ParallelBufferPoolManager.DeletePgImp (p : ParallelBufferPoolManager) (page_id : Int) :
    Bool × ParallelBufferPoolManager :=
  p.call (p.GetBufferPoolManager page_id) (fun b => Bustub.DeletePgImp b page_id)

/-- Member `FlushAllPgsImp`: `FlushAllPages` on every instance. -/
def ParallelBufferPoolManager.FlushAllPgsImp (p : ParallelBufferPoolManager) :
    ParallelBufferPoolManager :=
  (List.range p.num_instances).foldl
    (fun acc i => (acc.call i (fun b => ((), Bustub.FlushAllPgsImp b))).2) p

/-- The `do ... while` loop of `NewPgImp` with at most `fuel` rounds, entered
with the value `start_index` (a `uint32_t`): `none` when the rounds are used up
before the loop ends; else the page returned (`none` for `nullptr`, else the
instance, the frame and the page id stored through the out-parameter), the
state after the call, and the indices of the instances whose `NewPage` was
called, in the order of the calls (added to `tried`). -/
def ParallelBufferPoolManager.newPgLoop :
    Nat → ParallelBufferPoolManager → Nat → List Nat →
      Option (Option (Nat × Nat × Int) × ParallelBufferPoolManager × List Nat)
  | 0, _, _, _ => none
  | fuel + 1, p, start_index, tried =>
    match p.call (start_index % p.num_instances) Bustub.NewPgImp with
    | (some (f, page_id), p1) =>
      some (some (start_index % p.num_instances, f, page_id),
        { p1 with last_alloc_index := (p1.last_alloc_index + 1) % p1.num_instances },
        tried ++ [start_index % p.num_instances])
    | (none, p1) =>
      if ((start_index + 1) % 2 ^ 32) % p1.num_instances % 2 ^ 32 ≠ p1.last_alloc_index then
        newPgLoop fuel p1 (((start_index + 1) % 2 ^ 32) % p1.num_instances % 2 ^ 32)
          (tried ++ [start_index % p.num_instances])
      else
        some (none,
          { p1 with last_alloc_index := (p1.last_alloc_index + 1) % p1.num_instances },
          tried ++ [start_index % p.num_instances])

/-- Member `NewPgImp`, the loop being given `fuel` rounds:
`uint32_t start_index = last_alloc_index_`. -/
def ParallelBufferPoolManager.NewPgImp (fuel : Nat) (p : ParallelBufferPoolManager) :
    Option (Option (Nat × Nat × Int) × ParallelBufferPoolManager × List Nat) :=
  ParallelBufferPoolManager.newPgLoop fuel p (p.last_alloc_index % 2 ^ 32) []

/-- One call on the public interface of the parallel manager. -/
inductive ParallelOp where
  | NewPage
  | FetchPage (page_id : Int)
  | UnpinPage (page_id : Int) (is_dirty : Bool)
  | FlushPage (page_id : Int)
  | FlushAllPages
  | DeletePage (page_id : Int)

/-- State after one call; the loop of `NewPage` is given one round for each
instance, and `none` stands for a loop that has not ended by then. -/
def ParallelOp.apply (p : ParallelBufferPoolManager) :
    ParallelOp → Option ParallelBufferPoolManager
  | .NewPage => (p.NewPgImp p.num_instances).map (fun r => r.2.1)
  | .FetchPage q => some (p.FetchPgImp q).2
  | .UnpinPage q d => some (p.UnpinPgImp q d).2
  | .FlushPage q => some (p.FlushPgImp q).2
  | .FlushAllPages => some p.FlushAllPgsImp
  | .DeletePage q => some (p.DeletePgImp q).2

/-- State after a sequence of calls. -/
def runParallel (p : ParallelBufferPoolManager) : List ParallelOp → Option ParallelBufferPoolManager
  | [] => some p
  | op :: ops =>
    match op.apply p with
    | none => none
    | some p1 => runParallel p1 ops

/-- The instances in the order `c, c + 1, ..., c + N - 1` modulo `N`. -/
def roundRobin (c N : Nat) : List Nat :=
  (List.range N).map (fun t => (c + t) % N)

/-! ## Section 8: primer matrices (`src/include/primer/p0_starter.h`)

The element type `T` is `Int` (the overflow of a machine integer is not
modelled).  A pointer to a matrix is an `Option`, `none` for `nullptr`; a call
that may throw returns `Except`. -/

/-- The exception types thrown by the matrix classes. -/
inductive ExceptionType where
  | OUT_OF_RANGE

/-- A `RowMatrix<T>`: `rows_`, `cols_` and the elements `data_[i][j]`. -/
structure RowMatrix where
  rows : Int
  cols : Int
  data : Nat → Nat → Int

/-- Constructor `RowMatrix(rows, cols)`: both counts become `-1` when one of
them is not positive.  The elements, which the constructor leaves unset, are 0
here. -/
def RowMatrix.new (rows cols : Int) : RowMatrix :=
  if rows ≤ 0 ∨ cols ≤ 0 then { rows := -1, cols := -1, data := fun _ _ => 0 }
  else { rows := rows, cols := cols, data := fun _ _ => 0 }

/-- Member `GetRowCount`. -/
def RowMatrix.GetRowCount (m : RowMatrix) : Int := m.rows

/-- Member `GetColumnCount`. -/
def RowMatrix.GetColumnCount (m : RowMatrix) : Int := m.cols

/-- Member `GetElement`. -/
def RowMatrix.GetElement (m : RowMatrix) (i j : Int) : Except ExceptionType Int :=
  if i < 0 ∨ j < 0 ∨ i ≥ m.rows ∨ j ≥ m.cols then .error .OUT_OF_RANGE
  else .ok (m.data i.toNat j.toNat)

/-- Member `SetElement`. -/
def RowMatrix.SetElement (m : RowMatrix) (i j : Int) (val : Int) :
    Except ExceptionType RowMatrix :=
  if i < 0 ∨ j < 0 ∨ i ≥ m.rows ∨ j ≥ m.cols then .error .OUT_OF_RANGE
  else
    .ok { m with data := fun r c => if r = i.toNat ∧ c = j.toNat then val else m.data r c }

/-- The loop over `k` of `Multiply`, `ks` being the values of `k` still to
come: `sum += matrixA->GetElement(i, k) * matrixB->GetElement(k, j)`. -/
def RowMatrixOperations.sumLoop (a b : RowMatrix) (i j : Int) :
    List Nat → Int → Except ExceptionType Int
  | [], sum => .ok sum
  | k :: ks, sum =>
    match a.GetElement i k, b.GetElement k j with
    | .ok x, .ok y => sumLoop a b i j ks (sum + x * y)
    | _, _ => .error .OUT_OF_RANGE

/-- The loop over `j` of `Multiply`. -/
def RowMatrixOperations.colLoop (a b : RowMatrix) (i : Int) :
    List Nat → RowMatrix → Except ExceptionType RowMatrix
  | [], result => .ok result
  | j :: js, result =>
    match RowMatrixOperations.sumLoop a b i j (List.range a.GetColumnCount.toNat) 0 with
    | .error e => .error e
    | .ok sum =>
      match result.SetElement i j sum with
      | .error e => .error e
      | .ok result1 => colLoop a b i js result1

/-- The loop over `i` of `Multiply`. -/
def RowMatrixOperations.rowLoop (a b : RowMatrix) :
    List Nat → RowMatrix → Except ExceptionType RowMatrix
  | [], result => .ok result
  | i :: rest, result =>
    match RowMatrixOperations.colLoop a b i (List.range b.GetColumnCount.toNat) result with
    | .error e => .error e
    | .ok result1 => rowLoop a b rest result1

/-- Static member `RowMatrixOperations::Multiply`: `.ok none` for a returned
`nullptr`, `.error` for an exception that leaves the function. -/
def RowMatrixOperations.Multiply (matrixA matrixB : Option RowMatrix) :
    Except ExceptionType (Option RowMatrix) :=
  match matrixA, matrixB with
  | some a, some b =>
    if a.GetRowCount ≠ b.GetColumnCount then .ok none
    else
      match RowMatrixOperations.rowLoop a b (List.range a.GetRowCount.toNat)
          (RowMatrix.new a.GetRowCount b.GetColumnCount) with
      | .error e => .error e
      | .ok result => .ok (some result)
  | _, _ => .ok none

/-- The matrix that `FillFrom(source)` leaves in a new `RowMatrix(rows, cols)`,
for positive counts and a source of `rows * cols` elements. -/
def matrixOf (rows cols : Nat) (source : List Int) : RowMatrix :=
  { rows := rows, cols := cols, data := fun r c => source.getD (cols * r + c) 0 }

/-- Directory after the split that a second insert of key 0 causes. -/
def strandDir5 : HashTableDirectoryPage := (dirOnly strandDir4 6).splitDirectory 0

/-- Directory after the split that a third insert of key 0 causes: the
directory doubles. -/
def strandDir6 : HashTableDirectoryPage := (dirOnly strandDir5 7).splitDirectory 0

/-! ## Section 9: the calls that the hash table issues
(`src/container/hash/extendible_hash_table.cpp`)

Each member of the table is read once more, this time for the calls it makes
on `table_latch_`, on the latch of a page and on the buffer pool manager, in
program order.  The branch taken is decided by the same tests as in section 5;
`NewPage` returns the next page id of the store. -/

/-- One call on `table_latch_` (`RLock`, `RUnlock`, `WLock`, `WUnlock`), on the
latch of a page, or on the buffer pool manager. -/
inductive TableEvent where
  | RLock
  | RUnlock
  | WLock
  | WUnlock
  | RLatch (page_id : Int)
  | RUnlatch (page_id : Int)
  | WLatch (page_id : Int)
  | WUnlatch (page_id : Int)
  | FetchPage (page_id : Int)
  | NewPage (page_id : Int)
  | UnpinPage (page_id : Int) (is_dirty : Bool)
  | DeletePage (page_id : Int)

/-- Calls of the constructor (lines 29-36); `first_page_id` is the id the pool
hands out first. -/
def constructorEvents (first_page_id : Int) : List TableEvent :=
  [.NewPage first_page_id, .NewPage (first_page_id + 1),
    .UnpinPage (first_page_id + 1) false, .UnpinPage first_page_id true]

section TableEvents

variable {K V : Type} [DecidableEq K] [DecidableEq V] [Inhabited K] [Inhabited V]

/-- Calls of `GetValue` (lines 85-94). -/
def ExtendibleHashTable.GetValueEvents (t : ExtendibleHashTable K V) (key : K) :
    List TableEvent :=
  let bucket_page_id := t.KeyToPageId key t.dir
  [.RLock, .FetchPage t.directory_page_id, .FetchPage bucket_page_id, .RLatch bucket_page_id,
    .RUnlatch bucket_page_id, .UnpinPage bucket_page_id false,
    .UnpinPage t.directory_page_id false, .RUnlock]

/-- Calls of `SplitInsert` (lines 128-198). -/
def ExtendibleHashTable.SplitInsertEvents (B : Nat) (t : ExtendibleHashTable K V) (key : K) :
    List TableEvent :=
  let bucket_idx := t.KeyToDirectoryIndex key t.dir
  let bucket_page_id := t.dir.GetBucketPageId bucket_idx
  let bucket_page := t.buckets bucket_page_id
  [.WLock, .FetchPage t.directory_page_id, .FetchPage bucket_page_id, .WLatch bucket_page_id] ++
    if !bucket_page.IsFull B then
      [.UnpinPage bucket_page_id true, .UnpinPage t.directory_page_id false,
        .WUnlatch bucket_page_id, .WUnlock]
    else
      [.NewPage t.next_page_id, .WLatch t.next_page_id, .WUnlatch bucket_page_id,
        .WUnlatch t.next_page_id, .UnpinPage t.directory_page_id true,
        .UnpinPage bucket_page_id true, .UnpinPage t.next_page_id true, .WUnlock]

/-- Calls that `Insert` makes itself (lines 103-118). -/
def ExtendibleHashTable.InsertOwnEvents (t : ExtendibleHashTable K V) (key : K) :
    List TableEvent :=
  let bucket_page_id := t.KeyToPageId key t.dir
  [.RLock, .FetchPage t.directory_page_id, .FetchPage bucket_page_id, .WLatch bucket_page_id,
    .WUnlatch bucket_page_id, .UnpinPage t.directory_page_id false,
    .UnpinPage bucket_page_id true, .RUnlock]

/-- Calls of `Insert` (lines 103-123): its own, then those of `SplitInsert`
when the bucket was full. -/
def ExtendibleHashTable.InsertEvents (B : Nat) (t : ExtendibleHashTable K V) (key : K) :
    List TableEvent :=
  let bucket_page := t.buckets (t.KeyToPageId key t.dir)
  t.InsertOwnEvents key ++ if bucket_page.IsFull B then t.SplitInsertEvents B key else []

/-- Calls of `Merge` (lines 231-274). -/
def ExtendibleHashTable.MergeEvents (B : Nat) (t : ExtendibleHashTable K V) (key : K) :
    List TableEvent :=
  let dir_page := t.dir
  let bucket_idx := t.KeyToDirectoryIndex key dir_page
  let bucket_local_depth := dir_page.GetLocalDepth bucket_idx
  let split_idx := dir_page.GetSplitImageIndex bucket_idx
  let image_local_depth := dir_page.GetLocalDepth split_idx
  let bucket_page_id := dir_page.GetBucketPageId bucket_idx
  let bucket_page := t.buckets bucket_page_id
  [.WLock, .FetchPage t.directory_page_id] ++
    if bucket_local_depth = 0 then [.UnpinPage t.directory_page_id false, .WUnlock]
    else if image_local_depth ≠ bucket_local_depth then
      [.UnpinPage t.directory_page_id false, .WUnlock]
    else
      [.FetchPage bucket_page_id] ++
        if !bucket_page.IsEmpty B then
          [.UnpinPage t.directory_page_id false, .UnpinPage bucket_page_id false, .WUnlock]
        else
          [.UnpinPage bucket_page_id false, .DeletePage bucket_page_id,
            .UnpinPage t.directory_page_id true, .WUnlock]

/-- Calls of `Remove` (lines 206-222): its own, then those of `Merge`, made in
the state that the removal from the bucket leaves, when the bucket has no
readable slot left. -/
def ExtendibleHashTable.RemoveEvents (B : Nat) (t : ExtendibleHashTable K V) (key : K)
    (value : V) : List TableEvent :=
  let bucket_idx := t.KeyToDirectoryIndex key t.dir
  let bucket_page_id := t.dir.GetBucketPageId bucket_idx
  let r := (t.buckets bucket_page_id).Remove B key value
  let bucket_size := r.2.NumReadable B
  let t1 : ExtendibleHashTable K V := { t with buckets := setPage t.buckets bucket_page_id r.2 }
  [.RLock, .FetchPage t.directory_page_id, .FetchPage bucket_page_id, .WLatch bucket_page_id,
    .WUnlatch bucket_page_id, .UnpinPage t.directory_page_id false,
    .UnpinPage bucket_page_id true, .RUnlock] ++
    if bucket_size = 0 then t1.MergeEvents B key else []

/-- Calls of `GetGlobalDepth` (lines 282-286). -/
def ExtendibleHashTable.GetGlobalDepthEvents (t : ExtendibleHashTable K V) : List TableEvent :=
  [.RLock, .FetchPage t.directory_page_id, .UnpinPage t.directory_page_id false, .RUnlock]

/-- Calls of `VerifyIntegrity` (lines 295-299). -/
def ExtendibleHashTable.VerifyIntegrityEvents (t : ExtendibleHashTable K V) :
    List TableEvent :=
  [.RLock, .FetchPage t.directory_page_id, .UnpinPage t.directory_page_id false, .RUnlock]

end TableEvents

/-- Matching of `UnpinPage` with `FetchPage` / `NewPage` along a sequence of
calls: `held` lists the page ids of the fetches and creations not yet matched;
an `UnpinPage(p)` must find `p` there and takes one `p` out; at the end nothing
is left.  True exactly when every `UnpinPage` follows a `FetchPage` or
`NewPage` of its page id that no earlier `UnpinPage` has matched, and every
`FetchPage` and `NewPage` is matched by one `UnpinPage`. -/
def pinBalanced : List Int → List TableEvent → Bool
  | held, [] => held.isEmpty
  | held, .FetchPage p :: es => pinBalanced (p :: held) es
  | held, .NewPage p :: es => pinBalanced (p :: held) es
  | held, .UnpinPage p _ :: es => held.contains p && pinBalanced (held.erase p) es
  | held, _ :: es => pinBalanced held es

/-- The pin counts by page id after one call that succeeds: `FetchPage` and
`NewPage` add 1 to the count of their page, `UnpinPage` takes 1 from a count
that is not 0 (and returns false on a count of 0). -/
def pinStep (pins : Int → Int) : TableEvent → Int → Int
  | .FetchPage p => fun q => if q = p then pins p + 1 else pins q
  | .NewPage p => fun q => if q = p then pins p + 1 else pins q
  | .UnpinPage p _ => if pins p = 0 then pins else fun q => if q = p then pins p - 1 else pins q
  | _ => pins

/-- The pin counts after a sequence of calls. -/
def pinsAfter (pins : Int → Int) (events : List TableEvent) : Int → Int :=
  events.foldl pinStep pins

/-- A sequence of calls that unpins what it pins, once each, and so leaves
every pin count as it found it. -/
def PinNeutral (events : List TableEvent) : Prop :=
  pinBalanced [] events = true ∧
    ∀ pins : Int → Int, (∀ p, 0 ≤ pins p) → pinsAfter pins events = pins

/-- The latch discipline along a sequence of calls.  `table` is the mode in
which `table_latch_` is held (`some true` for write), `pages` the page latches
held, each with its mode.  A table lock is taken when none is held; a page
latch is taken only while the table latch is held; a table unlock finds the
table latch held in its mode and no page latch held; a page unlatch finds its
latch; at the end nothing is held. -/
def latchOrdered : Option Bool → List (Int × Bool) → List TableEvent → Bool
  | table, pages, [] => table.isNone && pages.isEmpty
  | table, pages, .RLock :: es => table.isNone && latchOrdered (some false) pages es
  | table, pages, .WLock :: es => table.isNone && latchOrdered (some true) pages es
  | table, pages, .RUnlock :: es =>
    (table == some false) && pages.isEmpty && latchOrdered none pages es
  | table, pages, .WUnlock :: es =>
    (table == some true) && pages.isEmpty && latchOrdered none pages es
  | table, pages, .RLatch p :: es => table.isSome && latchOrdered table ((p, false) :: pages) es
  | table, pages, .WLatch p :: es => table.isSome && latchOrdered table ((p, true) :: pages) es
  | table, pages, .RUnlatch p :: es =>
    pages.contains (p, false) && latchOrdered table (pages.erase (p, false)) es
  | table, pages, .WUnlatch p :: es =>
    pages.contains (p, true) && latchOrdered table (pages.erase (p, true)) es
  | table, pages, _ :: es => latchOrdered table pages es

/-! ## Section 10: distinct and hash join executors
(`src/execution/distinct_executor.cpp`, `src/execution/hash_join_executor.cpp`
and their headers)

The tuple, value, schema and plan classes and the child executors are not among
the sources.  A row is a value of a type `T`, a column value a value of a type
`V`, and a child executor is a cursor over a fixed finite list of rows. -/

section Executors

variable {T V : Type} [DecidableEq V]

/-- Modelled from the spec: a child executor over a fixed finite list of rows.
`rows` is what the child produces after each `Init`, `rest` the rows it has not
returned yet. -/
structure ListExecutor (T : Type) where
  rows : List T
  rest : List T

/-- Modelled from the spec: `Init` of a child rewinds it to its first row. -/
def ListExecutor.Init (c : ListExecutor T) : ListExecutor T :=
  { c with rest := c.rows }

/-- Modelled from the spec: `Next` of a child returns its next row, or nothing
(the source's `false`) when no row is left. -/
def ListExecutor.Next (c : ListExecutor T) : Option T × ListExecutor T :=
  match c.rest with
  | [] => (none, c)
  | tuple :: rest => (some tuple, { c with rest := rest })

/-- Modelled from the spec: `a.CompareEquals(b) == CmpBool::CmpTrue` holds
exactly when the two values are equal (`type/value.h` is not among the
sources). -/
def CompareEqualsTrue (a b : V) : Bool :=
  decide (a = b)

/-- Struct `DistinctKey` of `distinct_executor.h`: the vector `distinct_`. -/
structure DistinctKey (V : Type) where
  distinct : List V

/-- Operator `==` of `DistinctKey`: the loop runs over the indices of
`other.distinct_` and returns false at the first pair of values that does not
compare equal.  An index beyond the end of `distinct_` (not defined in the
source) compares unequal. -/
def DistinctKey.eq (self other : DistinctKey V) : Bool :=
  (List.range other.distinct.length).all fun i =>
    match self.distinct[i]?, other.distinct[i]? with
    | some a, some b => CompareEqualsTrue a b
    | _, _ => false

/-- Modelled from the spec: what `DistinctExecutor::Next` reads of its plan and
of a tuple: `plan_->OutputSchema()->GetColumnCount()` and
`tuple->GetValue(plan_->OutputSchema(), i)`. -/
structure DistinctPlan (T V : Type) where
  cols : Nat
  GetValue : T → Nat → V

/-- The key built in the body of the loop of `DistinctExecutor::Next`: the
values of the columns `0 .. cols - 1` of the tuple, in order. -/
def DistinctPlan.makeKey (plan : DistinctPlan T V) (tuple : T) : DistinctKey V :=
  ⟨(List.range plan.cols).map fun i => plan.GetValue tuple i⟩

/-- Class `DistinctExecutor`: the plan, the child and the set `hash_table_`
(a list of keys no two of which compare equal). -/
structure DistinctExecutor (T V : Type) where
  plan : DistinctPlan T V
  child_executor : ListExecutor T
  hash_table : List (DistinctKey V)

/-- Call `hash_table_.count(key)`: the number of stored keys that compare equal
to `key`.  Keys that compare equal hold the same values and so have the same
hash. -/
def DistinctExecutor.count (hash_table : List (DistinctKey V)) (key : DistinctKey V) : Nat :=
  (hash_table.filter fun k => key.eq k).length

/-- `DistinctExecutor::Init`. -/
def DistinctExecutor.Init (e : DistinctExecutor T V) : DistinctExecutor T V :=
  { e with child_executor := e.child_executor.Init, hash_table := [] }

/-- The loop of `DistinctExecutor::Next` over the rows the child has not
returned yet: every iteration takes the child's next row; the result is the
row returned (or nothing), the rows left in the child and the set. -/
def DistinctExecutor.nextLoop (plan : DistinctPlan T V) :
    List T → List (DistinctKey V) → Option T × List T × List (DistinctKey V)
  | [], hash_table => (none, [], hash_table)
  | tuple :: rest, hash_table =>
    let key := plan.makeKey tuple
    if DistinctExecutor.count hash_table key ≤ 0 then
      (some tuple, rest, hash_table ++ [key])
    else
      DistinctExecutor.nextLoop plan rest hash_table

/-- `DistinctExecutor::Next`: the row written to `*tuple` when the source
returns true, nothing when it returns false, and the executor afterwards. -/
def DistinctExecutor.Next (e : DistinctExecutor T V) : Option T × DistinctExecutor T V :=
  let r := DistinctExecutor.nextLoop e.plan e.child_executor.rest e.hash_table
  (r.1, { e with child_executor := { e.child_executor with rest := r.2.1 }, hash_table := r.2.2 })

/-- The results of `n` successive calls of `DistinctExecutor::Next`. -/
def DistinctExecutor.results : Nat → DistinctExecutor T V → List (Option T)
  | 0, _ => []
  | n + 1, e => (e.Next).1 :: DistinctExecutor.results n (e.Next).2

/-- Column-wise value equality of two rows over the columns of the plan. -/
def DistinctPlan.rowEq (plan : DistinctPlan T V) (a b : T) : Bool :=
  (List.range plan.cols).all fun i => decide (plan.GetValue a i = plan.GetValue b i)

/-- The rows of a list that are equal to no earlier row; `earlier` are the
rows that came before the list. -/
def DistinctPlan.firstOccurrencesFrom (plan : DistinctPlan T V) : List T → List T → List T
  | _, [] => []
  | earlier, row :: rows =>
    if earlier.any (fun s => plan.rowEq s row) then
      plan.firstOccurrencesFrom (earlier ++ [row]) rows
    else
      row :: plan.firstOccurrencesFrom (earlier ++ [row]) rows

/-- The list with every row equal to an earlier row removed. -/
def DistinctPlan.firstOccurrences (plan : DistinctPlan T V) (rows : List T) : List T :=
  plan.firstOccurrencesFrom [] rows

/-- Struct `HashJoinKey` of `hash_join_executor.h`: the value `join_key_`. -/
structure HashJoinKey (V : Type) where
  join_key : V

/-- Operator `==` of `HashJoinKey`. -/
def HashJoinKey.eq (self other : HashJoinKey V) : Bool :=
  CompareEqualsTrue self.join_key other.join_key

/-- Modelled from the spec: what `HashJoinExecutor` reads of its plan:
`LeftJoinKeyExpression()->Evaluate` on a left tuple,
`RightJoinKeyExpression()->Evaluate` on a right tuple, and the output tuple
built from the `EvaluateJoin` of every output column on a left and a right
tuple. -/
structure HashJoinPlan (T V : Type) where
  LeftJoinKey : T → V
  RightJoinKey : T → V
  Output : T → T → T

/-- Class `HashJoinExecutor`: the map `hash_table_` is a list of keys with
their vectors of tuples, no two keys of which compare equal. -/
structure HashJoinExecutor (T V : Type) where
  plan : HashJoinPlan T V
  left_executor : ListExecutor T
  right_executor : ListExecutor T
  hash_table : List (HashJoinKey V × List T)
  right_tuple : T
  next_pos : Nat
  non_empty : Bool

/-- Call `hash_table_.count(join_key)`. -/
def HashJoinExecutor.count (hash_table : List (HashJoinKey V × List T)) (join_key : HashJoinKey V) : Nat :=
  (hash_table.filter fun entry => join_key.eq entry.1).length

/-- Vector `hash_table_.find(join_key)->second`, read only when the count is
not zero; the empty vector when there is no such key. -/
def HashJoinExecutor.find (hash_table : List (HashJoinKey V × List T)) (join_key : HashJoinKey V) : List T :=
  match hash_table.find? fun entry => join_key.eq entry.1 with
  | some entry => entry.2
  | none => []

/-- Statement `hash_table_[join_key].push_back(tuple)` for a key that is in
the map. -/
def HashJoinExecutor.pushBack (hash_table : List (HashJoinKey V × List T)) (join_key : HashJoinKey V)
    (tuple : T) : List (HashJoinKey V × List T) :=
  hash_table.map fun entry => if join_key.eq entry.1 then (entry.1, entry.2 ++ [tuple]) else entry

/-- The build loop of `HashJoinExecutor::Init` over the rows of the left
child, starting from the map as it is. -/
def HashJoinExecutor.buildLoop (plan : HashJoinPlan T V) :
    List T → List (HashJoinKey V × List T) → List (HashJoinKey V × List T)
  | [], hash_table => hash_table
  | tuple :: rest, hash_table =>
    let join_key : HashJoinKey V := ⟨plan.LeftJoinKey tuple⟩
    if HashJoinExecutor.count hash_table join_key ≠ 0 then
      HashJoinExecutor.buildLoop plan rest (HashJoinExecutor.pushBack hash_table join_key tuple)
    else
      HashJoinExecutor.buildLoop plan rest (hash_table ++ [(join_key, [tuple])])

/-- `HashJoinExecutor::Init`: both children are initialised, the left child is
read to its end into `hash_table_` (which is not cleared), the first right
tuple is fetched and `next_pos_` is set to 0. -/
def HashJoinExecutor.Init (e : HashJoinExecutor T V) : HashJoinExecutor T V :=
  let left := e.left_executor.Init
  let right := e.right_executor.Init
  let hash_table := HashJoinExecutor.buildLoop e.plan left.rest e.hash_table
  let r := right.Next
  { e with
    left_executor := { left with rest := [] }
    right_executor := r.2
    hash_table := hash_table
    right_tuple := r.1.getD e.right_tuple
    non_empty := r.1.isSome
    next_pos := 0 }

/-- The body of the loop of `HashJoinExecutor::Next` up to `return true`: the
joined tuple of the current right tuple and the left tuple at `next_pos_`, if
the key of the right tuple is in the map and `next_pos_` is inside its
vector. -/
def HashJoinExecutor.probe (plan : HashJoinPlan T V) (hash_table : List (HashJoinKey V × List T))
    (right_tuple : T) (next_pos : Nat) : Option T :=
  let join_key : HashJoinKey V := ⟨plan.RightJoinKey right_tuple⟩
  if HashJoinExecutor.count hash_table join_key ≠ 0 then
    let left_tuples_vec := HashJoinExecutor.find hash_table join_key
    match left_tuples_vec[next_pos]? with
    | some left_tuple => some (plan.Output left_tuple right_tuple)
    | none => none
  else
    none

/-- The loop of `HashJoinExecutor::Next` over the rows the right child has not
returned yet.  The result is the joined tuple (or nothing), the rows left in
the right child, `right_tuple_`, `next_pos_` and `non_empty_`. -/
def HashJoinExecutor.nextLoop (plan : HashJoinPlan T V) (hash_table : List (HashJoinKey V × List T)) :
    List T → T → Nat → Option T × List T × T × Nat × Bool
  | [], right_tuple, next_pos =>
    match HashJoinExecutor.probe plan hash_table right_tuple next_pos with
    | some tuple => (some tuple, [], right_tuple, next_pos + 1, true)
    | none => (none, [], right_tuple, next_pos, false)
  | next_right :: rest, right_tuple, next_pos =>
    match HashJoinExecutor.probe plan hash_table right_tuple next_pos with
    | some tuple => (some tuple, next_right :: rest, right_tuple, next_pos + 1, true)
    | none => HashJoinExecutor.nextLoop plan hash_table rest next_right 0

/-- `HashJoinExecutor::Next`. -/
def HashJoinExecutor.Next (e : HashJoinExecutor T V) : Option T × HashJoinExecutor T V :=
  if e.hash_table.isEmpty || !e.non_empty then
    (none, e)
  else
    let r := HashJoinExecutor.nextLoop e.plan e.hash_table e.right_executor.rest e.right_tuple e.next_pos
    (r.1, { e with
      right_executor := { e.right_executor with rest := r.2.1 }
      right_tuple := r.2.2.1
      next_pos := r.2.2.2.1
      non_empty := r.2.2.2.2 })

/-- The results of `n` successive calls of `HashJoinExecutor::Next`. -/
def HashJoinExecutor.results : Nat → HashJoinExecutor T V → List (Option T)
  | 0, _ => []
  | n + 1, e => (e.Next).1 :: HashJoinExecutor.results n (e.Next).2

/-- The executor after `n` successive calls of `HashJoinExecutor::Next`. -/
def HashJoinExecutor.afterNext : Nat → HashJoinExecutor T V → HashJoinExecutor T V
  | 0, e => e
  | n + 1, e => HashJoinExecutor.afterNext n (e.Next).2

/-- The join of two lists of rows: for each right row in order, one joined row
per left row with an equal join key, in left order. -/
def HashJoinPlan.joinRows (plan : HashJoinPlan T V) (left right : List T) : List T :=
  right.flatMap fun r =>
    (left.filter fun l => decide (plan.LeftJoinKey l = plan.RightJoinKey r)).map fun l => plan.Output l r

/-- The results of `n` calls of `Next` of an executor that produces the rows of
`out` and then nothing: the first `n` rows, and nothing for every call after
the last row. -/
def expectedResults (out : List T) (n : Nat) : List (Option T) :=
  (out.take n).map some ++ List.replicate (n - out.length) none

end Executors

/-- The set of the distinct executor holds a key equal to the key of a row
exactly when one of the rows `earlier` is equal to the row. -/
def DistinctSeen {T V : Type} [DecidableEq V] (plan : DistinctPlan T V)
    (hash_table : List (DistinctKey V)) (earlier : List T) : Prop :=
  ∀ row, hash_table.any (fun k => (plan.makeKey row).eq k) = earlier.any (fun s => plan.rowEq s row)

/-- The joined rows a hash join executor has still to return: those of the
current right tuple from `next_pos` on, then those of the right rows not yet
fetched, each with the vector the map holds for its key. -/
def HashJoinExecutor.pending {T V : Type} [DecidableEq V] (plan : HashJoinPlan T V)
    (hash_table : List (HashJoinKey V × List T)) (rest : List T) (right_tuple : T) (next_pos : Nat) :
    List T :=
  ((HashJoinExecutor.find hash_table ⟨plan.RightJoinKey right_tuple⟩).drop next_pos).map
      (fun l => plan.Output l right_tuple) ++
    rest.flatMap fun r =>
      (HashJoinExecutor.find hash_table ⟨plan.RightJoinKey r⟩).map fun l => plan.Output l r

/-- A hash join of one left row and one right row with the same key: rows are
lists of numbers, the join key is the first number and the joined row is the
left row followed by the right row.  The three members the constructor leaves
unset are given values. -/
def joinExample : HashJoinExecutor (List Nat) Nat :=
  { plan := ⟨fun t => t.headD 0, fun t => t.headD 0, fun l r => l ++ r⟩
    left_executor := ⟨[[1, 10]], []⟩
    right_executor := ⟨[[1, 20]], []⟩
    hash_table := []
    right_tuple := []
    next_pos := 0
    non_empty := false }

/-! # Theorems -/

/-! ## Buffer pool: frame accounting -/

theorem tableFind_erase (t : List (Int × Nat)) (p q : Int) :
    tableFind (tableErase t p) q = if q = p then none else tableFind t q := by
  induction t with
  | nil => simp [tableErase, tableFind]
  | cons hd tl ih =>
    obtain ⟨a, f⟩ := hd
    by_cases hap : a = p
    · subst hap
      by_cases hqp : q = a
      · subst hqp
        simpa [tableErase, tableFind] using ih
      · have : ¬ a = q := fun h => hqp h.symm
        simpa [tableErase, tableFind, hqp, this] using ih
    · by_cases hqp : q = p
      · subst hqp
        simpa [tableErase, tableFind, hap] using ih
      · by_cases haq : a = q
        · simp [tableErase, tableFind, hap, hqp, haq]
        · simpa [tableErase, tableFind, hap, hqp, haq] using ih

theorem tableFind_set (t : List (Int × Nat)) (p q : Int) (f : Nat) :
    tableFind (tableSet t p f) q = if q = p then some f else tableFind t q := by
  unfold tableSet
  by_cases hqp : q = p
  · subst hqp; simp [tableFind]
  · have : ¬ p = q := fun h => hqp h.symm
    simp [tableFind, this, hqp, tableFind_erase]

theorem BpmInv_init (pool_size num_instances instance_index : Nat) (disk : Disk) :
    BpmInv (BufferPoolManagerInstance.init pool_size num_instances instance_index disk) := by
  refine ⟨?_, ?_, ?_, ?_, ?_⟩
  · exact List.nodup_range pool_size
  · intro f hf; simpa [BufferPoolManagerInstance.init] using hf
  · intro p f hpf; simp [BufferPoolManagerInstance.init, tableFind] at hpf
  · intro f hf; left; simpa [BufferPoolManagerInstance.init] using hf
  · intro f hf; simp [BufferPoolManagerInstance.init, LRUReplacer.init] at hf

theorem BpmInv_of_same {b c : BufferPoolManagerInstance} (h : SameFrames b c)
    (hb : BpmInv b) : BpmInv c := by
  obtain ⟨h1, h2, h3, h4, h5, h6, h7⟩ := h
  refine ⟨?_, ?_, ?_, ?_, ?_⟩
  · rw [h5]; exact hb.free_nodup
  · rw [h5, h1]; exact hb.free_lt
  · intro p f hpf
    rw [h4] at hpf
    rw [h1, h7, h5]
    exact hb.mapped p f hpf
  · rw [h1, h5, h4]; exact hb.covered
  · rw [h6, h1]; exact hb.repl_lt

theorem SameFrames_refl (b : BufferPoolManagerInstance) : SameFrames b b :=
  ⟨rfl, rfl, rfl, rfl, rfl, rfl, fun _ => rfl⟩

theorem SameFrames_trans {a b c : BufferPoolManagerInstance} (h1 : SameFrames a b)
    (h2 : SameFrames b c) : SameFrames a c := by
  obtain ⟨a1, a2, a3, a4, a5, a6, a7⟩ := h1
  obtain ⟨b1, b2, b3, b4, b5, b6, b7⟩ := h2
  exact ⟨b1.trans a1, b2.trans a2, b3.trans a3, b4.trans a4, b5.trans a5, b6.trans a6,
    fun f => (b7 f).trans (a7 f)⟩

theorem FlushPg_same (b : BufferPoolManagerInstance) (p : Int) : SameFrames b (FlushPg b p) := by
  unfold FlushPg
  split
  · exact SameFrames_refl b
  · split
    · exact ⟨rfl, rfl, rfl, rfl, rfl, rfl, fun _ => rfl⟩
    · exact SameFrames_refl b

theorem FlushPgImp_same (b : BufferPoolManagerInstance) (p : Int) :
    SameFrames b (FlushPgImp b p).2 := by
  unfold FlushPgImp
  split
  · exact SameFrames_refl b
  · rename_i f hf
    split
    · refine ⟨rfl, rfl, rfl, rfl, rfl, rfl, fun g => ?_⟩
      by_cases hg : g = f
      · subst hg; simp [setAt]
      · simp [setAt, hg]
    · refine ⟨rfl, rfl, rfl, rfl, rfl, rfl, fun g => ?_⟩
      by_cases hg : g = f
      · subst hg; simp [setAt]
      · simp [setAt, hg]

theorem foldl_FlushPgImp_same (l : List Int) (b : BufferPoolManagerInstance) :
    SameFrames b (l.foldl (fun acc p => (FlushPgImp acc p).2) b) := by
  induction l generalizing b with
  | nil => exact SameFrames_refl b
  | cons p tl ih =>
    simp only [List.foldl_cons]
    exact SameFrames_trans (FlushPgImp_same b p) (ih _)

theorem FlushAllPgsImp_same (b : BufferPoolManagerInstance) :
    SameFrames b (FlushAllPgsImp b) :=
  foldl_FlushPgImp_same _ b

theorem WriteData_same (b : BufferPoolManagerInstance) (p : Int) (bytes : List Nat) :
    SameFrames b (WriteData b p bytes) := by
  unfold WriteData
  split
  · exact SameFrames_refl b
  · rename_i f hf
    refine ⟨rfl, rfl, rfl, rfl, rfl, rfl, fun g => ?_⟩
    by_cases hg : g = f
    · subst hg; simp [setAt]
    · simp [setAt, hg]

theorem getLast?_mem {α : Type} (l : List α) (a : α) (h : l.getLast? = some a) : a ∈ l :=
  List.mem_of_getLast?_eq_some h

theorem Victim_some_mem (r : LRUReplacer) (f : Nat) (r1 : LRUReplacer)
    (h : r.Victim = (some f, r1)) :
    f ∈ r.replace_frames ∧ r1.replace_frames = r.replace_frames.dropLast := by
  unfold LRUReplacer.Victim at h
  split at h
  · simp at h
  · rename_i g hg
    simp only [Prod.mk.injEq, Option.some.injEq] at h
    obtain ⟨h1, h2⟩ := h
    subst h1
    exact ⟨getLast?_mem _ _ hg, by rw [← h2]⟩

theorem Victim_none (r : LRUReplacer) (r1 : LRUReplacer) (h : r.Victim = (none, r1)) :
    r1 = r := by
  unfold LRUReplacer.Victim at h
  split at h
  · simp at h; exact h.symm
  · simp at h

theorem Pin_subset (r : LRUReplacer) (g f : Nat) (h : f ∈ (r.Pin g).replace_frames) :
    f ∈ r.replace_frames := by
  unfold LRUReplacer.Pin at h
  split at h
  · exact List.mem_of_mem_erase h
  · exact h

theorem Unpin_subset (r : LRUReplacer) (g f : Nat) (h : f ∈ (r.Unpin g).replace_frames) :
    f = g ∨ f ∈ r.replace_frames := by
  unfold LRUReplacer.Unpin at h
  split at h
  · exact Or.inr h
  · simpa using h

/-- Effect of `GetPg` when it returns a frame. -/
theorem GetPg_some (b b1 : BufferPoolManagerInstance) (g : Nat) (hb : BpmInv b)
    (h : GetPg b = (some g, b1)) :
    BpmInvExcept b1 g ∧ b1.next_page_id = b.next_page_id ∧ b1.pool_size = b.pool_size ∧
    b1.num_instances = b.num_instances := by
  unfold GetPg at h
  split at h
  · rename_i f rest hfl
    simp only [Prod.mk.injEq, Option.some.injEq] at h
    obtain ⟨h1, h2⟩ := h
    subst h1; subst h2
    have hnd := hb.free_nodup
    rw [hfl] at hnd
    have hfr : f ∉ rest := (List.nodup_cons.mp hnd).1
    refine ⟨⟨(List.nodup_cons.mp hnd).2, ?_, ?_, ?_, hb.repl_lt, ?_, hfr, ?_⟩,
      rfl, rfl, rfl⟩
    · intro x hx; exact hb.free_lt x (by rw [hfl]; exact List.mem_cons_of_mem _ hx)
    · intro p x hpx
      obtain ⟨a1, a2, a3⟩ := hb.mapped p x hpx
      refine ⟨a1, a2, ?_⟩
      intro hx; exact a3 (by rw [hfl]; exact List.mem_cons_of_mem _ hx)
    · intro x hx hxf
      rcases hb.covered x hx with h1 | h1
      · rw [hfl] at h1
        rcases List.mem_cons.mp h1 with h2 | h2
        · exact absurd h2 hxf
        · exact Or.inl h2
      · exact Or.inr h1
    · exact hb.free_lt f (by rw [hfl]; exact List.mem_cons_self _ _)
    · intro p hp
      exact (hb.mapped p f hp).2.2 (by rw [hfl]; exact List.mem_cons_self _ _)
  · rename_i hfl
    split at h
    · simp at h
    · rename_i f r hv
      simp only [Prod.mk.injEq, Option.some.injEq] at h
      obtain ⟨h1, h2⟩ := h
      subst h1
      obtain ⟨hfm, hr⟩ := Victim_some_mem _ _ _ hv
      have hflt : f < b.pool_size := hb.repl_lt f hfm
      have hsame : SameFrames { b with replacer := r }
          (FlushPg { b with replacer := r } (b.pages f).page_id) := FlushPg_same _ _
      obtain ⟨s1, s2, s3, s4, s5, s6, s7⟩ := hsame
      simp only at s1 s2 s3 s4 s5 s6
      have hpid : ∀ x, (b1.pages x).page_id = (b.pages x).page_id := by
        intro x
        rw [← h2]
        by_cases hx : x = f
        · subst hx; simp [setAt, s7]
        · simp [setAt, hx, s7]
      have hpt : b1.page_table = tableErase b.page_table (b.pages f).page_id := by
        rw [← h2]; simp [s4]
      have hfree : b1.free_list = b.free_list := by rw [← h2]; simp [s5]
      have hrep : b1.replacer = r := by rw [← h2]; simp [s6]
      have hps : b1.pool_size = b.pool_size := by rw [← h2]; simp [s1]
      have hni : b1.num_instances = b.num_instances := by rw [← h2]; simp [s2]
      have hnx : b1.next_page_id = b.next_page_id := by rw [← h2]; simp [s3]
      have hfind : ∀ p x, tableFind b1.page_table p = some x →
          p ≠ (b.pages f).page_id ∧ tableFind b.page_table p = some x := by
        intro p x hpx
        rw [hpt, tableFind_erase] at hpx
        by_cases hp : p = (b.pages f).page_id
        · simp [hp] at hpx
        · simp [hp] at hpx; exact ⟨hp, hpx⟩
      refine ⟨⟨?_, ?_, ?_, ?_, ?_, ?_, ?_, ?_⟩, hnx, hps, hni⟩
      · rw [hfree]; exact hb.free_nodup
      · rw [hfree, hps]; exact hb.free_lt
      · intro p x hpx
        obtain ⟨_, hpx1⟩ := hfind p x hpx
        rw [hps, hpid, hfree]
        exact hb.mapped p x hpx1
      · intro x hx hxf
        rw [hps] at hx
        rcases hb.covered x hx with h1 | ⟨p, hp⟩
        · rw [hfree]; exact Or.inl h1
        · right
          refine ⟨p, ?_⟩
          rw [hpt, tableFind_erase]
          have : p ≠ (b.pages f).page_id := by
            intro hpe
            rcases hb.covered f hflt with h3 | ⟨q, hq⟩
            · rw [hfl] at h3; simp at h3
            · have e1 := (hb.mapped q f hq).2.1
              have e2 := (hb.mapped p x hp).2.1
              have : q = p := by rw [← e1, hpe]
              subst this
              rw [hq] at hp
              exact hxf (Option.some.inj hp).symm
          simp [this, hp]
      · rw [hrep, hr, hps]
        intro x hx; exact hb.repl_lt x (List.mem_of_mem_dropLast hx)
      · rw [hps]; exact hflt
      · rw [hfree, hfl]; simp
      · intro p hp
        obtain ⟨hne, hp1⟩ := hfind p f hp
        exact hne (hb.mapped p f hp1).2.1.symm

/-- Effect of `GetPg` when it returns no frame. -/
theorem GetPg_none (b b1 : BufferPoolManagerInstance) (h : GetPg b = (none, b1)) : b1 = b := by
  unfold GetPg at h
  split at h
  · simp at h
  · split at h
    · rename_i r hv
      have := Victim_none _ _ hv
      simp only [Prod.mk.injEq, true_and] at h
      rw [← h, this]
    · simp at h

/-- Mapping the frame taken by `GetPg` to a page id that is not in the page
table restores the frame accounting. -/
theorem BpmInv_of_except (b c : BufferPoolManagerInstance) (g : Nat) (p : Int)
    (hb : BpmInvExcept b g)
    (hps : c.pool_size = b.pool_size)
    (hpt : ∀ q, tableFind c.page_table q = if q = p then some g else tableFind b.page_table q)
    (hpn : tableFind b.page_table p = none)
    (hfree : c.free_list = b.free_list)
    (hrep : ∀ f ∈ c.replacer.replace_frames, f ∈ b.replacer.replace_frames)
    (hpg : (c.pages g).page_id = p)
    (hpo : ∀ f, f ≠ g → (c.pages f).page_id = (b.pages f).page_id) : BpmInv c := by
  refine ⟨?_, ?_, ?_, ?_, ?_⟩
  · rw [hfree]; exact hb.free_nodup
  · rw [hfree, hps]; exact hb.free_lt
  · intro q f hqf
    rw [hpt] at hqf
    by_cases hq : q = p
    · simp [hq] at hqf
      subst hqf; subst hq
      rw [hps, hfree]
      exact ⟨hb.g_lt, hpg, hb.g_not_free⟩
    · simp [hq] at hqf
      obtain ⟨a1, a2, a3⟩ := hb.mapped q f hqf
      have hfg : f ≠ g := fun e => hb.g_unmapped q (e ▸ hqf)
      rw [hps, hfree, hpo f hfg]
      exact ⟨a1, a2, a3⟩
  · intro f hf
    rw [hps] at hf
    by_cases hfg : f = g
    · right; exact ⟨p, by rw [hpt]; simp [hfg]⟩
    · rcases hb.covered f hf hfg with h1 | ⟨q, hq⟩
      · left; rw [hfree]; exact h1
      · right
        refine ⟨q, ?_⟩
        rw [hpt]
        by_cases hqp : q = p
        · subst hqp; rw [hpn] at hq; simp at hq
        · simp [hqp, hq]
  · rw [hps]; intro f hf; exact hb.repl_lt f (hrep f hf)

theorem GetPg_table_sub (b : BufferPoolManagerInstance) (q : Int) (x : Nat)
    (h : tableFind (GetPg b).2.page_table q = some x) : tableFind b.page_table q = some x := by
  unfold GetPg at h
  split at h
  · exact h
  · split at h
    · exact h
    · rename_i f r hv
      simp only at h
      rw [tableFind_erase] at h
      have hs := (FlushPg_same { b with replacer := r } (b.pages f).page_id).2.2.2.1
      rw [hs] at h
      split at h
      · simp at h
      · exact h

theorem NewPgImp_inv (b : BufferPoolManagerInstance) (hb : BpmInv b) (hfresh : NewPageFresh b) :
    BpmInv (NewPgImp b).2 := by
  unfold NewPgImp
  split
  · rename_i b1 h
    rw [GetPg_none b b1 h]; exact hb
  · rename_i g b1 h
    obtain ⟨he, hnx, hps, hni⟩ := GetPg_some b b1 g hb h
    have hnone : tableFind b1.page_table b1.next_page_id = none := by
      rcases hfresh with h1 | h1
      · rw [h] at h1; simp at h1
      · rw [h] at h1; rw [hnx]; exact h1
    refine BpmInv_of_except b1 _ g b1.next_page_id he rfl ?_ ?_ rfl ?_ ?_ ?_
    · intro q; simp only [AllocatePage]; rw [tableFind_set]
    · exact hnone
    · intro f hf; exact hf
    · simp [AllocatePage, setAt]
    · intro f hf; simp [AllocatePage, setAt, hf]

theorem FetchPgImp_inv (b : BufferPoolManagerInstance) (p : Int) (hb : BpmInv b) :
    BpmInv (FetchPgImp b p).2 := by
  unfold FetchPgImp
  split
  · rename_i f hf
    refine ⟨hb.free_nodup, hb.free_lt, ?_, hb.covered, ?_⟩
    · intro q x hqx
      obtain ⟨a1, a2, a3⟩ := hb.mapped q x hqx
      refine ⟨a1, ?_, a3⟩
      by_cases hx : x = f
      · subst hx; simpa [setAt] using a2
      · simpa [setAt, hx] using a2
    · intro x hx; exact hb.repl_lt x (Pin_subset _ _ _ hx)
  · rename_i hnone
    split
    · rename_i g b1 h
      obtain ⟨he, hnx, hps, hni⟩ := GetPg_some b b1 g hb h
      refine BpmInv_of_except b1 _ g p he rfl ?_ ?_ rfl ?_ ?_ ?_
      · intro q; simp only; rw [tableFind_set]
      · cases hq : tableFind b1.page_table p with
        | none => rfl
        | some x =>
          exfalso
          have h1 : tableFind (GetPg b).2.page_table p = some x := by rw [h]; exact hq
          have h2 := GetPg_table_sub b p x h1
          unfold FindPg at hnone
          rw [hnone] at h2; simp at h2
      · intro f hf; exact Pin_subset _ _ _ hf
      · simp [setAt]
      · intro f hf; simp [setAt, hf]
    · rename_i b1 h
      rw [GetPg_none b b1 h]; exact hb

theorem DeletePgImp_inv (b : BufferPoolManagerInstance) (p : Int) (hb : BpmInv b) :
    BpmInv (DeletePgImp b p).2 := by
  unfold DeletePgImp
  split
  · exact hb
  · rename_i f hf
    split
    · exact hb
    · unfold FindPg at hf
      obtain ⟨f1, f2, f3⟩ := hb.mapped p f hf
      refine ⟨?_, ?_, ?_, ?_, hb.repl_lt⟩
      · simp only
        rw [List.nodup_append]
        refine ⟨hb.free_nodup, List.nodup_singleton f, ?_⟩
        intro x hx hx2
        simp at hx2; subst hx2; exact f3 hx
      · intro x hx
        simp only [List.mem_append, List.mem_singleton] at hx
        rcases hx with hx | hx
        · exact hb.free_lt x hx
        · subst hx; exact f1
      · intro q x hqx
        simp only at hqx
        rw [tableFind_erase] at hqx
        by_cases hq : q = p
        · simp [hq] at hqx
        · simp [hq] at hqx
          obtain ⟨a1, a2, a3⟩ := hb.mapped q x hqx
          have hxf : x ≠ f := by
            intro e; subst e; exact hq (a2.symm.trans f2)
          refine ⟨a1, ?_, ?_⟩
          · simpa [setAt, hxf] using a2
          · simp only [List.mem_append, List.mem_singleton, not_or]
            exact ⟨a3, hxf⟩
      · intro x hx
        by_cases hxf : x = f
        · left; simp [hxf]
        · rcases hb.covered x hx with h1 | ⟨q, hq⟩
          · left; simp [h1]
          · right
            refine ⟨q, ?_⟩
            simp only
            rw [tableFind_erase]
            have : q ≠ p := by
              intro e; subst e; rw [hf] at hq; exact hxf (Option.some.inj hq).symm
            simp [this, hq]

theorem UnpinPgImp_inv (b : BufferPoolManagerInstance) (p : Int) (d : Bool) (hb : BpmInv b) :
    BpmInv (UnpinPgImp b p d).2 := by
  unfold UnpinPgImp
  split
  · exact hb
  · rename_i f hf
    unfold FindPg at hf
    obtain ⟨f1, f2, f3⟩ := hb.mapped p f hf
    split
    · exact hb
    · have hmid : BpmInv { b with
          pages := setAt b.pages f
            { b.pages f with is_dirty := d, pin_count := (b.pages f).pin_count - 1 } } := by
        refine BpmInv_of_same (b := b) ⟨rfl, rfl, rfl, rfl, rfl, rfl, ?_⟩ hb
        intro x
        by_cases hx : x = f
        · subst hx; simp [setAt]
        · simp [setAt, hx]
      dsimp only
      split
      · refine BpmInv_of_same (FlushPg_same _ _) ?_
        refine ⟨hmid.free_nodup, hmid.free_lt, hmid.mapped, hmid.covered, ?_⟩
        intro x hx
        rcases Unpin_subset _ _ _ hx with h1 | h1
        · subst h1; exact f1
        · exact hb.repl_lt x h1
      · exact hmid

/-- Every call keeps the frame accounting, provided a `NewPage` is not handed
an id that is in the page table. -/
theorem BpmOp_apply_inv (b : BufferPoolManagerInstance) (op : BpmOp) (hb : BpmInv b)
    (hop : op.Fresh b) : BpmInv (op.apply b) := by
  cases op with
  | NewPage => exact NewPgImp_inv b hb hop
  | FetchPage p => exact FetchPgImp_inv b p hb
  | UnpinPage p d => exact UnpinPgImp_inv b p d hb
  | FlushPage p => exact BpmInv_of_same (FlushPgImp_same b p) hb
  | FlushAllPages => exact BpmInv_of_same (FlushAllPgsImp_same b) hb
  | DeletePage p => exact DeletePgImp_inv b p hb
  | WriteData p bytes => exact BpmInv_of_same (WriteData_same b p bytes) hb

theorem runOps_inv (ops : List BpmOp) (b : BufferPoolManagerInstance) (hb : BpmInv b)
    (hd : FreshRun b ops) : BpmInv (runOps b ops) := by
  induction ops generalizing b with
  | nil => exact hb
  | cons op tl ih =>
    obtain ⟨h1, h2⟩ := hd
    exact ih (op.apply b) (BpmOp_apply_inv b op hb h1) h2

/-! ## Buffer pool: claims C3 to C6 -/

/-- C3 (fails on the code): after `NewPage`, `UnpinPage(0, false)`,
`DeletePage(0)`, `NewPage` on a pool of one frame, page 1 is resident in frame 0
with pin count 1 and the free list is empty, so every frame holds a pinned page;
yet `NewPage` returns frame 0 (not null) and page 1 is no longer in the page
table, and likewise `FetchPage(0)`.  `DeletePgImp` put frame 0 on the free list
without taking it out of the replacer, whose `Victim` hands it out again. -/
theorem pinned_page_evicted_after_delete :
    Disciplined pool1 staleTrace ∧
    FindPg (runOps pool1 staleTrace) 1 = some 0 ∧
    ((runOps pool1 staleTrace).pages 0).pin_count = 1 ∧
    (runOps pool1 staleTrace).free_list = [] ∧
    (NewPgImp (runOps pool1 staleTrace)).1 = some (0, 2) ∧
    FindPg (NewPgImp (runOps pool1 staleTrace)).2 1 = none ∧
    FindPg (runOps pool1 staleTrace) 0 = none ∧
    (FetchPgImp (runOps pool1 staleTrace) 0).1 = some 0 ∧
    FindPg (FetchPgImp (runOps pool1 staleTrace) 0).2 1 = none := by
  decide

/-- C4 (fails on the code): after `NewPage`, `UnpinPage(0, false)`,
`DeletePage(0)` on a pool of one frame, frame 0 is in the replacer although it
is on the free list and the page table is empty; after one more `NewPage` it is
still in the replacer while it holds page 1 with pin count 1. -/
theorem deleted_frame_stays_in_replacer :
    Disciplined pool1 staleTrace ∧
    (runOps pool1 deleteTrace).replacer.replace_frames = [0] ∧
    (runOps pool1 deleteTrace).free_list = [0] ∧
    (runOps pool1 deleteTrace).page_table = [] ∧
    (runOps pool1 staleTrace).replacer.replace_frames = [0] ∧
    FindPg (runOps pool1 staleTrace) 1 = some 0 ∧
    ((runOps pool1 staleTrace).pages 0).pin_count = 1 := by
  decide

/-- C5 (fails as stated): on a pool of two frames, `FetchPage(0)` followed by
`NewPage` leaves frame 0 neither on the free list nor in the range of the page
table: `NewPage` allocates id 0 again and the entry of page 0 now names
frame 1. -/
theorem frame_lost_after_unallocated_fetch :
    ¬ FrameAccounted (runOps pool2 [.FetchPage 0, .NewPage]) 0 := by
  have hfree : (runOps pool2 [.FetchPage 0, .NewPage]).free_list = [] := by decide
  have htab : (runOps pool2 [.FetchPage 0, .NewPage]).page_table = [(0, 1)] := by decide
  intro h
  rcases h with ⟨hc, _⟩ | ⟨_, p, hp, _⟩
  · rw [hfree] at hc; simp at hc
  · unfold FindPg at hp
    rw [htab] at hp
    simp only [tableFind] at hp
    split at hp <;> simp at hp

theorem GetPg_pool_size (b : BufferPoolManagerInstance) : (GetPg b).2.pool_size = b.pool_size := by
  unfold GetPg
  split
  · rfl
  · split
    · rfl
    · rename_i f r hv
      exact (FlushPg_same { b with replacer := r } (b.pages f).page_id).1

theorem BpmOp_apply_pool_size (b : BufferPoolManagerInstance) (op : BpmOp) :
    (op.apply b).pool_size = b.pool_size := by
  cases op with
  | NewPage =>
    simp only [BpmOp.apply, NewPgImp]
    split
    · rename_i b1 h
      have := GetPg_pool_size b; rw [h] at this; exact this
    · rename_i g b1 h
      have := GetPg_pool_size b; rw [h] at this; exact this
  | FetchPage p =>
    simp only [BpmOp.apply, FetchPgImp]
    split
    · rfl
    · split
      · rename_i g b1 h
        have := GetPg_pool_size b; rw [h] at this; exact this
      · rename_i b1 h
        have := GetPg_pool_size b; rw [h] at this; exact this
  | UnpinPage p d =>
    simp only [BpmOp.apply, UnpinPgImp]
    split
    · rfl
    · split
      · rfl
      · split
        · exact (FlushPg_same _ _).1
        · rfl
  | FlushPage p => exact (FlushPgImp_same b p).1
  | FlushAllPages => exact (FlushAllPgsImp_same b).1
  | DeletePage p =>
    simp only [BpmOp.apply, DeletePgImp]
    split
    · rfl
    · split <;> rfl
  | WriteData p bytes => exact (WriteData_same b p bytes).1

theorem runOps_pool_size (ops : List BpmOp) (b : BufferPoolManagerInstance) :
    (runOps b ops).pool_size = b.pool_size := by
  induction ops generalizing b with
  | nil => rfl
  | cons op tl ih =>
    show (runOps (op.apply b) tl).pool_size = b.pool_size
    rw [ih, BpmOp_apply_pool_size]

theorem FrameAccounted_of_inv (b : BufferPoolManagerInstance) (hb : BpmInv b) (f : Nat)
    (hf : f < b.pool_size) : FrameAccounted b f := by
  by_cases hfree : f ∈ b.free_list
  · left
    refine ⟨List.count_eq_one_of_mem hb.free_nodup hfree, ?_⟩
    intro p hp
    exact (hb.mapped p f hp).2.2 hfree
  · right
    refine ⟨hfree, ?_⟩
    rcases hb.covered f hf with h1 | ⟨p, hp⟩
    · exact absurd h1 hfree
    · refine ⟨p, hp, (hb.mapped p f hp).2.1, ?_⟩
      intro q hq
      rw [← (hb.mapped p f hp).2.1, ← (hb.mapped q f hq).2.1]

/-- While the frames are accounted for, `FlushPg` is called on pages of the page
table only: no call indexes `pages_` at `-1`. -/
theorem FlushPg_defined (b : BufferPoolManagerInstance) (p : Int) (f : Nat)
    (h : FindPg b p = some f) : (FlushPg b p).out_of_bounds = b.out_of_bounds := by
  unfold FlushPg
  rw [h]
  simp only
  split <;> rfl

theorem GetPg_defined (b : BufferPoolManagerInstance) (hb : BpmInv b) :
    (GetPg b).2.out_of_bounds = b.out_of_bounds := by
  unfold GetPg
  split
  · rfl
  · rename_i hfl
    split
    · rfl
    · rename_i f r hv
      have hflt : f < b.pool_size := hb.repl_lt f (Victim_some_mem _ _ _ hv).1
      have hm : FindPg { b with replacer := r } (b.pages f).page_id = some f := by
        rcases hb.covered f hflt with h1 | ⟨q, hq⟩
        · rw [hfl] at h1; simp at h1
        · have := (hb.mapped q f hq).2.1
          rw [this]; exact hq
      simp only
      exact FlushPg_defined _ _ f hm

theorem FlushPgImp_defined (b : BufferPoolManagerInstance) (p : Int) :
    (FlushPgImp b p).2.out_of_bounds = b.out_of_bounds := by
  unfold FlushPgImp
  split
  · rfl
  · simp only
    split <;> rfl

theorem foldl_FlushPgImp_defined (l : List Int) (b : BufferPoolManagerInstance) :
    (l.foldl (fun acc p => (FlushPgImp acc p).2) b).out_of_bounds = b.out_of_bounds := by
  induction l generalizing b with
  | nil => rfl
  | cons p tl ih =>
    simp only [List.foldl_cons]
    rw [ih, FlushPgImp_defined]

/-- While the frames are accounted for, no call indexes `pages_` at `-1`. -/
theorem BpmOp_apply_defined (b : BufferPoolManagerInstance) (op : BpmOp) (hb : BpmInv b) :
    (op.apply b).out_of_bounds = b.out_of_bounds := by
  cases op with
  | NewPage =>
    have hg := GetPg_defined b hb
    simp only [BpmOp.apply, NewPgImp]
    split
    · rename_i b1 h
      rw [h] at hg; exact hg
    · rename_i g b1 h
      rw [h] at hg; exact hg
  | FetchPage p =>
    have hg := GetPg_defined b hb
    simp only [BpmOp.apply, FetchPgImp]
    split
    · rfl
    · split
      · rename_i g b1 h
        rw [h] at hg; exact hg
      · rename_i b1 h
        rw [h] at hg; exact hg
  | UnpinPage p d =>
    simp only [BpmOp.apply, UnpinPgImp]
    split
    · rfl
    · rename_i f hf
      split
      · rfl
      · split
        · rw [FlushPg_defined _ p f (by unfold FindPg at hf ⊢; exact hf)]
        · rfl
  | FlushPage p => exact FlushPgImp_defined b p
  | FlushAllPages => exact foldl_FlushPgImp_defined _ b
  | DeletePage p =>
    simp only [BpmOp.apply, DeletePgImp]
    split
    · rfl
    · split <;> rfl
  | WriteData p bytes =>
    simp only [BpmOp.apply, WriteData]
    split <;> rfl

theorem runOps_defined (ops : List BpmOp) (b : BufferPoolManagerInstance) (hb : BpmInv b)
    (hd : FreshRun b ops) : (runOps b ops).out_of_bounds = b.out_of_bounds := by
  induction ops generalizing b with
  | nil => rfl
  | cons op tl ih =>
    obtain ⟨h1, h2⟩ := hd
    show (runOps (op.apply b) tl).out_of_bounds = b.out_of_bounds
    rw [ih (op.apply b) (BpmOp_apply_inv b op hb h1) h2, BpmOp_apply_defined b op hb]

/-- Why the amended C5 needs its condition: when the frames are accounted for
and `NewPage` is handed an id that is in the page table, the frame that held
that id is afterwards neither on the free list nor in the page table. -/
theorem frame_lost_when_id_resident (b : BufferPoolManagerInstance) (hb : BpmInv b)
    (hn : ¬ NewPageFresh b) :
    ∃ g, g < b.pool_size ∧ ¬ FrameAccounted (NewPgImp b).2 g := by
  unfold NewPageFresh at hn
  simp only [not_or] at hn
  obtain ⟨hn1, hn2⟩ := hn
  cases hg : GetPg b with
  | mk r b1 =>
    cases r with
    | none => rw [hg] at hn1; exact absurd rfl hn1
    | some f =>
      rw [hg] at hn2
      simp only at hn2
      obtain ⟨he, hnx, hps, -⟩ := GetPg_some b b1 f hb hg
      cases hx : FindPg b1 b.next_page_id with
      | none => exact absurd hx hn2
      | some g =>
        unfold FindPg at hx
        obtain ⟨m1, m2, m3⟩ := he.mapped _ g hx
        have hgf : g ≠ f := fun e => he.g_unmapped _ (e ▸ hx)
        refine ⟨g, by rw [← hps]; exact m1, ?_⟩
        have hfree : (NewPgImp b).2.free_list = b1.free_list := by
          unfold NewPgImp; rw [hg]; rfl
        have hfind : ∀ q, FindPg (NewPgImp b).2 q =
            if q = b1.next_page_id then some f else tableFind b1.page_table q := by
          intro q
          unfold NewPgImp FindPg; rw [hg]
          simp only [AllocatePage]
          rw [tableFind_set]
        intro hacc
        rcases hacc with ⟨hc, -⟩ | ⟨-, q, hq, -⟩
        · rw [hfree] at hc
          have : g ∈ b1.free_list := by
            by_contra hcon
            rw [List.count_eq_zero_of_not_mem hcon] at hc
            exact absurd hc (by decide)
          exact m3 this
        · rw [hfind] at hq
          by_cases hqn : q = b1.next_page_id
          · rw [if_pos hqn] at hq
            exact hgf (Option.some.inj hq).symm
          · rw [if_neg hqn] at hq
            have := (he.mapped q g hq).2.1
            rw [m2] at this
            exact hqn (this.symm.trans hnx.symm)

/-- C5 (amended): in every state reached from construction by `NewPage`,
`FetchPage`, `UnpinPage`, `FlushPage`, `FlushAllPages`, `DeletePage` and writes
through page pointers, where no `NewPage` call was handed an id that was in the
page table at that moment, every frame of the pool is either exactly once on
the free list and the image of no page id, or not on the free list and the
image of exactly one page id `p`, with the frame's `page_id_` equal to `p`; and
no call has indexed `pages_` out of bounds. -/
theorem frame_accounting (pool_size num_instances instance_index : Nat) (disk : Disk)
    (ops : List BpmOp) (f : Nat)
    (hd : FreshRun (BufferPoolManagerInstance.init pool_size num_instances instance_index disk)
      ops)
    (hf : f < pool_size) :
    FrameAccounted
      (runOps (BufferPoolManagerInstance.init pool_size num_instances instance_index disk) ops)
      f ∧
    (runOps (BufferPoolManagerInstance.init pool_size num_instances instance_index disk)
      ops).out_of_bounds = false := by
  constructor
  · apply FrameAccounted_of_inv
    · exact runOps_inv ops _ (BpmInv_init pool_size num_instances instance_index disk) hd
    · rw [runOps_pool_size]; exact hf
  · rw [runOps_defined ops _ (BpmInv_init pool_size num_instances instance_index disk) hd]
    rfl

/-- Witness of `frame_accounting`: a pool of two frames on which pages 1, 2 and
3 are fetched without having been handed out by `NewPage`, page 1 being evicted
for page 3; then `NewPage` evicts page 2 and hands out id 0, which is unpinned
and deleted. -/
theorem frame_accounting_witness :
    FreshRun (BufferPoolManagerInstance.init 2 1 0 zeroDisk)
      [.FetchPage 1, .UnpinPage 1 false, .FetchPage 2, .UnpinPage 2 false, .FetchPage 3,
        .NewPage, .UnpinPage 0 true, .DeletePage 0] ∧
    FrameAccounted
      (runOps (BufferPoolManagerInstance.init 2 1 0 zeroDisk)
        [.FetchPage 1, .UnpinPage 1 false, .FetchPage 2, .UnpinPage 2 false, .FetchPage 3,
          .NewPage, .UnpinPage 0 true, .DeletePage 0])
      1 :=
  ⟨by decide,
    (frame_accounting 2 1 0 zeroDisk
      [.FetchPage 1, .UnpinPage 1 false, .FetchPage 2, .UnpinPage 2 false, .FetchPage 3,
        .NewPage, .UnpinPage 0 true, .DeletePage 0] 1 (by decide) (by decide)).1⟩

/-- C6 (fails on the code): after `NewPage`, `FetchPage(0)`, a write and
`UnpinPage(0, true)`, page 0 is resident and dirty with pin count 1;
`UnpinPage(0, false)` then returns true and leaves the dirty flag false, not
(true OR false).  Nothing
is written to disk, so once the frame is reused `FetchPage(0)` returns zero
bytes instead of the bytes written. -/
theorem unpin_overwrites_dirty_flag :
    FindPg (runOps pool1 twoPinTrace) 0 = some 0 ∧
    ((runOps pool1 twoPinTrace).pages 0).is_dirty = true ∧
    ((runOps pool1 twoPinTrace).pages 0).pin_count = 1 ∧
    (UnpinPgImp (runOps pool1 twoPinTrace) 0 false).1 = true ∧
    ((UnpinPgImp (runOps pool1 twoPinTrace) 0 false).2.pages 0).is_dirty = false ∧
    ((runOps pool1 twoPinTrace).pages 0).data = sevenData ∧
    (FetchPgImp (runOps pool1 (twoPinTrace ++ [.UnpinPage 0 false, .NewPage, .UnpinPage 1 false]))
      0).1 = some 0 ∧
    ((FetchPgImp (runOps pool1 (twoPinTrace ++ [.UnpinPage 0 false, .NewPage, .UnpinPage 1 false]))
      0).2.pages 0).data ≠ sevenData := by
  refine ⟨by decide, by decide, by decide, by decide, by decide, rfl, by decide, ?_⟩
  decide

/-! ## Buffer pool: dirty write-back (claim C7) -/

theorem FlushPg_kept (b : BufferPoolManagerInstance) (q P : Int) (D : List Nat)
    (h : BytesKept b P D) : BytesKept (FlushPg b q) P D := by
  obtain ⟨h2, h3⟩ := h
  unfold FlushPg
  split
  · exact ⟨h2, h3⟩
  · rename_i f hf
    split
    · refine ⟨?_, h3⟩
      simp only [Disk.WritePage]
      by_cases hq : P = q
      · subst hq; simp; exact h3 f hf
      · simp [hq, h2]
    · exact ⟨h2, h3⟩

theorem FlushPgImp_kept (b : BufferPoolManagerInstance) (q P : Int) (D : List Nat)
    (h : BytesKept b P D) : BytesKept (FlushPgImp b q).2 P D := by
  obtain ⟨h2, h3⟩ := h
  unfold FlushPgImp
  split
  · exact ⟨h2, h3⟩
  · rename_i f hf
    have hdata : ∀ (pg : Nat → Page) x, ((setAt pg f { pg f with is_dirty := false }) x).data =
        (pg x).data := by
      intro pg x
      by_cases hx : x = f
      · subst hx; simp [setAt]
      · simp [setAt, hx]
    split
    · refine ⟨?_, ?_⟩
      · simp only [Disk.WritePage]
        by_cases hq : P = q
        · subst hq; simp; exact h3 f hf
        · simp [hq, h2]
      · intro x hx
        simp only [hdata]
        exact h3 x hx
    · refine ⟨h2, ?_⟩
      intro x hx
      simp only [hdata]
      exact h3 x hx

theorem foldl_FlushPgImp_kept (l : List Int) (b : BufferPoolManagerInstance) (P : Int)
    (D : List Nat) (h : BytesKept b P D) :
    BytesKept (l.foldl (fun acc p => (FlushPgImp acc p).2) b) P D := by
  induction l generalizing b with
  | nil => exact h
  | cons p tl ih =>
    simp only [List.foldl_cons]
    exact ih _ (FlushPgImp_kept b p P D h)

theorem GetPg_kept (b : BufferPoolManagerInstance) (P : Int) (D : List Nat)
    (h : BytesKept b P D) : BytesKept (GetPg b).2 P D := by
  unfold GetPg
  split
  · exact h
  · split
    · exact h
    · rename_i f r hv
      have hk : BytesKept (FlushPg { b with replacer := r } (b.pages f).page_id) P D :=
        FlushPg_kept _ _ P D h
      obtain ⟨k2, k3⟩ := hk
      refine ⟨k2, ?_⟩
      intro x hx
      unfold FindPg at hx
      simp only at hx
      rw [tableFind_erase] at hx
      split at hx
      · simp at hx
      · have := k3 x hx
        by_cases hxf : x = f
        · subst hxf; simpa [setAt] using this
        · simpa [setAt, hxf] using this

theorem GetPg_disk_next (b : BufferPoolManagerInstance) :
    (GetPg b).2.next_page_id = b.next_page_id := by
  unfold GetPg
  split
  · rfl
  · split
    · rfl
    · rename_i f r hv
      exact (FlushPg_same { b with replacer := r } (b.pages f).page_id).2.2.1

theorem NewPgImp_kept (b : BufferPoolManagerInstance) (P : Int) (D : List Nat) (hb : BpmInv b)
    (hs : (NewPgImp b).1.map Prod.snd ≠ some P)
    (h : BytesKept b P D) : BytesKept (NewPgImp b).2 P D := by
  have hk := GetPg_kept b P D h
  unfold NewPgImp at hs ⊢
  split
  · rename_i b1 hg
    rw [hg] at hk; exact hk
  · rename_i g b1 hg
    rw [hg] at hk hs
    obtain ⟨he, -, -, -⟩ := GetPg_some b b1 g hb hg
    obtain ⟨k2, k3⟩ := hk
    simp only at k2 k3
    have hne : P ≠ b1.next_page_id := by
      intro e
      apply hs
      simp [AllocatePage, e]
    refine ⟨k2, ?_⟩
    intro x hx
    unfold FindPg at hx
    simp only [AllocatePage] at hx
    rw [tableFind_set] at hx
    simp only [hne, if_false] at hx
    have hxg : x ≠ g := fun e => he.g_unmapped P (e ▸ hx)
    simp only [AllocatePage, setAt, hxg, if_false]
    exact k3 x hx

theorem FetchPgImp_kept (b : BufferPoolManagerInstance) (q P : Int) (D : List Nat)
    (hb : BpmInv b) (h : BytesKept b P D) : BytesKept (FetchPgImp b q).2 P D := by
  have hk := GetPg_kept b P D h
  unfold FetchPgImp
  split
  · rename_i f hf
    obtain ⟨h2, h3⟩ := h
    refine ⟨h2, ?_⟩
    intro x hx
    have := h3 x hx
    by_cases hxf : x = f
    · subst hxf; simpa [setAt] using this
    · simpa [setAt, hxf] using this
  · split
    · rename_i g b1 hg
      rw [hg] at hk
      obtain ⟨he, -, -, -⟩ := GetPg_some b b1 g hb hg
      obtain ⟨k2, k3⟩ := hk
      refine ⟨k2, ?_⟩
      intro x hx
      unfold FindPg at hx
      simp only at hx
      rw [tableFind_set] at hx
      by_cases hPq : P = q
      · subst hPq
        simp only [if_true, Option.some.injEq] at hx
        subst hx
        simpa [setAt] using k2
      · simp only [hPq, if_false] at hx
        have hxg : x ≠ g := fun e => he.g_unmapped P (e ▸ hx)
        simp only [setAt, hxg, if_false]
        exact k3 x hx
    · rename_i b1 hg
      rw [hg] at hk; exact hk

theorem DeletePgImp_kept (b : BufferPoolManagerInstance) (q P : Int) (D : List Nat)
    (hb : BpmInv b) (hq : q ≠ P) (h : BytesKept b P D) : BytesKept (DeletePgImp b q).2 P D := by
  unfold DeletePgImp
  split
  · exact h
  · rename_i f hf
    split
    · exact h
    · obtain ⟨h2, h3⟩ := h
      refine ⟨h2, ?_⟩
      intro x hx
      unfold FindPg at hx hf
      simp only at hx
      rw [tableFind_erase] at hx
      split at hx
      · simp at hx
      · have hxf : x ≠ f := by
          intro e; subst e
          exact hq ((hb.mapped q x hf).2.1.symm.trans (hb.mapped P x hx).2.1)
        simp only [setAt, hxf, if_false]
        exact h3 x hx

theorem UnpinPgImp_kept (b : BufferPoolManagerInstance) (q P : Int) (d : Bool) (D : List Nat)
    (h : BytesKept b P D) : BytesKept (UnpinPgImp b q d).2 P D := by
  unfold UnpinPgImp
  split
  · exact h
  · rename_i f hf
    split
    · exact h
    · have hmid : BytesKept { b with
          pages := setAt b.pages f
            { b.pages f with is_dirty := d, pin_count := (b.pages f).pin_count - 1 } } P D := by
        obtain ⟨h2, h3⟩ := h
        refine ⟨h2, ?_⟩
        intro x hx
        have := h3 x hx
        by_cases hxf : x = f
        · subst hxf; simpa [setAt] using this
        · simpa [setAt, hxf] using this
      dsimp only
      split
      · apply FlushPg_kept
        exact hmid
      · exact hmid

theorem WriteData_kept (b : BufferPoolManagerInstance) (q P : Int) (bytes D : List Nat)
    (hb : BpmInv b) (hq : q ≠ P) (h : BytesKept b P D) : BytesKept (WriteData b q bytes) P D := by
  unfold WriteData
  split
  · exact h
  · rename_i f hf
    obtain ⟨h2, h3⟩ := h
    refine ⟨h2, ?_⟩
    intro x hx
    unfold FindPg at hx hf
    simp only at hx
    have hxf : x ≠ f := by
      intro e; subst e
      exact hq ((hb.mapped q x hf).2.1.symm.trans (hb.mapped P x hx).2.1)
    simp only [setAt, hxf, if_false]
    exact h3 x hx

theorem BpmOp_apply_kept (b : BufferPoolManagerInstance) (op : BpmOp) (P : Int) (D : List Nat)
    (hb : BpmInv b) (hl : op.Leaves P) (hs : op.Spares P b) (h : BytesKept b P D) :
    BytesKept (op.apply b) P D := by
  cases op with
  | NewPage => exact NewPgImp_kept b P D hb hs h
  | FetchPage p => exact FetchPgImp_kept b p P D hb h
  | UnpinPage p d => exact UnpinPgImp_kept b p P d D h
  | FlushPage p => exact FlushPgImp_kept b p P D h
  | FlushAllPages => exact foldl_FlushPgImp_kept _ b P D h
  | DeletePage p => exact DeletePgImp_kept b p P D hb hl h
  | WriteData p bytes => exact WriteData_kept b p P bytes D hb hl h

theorem runOps_kept (ops : List BpmOp) (b : BufferPoolManagerInstance) (P : Int) (D : List Nat)
    (hb : BpmInv b) (hd : FreshRun b ops) (hs : SparesRun P b ops)
    (hl : ∀ op ∈ ops, op.Leaves P)
    (h : BytesKept b P D) : BytesKept (runOps b ops) P D := by
  induction ops generalizing b with
  | nil => exact h
  | cons op tl ih =>
    obtain ⟨d1, d2⟩ := hd
    obtain ⟨s1, s2⟩ := hs
    exact ih (op.apply b) (BpmOp_apply_inv b op hb d1) d2 s2
      (fun o ho => hl o (List.mem_cons_of_mem _ ho))
      (BpmOp_apply_kept b op P D hb (hl op (List.mem_cons_self _ _)) s1 h)

/-- After `FetchPgImp` returns a frame, the page table maps the page to it. -/
theorem FetchPgImp_maps (b : BufferPoolManagerInstance) (p : Int) (f : Nat)
    (h : (FetchPgImp b p).1 = some f) : FindPg (FetchPgImp b p).2 p = some f := by
  unfold FetchPgImp at h ⊢
  split
  · rename_i g hg
    rw [hg] at h
    simp only [Option.some.injEq] at h
    subst h
    exact hg
  · rename_i hn
    rw [hn] at h
    simp only at h
    split
    · rename_i g b1 hg
      rw [hg] at h
      simp only [Option.some.injEq] at h
      subst h
      unfold FindPg
      simp only
      rw [tableFind_set]; simp
    · rename_i b1 hg
      rw [hg] at h
      simp at h

/-- The last unpin of a page as dirty writes its bytes to disk. -/
theorem UnpinPgImp_dirty_kept (b : BufferPoolManagerInstance) (P : Int) (f : Nat)
    (hres : FindPg b P = some f) (hu : (UnpinPgImp b P true).1 = true)
    (hpin : ((UnpinPgImp b P true).2.pages f).pin_count = 0) :
    BytesKept (UnpinPgImp b P true).2 P (b.pages f).data := by
  unfold UnpinPgImp at hu hpin ⊢
  rw [hres] at hu hpin ⊢
  simp only at hu hpin ⊢
  split
  · rename_i h0
    rw [if_pos h0] at hu
    simp at hu
  · rename_i h0
    rw [if_neg h0] at hpin
    split
    · rename_i h1
      unfold FlushPg FindPg
      simp only
      unfold FindPg at hres
      rw [hres]
      simp only [setAt, if_true]
      refine ⟨?_, ?_⟩
      · simp [Disk.WritePage]
      · intro x hx
        unfold FindPg at hx
        simp only [hres, Option.some.injEq] at hx
        subst hx
        simp [setAt]
    · rename_i h1
      rw [if_neg h1] at hpin
      exact absurd hpin h1

/-- C7 (fails on the code as worded): on a pool of one frame, page 1 is fetched
without having been handed out by `NewPage`, the bytes `sevenData` are written
to its frame, and `UnpinPage(1, true)` returns true and brings its pin count to
0.  `NewPage` then evicts page 1 to make room for page 0, which is unpinned; the
next `NewPage` evicts page 0 and hands out the id 1 for a zeroed page.  No call
deletes page 1 or indexes `pages_` out of bounds.  The next `FetchPage(1)`
returns frame 0, whose bytes are not `sevenData`. -/
theorem fetch_after_reallocated_id_returns_zeros :
    FindPg (runOps pool1 [.FetchPage 1, .WriteData 1 sevenData]) 1 = some 0 ∧
    ((runOps pool1 [.FetchPage 1, .WriteData 1 sevenData]).pages 0).data = sevenData ∧
    (UnpinPgImp (runOps pool1 [.FetchPage 1, .WriteData 1 sevenData]) 1 true).1 = true ∧
    ((UnpinPgImp (runOps pool1 [.FetchPage 1, .WriteData 1 sevenData]) 1 true).2.pages
      0).pin_count = 0 ∧
    FindPg (runOps (UnpinPgImp (runOps pool1 [.FetchPage 1, .WriteData 1 sevenData]) 1 true).2
      [.NewPage]) 1 = none ∧
    (NewPgImp (runOps (UnpinPgImp (runOps pool1 [.FetchPage 1, .WriteData 1 sevenData]) 1
      true).2 [.NewPage, .UnpinPage 0 false])).1 = some (0, 1) ∧
    (FetchPgImp (runOps (UnpinPgImp (runOps pool1 [.FetchPage 1, .WriteData 1 sevenData]) 1
      true).2 [.NewPage, .UnpinPage 0 false, .NewPage]) 1).1 = some 0 ∧
    (FetchPgImp (runOps (UnpinPgImp (runOps pool1 [.FetchPage 1, .WriteData 1 sevenData]) 1
      true).2 [.NewPage, .UnpinPage 0 false, .NewPage]) 1).2.out_of_bounds = false ∧
    ((FetchPgImp (runOps (UnpinPgImp (runOps pool1 [.FetchPage 1, .WriteData 1 sevenData]) 1
      true).2 [.NewPage, .UnpinPage 0 false, .NewPage]) 1).2.pages 0).data ≠ sevenData := by
  refine ⟨by decide, rfl, by decide, by decide, by decide, by decide, by decide, by decide, ?_⟩
  decide

/-- C7 (amended): let a state be reached from construction by calls among which
no `NewPage` was handed an id that was in the page table at that moment; let
page `P` be resident there with bytes `D`, and let `UnpinPage(P, true)` return
true and bring the pin count of `P` to 0.  After any further calls that neither
delete `P` nor write to it, among which no `NewPage` is handed an id that is in
the page table or the id `P` itself, in particular calls that evict `P` to make
room for other pages, a `FetchPage(P)` that returns a frame returns one whose
bytes are `D`, and no call has indexed `pages_` out of bounds. -/
theorem dirty_write_back_round_trip (pool_size num_instances instance_index : Nat)
    (disk : Disk) (ops1 ops2 : List BpmOp) (P : Int) (D : List Nat) (f0 f : Nat)
    (h1 : FreshRun (BufferPoolManagerInstance.init pool_size num_instances instance_index disk)
      ops1)
    (hres : FindPg
      (runOps (BufferPoolManagerInstance.init pool_size num_instances instance_index disk) ops1)
      P = some f0)
    (hD : ((runOps (BufferPoolManagerInstance.init pool_size num_instances instance_index disk)
      ops1).pages f0).data = D)
    (hu : (UnpinPgImp
      (runOps (BufferPoolManagerInstance.init pool_size num_instances instance_index disk) ops1)
      P true).1 = true)
    (hpin : ((UnpinPgImp
      (runOps (BufferPoolManagerInstance.init pool_size num_instances instance_index disk) ops1)
      P true).2.pages f0).pin_count = 0)
    (h2 : FreshRun (UnpinPgImp
      (runOps (BufferPoolManagerInstance.init pool_size num_instances instance_index disk) ops1)
      P true).2 ops2)
    (hs : SparesRun P (UnpinPgImp
      (runOps (BufferPoolManagerInstance.init pool_size num_instances instance_index disk) ops1)
      P true).2 ops2)
    (hl : ∀ op ∈ ops2, op.Leaves P)
    (hfetch : (FetchPgImp (runOps (UnpinPgImp
      (runOps (BufferPoolManagerInstance.init pool_size num_instances instance_index disk) ops1)
      P true).2 ops2) P).1 = some f) :
    ((FetchPgImp (runOps (UnpinPgImp
      (runOps (BufferPoolManagerInstance.init pool_size num_instances instance_index disk) ops1)
      P true).2 ops2) P).2.pages f).data = D ∧
    (FetchPgImp (runOps (UnpinPgImp
      (runOps (BufferPoolManagerInstance.init pool_size num_instances instance_index disk) ops1)
      P true).2 ops2) P).2.out_of_bounds = false := by
  have hb := runOps_inv ops1 _ (BpmInv_init pool_size num_instances instance_index disk) h1
  have hb1 := UnpinPgImp_inv _ P true hb
  have hk := UnpinPgImp_dirty_kept _ P f0 hres hu hpin
  rw [hD] at hk
  have hb2 := runOps_inv ops2 _ hb1 h2
  have hk2 := runOps_kept ops2 _ P D hb1 h2 hs hl hk
  have hk3 := FetchPgImp_kept _ P P D hb2 hk2
  refine ⟨hk3.2 f (FetchPgImp_maps _ P f hfetch), ?_⟩
  have e1 := BpmOp_apply_defined _ (.FetchPage P) hb2
  have e2 := runOps_defined ops2 _ hb1 h2
  have e3 := BpmOp_apply_defined _ (.UnpinPage P true) hb
  have e4 := runOps_defined ops1 _ (BpmInv_init pool_size num_instances instance_index disk) h1
  simp only [BpmOp.apply] at e1 e3
  rw [e1, e2, e3, e4]
  rfl

/-- Witness of `dirty_write_back_round_trip`: a pool of one frame; page 0 is
created, written and unpinned as dirty; page 1 is created, which evicts page 0,
and unpinned; `FetchPage(0)` then returns the bytes written. -/
theorem dirty_write_back_round_trip_witness :
    FindPg (runOps (UnpinPgImp
      (runOps (BufferPoolManagerInstance.init 1 1 0 zeroDisk) [.NewPage, .WriteData 0 sevenData])
      0 true).2 [.NewPage, .UnpinPage 1 false]) 0 = none ∧
    ((FetchPgImp (runOps (UnpinPgImp
      (runOps (BufferPoolManagerInstance.init 1 1 0 zeroDisk) [.NewPage, .WriteData 0 sevenData])
      0 true).2 [.NewPage, .UnpinPage 1 false]) 0).2.pages 0).data = sevenData :=
  ⟨by decide,
    (dirty_write_back_round_trip 1 1 0 zeroDisk [.NewPage, .WriteData 0 sevenData]
      [.NewPage, .UnpinPage 1 false] 0 sevenData 0 0 (by decide) (by decide) rfl
      (by decide) (by decide) (by decide) (by decide) (by decide) (by decide)).1⟩

/-! ## Bucket page: bit level -/

theorem and_one_shiftLeft_ne_zero (x k : Nat) : ((x &&& (1 <<< k)) != 0) = x.testBit k := by
  rw [Nat.one_shiftLeft, Nat.and_two_pow]
  cases h : x.testBit k
  · simp
  · have : 2 ^ k ≠ 0 := by positivity
    simp [this]

theorem split_index (i j : Nat) : (i >>> 3 = j >>> 3 ∧ i &&& 7 = j &&& 7) ↔ i = j := by
  have e7 : ∀ x : Nat, x &&& 7 = x % 8 := fun x => Nat.and_pow_two_sub_one_eq_mod x 3
  have e3 : ∀ x : Nat, x >>> 3 = x / 8 := fun x => Nat.shiftRight_eq_div_pow x 3
  rw [e7, e7, e3, e3]
  constructor
  · intro ⟨h1, h2⟩; omega
  · intro h; subst h; exact ⟨rfl, rfl⟩

theorem and_seven_lt (i : Nat) : i &&& 7 < 8 := by
  have : i &&& 7 = i % 8 := Nat.and_pow_two_sub_one_eq_mod i 3
  omega

theorem testBit_toChar (x m : Nat) : (toChar x).val.testBit m = (decide (m < 8) && x.testBit m) := by
  show (x % 2 ^ 8).testBit m = _
  rw [Nat.testBit_mod_two_pow]

theorem testBit_255 (m : Nat) : (255 : Nat).testBit m = decide (m < 8) := by
  have : (255 : Nat) = 2 ^ 8 - 1 := by norm_num
  rw [this, Nat.testBit_two_pow_sub_one]

theorem testBit_byte_ge (c : Fin 256) (m : Nat) (h : 8 ≤ m) : c.val.testBit m = false := by
  apply Nat.testBit_lt_two_pow
  calc c.val < 256 := c.isLt
    _ = 2 ^ 8 := by norm_num
    _ ≤ 2 ^ m := Nat.pow_le_pow_right (by norm_num) h

section BucketBits

variable {K V : Type}

theorem IsReadable_eq (b : HashTableBucketPage K V) (i : Nat) :
    b.IsReadable i = (b.readable (i >>> 3)).val.testBit (i &&& 7) :=
  and_one_shiftLeft_ne_zero _ _

theorem IsOccupied_eq (b : HashTableBucketPage K V) (i : Nat) :
    b.IsOccupied i = (b.occupied (i >>> 3)).val.testBit (i &&& 7) :=
  and_one_shiftLeft_ne_zero _ _

theorem IsReadable_SetReadable (b : HashTableBucketPage K V) (i j : Nat) :
    (b.SetReadable i).IsReadable j = (decide (j = i) || b.IsReadable j) := by
  rw [IsReadable_eq, IsReadable_eq]
  simp only [HashTableBucketPage.SetReadable, setAt]
  by_cases hb : j >>> 3 = i >>> 3
  · rw [if_pos hb, testBit_toChar, Nat.testBit_or, Nat.one_shiftLeft, Nat.testBit_two_pow, hb]
    have h8 := and_seven_lt j
    by_cases hm : i &&& 7 = j &&& 7
    · have : j = i := (split_index j i).mp ⟨hb, hm.symm⟩
      simp [h8, hm, this]
    · have : j ≠ i := fun e => hm (by rw [e])
      simp [h8, hm, this]
  · rw [if_neg hb]
    have : j ≠ i := fun e => hb (by rw [e])
    simp [this]

theorem IsReadable_RemoveAt (b : HashTableBucketPage K V) (i j : Nat) :
    (b.RemoveAt i).IsReadable j = (!decide (j = i) && b.IsReadable j) := by
  rw [IsReadable_eq, IsReadable_eq]
  simp only [HashTableBucketPage.RemoveAt, setAt]
  by_cases hb : j >>> 3 = i >>> 3
  · rw [if_pos hb, testBit_toChar, Nat.testBit_and, Nat.testBit_xor, testBit_255,
      Nat.one_shiftLeft, Nat.testBit_two_pow, hb]
    have h8 := and_seven_lt j
    by_cases hm : i &&& 7 = j &&& 7
    · have : j = i := (split_index j i).mp ⟨hb, hm.symm⟩
      simp [h8, hm, this]
    · have : j ≠ i := fun e => hm (by rw [e])
      simp [h8, hm, this]
  · rw [if_neg hb]
    have : j ≠ i := fun e => hb (by rw [e])
    simp [this]

theorem IsOccupied_SetOccupied (b : HashTableBucketPage K V) (i j : Nat) :
    (b.SetOccupied i).IsOccupied j = (decide (j = i) || b.IsOccupied j) := by
  rw [IsOccupied_eq, IsOccupied_eq]
  simp only [HashTableBucketPage.SetOccupied, setAt]
  by_cases hb : j >>> 3 = i >>> 3
  · rw [if_pos hb, testBit_toChar, Nat.testBit_or, Nat.one_shiftLeft, Nat.testBit_two_pow, hb]
    have h8 := and_seven_lt j
    by_cases hm : i &&& 7 = j &&& 7
    · have : j = i := (split_index j i).mp ⟨hb, hm.symm⟩
      simp [h8, hm, this]
    · have : j ≠ i := fun e => hm (by rw [e])
      simp [h8, hm, this]
  · rw [if_neg hb]
    have : j ≠ i := fun e => hb (by rw [e])
    simp [this]

theorem IsReadable_SetOccupied (b : HashTableBucketPage K V) (i j : Nat) :
    (b.SetOccupied i).IsReadable j = b.IsReadable j := rfl

theorem IsOccupied_SetReadable (b : HashTableBucketPage K V) (i j : Nat) :
    (b.SetReadable i).IsOccupied j = b.IsOccupied j := rfl

theorem IsOccupied_RemoveAt (b : HashTableBucketPage K V) (i j : Nat) :
    (b.RemoveAt i).IsOccupied j = b.IsOccupied j := rfl

theorem array_RemoveAt (b : HashTableBucketPage K V) (i : Nat) :
    (b.RemoveAt i).array = b.array := rfl

theorem IsReadable_zero [Inhabited K] [Inhabited V] (j : Nat) :
    (HashTableBucketPage.zero : HashTableBucketPage K V).IsReadable j = false := by
  rw [IsReadable_eq]
  simp [HashTableBucketPage.zero]

theorem IsOccupied_zero [Inhabited K] [Inhabited V] (j : Nat) :
    (HashTableBucketPage.zero : HashTableBucketPage K V).IsOccupied j = false := by
  rw [IsOccupied_eq]
  simp [HashTableBucketPage.zero]

end BucketBits

/-! ## Bucket page: slots -/

section BucketSlots

variable {K V : Type}

theorem BucketInv.readable_lt {B : Nat} {b : HashTableBucketPage K V} (hb : BucketInv B b)
    (i : Nat) (h : b.IsReadable i = true) : i < B :=
  hb.occupied_lt i (hb.readable_occupied i h)

theorem BucketInv_zero [Inhabited K] [Inhabited V] (B : Nat) :
    BucketInv B (HashTableBucketPage.zero : HashTableBucketPage K V) := by
  refine ⟨?_, ?_, ?_⟩
  · intro i h; rw [IsReadable_zero] at h; simp at h
  · intro i j h; rw [IsOccupied_zero] at h; simp at h
  · intro i h; rw [IsOccupied_zero] at h; simp at h

theorem BucketInv_RemoveAt {B : Nat} {b : HashTableBucketPage K V} (hb : BucketInv B b)
    (i : Nat) : BucketInv B (b.RemoveAt i) := by
  refine ⟨?_, hb.occupied_closed, hb.occupied_lt⟩
  intro j h
  rw [IsReadable_RemoveAt] at h
  simp only [Bool.and_eq_true] at h
  exact hb.readable_occupied j h.2

theorem IsReadable_put (b : HashTableBucketPage K V) (r : Nat) (key : K) (value : V) (j : Nat) :
    (b.put r key value).IsReadable j = (decide (j = r) || b.IsReadable j) := by
  unfold HashTableBucketPage.put
  rw [IsReadable_SetReadable, IsReadable_SetOccupied]
  rfl

theorem IsOccupied_put (b : HashTableBucketPage K V) (r : Nat) (key : K) (value : V) (j : Nat) :
    (b.put r key value).IsOccupied j = (decide (j = r) || b.IsOccupied j) := by
  unfold HashTableBucketPage.put
  rw [IsOccupied_SetReadable, IsOccupied_SetOccupied]
  rfl

theorem array_put (b : HashTableBucketPage K V) (r : Nat) (key : K) (value : V) (j : Nat) :
    (b.put r key value).array j = if j = r then (key, value) else b.array j := rfl

theorem BucketInv_put {B : Nat} {b : HashTableBucketPage K V} (hb : BucketInv B b)
    (r : Nat) (key : K) (value : V) (hr : r < B)
    (hlow : ∀ j, j < r → b.IsReadable j = true) : BucketInv B (b.put r key value) := by
  refine ⟨?_, ?_, ?_⟩
  · intro i h
    rw [IsReadable_put] at h
    rw [IsOccupied_put]
    simp only [Bool.or_eq_true, decide_eq_true_eq] at h ⊢
    rcases h with h | h
    · exact Or.inl h
    · exact Or.inr (hb.readable_occupied i h)
  · intro i j h hji
    rw [IsOccupied_put] at h ⊢
    simp only [Bool.or_eq_true, decide_eq_true_eq] at h ⊢
    rcases h with h | h
    · subst h; exact Or.inr (hb.readable_occupied j (hlow j hji))
    · exact Or.inr (hb.occupied_closed i j h hji)
  · intro i h
    rw [IsOccupied_put] at h
    simp only [Bool.or_eq_true, decide_eq_true_eq] at h
    rcases h with h | h
    · subst h; exact hr
    · exact hb.occupied_lt i h

theorem ValueAt_readable [Inhabited V] (b : HashTableBucketPage K V) (i : Nat)
    (h : b.IsReadable i = true) : b.ValueAt i = (b.array i).2 := by
  simp [HashTableBucketPage.ValueAt, h]

theorem KeyAt_readable [Inhabited K] (b : HashTableBucketPage K V) (i : Nat)
    (h : b.IsReadable i = true) : b.KeyAt i = (b.array i).1 := by
  simp [HashTableBucketPage.KeyAt, h]

/-- When the `Insert` loop returns false, a readable slot it visited holds the
pair. -/
theorem insertLoop_none [DecidableEq K] [DecidableEq V] [Inhabited V] (B : Nat)
    (b : HashTableBucketPage K V) (key : K) (value : V) (n i idx : Nat)
    (h : b.insertLoop B key value n i idx = none) :
    ∃ j, i ≤ j ∧ j < i + n ∧ b.IsReadable j = true ∧ b.array j = (key, value) := by
  induction n generalizing i idx with
  | zero => simp [HashTableBucketPage.insertLoop] at h
  | succ n ih =>
    unfold HashTableBucketPage.insertLoop at h
    split at h
    · rename_i hr
      split at h
      · rename_i hd
        refine ⟨i, le_refl _, by omega, hr, ?_⟩
        rw [ValueAt_readable b i hr] at hd
        exact Prod.ext hd.1 hd.2
      · obtain ⟨j, h1, h2, h3, h4⟩ := ih (i + 1) idx h
        exact ⟨j, by omega, by omega, h3, h4⟩
    · simp only at h
      split at h
      · simp at h
      · obtain ⟨j, h1, h2, h3, h4⟩ := ih (i + 1) _ h
        exact ⟨j, by omega, by omega, h3, h4⟩

/-- When the `Insert` loop ends with `idx = r`: no readable slot from `i` on
holds the pair, and `r` is the incoming `idx` if that was set, else the lowest
slot from `i` on that is not readable, else `B`. -/
theorem insertLoop_some [DecidableEq K] [DecidableEq V] [Inhabited V] (B : Nat)
    (b : HashTableBucketPage K V) (hb : BucketInv B b) (key : K) (value : V) (n i idx r : Nat)
    (hn : i + n = B) (h : b.insertLoop B key value n i idx = some r) :
    (∀ j, i ≤ j → b.IsReadable j = true → b.array j ≠ (key, value)) ∧
    (idx ≠ B → r = idx) ∧
    (idx = B →
      (r = B ∧ ∀ j, i ≤ j → j < B → b.IsReadable j = true) ∨
      (i ≤ r ∧ r < B ∧ b.IsReadable r = false ∧ ∀ j, i ≤ j → j < r → b.IsReadable j = true)) := by
  induction n generalizing i idx with
  | zero =>
    simp only [HashTableBucketPage.insertLoop, Option.some.injEq] at h
    subst h
    refine ⟨?_, fun _ => rfl, ?_⟩
    · intro j hj hrj
      have := hb.readable_lt j hrj
      omega
    · intro hi
      left
      exact ⟨hi, fun j h1 h2 => by omega⟩
  | succ n ih =>
    unfold HashTableBucketPage.insertLoop at h
    split at h
    · rename_i hr
      split at h
      · simp at h
      · rename_i hd
        obtain ⟨a1, a2, a3⟩ := ih (i + 1) idx (by omega) h
        refine ⟨?_, a2, ?_⟩
        · intro j hj hrj
          by_cases hji : j = i
          · subst hji
            intro he
            apply hd
            rw [ValueAt_readable b j hr, he]
            exact ⟨rfl, rfl⟩
          · exact a1 j (by omega) hrj
        · intro hi
          rcases a3 hi with ⟨b1, b2⟩ | ⟨b1, b2, b3, b4⟩
          · left
            refine ⟨b1, ?_⟩
            intro j h1 h2
            by_cases hji : j = i
            · subst hji; exact hr
            · exact b2 j (by omega) h2
          · right
            refine ⟨by omega, b2, b3, ?_⟩
            intro j h1 h2
            by_cases hji : j = i
            · subst hji; exact hr
            · exact b4 j (by omega) h2
    · rename_i hr
      simp only [Bool.not_eq_true] at hr
      simp only at h
      have hnone : ∀ j, i ≤ j → b.IsOccupied i = false → b.IsReadable j = true → False := by
        intro j hj ho hrj
        have hoj := hb.readable_occupied j hrj
        by_cases hji : j = i
        · subst hji; rw [ho] at hoj; simp at hoj
        · have := hb.occupied_closed j i hoj (by omega)
          rw [ho] at this; simp at this
      split at h
      · rename_i ho
        simp only [Bool.not_eq_true', ] at ho
        simp only [Option.some.injEq] at h
        refine ⟨?_, ?_, ?_⟩
        · intro j hj hrj
          exact (hnone j hj ho hrj).elim
        · intro hi; rw [if_neg hi] at h; exact h.symm
        · intro hi
          rw [if_pos hi] at h
          right
          subst h
          exact ⟨le_refl _, by omega, hr, fun j h1 h2 => by omega⟩
      · rename_i ho
        obtain ⟨a1, a2, a3⟩ := ih (i + 1) _ (by omega) h
        refine ⟨?_, ?_, ?_⟩
        · intro j hj hrj
          by_cases hji : j = i
          · subst hji; rw [hr] at hrj; simp at hrj
          · exact a1 j (by omega) hrj
        · intro hi
          rw [if_neg hi] at a2
          exact a2 hi
        · intro hi
          rw [if_pos hi] at a2
          have hiB : i ≠ B := by omega
          have := a2 hiB
          right
          subst this
          exact ⟨le_refl _, by omega, hr, fun j h1 h2 => by omega⟩

/-- The three outcomes of `Insert` on a well-formed bucket: the pair is already
held; no slot is free; or the pair goes to the lowest slot that is not
readable. -/
theorem Insert_cases [DecidableEq K] [DecidableEq V] [Inhabited V] (B : Nat)
    (b : HashTableBucketPage K V) (hb : BucketInv B b) (key : K) (value : V) :
    (b.Holds B key value ∧ b.Insert B key value = (false, b)) ∨
    (¬ b.Holds B key value ∧ (∀ j, j < B → b.IsReadable j = true) ∧
      b.Insert B key value = (false, b)) ∨
    (∃ r, r < B ∧ ¬ b.Holds B key value ∧ b.IsReadable r = false ∧
      (∀ j, j < r → b.IsReadable j = true) ∧
      b.Insert B key value = (true, b.put r key value)) := by
  unfold HashTableBucketPage.Insert
  cases h : b.insertLoop B key value B 0 B with
  | none =>
    left
    obtain ⟨j, -, h2, h3, h4⟩ := insertLoop_none B b key value B 0 B h
    exact ⟨⟨j, by omega, h3, h4⟩, rfl⟩
  | some r =>
    right
    obtain ⟨a1, -, a3⟩ := insertLoop_some B b hb key value B 0 B r (by omega) h
    have hnot : ¬ b.Holds B key value := by
      rintro ⟨j, h1, h2, h3⟩
      exact a1 j (Nat.zero_le _) h2 h3
    rcases a3 rfl with ⟨b1, b2⟩ | ⟨b1, b2, b3, b4⟩
    · left
      refine ⟨hnot, fun j hj => b2 j (Nat.zero_le _) hj, ?_⟩
      simp [b1]
    · right
      refine ⟨r, b2, hnot, b3, fun j hj => b4 j (Nat.zero_le _) hj, ?_⟩
      have : r ≠ B := by omega
      simp only [this, if_false]
      rfl

/-- Whatever `Insert` does, its result is well-formed. -/
theorem BucketInv_Insert [DecidableEq K] [DecidableEq V] [Inhabited V] (B : Nat)
    (b : HashTableBucketPage K V) (hb : BucketInv B b) (key : K) (value : V) :
    BucketInv B (b.Insert B key value).2 := by
  rcases Insert_cases B b hb key value with ⟨-, h⟩ | ⟨-, -, h⟩ | ⟨r, h1, -, -, h4, h⟩
  · rw [h]; exact hb
  · rw [h]; exact hb
  · rw [h]; exact BucketInv_put hb r key value h1 h4

/-- A pair the bucket holds is refused by `Insert`, whatever the bucket. -/
theorem Insert_held [DecidableEq K] [DecidableEq V] [Inhabited V] (B : Nat)
    (b : HashTableBucketPage K V) (hb : BucketInv B b) (key : K) (value : V)
    (h : b.Holds B key value) : b.Insert B key value = (false, b) := by
  rcases Insert_cases B b hb key value with ⟨-, h1⟩ | ⟨h0, -, -⟩ | ⟨r, -, h0, -⟩
  · exact h1
  · exact absurd h h0
  · exact absurd h h0

end BucketSlots

section BucketScan

variable {K V : Type}

/-- The `GetValue` loop on a well-formed bucket: the flag is set exactly when it
was set or a readable slot from `i` on has the key, and the values appended are
those of the readable slots from `i` on with the key. -/
theorem getValueLoop_spec [DecidableEq K] (B : Nat) (b : HashTableBucketPage K V)
    (hb : BucketInv B b) (key : K) (n i : Nat) (done : Bool) (result : List V)
    (hn : i + n = B) :
    ((b.getValueLoop key n i done result).1 = true ↔
      (done = true ∨ ∃ j, i ≤ j ∧ b.IsReadable j = true ∧ (b.array j).1 = key)) ∧
    (∀ v, v ∈ (b.getValueLoop key n i done result).2 ↔
      (v ∈ result ∨ ∃ j, i ≤ j ∧ b.IsReadable j = true ∧ b.array j = (key, v))) := by
  induction n generalizing i done result with
  | zero =>
    simp only [HashTableBucketPage.getValueLoop]
    have hno : ∀ j, i ≤ j → b.IsReadable j = true → False := by
      intro j hj hr
      have := hb.readable_lt j hr
      omega
    constructor
    · constructor
      · intro h; exact Or.inl h
      · rintro (h | ⟨j, h1, h2, -⟩)
        · exact h
        · exact (hno j h1 h2).elim
    · intro v
      constructor
      · intro h; exact Or.inl h
      · rintro (h | ⟨j, h1, h2, -⟩)
        · exact h
        · exact (hno j h1 h2).elim
  | succ n ih =>
    unfold HashTableBucketPage.getValueLoop
    simp only
    by_cases ho : b.IsOccupied i = true
    · simp only [ho, Bool.not_true, Bool.false_eq_true, if_false]
      obtain ⟨a1, a2⟩ := ih (i + 1)
        (if (b.IsReadable i && decide ((b.array i).1 = key)) = true then true else done)
        (if (b.IsReadable i && decide ((b.array i).1 = key)) = true then
          result ++ [(b.array i).2] else result) (by omega)
      constructor
      · rw [a1]
        constructor
        · rintro (h | ⟨j, h1, h2, h3⟩)
          · split at h
            · rename_i hh
              simp only [Bool.and_eq_true, decide_eq_true_eq] at hh
              exact Or.inr ⟨i, le_refl _, hh.1, hh.2⟩
            · exact Or.inl h
          · exact Or.inr ⟨j, by omega, h2, h3⟩
        · rintro (h | ⟨j, h1, h2, h3⟩)
          · left; split
            · rfl
            · exact h
          · by_cases hji : j = i
            · subst hji
              left
              simp [h2, h3]
            · exact Or.inr ⟨j, by omega, h2, h3⟩
      · intro v
        rw [a2]
        constructor
        · rintro (h | ⟨j, h1, h2, h3⟩)
          · split at h
            · rename_i hh
              simp only [Bool.and_eq_true, decide_eq_true_eq] at hh
              simp only [List.mem_append, List.mem_singleton] at h
              rcases h with h | h
              · exact Or.inl h
              · right
                refine ⟨i, le_refl _, hh.1, ?_⟩
                rw [h]
                exact Prod.ext hh.2 rfl
            · exact Or.inl h
          · exact Or.inr ⟨j, by omega, h2, h3⟩
        · rintro (h | ⟨j, h1, h2, h3⟩)
          · left
            split
            · exact List.mem_append_left _ h
            · exact h
          · by_cases hji : j = i
            · subst hji
              left
              simp [h2, h3]
            · exact Or.inr ⟨j, by omega, h2, h3⟩
    · simp only [Bool.not_eq_true] at ho
      have hri : b.IsReadable i = false := by
        cases h : b.IsReadable i
        · rfl
        · have := hb.readable_occupied i h
          rw [ho] at this; simp at this
      have hno : ∀ j, i ≤ j → b.IsReadable j = true → False := by
        intro j hj hr
        have hoj := hb.readable_occupied j hr
        by_cases hji : j = i
        · subst hji; rw [ho] at hoj; simp at hoj
        · have := hb.occupied_closed j i hoj (by omega)
          rw [ho] at this; simp at this
      simp only [ho, hri, Bool.not_false, if_true, Bool.false_and, Bool.false_eq_true, if_false]
      constructor
      · constructor
        · intro h; exact Or.inl h
        · rintro (h | ⟨j, h1, h2, -⟩)
          · exact h
          · exact (hno j h1 h2).elim
      · intro v
        constructor
        · intro h; exact Or.inl h
        · rintro (h | ⟨j, h1, h2, -⟩)
          · exact h
          · exact (hno j h1 h2).elim

/-- `GetValue` on a well-formed bucket returns true exactly when a readable slot
has the key. -/
theorem GetValue_true_iff [DecidableEq K] (B : Nat) (b : HashTableBucketPage K V)
    (hb : BucketInv B b) (key : K) (result : List V) :
    (b.GetValue B key result).1 = true ↔
      ∃ j, j < B ∧ b.IsReadable j = true ∧ (b.array j).1 = key := by
  unfold HashTableBucketPage.GetValue
  rw [(getValueLoop_spec B b hb key B 0 false result (by omega)).1]
  constructor
  · rintro (h | ⟨j, -, h2, h3⟩)
    · simp at h
    · exact ⟨j, hb.readable_lt j h2, h2, h3⟩
  · rintro ⟨j, -, h2, h3⟩
    exact Or.inr ⟨j, Nat.zero_le _, h2, h3⟩

/-- `GetValue` on a well-formed bucket, started with an empty vector, returns
`value` among its results exactly when the bucket holds `(key, value)`. -/
theorem GetValue_mem_iff [DecidableEq K] (B : Nat) (b : HashTableBucketPage K V)
    (hb : BucketInv B b) (key : K) (value : V) :
    value ∈ (b.GetValue B key []).2 ↔ b.Holds B key value := by
  unfold HashTableBucketPage.GetValue HashTableBucketPage.Holds
  rw [(getValueLoop_spec B b hb key B 0 false [] (by omega)).2]
  constructor
  · rintro (h | ⟨j, -, h2, h3⟩)
    · simp at h
    · exact ⟨j, hb.readable_lt j h2, h2, h3⟩
  · rintro ⟨j, -, h2, h3⟩
    exact Or.inr ⟨j, Nat.zero_le _, h2, h3⟩

theorem BucketInv_Remove [DecidableEq K] [DecidableEq V] [Inhabited K] [Inhabited V] (B : Nat)
    (b : HashTableBucketPage K V) (hb : BucketInv B b) (key : K) (value : V) :
    BucketInv B (b.Remove B key value).2 := by
  unfold HashTableBucketPage.Remove
  split
  · exact BucketInv_RemoveAt hb _
  · exact hb

end BucketScan

/-! ## Bucket page: `IsFull`, `IsEmpty`, `NumReadable` -/

section BucketFull

variable {K V : Type}

theorem slot_of_byte (n t : Nat) (ht : t < 8) : (8 * n + t) >>> 3 = n ∧ (8 * n + t) &&& 7 = t := by
  have e7 : ∀ x : Nat, x &&& 7 = x % 8 := fun x => Nat.and_pow_two_sub_one_eq_mod x 3
  have e3 : ∀ x : Nat, x >>> 3 = x / 8 := fun x => Nat.shiftRight_eq_div_pow x 3
  rw [e7, e3]
  constructor <;> omega

theorem byte_of_slot (j : Nat) : j >>> 3 = j / 8 ∧ j &&& 7 = j % 8 :=
  ⟨Nat.shiftRight_eq_div_pow j 3, Nat.and_pow_two_sub_one_eq_mod j 3⟩

/-- A full bucket has every slot below `B` readable. -/
theorem IsFull_readable (B : Nat) (b : HashTableBucketPage K V) (h : b.IsFull B = true)
    (j : Nat) (hj : j < B) : b.IsReadable j = true := by
  unfold HashTableBucketPage.IsFull at h
  simp only at h
  split at h
  · rename_i hall
    rw [List.all_eq_true] at hall
    rw [IsReadable_eq, (byte_of_slot j).1, (byte_of_slot j).2]
    by_cases hn : j / 8 < B / 8
    · have := hall (j / 8) (List.mem_range.mpr hn)
      simp only [decide_eq_true_eq] at this
      rw [this, testBit_toChar]
      have h8 : j % 8 < 8 := Nat.mod_lt _ (by norm_num)
      rw [testBit_255]
      simp [h8]
    · have hje : j / 8 = B / 8 := by omega
      have hrem : B - B / 8 * 8 ≠ 0 := by omega
      simp [hrem] at h
      rw [hje, h, testBit_toChar, Nat.one_shiftLeft, Nat.testBit_two_pow_sub_one]
      have h8 : j % 8 < 8 := Nat.mod_lt _ (by norm_num)
      have h9 : j % 8 < B - B / 8 * 8 := by omega
      simp [h8, h9]
  · simp at h

/-- A bucket whose readable slots are exactly those below `B` is full. -/
theorem IsFull_of_readable (B : Nat) (b : HashTableBucketPage K V)
    (h : ∀ j, b.IsReadable j = true ↔ j < B) : b.IsFull B = true := by
  have hbit : ∀ n t, t < 8 → (b.readable n).val.testBit t = decide (8 * n + t < B) := by
    intro n t ht
    have := h (8 * n + t)
    rw [IsReadable_eq, (slot_of_byte n t ht).1, (slot_of_byte n t ht).2] at this
    by_cases hlt : 8 * n + t < B
    · simp [hlt, this.mpr hlt]
    · have : ¬ (b.readable n).val.testBit t = true := fun e => hlt (this.mp e)
      simp only [Bool.not_eq_true] at this
      simp [hlt, this]
  unfold HashTableBucketPage.IsFull
  simp only
  have hall : ((List.range (B / 8)).all fun i => decide (b.readable i = toChar 255)) = true := by
    rw [List.all_eq_true]
    intro n hn
    have hn := List.mem_range.mp hn
    simp only [decide_eq_true_eq]
    apply Fin.ext
    apply Nat.eq_of_testBit_eq
    intro t
    rw [testBit_toChar, testBit_255]
    by_cases ht : t < 8
    · rw [hbit n t ht]
      have : 8 * n + t < B := by omega
      simp [ht, this]
    · rw [testBit_byte_ge _ _ (by omega)]
      simp [ht]
  rw [if_pos hall]
  by_cases hrem : B - B / 8 * 8 = 0
  · simp [hrem]
  · simp [hrem]
    apply Fin.ext
    apply Nat.eq_of_testBit_eq
    intro t
    rw [testBit_toChar, Nat.one_shiftLeft, Nat.testBit_two_pow_sub_one]
    by_cases ht : t < 8
    · rw [hbit (B / 8) t ht]
      by_cases h1 : t < B - B / 8 * 8
      · have : 8 * (B / 8) + t < B := by omega
        simp [ht, h1, this]
      · have : ¬ 8 * (B / 8) + t < B := by omega
        simp [ht, h1, this]
    · rw [testBit_byte_ge _ _ (by omega)]
      simp [ht]

/-- On a well-formed bucket `IsFull` says that every slot below `B` is
readable. -/
theorem IsFull_iff (B : Nat) (b : HashTableBucketPage K V) (hb : BucketInv B b) :
    b.IsFull B = true ↔ ∀ j, j < B → b.IsReadable j = true := by
  constructor
  · exact IsFull_readable B b
  · intro h
    apply IsFull_of_readable
    intro j
    exact ⟨hb.readable_lt j, h j⟩

theorem clearLowestLoop_ge (fuel n count : Nat) : count ≤ clearLowestLoop fuel n count := by
  induction fuel generalizing n count with
  | zero => simp [clearLowestLoop]
  | succ f ih =>
    unfold clearLowestLoop
    split
    · exact le_refl _
    · exact le_trans (Nat.le_succ _) (ih _ _)

theorem clearLowestLoop_gt (fuel n count : Nat) (hn : n ≠ 0) :
    count < clearLowestLoop (fuel + 1) n count := by
  unfold clearLowestLoop
  rw [if_neg hn]
  exact lt_of_lt_of_le (Nat.lt_succ_self _) (clearLowestLoop_ge _ _ _)

theorem foldl_count_zero (f : Nat → Nat) (m : Nat)
    (h : (List.range m).foldl (fun count i => clearLowestLoop 8 (f i) count) 0 = 0) :
    ∀ i, i < m → f i = 0 := by
  induction m with
  | zero => intro i hi; omega
  | succ m ih =>
    rw [List.range_succ, List.foldl_append] at h
    simp only [List.foldl_cons, List.foldl_nil] at h
    have hge := clearLowestLoop_ge 8 (f m)
      ((List.range m).foldl (fun count i => clearLowestLoop 8 (f i) count) 0)
    have h0 : (List.range m).foldl (fun count i => clearLowestLoop 8 (f i) count) 0 = 0 := by
      omega
    intro i hi
    by_cases him : i = m
    · subst him
      by_contra hne
      have := clearLowestLoop_gt 7 (f i)
        ((List.range i).foldl (fun count i => clearLowestLoop 8 (f i) count) 0) hne
      simp only [Nat.reduceAdd] at this
      omega
    · exact ih h0 i (by omega)

/-- A bucket in which `NumReadable` counts 0 passes the `IsEmpty` test. -/
theorem IsEmpty_of_NumReadable (B : Nat) (b : HashTableBucketPage K V)
    (h : b.NumReadable B = 0) : b.IsEmpty B = true := by
  unfold HashTableBucketPage.NumReadable at h
  have := foldl_count_zero (fun i => (b.readable i).val) _ h
  unfold HashTableBucketPage.IsEmpty
  rw [List.all_eq_true]
  intro i hi
  simp only [decide_eq_true_eq]
  apply Fin.ext
  have h2 : (b.readable i).val = 0 := this i (List.mem_range.mp hi)
  rw [h2]
  rfl

end BucketFull

/-! ## Directory page: index arithmetic -/

theorem and_mask_eq_mod (x l : Nat) : x &&& ((1 <<< l) - 1) = x % 2 ^ l := by
  rw [Nat.one_shiftLeft, Nat.and_pow_two_sub_one_eq_mod]

theorem mod_two_pow_eq_iff (x y n : Nat) :
    x % 2 ^ n = y % 2 ^ n ↔ ∀ t, t < n → x.testBit t = y.testBit t := by
  constructor
  · intro h t ht
    have h1 := Nat.testBit_mod_two_pow x n t
    have h2 := Nat.testBit_mod_two_pow y n t
    rw [h] at h1
    rw [h1] at h2
    simpa [ht] using h2
  · intro h
    apply Nat.eq_of_testBit_eq
    intro t
    rw [Nat.testBit_mod_two_pow, Nat.testBit_mod_two_pow]
    by_cases ht : t < n
    · simp [ht, h t ht]
    · simp [ht]

theorem mod_two_pow_of_le (x y m n : Nat) (hmn : m ≤ n) (h : x % 2 ^ n = y % 2 ^ n) :
    x % 2 ^ m = y % 2 ^ m := by
  rw [mod_two_pow_eq_iff] at h ⊢
  intro t ht
  exact h t (by omega)

theorem xor_bit_lt (b k g : Nat) (hb : b < 2 ^ g) (hk : k < g) : b ^^^ 2 ^ k < 2 ^ g := by
  apply Nat.lt_pow_two_of_testBit
  intro i hi
  rw [Nat.testBit_xor, Nat.testBit_two_pow]
  have h1 : b.testBit i = false :=
    Nat.testBit_lt_two_pow (lt_of_lt_of_le hb (Nat.pow_le_pow_right (by norm_num) hi))
  have h2 : k ≠ i := by omega
  simp [h1, h2]

theorem xor_bit_low (b k : Nat) : (b ^^^ 2 ^ k) % 2 ^ k = b % 2 ^ k := by
  rw [mod_two_pow_eq_iff]
  intro t ht
  rw [Nat.testBit_xor, Nat.testBit_two_pow]
  have : k ≠ t := by omega
  simp [this]

theorem xor_bit_ne (b k : Nat) : (b ^^^ 2 ^ k) % 2 ^ (k + 1) ≠ b % 2 ^ (k + 1) := by
  intro h
  rw [mod_two_pow_eq_iff] at h
  have := h k (by omega)
  rw [Nat.testBit_xor, Nat.testBit_two_pow] at this
  simp at this

theorem mod_succ_cases (i b k : Nat) (h : i % 2 ^ k = b % 2 ^ k) :
    i % 2 ^ (k + 1) = b % 2 ^ (k + 1) ∨ i % 2 ^ (k + 1) = (b ^^^ 2 ^ k) % 2 ^ (k + 1) := by
  rw [mod_two_pow_eq_iff] at h
  by_cases hb : i.testBit k = b.testBit k
  · left
    rw [mod_two_pow_eq_iff]
    intro t ht
    by_cases htk : t = k
    · subst htk; exact hb
    · exact h t (by omega)
  · right
    rw [mod_two_pow_eq_iff]
    intro t ht
    rw [Nat.testBit_xor, Nat.testBit_two_pow]
    by_cases htk : t = k
    · subst htk
      cases h1 : i.testBit t <;> cases h2 : b.testBit t <;> simp_all
    · have : k ≠ t := fun e => htk e.symm
      simp [this, h t (by omega)]

/-- Two residues modulo `2 ^ (k + 1)` that agree modulo `2 ^ k` with `b` and both
differ from the residue of `b` are equal. -/
theorem mod_succ_other (i j b k : Nat) (hi : i % 2 ^ k = b % 2 ^ k) (hj : j % 2 ^ k = b % 2 ^ k)
    (hi2 : i % 2 ^ (k + 1) ≠ b % 2 ^ (k + 1)) (hj2 : j % 2 ^ (k + 1) ≠ b % 2 ^ (k + 1)) :
    i % 2 ^ (k + 1) = j % 2 ^ (k + 1) := by
  rcases mod_succ_cases i b k hi with h1 | h1
  · exact absurd h1 hi2
  · rcases mod_succ_cases j b k hj with h2 | h2
    · exact absurd h2 hj2
    · rw [h1, h2]

theorem mod_pow_lt_pow (x l g : Nat) (hx : x < 2 ^ g) : x % 2 ^ l < 2 ^ g :=
  lt_of_le_of_lt (Nat.mod_le _ _) hx

theorem Size_eq (d : HashTableDirectoryPage) : d.Size = 2 ^ d.global_depth :=
  Nat.one_shiftLeft _

theorem GetLocalDepthMask_and (d : HashTableDirectoryPage) (i x : Nat) :
    x &&& d.GetLocalDepthMask i = x % 2 ^ d.local_depths i :=
  and_mask_eq_mod _ _

theorem GetGlobalDepthMask_and (d : HashTableDirectoryPage) (x : Nat) :
    x &&& d.GetGlobalDepthMask = x % 2 ^ d.global_depth :=
  and_mask_eq_mod _ _

/-- The well-formedness used in the proofs gives the invariant as the
specification writes it. -/
theorem DirectoryInvariant_of_DirInv (d : HashTableDirectoryPage) (h : DirInv d) :
    DirectoryInvariant d ∧ SharedLowBits d := by
  constructor
  · intro i hi
    rw [Size_eq] at hi
    refine ⟨h.depth_le i hi, ?_⟩
    rw [GetLocalDepthMask_and]
    apply h.same_low i _ hi (mod_pow_lt_pow _ _ _ hi)
    rw [Nat.mod_mod]
  · intro i j hi hj hij
    rw [Size_eq] at hi hj
    rw [GetLocalDepthMask_and, GetLocalDepthMask_and] at hij
    exact (h.same_low i j hi hj hij.symm).symm

/-- Well-formedness depends only on the global depth and on the active cells. -/
theorem DirInv_congr (d e : HashTableDirectoryPage) (hg : e.global_depth = d.global_depth)
    (hl : ∀ i, i < 2 ^ d.global_depth → e.local_depths i = d.local_depths i)
    (hp : ∀ i, i < 2 ^ d.global_depth → e.bucket_page_ids i = d.bucket_page_ids i)
    (h : DirInv d) : DirInv e := by
  refine ⟨?_, ?_, ?_⟩
  · intro i hi
    rw [hg] at hi ⊢
    rw [hl i hi]; exact h.depth_le i hi
  · intro i j hi hj hij
    rw [hg] at hi hj
    rw [hl i hi] at hij
    rw [hp i hi, hp j hj]
    exact h.same_low i j hi hj hij
  · intro i j hi hj hij
    rw [hg] at hi hj
    rw [hp i hi, hp j hj] at hij
    rw [hl i hi, hl j hj]
    exact h.same_page i j hi hj hij

/-! ## Directory page: doubling, split, merge, shrink -/

theorem IncrGlobalDepth_cells (d : HashTableDirectoryPage) (i : Nat)
    (hi : i < 2 ^ (d.global_depth + 1)) :
    d.IncrGlobalDepth.local_depths i = d.local_depths (i % 2 ^ d.global_depth) ∧
    d.IncrGlobalDepth.bucket_page_ids i = d.bucket_page_ids (i % 2 ^ d.global_depth) := by
  have hs := Size_eq d
  simp only [HashTableDirectoryPage.IncrGlobalDepth, hs]
  have hp : 2 ^ (d.global_depth + 1) = 2 * 2 ^ d.global_depth := by ring
  by_cases h : 2 ^ d.global_depth ≤ i
  · have h2 : i < 2 * 2 ^ d.global_depth := by omega
    have h3 : i % 2 ^ d.global_depth = i - 2 ^ d.global_depth := by
      rw [Nat.mod_eq_sub_mod h, Nat.mod_eq_of_lt (by omega)]
    simp [h, h2, h3]
  · have h3 : i % 2 ^ d.global_depth = i := Nat.mod_eq_of_lt (by omega)
    simp [h, h3]

theorem DirInv_IncrGlobalDepth (d : HashTableDirectoryPage) (h : DirInv d) :
    DirInv d.IncrGlobalDepth := by
  have hg : d.IncrGlobalDepth.global_depth = d.global_depth + 1 := rfl
  have hpos : 0 < 2 ^ d.global_depth := by positivity
  have hlt : ∀ i, i % 2 ^ d.global_depth < 2 ^ d.global_depth := fun i => Nat.mod_lt _ hpos
  have hmm : ∀ i l, l ≤ d.global_depth → (i % 2 ^ d.global_depth) % 2 ^ l = i % 2 ^ l := by
    intro i l hl
    exact Nat.mod_mod_of_dvd _ (Nat.pow_dvd_pow 2 hl)
  refine ⟨?_, ?_, ?_⟩
  · intro i hi
    rw [hg] at hi ⊢
    rw [(IncrGlobalDepth_cells d i hi).1]
    exact le_trans (h.depth_le _ (hlt i)) (Nat.le_succ _)
  · intro i j hi hj hij
    rw [hg] at hi hj
    rw [(IncrGlobalDepth_cells d i hi).1] at hij
    rw [(IncrGlobalDepth_cells d i hi).2, (IncrGlobalDepth_cells d j hj).2]
    apply h.same_low _ _ (hlt i) (hlt j)
    rw [hmm i _ (h.depth_le _ (hlt i)), hmm j _ (h.depth_le _ (hlt i))]
    exact hij
  · intro i j hi hj hij
    rw [hg] at hi hj
    rw [(IncrGlobalDepth_cells d i hi).2, (IncrGlobalDepth_cells d j hj).2] at hij
    rw [(IncrGlobalDepth_cells d i hi).1, (IncrGlobalDepth_cells d j hj).1]
    obtain ⟨a1, a2⟩ := h.same_page _ _ (hlt i) (hlt j) hij
    refine ⟨a1, ?_⟩
    rw [hmm i _ (h.depth_le _ (hlt i)), hmm j _ (h.depth_le _ (hlt i))] at a2
    exact a2

/-- The directory loop of `SplitInsert`, cell by cell. -/
theorem splitDir_fold (X N : Int) (b nd mask : Nat) (d : HashTableDirectoryPage) (n : Nat) :
    ((List.range n).foldl (splitDirStep X N b nd mask) d).global_depth = d.global_depth ∧
    ∀ j,
      ((List.range n).foldl (splitDirStep X N b nd mask) d).local_depths j =
        (if j < n ∧ d.bucket_page_ids j = X then nd else d.local_depths j) ∧
      ((List.range n).foldl (splitDirStep X N b nd mask) d).bucket_page_ids j =
        (if j < n ∧ d.bucket_page_ids j = X ∧ (j &&& mask) ≠ (b &&& mask) then N
          else d.bucket_page_ids j) := by
  induction n with
  | zero => simp
  | succ n ih =>
    rw [List.range_succ, List.foldl_append]
    simp only [List.foldl_cons, List.foldl_nil]
    obtain ⟨ig, ic⟩ := ih
    generalize (List.range n).foldl (splitDirStep X N b nd mask) d = r at ig ic ⊢
    have hn1 := (ic n).1
    have hn2 := (ic n).2
    simp only [lt_irrefl, false_and, if_false] at hn1 hn2
    unfold splitDirStep
    simp only [HashTableDirectoryPage.GetBucketPageId, hn2]
    by_cases hX : d.bucket_page_ids n = X
    · rw [if_pos hX]
      by_cases hm : (n &&& mask) ≠ (b &&& mask)
      · rw [if_pos hm]
        refine ⟨ig, fun j => ?_⟩
        by_cases hjn : j = n
        · subst hjn
          simp [HashTableDirectoryPage.SetBucketPageId, HashTableDirectoryPage.SetLocalDepth,
            setAt, hX, hm]
        · have h1 : j < n + 1 ↔ j < n := by omega
          simp only [HashTableDirectoryPage.SetBucketPageId, HashTableDirectoryPage.SetLocalDepth,
            setAt, hjn, if_false, h1]
          exact ic j
      · rw [if_neg hm]
        refine ⟨ig, fun j => ?_⟩
        by_cases hjn : j = n
        · subst hjn
          simp only [not_not] at hm
          simp [HashTableDirectoryPage.SetLocalDepth, setAt, hX, hm, hn2]
        · have h1 : j < n + 1 ↔ j < n := by omega
          simp only [HashTableDirectoryPage.SetLocalDepth, setAt, hjn, if_false, h1]
          exact ic j
    · rw [if_neg hX]
      refine ⟨ig, fun j => ?_⟩
      by_cases hjn : j = n
      · subst hjn
        simp [hX, hn1, hn2]
      · have h1 : j < n + 1 ↔ j < n := by omega
        simp only [h1]
        exact ic j

/-- The redirect loop of `Merge`, cell by cell. -/
theorem mergeDir_fold (X Y : Int) (d : HashTableDirectoryPage) (n : Nat) :
    ((List.range n).foldl (mergeDirStep X Y) d).global_depth = d.global_depth ∧
    ∀ j,
      ((List.range n).foldl (mergeDirStep X Y) d).local_depths j =
        (if j < n ∧ (d.bucket_page_ids j = X ∨ d.bucket_page_ids j = Y) then d.local_depths j - 1
          else d.local_depths j) ∧
      ((List.range n).foldl (mergeDirStep X Y) d).bucket_page_ids j =
        (if j < n ∧ (d.bucket_page_ids j = X ∨ d.bucket_page_ids j = Y) then Y
          else d.bucket_page_ids j) := by
  induction n with
  | zero => simp
  | succ n ih =>
    rw [List.range_succ, List.foldl_append]
    simp only [List.foldl_cons, List.foldl_nil]
    obtain ⟨ig, ic⟩ := ih
    generalize (List.range n).foldl (mergeDirStep X Y) d = r at ig ic ⊢
    have hn1 := (ic n).1
    have hn2 := (ic n).2
    simp only [lt_irrefl, false_and, if_false] at hn1 hn2
    unfold mergeDirStep
    simp only [HashTableDirectoryPage.GetBucketPageId, hn2]
    by_cases hU : d.bucket_page_ids n = X ∨ d.bucket_page_ids n = Y
    · rw [if_pos hU]
      refine ⟨ig, fun j => ?_⟩
      by_cases hjn : j = n
      · subst hjn
        simp [HashTableDirectoryPage.SetBucketPageId, HashTableDirectoryPage.DecrLocalDepth,
          setAt, hU, hn1]
      · have h1 : j < n + 1 ↔ j < n := by omega
        simp only [HashTableDirectoryPage.SetBucketPageId, HashTableDirectoryPage.DecrLocalDepth,
          setAt, hjn, if_false, h1]
        exact ic j
    · rw [if_neg hU]
      refine ⟨ig, fun j => ?_⟩
      by_cases hjn : j = n
      · subst hjn
        simp [hU, hn1, hn2]
      · have h1 : j < n + 1 ↔ j < n := by omega
        simp only [h1]
        exact ic j

/-- Splitting the class of index `b`: the cells that pointed to the page of `b`
get local depth one more, and those that differ from `b` in the new bit get the
new page; this keeps the directory well-formed. -/
theorem DirInv_split (d e : HashTableDirectoryPage) (h : DirInv d) (b : Nat) (N : Int)
    (hb : b < 2 ^ d.global_depth) (hdl : d.local_depths b < d.global_depth)
    (hN : ∀ i, i < 2 ^ d.global_depth → d.bucket_page_ids i ≠ N)
    (heg : e.global_depth = d.global_depth)
    (hel : ∀ j, j < 2 ^ d.global_depth → e.local_depths j =
      if d.bucket_page_ids j = d.bucket_page_ids b then d.local_depths b + 1
      else d.local_depths j)
    (hep : ∀ j, j < 2 ^ d.global_depth → e.bucket_page_ids j =
      if d.bucket_page_ids j = d.bucket_page_ids b ∧
          j % 2 ^ (d.local_depths b + 1) ≠ b % 2 ^ (d.local_depths b + 1) then N
      else d.bucket_page_ids j) : DirInv e := by
  have CX : ∀ j, j < 2 ^ d.global_depth → d.bucket_page_ids j = d.bucket_page_ids b →
      d.local_depths j = d.local_depths b ∧
      j % 2 ^ d.local_depths b = b % 2 ^ d.local_depths b := by
    intro j hj hjb
    obtain ⟨a1, a2⟩ := h.same_page j b hj hb hjb
    rw [a1] at a2
    exact ⟨a1, a2⟩
  have XC : ∀ j, j < 2 ^ d.global_depth →
      j % 2 ^ d.local_depths b = b % 2 ^ d.local_depths b →
      d.bucket_page_ids j = d.bucket_page_ids b := by
    intro j hj hjb
    exact (h.same_low b j hb hj hjb.symm).symm
  refine ⟨?_, ?_, ?_⟩
  · intro i hi
    rw [heg] at hi ⊢
    rw [hel i hi]
    split
    · omega
    · exact h.depth_le i hi
  · intro i j hi hj hij
    rw [heg] at hi hj
    rw [hel i hi] at hij
    rw [hep i hi, hep j hj]
    by_cases hCi : d.bucket_page_ids i = d.bucket_page_ids b
    · rw [if_pos hCi] at hij
      have hj' : j % 2 ^ d.local_depths b = b % 2 ^ d.local_depths b := by
        rw [← (CX i hi hCi).2]
        exact (mod_two_pow_of_le i j _ _ (Nat.le_succ _) hij).symm
      have hCj := XC j hj hj'
      rw [hij]
      simp only [hCi, hCj, true_and]
    · rw [if_neg hCi] at hij
      have hpij := h.same_low i j hi hj hij
      have hCj : ¬ d.bucket_page_ids j = d.bucket_page_ids b := by
        rw [← hpij]; exact hCi
      simp only [hCi, hCj, false_and, if_false]
      exact hpij
  · intro i j hi hj hij
    rw [heg] at hi hj
    rw [hep i hi, hep j hj] at hij
    rw [hel i hi, hel j hj]
    by_cases hCi : d.bucket_page_ids i = d.bucket_page_ids b
    · by_cases hCj : d.bucket_page_ids j = d.bucket_page_ids b
      · simp only [hCi, hCj, true_and, if_true] at hij ⊢
        by_cases hmi : i % 2 ^ (d.local_depths b + 1) ≠ b % 2 ^ (d.local_depths b + 1)
        · rw [if_pos hmi] at hij
          by_cases hmj : j % 2 ^ (d.local_depths b + 1) ≠ b % 2 ^ (d.local_depths b + 1)
          · exact mod_succ_other i j b _ (CX i hi hCi).2 (CX j hj hCj).2 hmi hmj
          · rw [if_neg hmj] at hij
            exact absurd hij.symm (hN b hb)
        · rw [if_neg hmi] at hij
          by_cases hmj : j % 2 ^ (d.local_depths b + 1) ≠ b % 2 ^ (d.local_depths b + 1)
          · rw [if_pos hmj] at hij
            exact absurd hij (hN b hb)
          · simp only [not_not] at hmi hmj
            rw [hmi, hmj]
      · simp only [hCi, hCj, true_and, false_and, if_false] at hij
        split at hij
        · exact absurd hij.symm (hN j hj)
        · exact absurd hij.symm hCj
    · by_cases hCj : d.bucket_page_ids j = d.bucket_page_ids b
      · simp only [hCi, hCj, true_and, false_and, if_false] at hij
        split at hij
        · exact absurd hij (hN i hi)
        · exact absurd hij hCi
      · simp only [hCi, hCj, false_and, if_false] at hij ⊢
        exact h.same_page i j hi hj hij

/-- Merging the class of index `b` with the class of its split image `s`, both
of local depth `dl > 0`: the cells of both get the page of `s` and local depth
`dl - 1`; this keeps the directory well-formed. -/
theorem DirInv_merge (d e : HashTableDirectoryPage) (h : DirInv d) (b : Nat)
    (hb : b < 2 ^ d.global_depth) (hpos : 0 < d.local_depths b)
    (hs : d.local_depths (b ^^^ 2 ^ (d.local_depths b - 1)) = d.local_depths b)
    (heg : e.global_depth = d.global_depth)
    (hel : ∀ j, j < 2 ^ d.global_depth → e.local_depths j =
      if d.bucket_page_ids j = d.bucket_page_ids b ∨
          d.bucket_page_ids j = d.bucket_page_ids (b ^^^ 2 ^ (d.local_depths b - 1)) then
        d.local_depths j - 1
      else d.local_depths j)
    (hep : ∀ j, j < 2 ^ d.global_depth → e.bucket_page_ids j =
      if d.bucket_page_ids j = d.bucket_page_ids b ∨
          d.bucket_page_ids j = d.bucket_page_ids (b ^^^ 2 ^ (d.local_depths b - 1)) then
        d.bucket_page_ids (b ^^^ 2 ^ (d.local_depths b - 1))
      else d.bucket_page_ids j) : DirInv e := by
  obtain ⟨k, hk⟩ : ∃ k, d.local_depths b = k + 1 := ⟨d.local_depths b - 1, by omega⟩
  have hk1 : d.local_depths b - 1 = k := by omega
  rw [hk1] at hs hel hep
  have hkg : k < d.global_depth := by
    have := h.depth_le b hb
    omega
  have hsl : b ^^^ 2 ^ k < 2 ^ d.global_depth := xor_bit_lt b k _ hb hkg
  -- membership in the union of the two classes
  have UC : ∀ j, j < 2 ^ d.global_depth →
      (d.bucket_page_ids j = d.bucket_page_ids b ∨
        d.bucket_page_ids j = d.bucket_page_ids (b ^^^ 2 ^ k)) →
      d.local_depths j = k + 1 ∧ j % 2 ^ k = b % 2 ^ k := by
    intro j hj hU
    rcases hU with hU | hU
    · obtain ⟨a1, a2⟩ := h.same_page j b hj hb hU
      rw [a1, hk] at a2
      exact ⟨a1.trans hk, mod_two_pow_of_le _ _ _ _ (Nat.le_succ _) a2⟩
    · obtain ⟨a1, a2⟩ := h.same_page j _ hj hsl hU
      rw [a1, hs, hk] at a2
      refine ⟨a1.trans (hs.trans hk), ?_⟩
      rw [mod_two_pow_of_le _ _ _ _ (Nat.le_succ _) a2, xor_bit_low]
  have CU : ∀ j, j < 2 ^ d.global_depth → j % 2 ^ k = b % 2 ^ k →
      (d.bucket_page_ids j = d.bucket_page_ids b ∨
        d.bucket_page_ids j = d.bucket_page_ids (b ^^^ 2 ^ k)) := by
    intro j hj hjb
    rcases mod_succ_cases j b k hjb with h1 | h1
    · left
      exact (h.same_low b j hb hj (by rw [hk]; exact h1.symm)).symm
    · right
      exact (h.same_low _ j hsl hj (by rw [hs, hk]; exact h1.symm)).symm
  refine ⟨?_, ?_, ?_⟩
  · intro i hi
    rw [heg] at hi ⊢
    rw [hel i hi]
    have := h.depth_le i hi
    split <;> omega
  · intro i j hi hj hij
    rw [heg] at hi hj
    rw [hel i hi] at hij
    rw [hep i hi, hep j hj]
    by_cases hUi : d.bucket_page_ids i = d.bucket_page_ids b ∨
        d.bucket_page_ids i = d.bucket_page_ids (b ^^^ 2 ^ k)
    · rw [if_pos hUi] at hij
      obtain ⟨a1, a2⟩ := UC i hi hUi
      rw [a1] at hij
      simp only [Nat.add_sub_cancel] at hij
      have hUj := CU j hj (hij.symm.trans a2)
      rw [if_pos hUi, if_pos hUj]
    · rw [if_neg hUi] at hij
      have hpij := h.same_low i j hi hj hij
      have hUj : ¬ (d.bucket_page_ids j = d.bucket_page_ids b ∨
          d.bucket_page_ids j = d.bucket_page_ids (b ^^^ 2 ^ k)) := by
        rw [← hpij]; exact hUi
      rw [if_neg hUi, if_neg hUj]
      exact hpij
  · intro i j hi hj hij
    rw [heg] at hi hj
    rw [hep i hi, hep j hj] at hij
    rw [hel i hi, hel j hj]
    by_cases hUi : d.bucket_page_ids i = d.bucket_page_ids b ∨
        d.bucket_page_ids i = d.bucket_page_ids (b ^^^ 2 ^ k)
    · by_cases hUj : d.bucket_page_ids j = d.bucket_page_ids b ∨
          d.bucket_page_ids j = d.bucket_page_ids (b ^^^ 2 ^ k)
      · rw [if_pos hUi, if_pos hUj]
        obtain ⟨a1, a2⟩ := UC i hi hUi
        obtain ⟨b1, b2⟩ := UC j hj hUj
        rw [a1, b1]
        simp only [Nat.add_sub_cancel]
        exact ⟨trivial, a2.trans b2.symm⟩
      · rw [if_pos hUi, if_neg hUj] at hij
        exact absurd (Or.inr hij.symm) hUj
    · by_cases hUj : d.bucket_page_ids j = d.bucket_page_ids b ∨
          d.bucket_page_ids j = d.bucket_page_ids (b ^^^ 2 ^ k)
      · rw [if_neg hUi, if_pos hUj] at hij
        exact absurd (Or.inr hij) hUi
      · rw [if_neg hUi, if_neg hUj] at hij ⊢
        exact h.same_page i j hi hj hij

theorem CanShrink_iff (d : HashTableDirectoryPage) :
    d.CanShrink = true ↔ ∀ i, i < 2 ^ d.global_depth → d.local_depths i < d.global_depth := by
  unfold HashTableDirectoryPage.CanShrink
  rw [List.all_eq_true, Size_eq]
  constructor
  · intro h i hi
    have := h i (List.mem_range.mpr hi)
    simpa using this
  · intro h i hi
    simpa using h i (List.mem_range.mp hi)

theorem DirInv_DecrGlobalDepth (d : HashTableDirectoryPage) (h : DirInv d)
    (hc : d.CanShrink = true) : DirInv d.DecrGlobalDepth := by
  rw [CanShrink_iff] at hc
  have hpos : 0 < d.global_depth := by
    have := hc 0 (by positivity)
    omega
  have hle : ∀ i, i < 2 ^ (d.global_depth - 1) → i < 2 ^ d.global_depth := by
    intro i hi
    exact lt_of_lt_of_le hi (Nat.pow_le_pow_right (by norm_num) (Nat.sub_le _ _))
  refine ⟨?_, ?_, ?_⟩
  · intro i hi
    have := hc i (hle i hi)
    show d.local_depths i ≤ d.global_depth - 1
    omega
  · intro i j hi hj hij
    exact h.same_low i j (hle i hi) (hle j hj) hij
  · intro i j hi hj hij
    exact h.same_page i j (hle i hi) (hle j hj) hij

theorem DirInv_shrinkLoop (fuel : Nat) (d : HashTableDirectoryPage) (h : DirInv d) :
    DirInv (shrinkLoop fuel d) := by
  induction fuel generalizing d with
  | zero => exact h
  | succ f ih =>
    unfold shrinkLoop
    split
    · rename_i hc
      exact ih _ (DirInv_DecrGlobalDepth d h hc)
    · exact h

/-- With more rounds than the global depth, the shrink loop stops because
`CanShrink` is false. -/
theorem shrinkLoop_done (fuel : Nat) (d : HashTableDirectoryPage)
    (hf : d.global_depth < fuel) : (shrinkLoop fuel d).CanShrink = false := by
  induction fuel generalizing d with
  | zero => omega
  | succ f ih =>
    unfold shrinkLoop
    split
    · rename_i hc
      have hpos : 0 < d.global_depth := by
        rw [CanShrink_iff] at hc
        have := hc 0 (by positivity)
        omega
      apply ih
      show d.global_depth - 1 < f
      omega
    · rename_i hc
      simpa using hc

theorem shrinkLoop_cells (fuel : Nat) (d : HashTableDirectoryPage) :
    (shrinkLoop fuel d).local_depths = d.local_depths ∧
    (shrinkLoop fuel d).bucket_page_ids = d.bucket_page_ids ∧
    (shrinkLoop fuel d).global_depth ≤ d.global_depth := by
  induction fuel generalizing d with
  | zero => exact ⟨rfl, rfl, le_refl _⟩
  | succ f ih =>
    unfold shrinkLoop
    split
    · obtain ⟨a1, a2, a3⟩ := ih d.DecrGlobalDepth
      refine ⟨a1, a2, le_trans a3 ?_⟩
      exact Nat.sub_le _ _
    · exact ⟨rfl, rfl, le_refl _⟩

/-! ## Hash table: the directory after a split -/

section TableSplit

variable {K V : Type}

theorem KeyToDirectoryIndex_eq (t : ExtendibleHashTable K V) (key : K)
    (d : HashTableDirectoryPage) :
    t.KeyToDirectoryIndex key d = t.Hash key % 2 ^ d.global_depth :=
  GetGlobalDepthMask_and d _

theorem KeyToDirectoryIndex_lt (t : ExtendibleHashTable K V) (key : K)
    (d : HashTableDirectoryPage) : t.KeyToDirectoryIndex key d < 2 ^ d.global_depth := by
  rw [KeyToDirectoryIndex_eq]
  exact Nat.mod_lt _ (by positivity)

/-- The directory `dir1` of `SplitInsert`, after the conditional
`IncrGlobalDepth`. -/
theorem grow_props (d : HashTableDirectoryPage) (h : DirInv d) (b : Nat)
    (hb : b < 2 ^ d.global_depth) :
    DirInv (if d.GetLocalDepth b = d.GetGlobalDepth then d.IncrGlobalDepth else d) ∧
    b < 2 ^ (if d.GetLocalDepth b = d.GetGlobalDepth then d.IncrGlobalDepth else d).global_depth ∧
    (if d.GetLocalDepth b = d.GetGlobalDepth then d.IncrGlobalDepth else d).local_depths b <
      (if d.GetLocalDepth b = d.GetGlobalDepth then d.IncrGlobalDepth else d).global_depth ∧
    (if d.GetLocalDepth b = d.GetGlobalDepth then d.IncrGlobalDepth else d).local_depths b =
      d.local_depths b ∧
    (if d.GetLocalDepth b = d.GetGlobalDepth then d.IncrGlobalDepth else d).bucket_page_ids b =
      d.bucket_page_ids b ∧
    (∀ i, i < 2 ^ (if d.GetLocalDepth b = d.GetGlobalDepth then d.IncrGlobalDepth
        else d).global_depth →
      ∃ j, j < 2 ^ d.global_depth ∧
        (if d.GetLocalDepth b = d.GetGlobalDepth then d.IncrGlobalDepth
          else d).bucket_page_ids i = d.bucket_page_ids j) := by
  by_cases hc : d.GetLocalDepth b = d.GetGlobalDepth
  · simp only [hc, if_true]
    have hc' : d.local_depths b = d.global_depth := hc
    have hg : d.IncrGlobalDepth.global_depth = d.global_depth + 1 := rfl
    have hb2 : b < 2 ^ (d.global_depth + 1) :=
      lt_of_lt_of_le hb (Nat.pow_le_pow_right (by norm_num) (Nat.le_succ _))
    have hcell := IncrGlobalDepth_cells d b hb2
    rw [Nat.mod_eq_of_lt hb] at hcell
    refine ⟨DirInv_IncrGlobalDepth d h, ?_, ?_, hcell.1, hcell.2, ?_⟩
    · rw [hg]; exact hb2
    · rw [hg, hcell.1, hc']; exact Nat.lt_succ_self _
    · intro i hi
      rw [hg] at hi
      exact ⟨i % 2 ^ d.global_depth, Nat.mod_lt _ (by positivity),
        (IncrGlobalDepth_cells d i hi).2⟩
  · simp only [hc, if_false]
    have hc' : d.local_depths b ≠ d.global_depth := hc
    have := h.depth_le b hb
    exact ⟨h, hb, by omega, trivial, trivial, fun i hi => ⟨i, hi, rfl⟩⟩

/-- The directory after the split loop is well-formed, its entries are the old
entries or the new page, and the cell of the key keeps the old page. -/
theorem splitDirectory_props (t : ExtendibleHashTable K V) (key : K) (hd : DirInv t.dir)
    (hfresh : ∀ i, i < 2 ^ t.dir.global_depth → t.dir.bucket_page_ids i < t.next_page_id) :
    DirInv (t.splitDirectory key) ∧
    (∀ i, i < 2 ^ (t.splitDirectory key).global_depth →
      (t.splitDirectory key).bucket_page_ids i < t.next_page_id + 1) ∧
    t.dir.global_depth ≤ (t.splitDirectory key).global_depth ∧
    (t.splitDirectory key).global_depth ≤ t.dir.global_depth + 1 := by
  have hb := KeyToDirectoryIndex_lt t key t.dir
  obtain ⟨g1, g2, g3, g4, g5, g6⟩ := grow_props t.dir hd _ hb
  have hf := splitDir_fold (t.dir.GetBucketPageId (t.KeyToDirectoryIndex key t.dir))
    t.next_page_id (t.KeyToDirectoryIndex key t.dir)
    ((t.splitDepths key).GetLocalDepth (t.KeyToDirectoryIndex key t.dir))
    ((t.splitDepths key).GetLocalDepthMask (t.KeyToDirectoryIndex key t.dir))
    (t.splitDepths key) (t.splitDepths key).Size
  obtain ⟨f1, f2⟩ := hf
  have e3 : t.splitDirectory key = (List.range (t.splitDepths key).Size).foldl
      (splitDirStep (t.dir.GetBucketPageId (t.KeyToDirectoryIndex key t.dir)) t.next_page_id
        (t.KeyToDirectoryIndex key t.dir)
        ((t.splitDepths key).GetLocalDepth (t.KeyToDirectoryIndex key t.dir))
        ((t.splitDepths key).GetLocalDepthMask (t.KeyToDirectoryIndex key t.dir)))
      (t.splitDepths key) := rfl
  rw [← e3] at f1 f2
  generalize hd1 : (if t.dir.GetLocalDepth (t.KeyToDirectoryIndex key t.dir) =
    t.dir.GetGlobalDepth then t.dir.IncrGlobalDepth else t.dir) = d1 at g1 g2 g3 g4 g5 g6
  have e2 : t.splitDepths key = d1.IncrLocalDepth (t.KeyToDirectoryIndex key t.dir) := by
    unfold ExtendibleHashTable.splitDepths
    simp only
    rw [hd1]
  generalize t.KeyToDirectoryIndex key t.dir = b at *
  have hg2 : (t.splitDepths key).global_depth = d1.global_depth := by rw [e2]; rfl
  have hsz : (t.splitDepths key).Size = 2 ^ d1.global_depth := by rw [Size_eq, hg2]
  have hld2 : ∀ j, (t.splitDepths key).local_depths j =
      if j = b then d1.local_depths b + 1 else d1.local_depths j := by
    intro j; rw [e2]; rfl
  have hbp2 : (t.splitDepths key).bucket_page_ids = d1.bucket_page_ids := by rw [e2]; rfl
  have hnld : (t.splitDepths key).GetLocalDepth b = d1.local_depths b + 1 := by
    show (t.splitDepths key).local_depths b = _
    rw [hld2]; simp
  have hX : t.dir.GetBucketPageId b = d1.bucket_page_ids b := g5.symm
  have hge : (t.splitDirectory key).global_depth = d1.global_depth := by rw [f1, hg2]
  have hdir : DirInv (t.splitDirectory key) := by
    apply DirInv_split d1 _ g1 b t.next_page_id g2 g3 ?_ hge ?_ ?_
    · intro i hi
      obtain ⟨j, hj, hij⟩ := g6 i hi
      rw [hij]
      exact ne_of_lt (hfresh j hj)
    · intro j hj
      rw [(f2 j).1, hsz, hbp2, hX, hnld, hld2]
      by_cases hc : d1.bucket_page_ids j = d1.bucket_page_ids b
      · simp [hc, hj]
      · have hjb : j ≠ b := fun e => hc (by rw [e])
        simp [hc, hjb]
    · intro j hj
      rw [(f2 j).2, hsz, hbp2, hX, GetLocalDepthMask_and, GetLocalDepthMask_and, hld2]
      simp only [if_true, hj, true_and]
  refine ⟨hdir, ?_, ?_, ?_⟩
  · intro i hi
    rw [hge] at hi
    rw [(f2 i).2, hbp2]
    obtain ⟨j, hj, hij⟩ := g6 i hi
    split
    · omega
    · rw [hij]
      have := hfresh j hj
      omega
  · rw [hge, ← hd1]
    split
    · exact Nat.le_succ _
    · exact le_refl _
  · rw [hge, ← hd1]
    split
    · exact le_refl _
    · exact Nat.le_succ _

end TableSplit

/-! ## Hash table: the buckets after the rehash loop -/

section Rehash

variable {K V : Type}

theorem Holds_put (B : Nat) (b : HashTableBucketPage K V) (r : Nat) (key k : K) (value v : V)
    (hr : r < B) (hnr : b.IsReadable r = false) :
    (b.put r key value).Holds B k v ↔ ((k, v) = (key, value) ∨ b.Holds B k v) := by
  unfold HashTableBucketPage.Holds
  constructor
  · rintro ⟨j, h1, h2, h3⟩
    rw [IsReadable_put] at h2
    rw [array_put] at h3
    by_cases hjr : j = r
    · rw [if_pos hjr] at h3
      exact Or.inl h3.symm
    · rw [if_neg hjr] at h3
      simp only [hjr, decide_False, Bool.false_or] at h2
      exact Or.inr ⟨j, h1, h2, h3⟩
  · rintro (h | ⟨j, h1, h2, h3⟩)
    · refine ⟨r, hr, ?_, ?_⟩
      · rw [IsReadable_put]; simp
      · rw [array_put]; simp [h]
    · have hjr : j ≠ r := by
        intro e; subst e; rw [hnr] at h2; simp at h2
      refine ⟨j, h1, ?_, ?_⟩
      · rw [IsReadable_put]; simp [h2]
      · rw [array_put, if_neg hjr]; exact h3

theorem Compact_zero [Inhabited K] [Inhabited V] :
    Compact (HashTableBucketPage.zero : HashTableBucketPage K V) 0 := by
  intro j
  rw [IsReadable_zero, IsOccupied_zero]
  simp

theorem Compact_put (b : HashTableBucketPage K V) (m : Nat) (key : K) (value : V)
    (h : Compact b m) : Compact (b.put m key value) (m + 1) := by
  intro j
  rw [IsReadable_put, IsOccupied_put, (h j).1, (h j).2]
  by_cases h1 : j = m
  · subst h1; simp
  · by_cases h2 : j < m
    · have : j < m + 1 := by omega
      simp [h1, h2, this]
    · have : ¬ j < m + 1 := by omega
      simp [h1, h2, this]

/-- `Insert` into a compact bucket with room: the pair is held already and
nothing changes, or it goes to slot `m`. -/
theorem Insert_compact [DecidableEq K] [DecidableEq V] [Inhabited V] (B : Nat)
    (b : HashTableBucketPage K V) (hb : BucketInv B b) (m : Nat) (hc : Compact b m)
    (hm : m < B) (key : K) (value : V) :
    (b.Holds B key value ∧ b.Insert B key value = (false, b)) ∨
    (¬ b.Holds B key value ∧ b.Insert B key value = (true, b.put m key value)) := by
  rcases Insert_cases B b hb key value with ⟨h0, h1⟩ | ⟨-, h2, -⟩ | ⟨r, h1, h2, h3, h4, h5⟩
  · exact Or.inl ⟨h0, h1⟩
  · have := h2 m hm
    rw [(hc m).1] at this
    simp at this
  · right
    have hrm : r = m := by
      rw [(hc r).1] at h3
      simp only [decide_eq_false_iff_not, not_lt] at h3
      by_contra hne
      have hlt : m < r := by omega
      have := h4 m hlt
      rw [(hc m).1] at this
      simp at this
    subst hrm
    exact ⟨h2, h5⟩

theorem movedCount_le (t : ExtendibleHashTable K V) (d : HashTableDirectoryPage) (nbi : Nat)
    (orig : HashTableBucketPage K V) (n : Nat) : t.movedCount d nbi orig n ≤ n := by
  induction n with
  | zero => simp [ExtendibleHashTable.movedCount]
  | succ n ih =>
    unfold ExtendibleHashTable.movedCount
    split <;> omega

theorem movedCount_full (t : ExtendibleHashTable K V) (d : HashTableDirectoryPage) (nbi : Nat)
    (orig : HashTableBucketPage K V) (n : Nat) (h : n ≤ t.movedCount d nbi orig n) :
    ∀ j, j < n → t.moved d nbi orig j = true := by
  induction n with
  | zero => intro j hj; omega
  | succ n ih =>
    unfold ExtendibleHashTable.movedCount at h
    have hle := movedCount_le t d nbi orig n
    intro j hj
    by_cases hm : t.moved d nbi orig n = true
    · rw [if_pos hm] at h
      by_cases hjn : j = n
      · subst hjn; exact hm
      · exact ih (by omega) j (by omega)
    · rw [if_neg hm] at h
      omega

theorem rehashStep_inv [DecidableEq K] [DecidableEq V] [Inhabited K] [Inhabited V] (B : Nat)
    (t : ExtendibleHashTable K V) (d : HashTableDirectoryPage) (nbi : Nat)
    (orig : HashTableBucketPage K V) (i : Nat) (hi : i < B)
    (bs : HashTableBucketPage K V × HashTableBucketPage K V)
    (h : RehashInv B t d nbi orig i bs) :
    RehashInv B t d nbi orig (i + 1) (t.rehashStep B d nbi bs i) := by
  obtain ⟨a1, a2, a3, a4, a5, ⟨m, hm, hcm⟩, a7⟩ := h
  have hri : bs.1.IsReadable i = orig.IsReadable i := by
    rw [a5 i]; simp
  have hmc : t.movedCount d nbi orig (i + 1) =
      t.movedCount d nbi orig i + (if t.moved d nbi orig i then 1 else 0) := rfl
  unfold ExtendibleHashTable.rehashStep
  by_cases hr : orig.IsReadable i = true
  · have hr1 : bs.1.IsReadable i = true := by rw [hri]; exact hr
    have hkey : bs.1.KeyAt i = (orig.array i).1 := by
      unfold HashTableBucketPage.KeyAt; rw [if_pos hr1, a3]
    have hval : bs.1.ValueAt i = (orig.array i).2 := by
      unfold HashTableBucketPage.ValueAt; rw [if_pos hr1, a3]
    simp only [hr1, Bool.not_true, Bool.false_eq_true, if_false, hkey, hval]
    by_cases hmv : t.KeyToDirectoryIndex (orig.array i).1 d = nbi
    · have hmoved : t.moved d nbi orig i = true := by
        simp [ExtendibleHashTable.moved, hr, hmv]
      rw [if_pos hmv]
      have hmB : m < B := by
        have := movedCount_le t d nbi orig i
        omega
      have hins := Insert_compact B bs.2 a2 m hcm hmB (orig.array i).1 (orig.array i).2
      refine ⟨BucketInv_RemoveAt a1 i, BucketInv_Insert B bs.2 a2 _ _, ?_, ?_, ?_, ?_, ?_⟩
      · exact a3
      · intro j; rw [IsOccupied_RemoveAt]; exact a4 j
      · intro j
        simp only
        rw [IsReadable_RemoveAt, a5 j]
        by_cases hji : j = i
        · subst hji
          simp [hmoved]
        · have h1 : j < i + 1 ↔ j < i := by omega
          simp [hji, h1]
      · rcases hins with ⟨-, h2⟩ | ⟨-, h2⟩
        · refine ⟨m, ?_, ?_⟩
          · rw [hmc]; omega
          · simp only [h2]; exact hcm
        · refine ⟨m + 1, ?_, ?_⟩
          · rw [hmc, if_pos hmoved]; omega
          · simp only [h2]; exact Compact_put _ _ _ _ hcm
      · intro k v
        simp only
        have hnr : bs.2.IsReadable m = false := by rw [(hcm m).1]; simp
        have hstep : ((bs.2.Insert B (orig.array i).1 (orig.array i).2).2.Holds B k v) ↔
            ((k, v) = orig.array i ∨ bs.2.Holds B k v) := by
          rcases hins with ⟨h1, h2⟩ | ⟨-, h2⟩
          · rw [h2]
            constructor
            · intro hh; exact Or.inr hh
            · rintro (hh | hh)
              · have hk := congrArg Prod.fst hh
                have hv := congrArg Prod.snd hh
                simp only at hk hv
                rw [hk, hv]; exact h1
              · exact hh
          · rw [h2]
            exact Holds_put B bs.2 m _ k _ v hmB hnr
        rw [hstep, a7 k v]
        constructor
        · rintro (hh | ⟨j, h1, h2, h3, h4⟩)
          · refine ⟨i, by omega, hr, hh.symm, ?_⟩
            have : k = (orig.array i).1 := by rw [← hh]
            rw [this]; exact hmv
          · exact ⟨j, by omega, h2, h3, h4⟩
        · rintro ⟨j, h1, h2, h3, h4⟩
          by_cases hji : j = i
          · subst hji; exact Or.inl h3.symm
          · exact Or.inr ⟨j, by omega, h2, h3, h4⟩
    · have hmoved : t.moved d nbi orig i = false := by
        simp [ExtendibleHashTable.moved, hr, hmv]
      rw [if_neg hmv]
      refine ⟨a1, a2, a3, a4, ?_, ⟨m, by rw [hmc]; omega, hcm⟩, ?_⟩
      · intro j
        rw [a5 j]
        by_cases hji : j = i
        · subst hji
          simp [hmoved]
        · have h1 : j < i + 1 ↔ j < i := by omega
          simp [h1]
      · intro k v
        rw [a7 k v]
        constructor
        · rintro ⟨j, h1, h2, h3, h4⟩
          exact ⟨j, by omega, h2, h3, h4⟩
        · rintro ⟨j, h1, h2, h3, h4⟩
          by_cases hji : j = i
          · subst hji
            exfalso
            apply hmv
            have : k = (orig.array j).1 := by rw [h3]
            rw [← this]; exact h4
          · exact ⟨j, by omega, h2, h3, h4⟩
  · simp only [Bool.not_eq_true] at hr
    have hr1 : bs.1.IsReadable i = false := by rw [hri]; exact hr
    have hmoved : t.moved d nbi orig i = false := by
      simp [ExtendibleHashTable.moved, hr]
    simp only [hr1, Bool.not_false, if_true]
    refine ⟨a1, a2, a3, a4, ?_, ⟨m, by rw [hmc]; omega, hcm⟩, ?_⟩
    · intro j
      rw [a5 j]
      by_cases hji : j = i
      · subst hji
        simp [hr]
      · have h1 : j < i + 1 ↔ j < i := by omega
        simp [h1]
    · intro k v
      rw [a7 k v]
      constructor
      · rintro ⟨j, h1, h2, h3, h4⟩
        exact ⟨j, by omega, h2, h3, h4⟩
      · rintro ⟨j, h1, h2, h3, h4⟩
        by_cases hji : j = i
        · subst hji
          rw [hr] at h2; simp at h2
        · exact ⟨j, by omega, h2, h3, h4⟩

theorem rehash_fold_inv [DecidableEq K] [DecidableEq V] [Inhabited K] [Inhabited V] (B : Nat)
    (t : ExtendibleHashTable K V) (d : HashTableDirectoryPage) (nbi : Nat)
    (orig : HashTableBucketPage K V) (ho : BucketInv B orig) (n : Nat) (hn : n ≤ B) :
    RehashInv B t d nbi orig n
      ((List.range n).foldl (t.rehashStep B d nbi) (orig, HashTableBucketPage.zero)) := by
  induction n with
  | zero =>
    refine ⟨ho, BucketInv_zero B, rfl, fun _ => rfl, ?_, ⟨0, le_refl _, Compact_zero⟩, ?_⟩
    · intro j; simp
    · intro k v
      constructor
      · rintro ⟨j, -, h2, -⟩
        change (HashTableBucketPage.zero : HashTableBucketPage K V).IsReadable j = true at h2
        rw [IsReadable_zero] at h2; simp at h2
      · rintro ⟨j, h1, -⟩; omega
  | succ n ih =>
    rw [List.range_succ, List.foldl_append]
    simp only [List.foldl_cons, List.foldl_nil]
    exact rehashStep_inv B t d nbi orig n (by omega) _ (ih (by omega))

end Rehash

/-! ## Hash table: well-formedness of every reachable state -/

section TableInvariant

variable {K V : Type}

theorem setPage_inv (B : Nat) (m : Int → HashTableBucketPage K V) (p : Int)
    (b : HashTableBucketPage K V) (hm : ∀ q, BucketInv B (m q)) (hb : BucketInv B b) :
    ∀ q, BucketInv B (setPage m p b q) := by
  intro q
  unfold setPage
  split
  · exact hb
  · exact hm q

theorem TableInv_init [Inhabited K] [Inhabited V] (B : Nat) (hash_fn : K → Nat)
    (first_page_id : Int) :
    TableInv B (ExtendibleHashTable.init hash_fn first_page_id : ExtendibleHashTable K V) := by
  refine ⟨⟨?_, ?_, ?_⟩, ?_, ?_⟩
  · intro i hi
    simp [ExtendibleHashTable.init, HashTableDirectoryPage.SetBucketPageId,
      HashTableDirectoryPage.zero]
  · intro i j hi hj _
    simp only [ExtendibleHashTable.init, HashTableDirectoryPage.SetBucketPageId,
      HashTableDirectoryPage.zero, pow_zero, Nat.lt_one_iff] at hi hj
    rw [hi, hj]
  · intro i j hi hj _
    simp only [ExtendibleHashTable.init, HashTableDirectoryPage.SetBucketPageId,
      HashTableDirectoryPage.zero, pow_zero, Nat.lt_one_iff] at hi hj
    rw [hi, hj]
    exact ⟨rfl, rfl⟩
  · intro i hi
    simp only [ExtendibleHashTable.init, HashTableDirectoryPage.SetBucketPageId,
      HashTableDirectoryPage.zero, pow_zero, Nat.lt_one_iff] at hi
    subst hi
    simp [ExtendibleHashTable.init, HashTableDirectoryPage.SetBucketPageId, setAt]
  · intro p
    exact BucketInv_zero B

theorem splitBuckets_inv [DecidableEq K] [DecidableEq V] [Inhabited K] [Inhabited V] (B : Nat)
    (t : ExtendibleHashTable K V) (key : K) (ht : TableInv B t) :
    RehashInv B t (t.splitDirectory key)
      ((t.splitDepths key).GetSplitImageIndex (t.KeyToDirectoryIndex key t.dir))
      (t.buckets (t.dir.GetBucketPageId (t.KeyToDirectoryIndex key t.dir))) B
      (t.splitBuckets B key) :=
  rehash_fold_inv B t _ _ _ (ht.buckets_inv _) B (le_refl _)

theorem SplitInsert_inv [DecidableEq K] [DecidableEq V] [Inhabited K] [Inhabited V] (B : Nat)
    (t : ExtendibleHashTable K V) (key : K) (value : V) (ht : TableInv B t) :
    TableInv B (t.SplitInsert B key value).2 := by
  unfold ExtendibleHashTable.SplitInsert
  simp only
  split
  · exact ⟨ht.dir_inv, ht.fresh,
      setPage_inv B _ _ _ ht.buckets_inv (BucketInv_Insert B _ (ht.buckets_inv _) _ _)⟩
  · obtain ⟨d1, d2, -, -⟩ := splitDirectory_props t key ht.dir_inv ht.fresh
    have hr := splitBuckets_inv B t key ht
    refine ⟨d1, d2, ?_⟩
    split
    · exact setPage_inv B _ _ _
        (setPage_inv B _ _ _ ht.buckets_inv (BucketInv_Insert B _ hr.inv1 _ _)) hr.inv2
    · exact setPage_inv B _ _ _
        (setPage_inv B _ _ _ ht.buckets_inv hr.inv1) (BucketInv_Insert B _ hr.inv2 _ _)

theorem Insert_inv [DecidableEq K] [DecidableEq V] [Inhabited K] [Inhabited V] (B : Nat)
    (t : ExtendibleHashTable K V) (key : K) (value : V) (ht : TableInv B t) :
    TableInv B (t.Insert B key value).2 := by
  unfold ExtendibleHashTable.Insert
  simp only
  split
  · exact ⟨ht.dir_inv, ht.fresh,
      setPage_inv B _ _ _ ht.buckets_inv (BucketInv_Insert B _ (ht.buckets_inv _) _ _)⟩
  · exact SplitInsert_inv B t key value ht

theorem GetSplitImageIndex_eq (d : HashTableDirectoryPage) (i : Nat) :
    d.GetSplitImageIndex i = i ^^^ 2 ^ (d.local_depths i - 1) := by
  unfold HashTableDirectoryPage.GetSplitImageIndex
  rw [Nat.one_shiftLeft]

/-- The directory after the redirect loop of `Merge`. -/
theorem mergeDirectory_inv (d : HashTableDirectoryPage) (h : DirInv d) (b : Nat)
    (hb : b < 2 ^ d.global_depth) (hpos : d.GetLocalDepth b ≠ 0)
    (hs : d.GetLocalDepth (d.GetSplitImageIndex b) = d.GetLocalDepth b) :
    DirInv ((List.range d.Size).foldl
      (mergeDirStep (d.GetBucketPageId b) (d.GetBucketPageId (d.GetSplitImageIndex b))) d) := by
  obtain ⟨f1, f2⟩ := mergeDir_fold (d.GetBucketPageId b)
    (d.GetBucketPageId (d.GetSplitImageIndex b)) d d.Size
  rw [GetSplitImageIndex_eq] at hs f1 f2 ⊢
  have hpos' : 0 < d.local_depths b := Nat.pos_of_ne_zero hpos
  apply DirInv_merge d _ h b hb hpos' hs f1
  · intro j hj
    rw [(f2 j).1, Size_eq]
    simp only [HashTableDirectoryPage.GetBucketPageId, hj, true_and]
  · intro j hj
    rw [(f2 j).2, Size_eq]
    simp only [HashTableDirectoryPage.GetBucketPageId, hj, true_and]

theorem Merge_inv [DecidableEq K] [DecidableEq V] [Inhabited K] [Inhabited V] (B : Nat)
    (t : ExtendibleHashTable K V) (key : K) (value : V) (ht : TableInv B t) :
    TableInv B (t.Merge B key value) := by
  unfold ExtendibleHashTable.Merge
  simp only
  split
  · exact ht
  · rename_i hpos
    split
    · exact ht
    · rename_i hs
      simp only [ne_eq, not_not] at hs
      split
      · exact ht
      · have hb := KeyToDirectoryIndex_lt t key t.dir
        have hm := mergeDirectory_inv t.dir ht.dir_inv _ hb hpos hs
        obtain ⟨f1, f2⟩ := mergeDir_fold
          (t.dir.GetBucketPageId (t.KeyToDirectoryIndex key t.dir))
          (t.dir.GetBucketPageId (t.dir.GetSplitImageIndex (t.KeyToDirectoryIndex key t.dir)))
          t.dir t.dir.Size
        generalize (List.range t.dir.Size).foldl (mergeDirStep
          (t.dir.GetBucketPageId (t.KeyToDirectoryIndex key t.dir))
          (t.dir.GetBucketPageId (t.dir.GetSplitImageIndex (t.KeyToDirectoryIndex key t.dir))))
          t.dir = dm at hm f1 f2 ⊢
        obtain ⟨s1, s2, s3⟩ := shrinkLoop_cells (dm.global_depth + 1) dm
        refine ⟨DirInv_shrinkLoop _ _ hm, ?_, ht.buckets_inv⟩
        intro i hi
        simp only at hi ⊢
        rw [s2, (f2 i).2]
        have hi2 : i < 2 ^ t.dir.global_depth := by
          rw [← f1]
          exact lt_of_lt_of_le hi (Nat.pow_le_pow_right (by norm_num) s3)
        split
        · apply ht.fresh
          rw [GetSplitImageIndex_eq]
          apply xor_bit_lt _ _ _ hb
          have := ht.dir_inv.depth_le _ hb
          have hp : t.dir.local_depths (t.KeyToDirectoryIndex key t.dir) ≠ 0 := hpos
          omega
        · exact ht.fresh i hi2

theorem Remove_inv [DecidableEq K] [DecidableEq V] [Inhabited K] [Inhabited V] (B : Nat)
    (t : ExtendibleHashTable K V) (key : K) (value : V) (ht : TableInv B t) :
    TableInv B (t.Remove B key value).2 := by
  unfold ExtendibleHashTable.Remove
  simp only
  split
  · refine Merge_inv B _ key value ?_
    exact ⟨ht.dir_inv, ht.fresh,
      setPage_inv B _ _ _ ht.buckets_inv (BucketInv_Remove B _ (ht.buckets_inv _) _ _)⟩
  · exact ⟨ht.dir_inv, ht.fresh,
      setPage_inv B _ _ _ ht.buckets_inv (BucketInv_Remove B _ (ht.buckets_inv _) _ _)⟩

theorem TableOp_apply_inv [DecidableEq K] [DecidableEq V] [Inhabited K] [Inhabited V] (B : Nat)
    (t : ExtendibleHashTable K V) (op : TableOp K V) (ht : TableInv B t) :
    TableInv B (op.apply B t) := by
  cases op with
  | Insert k v => exact Insert_inv B t k v ht
  | Remove k v => exact Remove_inv B t k v ht

theorem runTable_inv [DecidableEq K] [DecidableEq V] [Inhabited K] [Inhabited V] (B : Nat)
    (ops : List (TableOp K V)) (t : ExtendibleHashTable K V) (ht : TableInv B t) :
    TableInv B (runTable B t ops) := by
  induction ops generalizing t with
  | nil => exact ht
  | cons op tl ih => exact ih _ (TableOp_apply_inv B t op ht)

end TableInvariant

/-! ## Hash table: the directory invariant (claim C2) -/

/-- The smallest trace that strands a key, evaluated: bucket capacity 1, hash
function the identity on `Nat` keys.  `Insert(6, 60)` returns true and
`GetValue(6)` finds 60 after the inserts of keys 6, 1, 3, 5; there the
directory has global depth 3 and indices 0, 2, 4, 6 share the full bucket of
key 6 at local depth 1.  `Insert(0, 0)` then splits that bucket and
`GetValue(6)` returns false. -/
theorem strand_capacity_one :
    (ExtendibleHashTable.Insert 1 (ExtendibleHashTable.init (fun k : Nat => k) 0) 6 60).1 = true ∧
    ExtendibleHashTable.GetValue 1
      (runTable 1 (ExtendibleHashTable.init (fun k : Nat => k) 0)
        [.Insert 6 60, .Insert 1 10, .Insert 3 30, .Insert 5 50]) 6 [] = (true, [60]) ∧
    (runTable 1 (ExtendibleHashTable.init (fun k : Nat => k) 0)
        [.Insert 6 60, .Insert 1 10, .Insert 3 30, .Insert 5 50]).dir.global_depth = 3 ∧
    ExtendibleHashTable.GetValue 1
      (runTable 1 (ExtendibleHashTable.init (fun k : Nat => k) 0)
        [.Insert 6 60, .Insert 1 10, .Insert 3 30, .Insert 5 50, .Insert 0 0]) 6 [] =
      (false, []) := by
  decide

/-- C2: in every state reached from a newly constructed table by `Insert` and
`Remove` calls (splits and merges included), along which the global depth stays
within `MAX_DEPTH`, every index `i < Size()` has
`local_depths[i] <= global_depth` and
`bucket_page_ids[i] = bucket_page_ids[i & ((1 << local_depths[i]) - 1)]`, and
all indices sharing the low `local_depths[i]` bits of `i` point to the page of
`i`.  The arrays of the embedding are unbounded, so the proof does not use the
bound; it is the range in which the embedding is the code. -/
theorem directory_invariant_reachable {K V : Type} [DecidableEq K] [DecidableEq V]
    [Inhabited K] [Inhabited V] (B : Nat) (hash_fn : K → Nat) (first_page_id : Int)
    (ops : List (TableOp K V))
    (_hmax : ∀ n, n ≤ ops.length →
      (runTable B (ExtendibleHashTable.init hash_fn first_page_id) (ops.take n)).dir.global_depth ≤
        MAX_DEPTH) :
    DirectoryInvariant (runTable B (ExtendibleHashTable.init hash_fn first_page_id) ops).dir ∧
    SharedLowBits (runTable B (ExtendibleHashTable.init hash_fn first_page_id) ops).dir :=
  DirectoryInvariant_of_DirInv _
    (runTable_inv B ops _ (TableInv_init B hash_fn first_page_id)).dir_inv

/-- Witness of `directory_invariant_reachable`: capacity 1, identity hash, two
splits and a merge. -/
theorem directory_invariant_reachable_witness :
    DirectoryInvariant (runTable 1 (ExtendibleHashTable.init (fun k : Nat => k) 0)
      [TableOp.Insert 6 60, .Insert 1 10, .Insert 3 30, .Remove 3 30]).dir ∧
    SharedLowBits (runTable 1 (ExtendibleHashTable.init (fun k : Nat => k) 0)
      [TableOp.Insert 6 60, .Insert 1 10, .Insert 3 30, .Remove 3 30]).dir :=
  directory_invariant_reachable 1 (fun k : Nat => k) 0
    [TableOp.Insert 6 60, .Insert 1 10, .Insert 3 30, .Remove 3 30] (by decide)

/-! ## Hash table: merge (claim C10) -/

section TableMerge

variable {K V : Type}

/-- Every global depth the shrink loop passed was shrinkable. -/
theorem shrinkLoop_passed (fuel : Nat) (d : HashTableDirectoryPage) (g2 : Nat)
    (h1 : (shrinkLoop fuel d).global_depth < g2) (h2 : g2 ≤ d.global_depth) :
    ∀ i, i < 2 ^ g2 → d.local_depths i < g2 := by
  induction fuel generalizing d with
  | zero =>
    simp only [shrinkLoop] at h1
    omega
  | succ f ih =>
    unfold shrinkLoop at h1
    split at h1
    · rename_i hc
      by_cases hg : g2 = d.global_depth
      · subst hg
        exact (CanShrink_iff d).mp hc
      · apply ih d.DecrGlobalDepth h1
        show g2 ≤ d.global_depth - 1
        omega
    · omega

/-- What `Merge` does when it merges. -/
theorem Merge_merges [DecidableEq K] [DecidableEq V] [Inhabited K] [Inhabited V] (B : Nat)
    (t : ExtendibleHashTable K V) (key : K) (value : V) (hd : DirInv t.dir)
    (hpos : t.dir.local_depths (t.KeyToDirectoryIndex key t.dir) ≠ 0)
    (hs : t.dir.local_depths (t.dir.GetSplitImageIndex (t.KeyToDirectoryIndex key t.dir)) =
      t.dir.local_depths (t.KeyToDirectoryIndex key t.dir))
    (he : (t.buckets (t.dir.bucket_page_ids (t.KeyToDirectoryIndex key t.dir))).IsEmpty B = true) :
    (∀ i, i < 2 ^ t.dir.global_depth →
      (t.dir.bucket_page_ids i = t.dir.bucket_page_ids (t.KeyToDirectoryIndex key t.dir) ∨
        t.dir.bucket_page_ids i = t.dir.bucket_page_ids
          (t.dir.GetSplitImageIndex (t.KeyToDirectoryIndex key t.dir))) →
      (t.Merge B key value).dir.bucket_page_ids i = t.dir.bucket_page_ids
          (t.dir.GetSplitImageIndex (t.KeyToDirectoryIndex key t.dir)) ∧
      (t.Merge B key value).dir.local_depths i =
        t.dir.local_depths (t.KeyToDirectoryIndex key t.dir) - 1) ∧
    (t.Merge B key value).deleted =
      t.dir.bucket_page_ids (t.KeyToDirectoryIndex key t.dir) :: t.deleted ∧
    (t.Merge B key value).dir.CanShrink = false ∧
    (t.Merge B key value).dir.global_depth ≤ t.dir.global_depth ∧
    (∀ g2, (t.Merge B key value).dir.global_depth < g2 → g2 ≤ t.dir.global_depth →
      ∀ i, i < 2 ^ g2 → (t.Merge B key value).dir.local_depths i < g2) ∧
    (t.Merge B key value).buckets = t.buckets := by
  have hb := KeyToDirectoryIndex_lt t key t.dir
  obtain ⟨f1, f2⟩ := mergeDir_fold
    (t.dir.GetBucketPageId (t.KeyToDirectoryIndex key t.dir))
    (t.dir.GetBucketPageId (t.dir.GetSplitImageIndex (t.KeyToDirectoryIndex key t.dir)))
    t.dir t.dir.Size
  have hM : t.Merge B key value =
      { t with
        dir := shrinkLoop (((List.range t.dir.Size).foldl (mergeDirStep
          (t.dir.GetBucketPageId (t.KeyToDirectoryIndex key t.dir))
          (t.dir.GetBucketPageId (t.dir.GetSplitImageIndex (t.KeyToDirectoryIndex key t.dir))))
          t.dir).global_depth + 1) ((List.range t.dir.Size).foldl (mergeDirStep
          (t.dir.GetBucketPageId (t.KeyToDirectoryIndex key t.dir))
          (t.dir.GetBucketPageId (t.dir.GetSplitImageIndex (t.KeyToDirectoryIndex key t.dir))))
          t.dir)
        deleted := t.dir.GetBucketPageId (t.KeyToDirectoryIndex key t.dir) :: t.deleted } := by
    unfold ExtendibleHashTable.Merge
    simp only [HashTableDirectoryPage.GetLocalDepth, HashTableDirectoryPage.GetBucketPageId, hpos,
      hs, he, if_false, ne_eq, not_true_eq_false, Bool.not_true, Bool.false_eq_true]
  generalize (List.range t.dir.Size).foldl (mergeDirStep
    (t.dir.GetBucketPageId (t.KeyToDirectoryIndex key t.dir))
    (t.dir.GetBucketPageId (t.dir.GetSplitImageIndex (t.KeyToDirectoryIndex key t.dir))))
    t.dir = dm at hM f1 f2
  obtain ⟨s1, s2, s3⟩ := shrinkLoop_cells (dm.global_depth + 1) dm
  rw [hM]
  simp only
  refine ⟨?_, rfl, shrinkLoop_done _ _ (Nat.lt_succ_self _), ?_, ?_, trivial⟩
  · intro i hi hU
    rw [s1, s2, (f2 i).1, (f2 i).2, Size_eq]
    simp only [HashTableDirectoryPage.GetBucketPageId, hi, hU, and_self, if_true, true_and]
    rcases hU with hU | hU
    · rw [(hd.same_page i _ hi hb hU).1]
    · have hsl : t.dir.GetSplitImageIndex (t.KeyToDirectoryIndex key t.dir) <
          2 ^ t.dir.global_depth := by
        rw [GetSplitImageIndex_eq]
        apply xor_bit_lt _ _ _ hb
        have := hd.depth_le _ hb
        omega
      rw [(hd.same_page i _ hi hsl hU).1, hs]
  · rw [← f1]; exact s3
  · intro g2 h1 h2 i hi
    rw [s1]
    rw [← f1] at h2
    exact shrinkLoop_passed _ dm g2 h1 h2 i hi

end TableMerge

section TableMergeScenario

variable {K V : Type}

theorem setPage_same (m : Int → HashTableBucketPage K V) (p : Int) (b : HashTableBucketPage K V) :
    setPage m p b p = b := by
  simp [setPage]

theorem setPage_other (m : Int → HashTableBucketPage K V) (p q : Int)
    (b : HashTableBucketPage K V) (h : q ≠ p) : setPage m p b q = m q := by
  simp [setPage, h]

/-- A directory of global depth 1 whose two cells have local depth 1 and
different pages is well-formed. -/
theorem DirInv_depth_one (d : HashTableDirectoryPage) (hg : d.global_depth = 1)
    (h0 : d.local_depths 0 = 1) (h1 : d.local_depths 1 = 1)
    (hne : d.bucket_page_ids 0 ≠ d.bucket_page_ids 1) : DirInv d := by
  have hcases : ∀ i, i < 2 ^ d.global_depth → i = 0 ∨ i = 1 := by
    intro i hi; rw [hg] at hi; omega
  have hld : ∀ i, i < 2 ^ d.global_depth → d.local_depths i = 1 := by
    intro i hi
    rcases hcases i hi with h | h <;> subst h <;> assumption
  refine ⟨?_, ?_, ?_⟩
  · intro i hi; rw [hld i hi, hg]
  · intro i j hi hj hij
    rw [hld i hi] at hij
    rcases hcases i hi with h | h <;> rcases hcases j hj with h' | h' <;> subst h <;> subst h' <;>
      simp_all
  · intro i j hi hj hij
    rw [hld i hi, hld j hj]
    refine ⟨rfl, ?_⟩
    rcases hcases i hi with h | h <;> rcases hcases j hj with h' | h' <;> subst h <;> subst h'
    · rfl
    · exact absurd hij hne
    · exact absurd hij.symm hne
    · rfl

theorem Merge_hash_fn [DecidableEq K] [DecidableEq V] [Inhabited K] [Inhabited V] (B : Nat)
    (t : ExtendibleHashTable K V) (key : K) (value : V) :
    (t.Merge B key value).hash_fn = t.hash_fn := by
  unfold ExtendibleHashTable.Merge
  simp only
  split
  · rfl
  · split
    · rfl
    · split <;> rfl

/-- One `Remove` of a key with odd hash, in the scenario of claim C10: either
the table is merged already and stays so, or it is split and the call merges it
exactly when it leaves the new bucket empty. -/
theorem Remove_scenario_step [DecidableEq K] [DecidableEq V] [Inhabited K] [Inhabited V]
    (B : Nat) (t : ExtendibleHashTable K V) (P0 P1 : Int) (hP : P0 ≠ P1) (key : K) (value : V)
    (n : Nat) (hodd : t.Hash key % 2 = 1)
    (h : (t.dir.global_depth = 0 ∧ t.dir.bucket_page_ids 0 = P0 ∧ t.dir.local_depths 0 = 0 ∧
        P1 ∈ t.deleted) ∨
      (t.dir.global_depth = 1 ∧ t.dir.local_depths 0 = 1 ∧ t.dir.local_depths 1 = 1 ∧
        t.dir.bucket_page_ids 0 = P0 ∧ t.dir.bucket_page_ids 1 = P1 ∧
        (0 < n → (t.buckets P1).NumReadable B ≠ 0))) :
    (t.Remove B key value).2.hash_fn = t.hash_fn ∧
    (((t.Remove B key value).2.dir.global_depth = 0 ∧
        (t.Remove B key value).2.dir.bucket_page_ids 0 = P0 ∧
        (t.Remove B key value).2.dir.local_depths 0 = 0 ∧
        P1 ∈ (t.Remove B key value).2.deleted) ∨
      ((t.Remove B key value).2.dir.global_depth = 1 ∧
        (t.Remove B key value).2.dir.local_depths 0 = 1 ∧
        (t.Remove B key value).2.dir.local_depths 1 = 1 ∧
        (t.Remove B key value).2.dir.bucket_page_ids 0 = P0 ∧
        (t.Remove B key value).2.dir.bucket_page_ids 1 = P1 ∧
        (0 < n + 1 → ((t.Remove B key value).2.buckets P1).NumReadable B ≠ 0))) := by
  rcases h with ⟨g0, b0, l0, hdel⟩ | ⟨g1, l0, l1, b0, b1, -⟩
  · -- merged already: the call works on the page of index 0 and `Merge` returns at once
    have hidx : t.KeyToDirectoryIndex key t.dir = 0 := by
      rw [KeyToDirectoryIndex_eq, g0]; exact Nat.mod_one _
    unfold ExtendibleHashTable.Remove
    simp only [hidx]
    have hM : ∀ t1 : ExtendibleHashTable K V, t1.dir = t.dir → t1.Merge B key value = t1 := by
      intro t1 e1
      have hidx1 : t1.KeyToDirectoryIndex key t1.dir = 0 := by
        rw [KeyToDirectoryIndex_eq, e1, g0]; exact Nat.mod_one _
      unfold ExtendibleHashTable.Merge
      simp only [hidx1]
      simp only [e1, HashTableDirectoryPage.GetLocalDepth, l0, if_true]
    split
    · obtain ⟨t1, ht1⟩ : ∃ t1 : ExtendibleHashTable K V, t1 =
          { t with buckets := (setPage t.buckets (t.dir.GetBucketPageId 0) ((t.buckets (t.dir.GetBucketPageId 0)).Remove B key value).2) } :=
        ⟨_, rfl⟩
      rw [← ht1, hM t1 (by rw [ht1])]
      rw [ht1]
      exact ⟨rfl, Or.inl ⟨g0, b0, l0, hdel⟩⟩
    · exact ⟨rfl, Or.inl ⟨g0, b0, l0, hdel⟩⟩
  · -- split: the call works on the new page, at index 1
    have hidx : t.KeyToDirectoryIndex key t.dir = 1 := by
      rw [KeyToDirectoryIndex_eq, g1]; simpa using hodd
    have hne : t.dir.bucket_page_ids 0 ≠ t.dir.bucket_page_ids 1 := by rw [b0, b1]; exact hP
    have hd : DirInv t.dir := DirInv_depth_one t.dir g1 l0 l1 hne
    have himg : t.dir.GetSplitImageIndex 1 = 0 := by
      rw [GetSplitImageIndex_eq, l1]; decide
    unfold ExtendibleHashTable.Remove
    simp only [hidx, HashTableDirectoryPage.GetBucketPageId, b1]
    split
    · rename_i hz
      obtain ⟨t1, ht1⟩ : ∃ t1 : ExtendibleHashTable K V, t1 =
          { t with buckets := (setPage t.buckets P1 ((t.buckets P1).Remove B key value).2) } :=
        ⟨_, rfl⟩
      rw [← ht1]
      have e1 : t1.dir = t.dir := by rw [ht1]
      have e2 : t1.hash_fn = t.hash_fn := by rw [ht1]
      have e3 : t1.buckets P1 = ((t.buckets P1).Remove B key value).2 := by
        rw [ht1]; exact setPage_same _ _ _
      have e4 : t1.deleted = t.deleted := by rw [ht1]
      have hidx1 : t1.KeyToDirectoryIndex key t1.dir = 1 := by
        have : t1.Hash key = t.Hash key := by
          unfold ExtendibleHashTable.Hash; rw [e2]
        rw [KeyToDirectoryIndex_eq, e1, g1, this]; simpa using hodd
      have hh := Merge_hash_fn B t1 key value
      have hm := Merge_merges B t1 key value (by rw [e1]; exact hd)
        (by rw [hidx1, e1, l1]; decide)
        (by rw [hidx1, e1, himg, l0, l1])
        (by rw [hidx1, e1, b1, e3]; exact IsEmpty_of_NumReadable B _ hz)
      rw [hidx1, e1] at hm
      simp only [himg, b0, b1, l1, g1] at hm
      obtain ⟨m1, m2, m3, m4, m5, m6⟩ := hm
      generalize t1.Merge B key value = tm at hh m1 m2 m3 m4 m5 m6 ⊢
      have c0 := m1 0 (by norm_num) (Or.inr b0)
      have c1 := m1 1 (by norm_num) (Or.inl b1)
      refine ⟨hh.trans e2, Or.inl ⟨?_, c0.1, c0.2, ?_⟩⟩
      · show tm.dir.global_depth = 0
        by_contra hg
        have hg1 : tm.dir.global_depth = 1 := by omega
        have hcs := (CanShrink_iff _).not.mp (by rw [m3]; simp)
        apply hcs
        intro i hi
        rw [hg1] at hi ⊢
        have : i = 0 ∨ i = 1 := by omega
        rcases this with h | h <;> subst h
        · rw [c0.2]; norm_num
        · rw [c1.2]; norm_num
      · rw [m2]; exact List.mem_cons_self _ _
    · rename_i hz
      refine ⟨rfl, Or.inr ⟨g1, l0, l1, b0, b1, ?_⟩⟩
      intro _
      simp only
      rw [setPage_same]
      exact hz

end TableMergeScenario

section TableMergeClaim

variable {K V : Type}

theorem Merge_dirInv [DecidableEq K] [DecidableEq V] [Inhabited K] [Inhabited V] (B : Nat)
    (t : ExtendibleHashTable K V) (key : K) (value : V) (hd : DirInv t.dir) :
    DirInv (t.Merge B key value).dir := by
  unfold ExtendibleHashTable.Merge
  simp only
  split
  · exact hd
  · rename_i hpos
    split
    · exact hd
    · rename_i hs
      simp only [ne_eq, not_not] at hs
      split
      · exact hd
      · exact DirInv_shrinkLoop _ _
          (mergeDirectory_inv t.dir hd _ (KeyToDirectoryIndex_lt t key t.dir) hpos hs)

/-- A `Remove` that leaves the bucket of the key with no readable slot, at local
depth `d > 0` with a split image of local depth `d`: the effect on the
directory. -/
theorem Remove_merges [DecidableEq K] [DecidableEq V] [Inhabited K] [Inhabited V] (B : Nat)
    (t : ExtendibleHashTable K V) (key : K) (value : V) (hd : DirInv t.dir)
    (hz : ((t.buckets (t.dir.bucket_page_ids (t.KeyToDirectoryIndex key t.dir))).Remove B key
      value).2.NumReadable B = 0)
    (hpos : 0 < t.dir.local_depths (t.KeyToDirectoryIndex key t.dir))
    (hs : t.dir.local_depths (t.dir.GetSplitImageIndex (t.KeyToDirectoryIndex key t.dir)) =
      t.dir.local_depths (t.KeyToDirectoryIndex key t.dir)) :
    (∀ i, i < t.dir.Size →
      (t.dir.bucket_page_ids i = t.dir.bucket_page_ids (t.KeyToDirectoryIndex key t.dir) ∨
        t.dir.bucket_page_ids i = t.dir.bucket_page_ids
          (t.dir.GetSplitImageIndex (t.KeyToDirectoryIndex key t.dir))) →
      (t.Remove B key value).2.dir.bucket_page_ids i = t.dir.bucket_page_ids
          (t.dir.GetSplitImageIndex (t.KeyToDirectoryIndex key t.dir)) ∧
      (t.Remove B key value).2.dir.local_depths i =
        t.dir.local_depths (t.KeyToDirectoryIndex key t.dir) - 1) ∧
    (t.Remove B key value).2.deleted =
      t.dir.bucket_page_ids (t.KeyToDirectoryIndex key t.dir) :: t.deleted ∧
    (t.Remove B key value).2.dir.global_depth ≤ t.dir.global_depth ∧
    (∀ g2, (t.Remove B key value).2.dir.global_depth < g2 → g2 ≤ t.dir.global_depth →
      ∀ i, i < 2 ^ g2 → (t.Remove B key value).2.dir.local_depths i < g2) ∧
    (∃ i, i < (t.Remove B key value).2.dir.Size ∧
      (t.Remove B key value).2.dir.local_depths i =
        (t.Remove B key value).2.dir.global_depth) := by
  obtain ⟨t1, ht1⟩ : ∃ t1 : ExtendibleHashTable K V, t1 =
      { t with buckets := (setPage t.buckets (t.dir.bucket_page_ids (t.KeyToDirectoryIndex key t.dir)) ((t.buckets (t.dir.bucket_page_ids (t.KeyToDirectoryIndex key t.dir))).Remove B key value).2) } :=
    ⟨_, rfl⟩
  have hR : (t.Remove B key value).2 = t1.Merge B key value := by
    unfold ExtendibleHashTable.Remove
    simp only [HashTableDirectoryPage.GetBucketPageId, hz, if_true]
    rw [ht1]
  have e1 : t1.dir = t.dir := by rw [ht1]
  have e2 : t1.KeyToDirectoryIndex key t1.dir = t.KeyToDirectoryIndex key t.dir := by
    rw [ht1]; rfl
  have e3 : t1.buckets (t.dir.bucket_page_ids (t.KeyToDirectoryIndex key t.dir)) =
      ((t.buckets (t.dir.bucket_page_ids (t.KeyToDirectoryIndex key t.dir))).Remove B key
        value).2 := by
    rw [ht1]; exact setPage_same _ _ _
  have e4 : t1.deleted = t.deleted := by rw [ht1]
  have hm := Merge_merges B t1 key value (by rw [e1]; exact hd)
    (by rw [e2, e1]; omega) (by rw [e2, e1]; exact hs)
    (by rw [e2, e1, e3]; exact IsEmpty_of_NumReadable B _ hz)
  have hdm := Merge_dirInv B t1 key value (by rw [e1]; exact hd)
  rw [e2, e1, e4] at hm
  rw [hR]
  obtain ⟨m1, m2, m3, m4, m5, -⟩ := hm
  refine ⟨?_, m2, m4, m5, ?_⟩
  · intro i hi
    rw [Size_eq] at hi
    exact m1 i hi
  · have hcs := (CanShrink_iff _).not.mp (by rw [m3]; simp)
    push_neg at hcs
    obtain ⟨i, hi, hle⟩ := hcs
    refine ⟨i, by rw [Size_eq]; exact hi, ?_⟩
    have := hdm.depth_le i hi
    omega

theorem runTable_append (B : Nat) [DecidableEq K] [DecidableEq V] [Inhabited K] [Inhabited V]
    (t : ExtendibleHashTable K V) (l1 l2 : List (TableOp K V)) :
    runTable B t (l1 ++ l2) = runTable B (runTable B t l1) l2 := by
  unfold runTable
  rw [List.foldl_append]

/-- The scenario of claim C10, for a run of any length. -/
theorem Remove_scenario [DecidableEq K] [DecidableEq V] [Inhabited K] [Inhabited V] (B : Nat)
    (t : ExtendibleHashTable K V) (P0 P1 : Int) (hP : P0 ≠ P1)
    (hg : t.dir.global_depth = 1) (hl0 : t.dir.local_depths 0 = 1)
    (hl1 : t.dir.local_depths 1 = 1) (hb0 : t.dir.bucket_page_ids 0 = P0)
    (hb1 : t.dir.bucket_page_ids 1 = P1) (removes : List (K × V))
    (hodd : ∀ kv, kv ∈ removes → t.Hash kv.1 % 2 = 1) :
    (runTable B t (removes.map fun kv => TableOp.Remove kv.1 kv.2)).hash_fn = t.hash_fn ∧
    (((runTable B t (removes.map fun kv => TableOp.Remove kv.1 kv.2)).dir.global_depth = 0 ∧
        (runTable B t (removes.map fun kv => TableOp.Remove kv.1 kv.2)).dir.bucket_page_ids 0 =
          P0 ∧
        (runTable B t (removes.map fun kv => TableOp.Remove kv.1 kv.2)).dir.local_depths 0 = 0 ∧
        P1 ∈ (runTable B t (removes.map fun kv => TableOp.Remove kv.1 kv.2)).deleted) ∨
      ((runTable B t (removes.map fun kv => TableOp.Remove kv.1 kv.2)).dir.global_depth = 1 ∧
        (runTable B t (removes.map fun kv => TableOp.Remove kv.1 kv.2)).dir.local_depths 0 = 1 ∧
        (runTable B t (removes.map fun kv => TableOp.Remove kv.1 kv.2)).dir.local_depths 1 = 1 ∧
        (runTable B t (removes.map fun kv => TableOp.Remove kv.1 kv.2)).dir.bucket_page_ids 0 =
          P0 ∧
        (runTable B t (removes.map fun kv => TableOp.Remove kv.1 kv.2)).dir.bucket_page_ids 1 =
          P1 ∧
        (0 < removes.length →
          ((runTable B t (removes.map fun kv => TableOp.Remove kv.1 kv.2)).buckets
            P1).NumReadable B ≠ 0))) := by
  induction removes using List.reverseRecOn with
  | nil =>
    refine ⟨rfl, Or.inr ⟨hg, hl0, hl1, hb0, hb1, ?_⟩⟩
    intro h; simp at h
  | append_singleton l kv ih =>
    have ih' := ih (fun x hx => hodd x (List.mem_append_left _ hx))
    rw [List.map_append, runTable_append]
    simp only [List.map_cons, List.map_nil, List.length_append, List.length_singleton]
    obtain ⟨ih1, ih2⟩ := ih'
    generalize runTable B t (l.map fun kv => TableOp.Remove kv.1 kv.2) = tl at ih1 ih2 ⊢
    have hodd' : tl.Hash kv.1 % 2 = 1 := by
      have : tl.Hash kv.1 = t.Hash kv.1 := by
        unfold ExtendibleHashTable.Hash; rw [ih1]
      rw [this]
      exact hodd kv (List.mem_append_right _ (List.mem_singleton_self _))
    have hstep := Remove_scenario_step B tl P0 P1 hP kv.1 kv.2 l.length hodd' ih2
    exact ⟨hstep.1.trans ih1, hstep.2⟩

/-- C10: (1) For every table with a well-formed directory (`DirInv`, which
holds in every reachable state): if `Remove(k, v)` leaves the bucket of `k`
with no readable slot, the local depth `d` of that bucket is positive and its
split image has local depth `d` too, then after `Remove` every directory index
that pointed to the emptied bucket or to its image points to the page of the
image with local depth `d - 1`, `DeletePage` has been called on the page of the
emptied bucket, and the global depth has gone down through shrinkable depths
only to a depth at which some active index has local depth equal to it (which
includes depth 0).  (2) In a table of global depth 1 whose two indices have
local depth 1 and different pages (the state after one split from depth 0), a
non-empty run of `Remove` calls on keys of the new bucket (keys of odd hash)
that leaves the new bucket with no readable slot brings the global depth to 0
with index 0 pointing to the original bucket, the new page being deleted. -/
theorem merge_after_emptying_remove [DecidableEq K] [DecidableEq V] [Inhabited K]
    [Inhabited V] (B : Nat) :
    (∀ (t : ExtendibleHashTable K V) (key : K) (value : V),
      DirInv t.dir →
      ((t.buckets (t.dir.bucket_page_ids (t.KeyToDirectoryIndex key t.dir))).Remove B key
        value).2.NumReadable B = 0 →
      0 < t.dir.local_depths (t.KeyToDirectoryIndex key t.dir) →
      t.dir.local_depths (t.dir.GetSplitImageIndex (t.KeyToDirectoryIndex key t.dir)) =
        t.dir.local_depths (t.KeyToDirectoryIndex key t.dir) →
      (∀ i, i < t.dir.Size →
        (t.dir.bucket_page_ids i = t.dir.bucket_page_ids (t.KeyToDirectoryIndex key t.dir) ∨
          t.dir.bucket_page_ids i = t.dir.bucket_page_ids
            (t.dir.GetSplitImageIndex (t.KeyToDirectoryIndex key t.dir))) →
        (t.Remove B key value).2.dir.bucket_page_ids i = t.dir.bucket_page_ids
            (t.dir.GetSplitImageIndex (t.KeyToDirectoryIndex key t.dir)) ∧
        (t.Remove B key value).2.dir.local_depths i =
          t.dir.local_depths (t.KeyToDirectoryIndex key t.dir) - 1) ∧
      (t.Remove B key value).2.deleted =
        t.dir.bucket_page_ids (t.KeyToDirectoryIndex key t.dir) :: t.deleted ∧
      (t.Remove B key value).2.dir.global_depth ≤ t.dir.global_depth ∧
      (∀ g2, (t.Remove B key value).2.dir.global_depth < g2 → g2 ≤ t.dir.global_depth →
        ∀ i, i < 2 ^ g2 → (t.Remove B key value).2.dir.local_depths i < g2) ∧
      (∃ i, i < (t.Remove B key value).2.dir.Size ∧
        (t.Remove B key value).2.dir.local_depths i =
          (t.Remove B key value).2.dir.global_depth)) ∧
    (∀ (t : ExtendibleHashTable K V) (removes : List (K × V)),
      t.dir.global_depth = 1 → t.dir.local_depths 0 = 1 → t.dir.local_depths 1 = 1 →
      t.dir.bucket_page_ids 0 ≠ t.dir.bucket_page_ids 1 →
      removes ≠ [] → (∀ kv, kv ∈ removes → t.Hash kv.1 % 2 = 1) →
      ((runTable B t (removes.map fun kv => TableOp.Remove kv.1 kv.2)).buckets
        (t.dir.bucket_page_ids 1)).NumReadable B = 0 →
      (runTable B t (removes.map fun kv => TableOp.Remove kv.1 kv.2)).dir.global_depth = 0 ∧
      (runTable B t (removes.map fun kv => TableOp.Remove kv.1 kv.2)).dir.bucket_page_ids 0 =
        t.dir.bucket_page_ids 0 ∧
      t.dir.bucket_page_ids 1 ∈
        (runTable B t (removes.map fun kv => TableOp.Remove kv.1 kv.2)).deleted) := by
  constructor
  · intro t key value hd hz hpos hs
    exact Remove_merges B t key value hd hz hpos hs
  · intro t removes hg hl0 hl1 hne hnil hodd hz
    obtain ⟨-, h⟩ := Remove_scenario B t _ _ hne hg hl0 hl1 rfl rfl removes hodd
    rcases h with ⟨a1, a2, -, a4⟩ | ⟨-, -, -, -, -, a6⟩
    · exact ⟨a1, a2, a4⟩
    · exfalso
      apply a6 _ hz
      cases removes with
      | nil => exact absurd rfl hnil
      | cons x xs => simp

end TableMergeClaim

/-- Witness of `merge_after_emptying_remove`: in `splitExample`, `Remove(1, 0)`
empties the new bucket; the directory goes back to global depth 0 with index 0
on page 1, and page 2 is deleted. -/
theorem merge_after_emptying_remove_witness :
    ((splitExample.Remove 2 1 0).2.deleted = [2] ∧
      (splitExample.Remove 2 1 0).2.dir.global_depth ≤ 1) ∧
    ((runTable 2 splitExample [TableOp.Remove 1 0]).dir.global_depth = 0 ∧
      (runTable 2 splitExample [TableOp.Remove 1 0]).dir.bucket_page_ids 0 = 1 ∧
      (2 : Int) ∈ (runTable 2 splitExample [TableOp.Remove 1 0]).deleted) :=
  ⟨⟨((merge_after_emptying_remove 2).1 splitExample 1 0
        (runTable_inv 2 _ _ (TableInv_init 2 (fun k : Nat => k) 0)).dir_inv
        (by decide) (by decide) (by decide)).2.1,
      ((merge_after_emptying_remove 2).1 splitExample 1 0
        (runTable_inv 2 _ _ (TableInv_init 2 (fun k : Nat => k) 0)).dir_inv
        (by decide) (by decide) (by decide)).2.2.1⟩,
    (merge_after_emptying_remove 2).2 splitExample [(1, 0)]
      (by decide) (by decide) (by decide) (by decide) (by decide) (by decide) (by decide)⟩

/-! ## Hash table: where a key lands after a split -/

section TableSplitKey

variable {K V : Type}

/-- The cells of the directory after the split loop, in terms of the directory
`dir1` that `SplitInsert` has after the conditional `IncrGlobalDepth`. -/
theorem splitDirectory_cells (t : ExtendibleHashTable K V) (key : K) :
    (t.splitDirectory key).global_depth =
      (if t.dir.GetLocalDepth (t.KeyToDirectoryIndex key t.dir) = t.dir.GetGlobalDepth then
        t.dir.IncrGlobalDepth else t.dir).global_depth ∧
    ∀ j, j < 2 ^ (t.splitDirectory key).global_depth →
      (t.splitDirectory key).bucket_page_ids j =
        if (if t.dir.GetLocalDepth (t.KeyToDirectoryIndex key t.dir) = t.dir.GetGlobalDepth then
              t.dir.IncrGlobalDepth else t.dir).bucket_page_ids j =
            t.dir.bucket_page_ids (t.KeyToDirectoryIndex key t.dir) ∧
            j % 2 ^ (t.dir.local_depths (t.KeyToDirectoryIndex key t.dir) + 1) ≠
              t.KeyToDirectoryIndex key t.dir %
                2 ^ (t.dir.local_depths (t.KeyToDirectoryIndex key t.dir) + 1) then
          t.next_page_id
        else
          (if t.dir.GetLocalDepth (t.KeyToDirectoryIndex key t.dir) = t.dir.GetGlobalDepth then
            t.dir.IncrGlobalDepth else t.dir).bucket_page_ids j := by
  have hb := KeyToDirectoryIndex_lt t key t.dir
  obtain ⟨f1, f2⟩ := splitDir_fold (t.dir.GetBucketPageId (t.KeyToDirectoryIndex key t.dir))
    t.next_page_id (t.KeyToDirectoryIndex key t.dir)
    ((t.splitDepths key).GetLocalDepth (t.KeyToDirectoryIndex key t.dir))
    ((t.splitDepths key).GetLocalDepthMask (t.KeyToDirectoryIndex key t.dir))
    (t.splitDepths key) (t.splitDepths key).Size
  have e3 : t.splitDirectory key = (List.range (t.splitDepths key).Size).foldl
      (splitDirStep (t.dir.GetBucketPageId (t.KeyToDirectoryIndex key t.dir)) t.next_page_id
        (t.KeyToDirectoryIndex key t.dir)
        ((t.splitDepths key).GetLocalDepth (t.KeyToDirectoryIndex key t.dir))
        ((t.splitDepths key).GetLocalDepthMask (t.KeyToDirectoryIndex key t.dir)))
      (t.splitDepths key) := rfl
  rw [← e3] at f1 f2
  have hcellb : (if t.dir.GetLocalDepth (t.KeyToDirectoryIndex key t.dir) =
      t.dir.GetGlobalDepth then t.dir.IncrGlobalDepth else t.dir).local_depths
        (t.KeyToDirectoryIndex key t.dir) =
      t.dir.local_depths (t.KeyToDirectoryIndex key t.dir) := by
    split
    · have := IncrGlobalDepth_cells t.dir _
        (lt_of_lt_of_le hb (Nat.pow_le_pow_right (by norm_num) (Nat.le_succ _)))
      rw [Nat.mod_eq_of_lt hb] at this
      exact this.1
    · rfl
  generalize hd1 : (if t.dir.GetLocalDepth (t.KeyToDirectoryIndex key t.dir) =
    t.dir.GetGlobalDepth then t.dir.IncrGlobalDepth else t.dir) = d1 at hcellb ⊢
  have e2 : t.splitDepths key = d1.IncrLocalDepth (t.KeyToDirectoryIndex key t.dir) := by
    unfold ExtendibleHashTable.splitDepths
    simp only
    rw [hd1]
  generalize t.KeyToDirectoryIndex key t.dir = b at *
  have hg2 : (t.splitDepths key).global_depth = d1.global_depth := by rw [e2]; rfl
  have hsz : (t.splitDepths key).Size = 2 ^ d1.global_depth := by rw [Size_eq, hg2]
  have hld2 : ∀ j, (t.splitDepths key).local_depths j =
      if j = b then d1.local_depths b + 1 else d1.local_depths j := by
    intro j; rw [e2]; rfl
  have hbp2 : (t.splitDepths key).bucket_page_ids = d1.bucket_page_ids := by rw [e2]; rfl
  have hge : (t.splitDirectory key).global_depth = d1.global_depth := by rw [f1, hg2]
  refine ⟨hge, ?_⟩
  intro j hj
  rw [hge] at hj
  rw [(f2 j).2, hsz, hbp2, GetLocalDepthMask_and, GetLocalDepthMask_and, hld2]
  simp only [if_true, hj, true_and, HashTableDirectoryPage.GetBucketPageId, hcellb]

theorem xor_bit_self_ne (b k : Nat) : b ^^^ 2 ^ k ≠ b := by
  intro h
  have := xor_bit_ne b k
  rw [h] at this
  exact this rfl

/-- After the directory loop of `SplitInsert`, a key of the old bucket that
either keeps its directory index or sits in a bucket whose local depth was the
global depth (so that the directory doubled) is mapped to the new page exactly
when its directory index is the split image index, and to the old page
otherwise. -/
theorem splitDirectory_page_of_key (t : ExtendibleHashTable K V) (key k : K)
    (hk : t.KeyToDirectoryIndex k t.dir = t.KeyToDirectoryIndex key t.dir)
    (hcase : t.dir.local_depths (t.KeyToDirectoryIndex key t.dir) = t.dir.global_depth ∨
      t.KeyToDirectoryIndex k (t.splitDirectory key) = t.KeyToDirectoryIndex key t.dir) :
    t.KeyToPageId k (t.splitDirectory key) =
      if t.KeyToDirectoryIndex k (t.splitDirectory key) =
          (t.splitDepths key).GetSplitImageIndex (t.KeyToDirectoryIndex key t.dir) then
        t.next_page_id
      else t.dir.bucket_page_ids (t.KeyToDirectoryIndex key t.dir) := by
  have hb := KeyToDirectoryIndex_lt t key t.dir
  obtain ⟨c1, c2⟩ := splitDirectory_cells t key
  have hlt3 := KeyToDirectoryIndex_lt t k (t.splitDirectory key)
  have hnbi : (t.splitDepths key).GetSplitImageIndex (t.KeyToDirectoryIndex key t.dir) =
      t.KeyToDirectoryIndex key t.dir ^^^
        2 ^ t.dir.local_depths (t.KeyToDirectoryIndex key t.dir) := by
    rw [GetSplitImageIndex_eq]
    have hcell : (t.splitDepths key).local_depths (t.KeyToDirectoryIndex key t.dir) =
        t.dir.local_depths (t.KeyToDirectoryIndex key t.dir) + 1 := by
      unfold ExtendibleHashTable.splitDepths
      simp only [HashTableDirectoryPage.IncrLocalDepth, setAt, if_true]
      split
      · have := IncrGlobalDepth_cells t.dir _
          (lt_of_lt_of_le hb (Nat.pow_le_pow_right (by norm_num) (Nat.le_succ _)))
        rw [Nat.mod_eq_of_lt hb] at this
        rw [this.1]
      · rfl
    rw [hcell, Nat.add_sub_cancel]
  unfold ExtendibleHashTable.KeyToPageId
  simp only [HashTableDirectoryPage.GetBucketPageId]
  rw [c2 _ hlt3, hnbi]
  generalize t.KeyToDirectoryIndex key t.dir = b at *
  rw [KeyToDirectoryIndex_eq] at hk hlt3 hcase ⊢
  by_cases hdl : t.dir.GetLocalDepth b = t.dir.GetGlobalDepth
  · -- the directory doubled
    have hdl' : t.dir.local_depths b = t.dir.global_depth := hdl
    rw [if_pos hdl] at c1
    have hg3 : (t.splitDirectory key).global_depth = t.dir.global_depth + 1 := c1
    simp only [hdl, if_true]
    rw [hg3] at hlt3 ⊢
    rw [(IncrGlobalDepth_cells t.dir _ hlt3).2]
    have hmm : t.Hash k % 2 ^ (t.dir.global_depth + 1) % 2 ^ t.dir.global_depth =
        t.Hash k % 2 ^ t.dir.global_depth :=
      Nat.mod_mod_of_dvd _ (Nat.pow_dvd_pow 2 (Nat.le_succ _))
    rw [hmm, hk, hdl']
    simp only [true_and]
    have hb2 : b < 2 ^ (t.dir.global_depth + 1) :=
      lt_of_lt_of_le hb (Nat.pow_le_pow_right (by norm_num) (Nat.le_succ _))
    rw [Nat.mod_eq_of_lt hlt3, Nat.mod_eq_of_lt hb2]
    have hx : b ^^^ 2 ^ t.dir.global_depth < 2 ^ (t.dir.global_depth + 1) :=
      xor_bit_lt b _ _ hb2 (Nat.lt_succ_self _)
    have hkb : t.Hash k % 2 ^ (t.dir.global_depth + 1) % 2 ^ t.dir.global_depth =
        b % 2 ^ t.dir.global_depth := by
      rw [hmm, hk, Nat.mod_eq_of_lt hb]
    rcases mod_succ_cases _ b _ hkb with h1 | h1
    · rw [Nat.mod_eq_of_lt hlt3, Nat.mod_eq_of_lt hb2] at h1
      rw [h1]
      simp [(xor_bit_self_ne b t.dir.global_depth).symm]
    · rw [Nat.mod_eq_of_lt hlt3, Nat.mod_eq_of_lt hx] at h1
      rw [h1]
      simp [xor_bit_self_ne b t.dir.global_depth]
  · -- the directory kept its size: only the case of an unchanged index is claimed
    have hdl' : t.dir.local_depths b ≠ t.dir.global_depth := hdl
    rcases hcase with hc | hc
    · exact absurd hc hdl'
    · rw [hc]
      simp only [hdl, if_false, ne_eq, not_true_eq_false, and_false]
      simp [(xor_bit_self_ne b (t.dir.local_depths b)).symm]

end TableSplitKey

/-! ## Hash table: duplicate pairs (claim C8) -/

section TableDuplicate

variable {K V : Type}

/-- In a well-formed table, `SplitInsert` of a pair that the bucket of the key
holds returns false. -/
theorem SplitInsert_held [DecidableEq K] [DecidableEq V] [Inhabited K] [Inhabited V] (B : Nat)
    (t : ExtendibleHashTable K V) (key : K) (value : V) (ht : TableInv B t)
    (h : (t.buckets (t.KeyToPageId key t.dir)).Holds B key value) :
    (t.SplitInsert B key value).1 = false := by
  unfold ExtendibleHashTable.KeyToPageId at h
  unfold ExtendibleHashTable.SplitInsert
  simp only
  split
  · rw [Insert_held B _ (ht.buckets_inv _) key value h]
  · have hr := splitBuckets_inv B t key ht
    have hb := KeyToDirectoryIndex_lt t key t.dir
    have hfresh : t.next_page_id ≠ t.dir.GetBucketPageId (t.KeyToDirectoryIndex key t.dir) :=
      (ne_of_lt (ht.fresh _ hb)).symm
    have hcase : t.dir.local_depths (t.KeyToDirectoryIndex key t.dir) = t.dir.global_depth ∨
        t.KeyToDirectoryIndex key (t.splitDirectory key) = t.KeyToDirectoryIndex key t.dir := by
      by_cases hdl : t.dir.local_depths (t.KeyToDirectoryIndex key t.dir) = t.dir.global_depth
      · exact Or.inl hdl
      · right
        have c1 := (splitDirectory_cells t key).1
        have hdl' : ¬ t.dir.GetLocalDepth (t.KeyToDirectoryIndex key t.dir) =
            t.dir.GetGlobalDepth := hdl
        rw [if_neg hdl'] at c1
        rw [KeyToDirectoryIndex_eq, KeyToDirectoryIndex_eq, c1]
    have hpage := splitDirectory_page_of_key t key key rfl hcase
    obtain ⟨j, hj, hrj, haj⟩ := h
    by_cases hmv : t.KeyToDirectoryIndex key (t.splitDirectory key) =
        (t.splitDepths key).GetSplitImageIndex (t.KeyToDirectoryIndex key t.dir)
    · -- the pair was moved to the new bucket, and the key is looked up there
      rw [if_pos hmv] at hpage
      rw [hpage, if_neg hfresh]
      have h2 : (t.splitBuckets B key).2.Holds B key value :=
        (hr.holds2 key value).mpr ⟨j, hj, hrj, haj, hmv⟩
      simp only
      rw [Insert_held B _ hr.inv2 key value h2]
    · -- the pair stayed in the old bucket, and so does the key
      rw [if_neg hmv] at hpage
      rw [hpage]
      simp only [HashTableDirectoryPage.GetBucketPageId, if_true]
      have h1 : (t.splitBuckets B key).1.Holds B key value := by
        refine ⟨j, hj, ?_, ?_⟩
        · rw [hr.readable1 j, if_pos hj]
          have : t.moved (t.splitDirectory key)
              ((t.splitDepths key).GetSplitImageIndex (t.KeyToDirectoryIndex key t.dir))
              (t.buckets (t.dir.GetBucketPageId (t.KeyToDirectoryIndex key t.dir))) j = false := by
            unfold ExtendibleHashTable.moved
            have haj' : (t.buckets (t.dir.GetBucketPageId (t.KeyToDirectoryIndex key t.dir))).array
                j = (key, value) := haj
            rw [haj']
            simp [hmv]
          rw [this]
          have hrj' : (t.buckets (t.dir.GetBucketPageId (t.KeyToDirectoryIndex key t.dir))).IsReadable
              j = true := hrj
          simp [hrj']
        · rw [hr.array1]; exact haj
      rw [Insert_held B _ hr.inv1 key value h1]

/-- In a well-formed table, `Insert` of a pair that `GetValue` returns is
refused, on the fast path and through `SplitInsert`. -/
theorem Insert_held_table [DecidableEq K] [DecidableEq V] [Inhabited K] [Inhabited V] (B : Nat)
    (t : ExtendibleHashTable K V) (key : K) (value : V) (ht : TableInv B t)
    (h : value ∈ (t.GetValue B key []).2) :
    (t.Insert B key value).1 = false ∧ (t.SplitInsert B key value).1 = false := by
  have hh : (t.buckets (t.KeyToPageId key t.dir)).Holds B key value :=
    (GetValue_mem_iff B _ (ht.buckets_inv _) key value).mp h
  refine ⟨?_, SplitInsert_held B t key value ht hh⟩
  unfold ExtendibleHashTable.Insert
  simp only
  split
  · rw [Insert_held B _ (ht.buckets_inv _) key value hh]
  · exact SplitInsert_held B t key value ht hh

end TableDuplicate

/-! ## Hash table: the first split (claim C9) -/

section TableFirstSplit

variable {K V : Type}

theorem Compact_not_full (B : Nat) (b : HashTableBucketPage K V) (m : Nat) (hc : Compact b m)
    (hm : m < B) : b.IsFull B = false := by
  cases h : b.IsFull B
  · rfl
  · have := IsFull_readable B b h m hm
    rw [(hc m).1] at this
    simp at this

theorem Compact_full (B : Nat) (b : HashTableBucketPage K V) (hc : Compact b B) :
    b.IsFull B = true := by
  apply IsFull_of_readable
  intro j
  rw [(hc j).1]
  simp

theorem BucketInv_of_Compact (B : Nat) (b : HashTableBucketPage K V) (m : Nat)
    (hc : Compact b m) (hm : m ≤ B) : BucketInv B b := by
  refine ⟨?_, ?_, ?_⟩
  · intro i h
    rw [(hc i).1] at h
    rw [(hc i).2]; exact h
  · intro i j h hji
    rw [(hc i).2] at h
    rw [(hc j).2]
    simp only [decide_eq_true_eq] at h ⊢
    omega
  · intro i h
    rw [(hc i).2] at h
    simp only [decide_eq_true_eq] at h
    omega

theorem init_index [Inhabited K] [Inhabited V] (t : ExtendibleHashTable K V) (key : K)
    (hg : t.dir.global_depth = 0) : t.KeyToDirectoryIndex key t.dir = 0 := by
  rw [KeyToDirectoryIndex_eq, hg]
  exact Nat.mod_one _

/-- Inserting at most `B` pairs with distinct keys into a new table fills the
first bucket slot by slot and leaves the directory alone. -/
theorem fill_first_bucket [DecidableEq K] [DecidableEq V] [Inhabited K] [Inhabited V] (B : Nat)
    (hash_fn : K → Nat) (first_page_id : Int) (qs : List (K × V))
    (hnd : (qs.map Prod.fst).Nodup) (hlen : qs.length ≤ B) :
    (runTable B (ExtendibleHashTable.init hash_fn first_page_id)
      (qs.map fun kv => TableOp.Insert kv.1 kv.2)).dir =
      (ExtendibleHashTable.init hash_fn first_page_id : ExtendibleHashTable K V).dir ∧
    (runTable B (ExtendibleHashTable.init hash_fn first_page_id)
      (qs.map fun kv => TableOp.Insert kv.1 kv.2)).next_page_id = first_page_id + 2 ∧
    (runTable B (ExtendibleHashTable.init hash_fn first_page_id)
      (qs.map fun kv => TableOp.Insert kv.1 kv.2)).hash_fn = hash_fn ∧
    Compact ((runTable B (ExtendibleHashTable.init hash_fn first_page_id)
      (qs.map fun kv => TableOp.Insert kv.1 kv.2)).buckets (first_page_id + 1)) qs.length ∧
    (∀ i, i < qs.length → qs[i]? = some (((runTable B
      (ExtendibleHashTable.init hash_fn first_page_id)
      (qs.map fun kv => TableOp.Insert kv.1 kv.2)).buckets (first_page_id + 1)).array i)) := by
  induction qs using List.reverseRecOn with
  | nil =>
    refine ⟨rfl, rfl, rfl, ?_, ?_⟩
    · exact Compact_zero
    · intro i hi; simp at hi
  | append_singleton l kv ih =>
    rw [List.map_append, List.nodup_append] at hnd
    obtain ⟨hnd1, -, hdis⟩ := hnd
    rw [List.length_append, List.length_singleton] at hlen
    obtain ⟨i1, i2, i3, i4, i5⟩ := ih hnd1 (by omega)
    rw [List.map_append, runTable_append]
    simp only [List.map_cons, List.map_nil, List.length_append, List.length_singleton]
    generalize runTable B (ExtendibleHashTable.init hash_fn first_page_id)
      (l.map fun kv => TableOp.Insert kv.1 kv.2) = tl at i1 i2 i3 i4 i5 ⊢
    have hg : tl.dir.global_depth = 0 := by rw [i1]; rfl
    have hidx := init_index tl kv.1 hg
    have hpid : tl.KeyToPageId kv.1 tl.dir = first_page_id + 1 := by
      unfold ExtendibleHashTable.KeyToPageId
      rw [hidx, i1]
      simp [ExtendibleHashTable.init, HashTableDirectoryPage.SetBucketPageId,
        HashTableDirectoryPage.GetBucketPageId, setAt]
    have hnf := Compact_not_full B _ l.length i4 (by omega)
    have hbi := BucketInv_of_Compact B _ l.length i4 (by omega)
    have hins := Insert_compact B _ hbi l.length i4 (by omega) kv.1 kv.2
    have hnh : ¬ (tl.buckets (first_page_id + 1)).Holds B kv.1 kv.2 := by
      rintro ⟨j, hj, hrj, haj⟩
      rw [(i4 j).1] at hrj
      simp only [decide_eq_true_eq] at hrj
      have := i5 j hrj
      rw [haj] at this
      have hmem : (kv.1, kv.2) ∈ l := List.getElem?_mem this
      apply hdis (a := kv.1)
      · exact List.mem_map.mpr ⟨_, hmem, rfl⟩
      · simp
    rcases hins with ⟨h1, -⟩ | ⟨-, h2⟩
    · exact absurd h1 hnh
    · have hstep : (TableOp.Insert kv.1 kv.2 : TableOp K V).apply B tl =
          { tl with buckets := (setPage tl.buckets (first_page_id + 1) ((tl.buckets (first_page_id + 1)).put l.length kv.1 kv.2)) } := by
        show (tl.Insert B kv.1 kv.2).2 = _
        unfold ExtendibleHashTable.Insert
        simp only [hpid, hnf, Bool.not_false, if_true, h2]
      have hrun : runTable B tl [TableOp.Insert kv.1 kv.2] =
          (TableOp.Insert kv.1 kv.2 : TableOp K V).apply B tl := rfl
      rw [hrun, hstep]
      simp only [setPage_same]
      refine ⟨i1, i2, i3, Compact_put _ _ _ _ i4, ?_⟩
      intro i hi
      rw [array_put]
      by_cases hil : i = l.length
      · rw [if_pos hil, hil]
        simp
      · rw [if_neg hil]
        have hlt : i < l.length := by omega
        rw [List.getElem?_append_left hlt]
        exact i5 i hlt

end TableFirstSplit

section TableFirstSplitDir

variable {K V : Type}

/-- The directory after the split of the only bucket of a new table. -/
theorem first_split_directory [Inhabited K] [Inhabited V] (t : ExtendibleHashTable K V)
    (hash_fn : K → Nat) (first_page_id : Int) (key : K)
    (hdir : t.dir = (ExtendibleHashTable.init hash_fn first_page_id :
      ExtendibleHashTable K V).dir)
    (hnext : t.next_page_id = first_page_id + 2) :
    (t.splitDirectory key).global_depth = 1 ∧
    (t.splitDirectory key).local_depths 0 = 1 ∧
    (t.splitDirectory key).local_depths 1 = 1 ∧
    (t.splitDirectory key).bucket_page_ids 0 = first_page_id + 1 ∧
    (t.splitDirectory key).bucket_page_ids 1 = first_page_id + 2 ∧
    (t.splitDepths key).GetSplitImageIndex (t.KeyToDirectoryIndex key t.dir) = 1 := by
  have hg : t.dir.global_depth = 0 := by rw [hdir]; rfl
  have hidx := init_index t key hg
  have hr2 : List.range 2 = [0, 1] := by decide
  have hne : first_page_id + 2 ≠ first_page_id + 1 := by omega
  unfold ExtendibleHashTable.splitDirectory ExtendibleHashTable.splitDepths
  simp only [hidx]
  simp only [hdir, hnext]
  simp only [ExtendibleHashTable.init, HashTableDirectoryPage.SetBucketPageId,
    HashTableDirectoryPage.zero, HashTableDirectoryPage.GetLocalDepth,
    HashTableDirectoryPage.GetGlobalDepth, if_true, HashTableDirectoryPage.IncrGlobalDepth,
    HashTableDirectoryPage.IncrLocalDepth, HashTableDirectoryPage.Size,
    HashTableDirectoryPage.GetLocalDepthMask, HashTableDirectoryPage.GetBucketPageId,
    HashTableDirectoryPage.GetSplitImageIndex, setAt]
  simp [hr2, splitDirStep, HashTableDirectoryPage.GetBucketPageId,
    HashTableDirectoryPage.SetLocalDepth, HashTableDirectoryPage.SetBucketPageId, setAt]

end TableFirstSplitDir

section TableFirstSplitBuckets

variable {K V : Type}

theorem Insert_keeps [DecidableEq K] [DecidableEq V] [Inhabited V] (B : Nat)
    (b : HashTableBucketPage K V) (hb : BucketInv B b) (key k : K) (value v : V)
    (h : b.Holds B k v) : (b.Insert B key value).2.Holds B k v := by
  rcases Insert_cases B b hb key value with ⟨-, h1⟩ | ⟨-, -, h1⟩ | ⟨r, h1, -, h3, -, h5⟩
  · rw [h1]; exact h
  · rw [h1]; exact h
  · rw [h5]
    exact (Holds_put B b r key k value v h1 h3).mpr (Or.inr h)

theorem Insert_true_holds [DecidableEq K] [DecidableEq V] [Inhabited V] (B : Nat)
    (b : HashTableBucketPage K V) (hb : BucketInv B b) (key : K) (value : V)
    (h : (b.Insert B key value).1 = true) : (b.Insert B key value).2.Holds B key value := by
  rcases Insert_cases B b hb key value with ⟨-, h1⟩ | ⟨-, -, h1⟩ | ⟨r, h1, -, h3, -, h5⟩
  · rw [h1] at h; simp at h
  · rw [h1] at h; simp at h
  · rw [h5]
    exact (Holds_put B b r key key value value h1 h3).mpr (Or.inl rfl)

theorem GetValue_of_Holds [DecidableEq K] (B : Nat) (b : HashTableBucketPage K V)
    (hb : BucketInv B b) (key : K) (value : V) (result : List V) (h : b.Holds B key value) :
    (b.GetValue B key result).1 = true := by
  rw [GetValue_true_iff B b hb]
  obtain ⟨j, h1, h2, h3⟩ := h
  exact ⟨j, h1, h2, by rw [h3]⟩

/-- `Insert` succeeds on a well-formed bucket that does not hold the pair and
has a slot that is not readable. -/
theorem Insert_succeeds [DecidableEq K] [DecidableEq V] [Inhabited V] (B : Nat)
    (b : HashTableBucketPage K V) (hb : BucketInv B b) (key : K) (value : V)
    (hnh : ¬ b.Holds B key value) (hfree : ∃ j, j < B ∧ b.IsReadable j = false) :
    (b.Insert B key value).1 = true := by
  rcases Insert_cases B b hb key value with ⟨h0, -⟩ | ⟨-, h2, -⟩ | ⟨r, -, -, -, -, h5⟩
  · exact absurd h0 hnh
  · obtain ⟨j, hj, hrj⟩ := hfree
    rw [h2 j hj] at hrj
    simp at hrj
  · rw [h5]

/-- The result of `SplitInsert` on a full bucket, field by field. -/
theorem SplitInsert_full [DecidableEq K] [DecidableEq V] [Inhabited K] [Inhabited V] (B : Nat)
    (t : ExtendibleHashTable K V) (key : K) (value : V)
    (hfull : (t.buckets (t.dir.GetBucketPageId (t.KeyToDirectoryIndex key t.dir))).IsFull B =
      true) :
    (t.SplitInsert B key value).2.dir = t.splitDirectory key ∧
    (t.SplitInsert B key value).2.hash_fn = t.hash_fn ∧
    (t.KeyToPageId key (t.splitDirectory key) =
        t.dir.GetBucketPageId (t.KeyToDirectoryIndex key t.dir) →
      (t.SplitInsert B key value).1 = ((t.splitBuckets B key).1.Insert B key value).1 ∧
      (t.SplitInsert B key value).2.buckets =
        setPage (setPage t.buckets (t.dir.GetBucketPageId (t.KeyToDirectoryIndex key t.dir))
          ((t.splitBuckets B key).1.Insert B key value).2) t.next_page_id
          (t.splitBuckets B key).2) ∧
    (t.KeyToPageId key (t.splitDirectory key) ≠
        t.dir.GetBucketPageId (t.KeyToDirectoryIndex key t.dir) →
      (t.SplitInsert B key value).1 = ((t.splitBuckets B key).2.Insert B key value).1 ∧
      (t.SplitInsert B key value).2.buckets =
        setPage (setPage t.buckets (t.dir.GetBucketPageId (t.KeyToDirectoryIndex key t.dir))
          (t.splitBuckets B key).1) t.next_page_id
          ((t.splitBuckets B key).2.Insert B key value).2) := by
  unfold ExtendibleHashTable.SplitInsert
  simp only [hfull, Bool.not_true, Bool.false_eq_true, if_false]
  refine ⟨trivial, trivial, ?_, ?_⟩
  · intro h
    rw [if_pos h]
    exact ⟨rfl, rfl⟩
  · intro h
    rw [if_neg h]
    exact ⟨rfl, rfl⟩

theorem Hash_parity (t : ExtendibleHashTable K V) (key : K) :
    t.Hash key % 2 = t.hash_fn key % 2 := by
  unfold ExtendibleHashTable.Hash
  exact Nat.mod_mod_of_dvd _ (by norm_num)

end TableFirstSplitBuckets

section TableFirstSplitClaim

variable {K V : Type}

/-- C9 (amended), with the condition under which the last key is stored: after `B`
inserts with pairwise distinct keys into a newly constructed table followed by
one more, `global_depth` is 1, both local depths are 1, the two directory
cells name different pages and `GetValue` succeeds for each of the first `B`
keys; it succeeds for the last key too when the `B + 1` hashes do not all have
the same lowest bit. -/
theorem first_split_depths_and_lookup [DecidableEq K] [DecidableEq V] [Inhabited K] [Inhabited V] (B : Nat)
    (hash_fn : K → Nat) (first_page_id : Int) (qs : List (K × V)) (kv : K × V)
    (hlen : qs.length = B) (hnd : ((qs ++ [kv]).map Prod.fst).Nodup) :
    (runTable B (ExtendibleHashTable.init hash_fn first_page_id)
      ((qs ++ [kv]).map fun p => TableOp.Insert p.1 p.2)).dir.global_depth = 1 ∧
    (runTable B (ExtendibleHashTable.init hash_fn first_page_id)
      ((qs ++ [kv]).map fun p => TableOp.Insert p.1 p.2)).dir.local_depths 0 = 1 ∧
    (runTable B (ExtendibleHashTable.init hash_fn first_page_id)
      ((qs ++ [kv]).map fun p => TableOp.Insert p.1 p.2)).dir.local_depths 1 = 1 ∧
    (runTable B (ExtendibleHashTable.init hash_fn first_page_id)
      ((qs ++ [kv]).map fun p => TableOp.Insert p.1 p.2)).dir.bucket_page_ids 0 ≠
      (runTable B (ExtendibleHashTable.init hash_fn first_page_id)
        ((qs ++ [kv]).map fun p => TableOp.Insert p.1 p.2)).dir.bucket_page_ids 1 ∧
    (∀ p, p ∈ qs →
      ((runTable B (ExtendibleHashTable.init hash_fn first_page_id)
        ((qs ++ [kv]).map fun p => TableOp.Insert p.1 p.2)).GetValue B p.1 []).1 = true) ∧
    ((∃ p, p ∈ qs ++ [kv] ∧ ∃ q, q ∈ qs ++ [kv] ∧ hash_fn p.1 % 2 ≠ hash_fn q.1 % 2) →
      ((runTable B (ExtendibleHashTable.init hash_fn first_page_id)
        ((qs ++ [kv]).map fun p => TableOp.Insert p.1 p.2)).GetValue B kv.1 []).1 = true) := by
  have hnd0 := hnd
  rw [List.map_append, List.nodup_append] at hnd
  obtain ⟨hnd1, -, hdis⟩ := hnd
  have hfill := fill_first_bucket B hash_fn first_page_id qs hnd1 (le_of_eq hlen)
  have htB := runTable_inv B (qs.map fun p => TableOp.Insert p.1 p.2) _
    (TableInv_init B hash_fn first_page_id)
  rw [List.map_append, runTable_append]
  simp only [List.map_cons, List.map_nil]
  generalize runTable B (ExtendibleHashTable.init hash_fn first_page_id)
    (qs.map fun p => TableOp.Insert p.1 p.2) = tB at hfill htB ⊢
  obtain ⟨i1, i2, i3, i4, i5⟩ := hfill
  rw [hlen] at i4 i5
  have hg : tB.dir.global_depth = 0 := by rw [i1]; rfl
  have hidx := init_index tB kv.1 hg
  have hX : tB.dir.GetBucketPageId 0 = first_page_id + 1 := by
    rw [i1]
    simp [ExtendibleHashTable.init, HashTableDirectoryPage.SetBucketPageId,
      HashTableDirectoryPage.GetBucketPageId, setAt]
  have hfull : (tB.buckets (tB.dir.GetBucketPageId (tB.KeyToDirectoryIndex kv.1 tB.dir))).IsFull
      B = true := by
    rw [hidx, hX]; exact Compact_full B _ i4
  have hrun : runTable B tB [TableOp.Insert kv.1 kv.2] = (tB.SplitInsert B kv.1 kv.2).2 := by
    show (tB.Insert B kv.1 kv.2).2 = _
    unfold ExtendibleHashTable.Insert
    simp only [ExtendibleHashTable.KeyToPageId, hfull, Bool.not_true, Bool.false_eq_true,
      if_false]
  rw [hrun]
  obtain ⟨s1, s2, s3, s4⟩ := SplitInsert_full B tB kv.1 kv.2 hfull
  obtain ⟨d1, d2, d3, d4, d5, d6⟩ := first_split_directory tB hash_fn first_page_id kv.1 i1 i2
  have hr := splitBuckets_inv B tB kv.1 htB
  rw [d6, hidx, hX] at hr
  rw [hidx, hX, i2] at s3 s4
  have hNX : first_page_id + 2 ≠ first_page_id + 1 := by omega
  -- directory index and page of any key after the split
  have hidx3 : ∀ k, tB.KeyToDirectoryIndex k (tB.splitDirectory kv.1) = hash_fn k % 2 := by
    intro k
    rw [KeyToDirectoryIndex_eq, d1, pow_one, Hash_parity, i3]
  have hpage : ∀ k, (tB.SplitInsert B kv.1 kv.2).2.KeyToPageId k
      (tB.SplitInsert B kv.1 kv.2).2.dir =
      if hash_fn k % 2 = 1 then first_page_id + 2 else first_page_id + 1 := by
    intro k
    unfold ExtendibleHashTable.KeyToPageId
    have : (tB.SplitInsert B kv.1 kv.2).2.KeyToDirectoryIndex k
        (tB.SplitInsert B kv.1 kv.2).2.dir = hash_fn k % 2 := by
      rw [KeyToDirectoryIndex_eq, s1, d1, pow_one, Hash_parity, s2, i3]
    rw [this, s1]
    simp only [HashTableDirectoryPage.GetBucketPageId]
    have h2 : hash_fn k % 2 = 0 ∨ hash_fn k % 2 = 1 := by omega
    rcases h2 with h2 | h2
    · rw [h2, d4]; simp
    · rw [h2, d5]; simp
  have hpagekv : tB.KeyToPageId kv.1 (tB.splitDirectory kv.1) =
      if hash_fn kv.1 % 2 = 1 then first_page_id + 2 else first_page_id + 1 := by
    unfold ExtendibleHashTable.KeyToPageId
    rw [hidx3]
    simp only [HashTableDirectoryPage.GetBucketPageId]
    have h2 : hash_fn kv.1 % 2 = 0 ∨ hash_fn kv.1 % 2 = 1 := by omega
    rcases h2 with h2 | h2
    · rw [h2, d4]; simp
    · rw [h2, d5]; simp
  -- the slots of the old bucket
  have horig : ∀ j, j < B → (tB.buckets (first_page_id + 1)).IsReadable j = true := by
    intro j hj; rw [(i4 j).1]; simpa using hj
  have hmoved : ∀ j, j < B → (tB.moved (tB.splitDirectory kv.1) 1
      (tB.buckets (first_page_id + 1)) j = true ↔
      hash_fn ((tB.buckets (first_page_id + 1)).array j).1 % 2 = 1) := by
    intro j hj
    unfold ExtendibleHashTable.moved
    rw [horig j hj, hidx3]
    simp
  have hmem : ∀ p, p ∈ qs → ∃ j, j < B ∧ (tB.buckets (first_page_id + 1)).array j = p := by
    intro p hp
    obtain ⟨j, hj⟩ := List.mem_iff_getElem?.mp hp
    have hjl : j < qs.length := by
      by_contra hc
      rw [List.getElem?_eq_none (by omega)] at hj
      simp at hj
    rw [hlen] at hjl
    have := i5 j hjl
    rw [hj] at this
    exact ⟨j, hjl, (Option.some.inj this).symm⟩
  have hslot : ∀ j, j < B → (tB.buckets (first_page_id + 1)).array j ∈ qs := by
    intro j hj
    exact List.getElem?_mem (i5 j hj)
  have hkvnew : ∀ j, j < B → (tB.buckets (first_page_id + 1)).array j ≠ (kv.1, kv.2) := by
    intro j hj he
    have := hslot j hj
    rw [he] at this
    apply hdis (a := kv.1)
    · exact List.mem_map.mpr ⟨_, this, rfl⟩
    · simp
  -- the two buckets after the rehash loop hold the pairs of their parity
  have hold1 : ∀ p, p ∈ qs → hash_fn p.1 % 2 ≠ 1 → (tB.splitBuckets B kv.1).1.Holds B p.1 p.2 := by
    intro p hp hpar
    obtain ⟨j, hj, haj⟩ := hmem p hp
    refine ⟨j, hj, ?_, ?_⟩
    · rw [hr.readable1 j, if_pos hj, horig j hj]
      have : tB.moved (tB.splitDirectory kv.1) 1 (tB.buckets (first_page_id + 1)) j = false := by
        cases hm : tB.moved (tB.splitDirectory kv.1) 1 (tB.buckets (first_page_id + 1)) j
        · rfl
        · rw [hmoved j hj, haj] at hm
          exact absurd hm hpar
      rw [this]; rfl
    · rw [hr.array1, haj]
  have hold2 : ∀ p, p ∈ qs → hash_fn p.1 % 2 = 1 → (tB.splitBuckets B kv.1).2.Holds B p.1 p.2 := by
    intro p hp hpar
    obtain ⟨j, hj, haj⟩ := hmem p hp
    rw [hr.holds2]
    exact ⟨j, hj, horig j hj, haj, by rw [hidx3]; exact hpar⟩
  have hnh1 : ¬ (tB.splitBuckets B kv.1).1.Holds B kv.1 kv.2 := by
    rintro ⟨j, hj, -, haj⟩
    rw [hr.array1] at haj
    exact hkvnew j hj haj
  have hnh2 : ¬ (tB.splitBuckets B kv.1).2.Holds B kv.1 kv.2 := by
    intro h
    obtain ⟨j, hj, -, haj, -⟩ := (hr.holds2 kv.1 kv.2).mp h
    exact hkvnew j hj haj
  refine ⟨by rw [s1]; exact d1, by rw [s1]; exact d2, by rw [s1]; exact d3,
    by rw [s1, d4, d5]; omega, ?_, ?_⟩
  · -- the first `B` keys
    intro p hp
    unfold ExtendibleHashTable.GetValue
    simp only
    rw [hpage p.1]
    by_cases hpar : hash_fn p.1 % 2 = 1
    · rw [if_pos hpar]
      by_cases htgt : tB.KeyToPageId kv.1 (tB.splitDirectory kv.1) = first_page_id + 1
      · rw [(s3 htgt).2, setPage_same]
        exact GetValue_of_Holds B _ hr.inv2 _ _ _ (hold2 p hp hpar)
      · rw [(s4 htgt).2, setPage_same]
        exact GetValue_of_Holds B _ (BucketInv_Insert B _ hr.inv2 _ _) _ _ _
          (Insert_keeps B _ hr.inv2 _ _ _ _ (hold2 p hp hpar))
    · rw [if_neg hpar]
      by_cases htgt : tB.KeyToPageId kv.1 (tB.splitDirectory kv.1) = first_page_id + 1
      · rw [(s3 htgt).2, setPage_other _ _ _ _ hNX.symm, setPage_same]
        exact GetValue_of_Holds B _ (BucketInv_Insert B _ hr.inv1 _ _) _ _ _
          (Insert_keeps B _ hr.inv1 _ _ _ _ (hold1 p hp hpar))
      · rw [(s4 htgt).2, setPage_other _ _ _ _ hNX.symm, setPage_same]
        exact GetValue_of_Holds B _ hr.inv1 _ _ _ (hold1 p hp hpar)
  · -- the last key
    rintro ⟨p, hp, q, hq, hpq⟩
    -- some pair has a parity other than that of the last key
    have hother : ∃ p, p ∈ qs ∧ hash_fn p.1 % 2 ≠ hash_fn kv.1 % 2 := by
      by_contra hall
      push_neg at hall
      have hsame : ∀ x, x ∈ qs ++ [kv] → hash_fn x.1 % 2 = hash_fn kv.1 % 2 := by
        intro x hx
        rcases List.mem_append.mp hx with h | h
        · exact hall x h
        · rw [List.mem_singleton.mp h]
      exact hpq ((hsame p hp).trans (hsame q hq).symm)
    obtain ⟨p0, hp0, hpar0⟩ := hother
    obtain ⟨j0, hj0, haj0⟩ := hmem p0 hp0
    unfold ExtendibleHashTable.GetValue
    simp only
    rw [hpage kv.1]
    by_cases hpar : hash_fn kv.1 % 2 = 1
    · -- the last key goes to the new bucket, which has room: slot `j0` was not moved
      rw [if_pos hpar] at hpagekv ⊢
      have htgt : tB.KeyToPageId kv.1 (tB.splitDirectory kv.1) ≠ first_page_id + 1 := by
        rw [hpagekv]; exact hNX
      rw [(s4 htgt).2, setPage_same]
      apply GetValue_of_Holds B _ (BucketInv_Insert B _ hr.inv2 _ _) _ kv.2
      apply Insert_true_holds B _ hr.inv2
      apply Insert_succeeds B _ hr.inv2 _ _ hnh2
      obtain ⟨m, hm, hcm⟩ := hr.compact2
      have hmB : m < B := by
        by_contra hc
        have hall := movedCount_full tB (tB.splitDirectory kv.1) 1
          (tB.buckets (first_page_id + 1)) B (by omega) j0 hj0
        rw [hmoved j0 hj0, haj0] at hall
        omega
      exact ⟨m, hmB, by rw [(hcm m).1]; simp⟩
    · -- the last key stays with the old bucket, which has room: slot `j0` was moved
      rw [if_neg hpar] at hpagekv ⊢
      have hpar0' : hash_fn p0.1 % 2 = 1 := by omega
      rw [(s3 hpagekv).2, setPage_other _ _ _ _ hNX.symm, setPage_same]
      apply GetValue_of_Holds B _ (BucketInv_Insert B _ hr.inv1 _ _) _ kv.2
      apply Insert_true_holds B _ hr.inv1
      apply Insert_succeeds B _ hr.inv1 _ _ hnh1
      refine ⟨j0, hj0, ?_⟩
      rw [hr.readable1 j0, if_pos hj0]
      have : tB.moved (tB.splitDirectory kv.1) 1 (tB.buckets (first_page_id + 1)) j0 = true := by
        rw [hmoved j0 hj0, haj0]; exact hpar0'
      rw [this]
      simp

/-- Witness of `first_split_depths_and_lookup`: capacity 1, identity hash, keys
0 and 1. -/
theorem first_split_depths_and_lookup_witness :
    ([((0 : Nat), (0 : Nat))].length = 1 ∧
      (([((0 : Nat), (0 : Nat))] ++ [(1, 1)]).map Prod.fst).Nodup) ∧
    (runTable 1 (ExtendibleHashTable.init (fun k : Nat => k) 0)
      (([((0 : Nat), (0 : Nat))] ++ [(1, 1)]).map fun p : Nat × Nat =>
        TableOp.Insert p.1 p.2)).dir.global_depth = 1 ∧
    ((runTable 1 (ExtendibleHashTable.init (fun k : Nat => k) 0)
      (([((0 : Nat), (0 : Nat))] ++ [(1, 1)]).map fun p : Nat × Nat =>
        TableOp.Insert p.1 p.2)).GetValue 1 (1, 1).1 []).1 = true :=
  ⟨⟨rfl, by decide⟩,
    (first_split_depths_and_lookup 1 (fun k : Nat => k) 0 [(0, 0)] (1, 1) rfl (by decide)).1,
    (first_split_depths_and_lookup 1 (fun k : Nat => k) 0 [(0, 0)] (1, 1) rfl
      (by decide)).2.2.2.2.2 ⟨(0, 0), by decide, (1, 1), by decide, by decide⟩⟩

/-- C9 (fails as stated): capacity 1, every key hashing to 0, `Insert(0, 0)`
then `Insert(1, 1)`. The keys are distinct and the directory splits as the
claim says, but both keys land in the old bucket again, the second `Insert`
returns false and `GetValue(1)` finds nothing. -/
theorem last_key_lost_when_hashes_agree :
    (runTable 1 (ExtendibleHashTable.init (fun _ : Nat => 0) 0)
      [TableOp.Insert 0 0, TableOp.Insert 1 1]).dir.global_depth = 1 ∧
    (runTable 1 (ExtendibleHashTable.init (fun _ : Nat => 0) 0)
      [TableOp.Insert 0 0, TableOp.Insert 1 1]).dir.local_depths 0 = 1 ∧
    (runTable 1 (ExtendibleHashTable.init (fun _ : Nat => 0) 0)
      [TableOp.Insert 0 0, TableOp.Insert 1 1]).dir.local_depths 1 = 1 ∧
    (runTable 1 (ExtendibleHashTable.init (fun _ : Nat => 0) 0)
      [TableOp.Insert 0 0, TableOp.Insert 1 1]).dir.bucket_page_ids 0 ≠
      (runTable 1 (ExtendibleHashTable.init (fun _ : Nat => 0) 0)
        [TableOp.Insert 0 0, TableOp.Insert 1 1]).dir.bucket_page_ids 1 ∧
    ((runTable 1 (ExtendibleHashTable.init (fun _ : Nat => 0) 0)
      [TableOp.Insert 0 0]).Insert 1 1 1).1 = false ∧
    (runTable 1 (ExtendibleHashTable.init (fun _ : Nat => 0) 0)
      [TableOp.Insert 0 0, TableOp.Insert 1 1]).GetValue 1 1 [] = (false, []) ∧
    (runTable 1 (ExtendibleHashTable.init (fun _ : Nat => 0) 0)
      [TableOp.Insert 0 0, TableOp.Insert 1 1]).GetValue 1 0 [] = (true, [0]) := by
  decide

end TableFirstSplitClaim

/-! ## Hash table: a split in which no pair moves -/

section TableQuietSplit

variable {K V : Type}

theorem movedCount_zero (t : ExtendibleHashTable K V) (d : HashTableDirectoryPage) (nbi : Nat)
    (orig : HashTableBucketPage K V) (n : Nat) (h : ∀ j, j < n → t.moved d nbi orig j = false) :
    t.movedCount d nbi orig n = 0 := by
  induction n with
  | zero => rfl
  | succ n ih =>
    unfold ExtendibleHashTable.movedCount
    rw [ih (fun j hj => h j (Nat.lt_succ_of_lt hj)), h n (Nat.lt_succ_self n)]
    simp

theorem Compact_no_holds (B : Nat) (b : HashTableBucketPage K V) (hc : Compact b 0) (k : K)
    (v : V) : ¬ b.Holds B k v := by
  rintro ⟨j, -, hr, -⟩
  rw [(hc j).1] at hr
  simp at hr

theorem SplitInsert_next [DecidableEq K] [DecidableEq V] [Inhabited K] [Inhabited V] (B : Nat)
    (t : ExtendibleHashTable K V) (key : K) (value : V)
    (hfull : (t.buckets (t.dir.GetBucketPageId (t.KeyToDirectoryIndex key t.dir))).IsFull B =
      true) :
    (t.SplitInsert B key value).2.next_page_id = t.next_page_id + 1 := by
  unfold ExtendibleHashTable.SplitInsert
  simp only [hfull, Bool.not_true, Bool.false_eq_true, if_false]

theorem Insert_full [DecidableEq K] [DecidableEq V] [Inhabited K] [Inhabited V] (B : Nat)
    (t : ExtendibleHashTable K V) (key : K) (value : V)
    (hfull : (t.buckets (t.dir.GetBucketPageId (t.KeyToDirectoryIndex key t.dir))).IsFull B =
      true) :
    t.Insert B key value = t.SplitInsert B key value := by
  unfold ExtendibleHashTable.Insert
  simp only [ExtendibleHashTable.KeyToPageId, hfull, Bool.not_true, Bool.false_eq_true,
    if_false]

/-- The buckets after the rehash loop when no slot of the full old bucket has
the split image index: the old bucket keeps every slot and the new one is
empty. -/
theorem splitBuckets_quiet [DecidableEq K] [DecidableEq V] [Inhabited K] [Inhabited V] (B : Nat)
    (t : ExtendibleHashTable K V) (key : K) (ht : TableInv B t)
    (hc : Compact (t.buckets (t.dir.GetBucketPageId (t.KeyToDirectoryIndex key t.dir))) B)
    (hstay : ∀ j, j < B →
      t.KeyToDirectoryIndex
        ((t.buckets (t.dir.GetBucketPageId (t.KeyToDirectoryIndex key t.dir))).array j).1
        (t.splitDirectory key) ≠
      (t.splitDepths key).GetSplitImageIndex (t.KeyToDirectoryIndex key t.dir)) :
    Compact (t.splitBuckets B key).1 B ∧
    (t.splitBuckets B key).1.array =
      (t.buckets (t.dir.GetBucketPageId (t.KeyToDirectoryIndex key t.dir))).array ∧
    Compact (t.splitBuckets B key).2 0 ∧
    BucketInv B (t.splitBuckets B key).1 ∧ BucketInv B (t.splitBuckets B key).2 := by
  have hr := splitBuckets_inv B t key ht
  have hmv : ∀ j, j < B → t.moved (t.splitDirectory key)
      ((t.splitDepths key).GetSplitImageIndex (t.KeyToDirectoryIndex key t.dir))
      (t.buckets (t.dir.GetBucketPageId (t.KeyToDirectoryIndex key t.dir))) j = false := by
    intro j hj
    unfold ExtendibleHashTable.moved
    simp [hstay j hj]
  refine ⟨?_, hr.array1, ?_, hr.inv1, hr.inv2⟩
  · intro j
    refine ⟨?_, ?_⟩
    · rw [hr.readable1 j]
      by_cases hj : j < B
      · rw [if_pos hj, hmv j hj, (hc j).1]; simp
      · rw [if_neg hj, (hc j).1]
    · rw [hr.occupied1 j, (hc j).2]
  · obtain ⟨m, hm, hcm⟩ := hr.compact2
    rw [movedCount_zero _ _ _ _ _ hmv] at hm
    have : m = 0 := by omega
    rw [this] at hcm
    exact hcm

/-- A split `Insert` in which no pair moves and the new key goes to the new
page: the call succeeds, the old bucket is left as it was, and the new page
holds the new pair only. -/
theorem Insert_quiet_split [DecidableEq K] [DecidableEq V] [Inhabited K] [Inhabited V] (B : Nat)
    (hB : 0 < B) (t : ExtendibleHashTable K V) (key : K) (value : V) (ht : TableInv B t)
    (hc : Compact (t.buckets (t.dir.GetBucketPageId (t.KeyToDirectoryIndex key t.dir))) B)
    (hstay : ∀ j, j < B →
      t.KeyToDirectoryIndex
        ((t.buckets (t.dir.GetBucketPageId (t.KeyToDirectoryIndex key t.dir))).array j).1
        (t.splitDirectory key) ≠
      (t.splitDepths key).GetSplitImageIndex (t.KeyToDirectoryIndex key t.dir))
    (hgo : t.KeyToPageId key (t.splitDirectory key) = t.next_page_id) :
    (t.Insert B key value).1 = true ∧
    (t.Insert B key value).2.dir = t.splitDirectory key ∧
    (t.Insert B key value).2.next_page_id = t.next_page_id + 1 ∧
    (t.Insert B key value).2.hash_fn = t.hash_fn ∧
    (∀ p, p ≠ t.next_page_id → (t.Insert B key value).2.buckets p = t.buckets p ∨
      (p = t.dir.GetBucketPageId (t.KeyToDirectoryIndex key t.dir) ∧
        Compact ((t.Insert B key value).2.buckets p) B ∧
        ((t.Insert B key value).2.buckets p).array = (t.buckets p).array)) ∧
    Compact ((t.Insert B key value).2.buckets t.next_page_id) 1 ∧
    ((t.Insert B key value).2.buckets t.next_page_id).array 0 = (key, value) := by
  have hfull := Compact_full B _ hc
  have hfresh : t.next_page_id ≠ t.dir.GetBucketPageId (t.KeyToDirectoryIndex key t.dir) :=
    (ne_of_lt (ht.fresh _ (KeyToDirectoryIndex_lt t key t.dir))).symm
  obtain ⟨q1, q2, q3, q4, q5⟩ := splitBuckets_quiet B t key ht hc hstay
  obtain ⟨s1, s2, -, s4⟩ := SplitInsert_full B t key value hfull
  have hne : t.KeyToPageId key (t.splitDirectory key) ≠
      t.dir.GetBucketPageId (t.KeyToDirectoryIndex key t.dir) := by
    rw [hgo]; exact hfresh
  obtain ⟨s5, s6⟩ := s4 hne
  rw [Insert_full B t key value hfull]
  have hins := Insert_compact B _ q5 0 q3 hB key value
  rcases hins with ⟨h1, -⟩ | ⟨-, h2⟩
  · exact absurd h1 (Compact_no_holds B _ q3 key value)
  · rw [h2] at s5 s6
    refine ⟨s5, s1, SplitInsert_next B t key value hfull, s2, ?_, ?_, ?_⟩
    · intro p hp
      rw [s6, setPage_other _ _ _ _ hp]
      by_cases hpx : p = t.dir.GetBucketPageId (t.KeyToDirectoryIndex key t.dir)
      · right
        rw [hpx, setPage_same]
        exact ⟨rfl, q1, q2⟩
      · left
        rw [setPage_other _ _ _ _ hpx]
    · rw [s6, setPage_same]
      exact Compact_put _ _ _ _ q3
    · rw [s6, setPage_same]
      rw [array_put]; simp

/-- A split `Insert` in which no pair moves and the new key stays with the old
page: the new page is empty, so `GetValue` fails for every key that the
directory now sends there. -/
theorem Insert_split_strands [DecidableEq K] [DecidableEq V] [Inhabited K] [Inhabited V]
    (B : Nat) (t : ExtendibleHashTable K V) (key : K) (value : V) (ht : TableInv B t)
    (hc : Compact (t.buckets (t.dir.GetBucketPageId (t.KeyToDirectoryIndex key t.dir))) B)
    (hstay : ∀ j, j < B →
      t.KeyToDirectoryIndex
        ((t.buckets (t.dir.GetBucketPageId (t.KeyToDirectoryIndex key t.dir))).array j).1
        (t.splitDirectory key) ≠
      (t.splitDepths key).GetSplitImageIndex (t.KeyToDirectoryIndex key t.dir))
    (hback : t.KeyToPageId key (t.splitDirectory key) =
      t.dir.GetBucketPageId (t.KeyToDirectoryIndex key t.dir))
    (k : K) (hk : t.KeyToPageId k (t.splitDirectory key) = t.next_page_id) (result : List V) :
    ((t.Insert B key value).2.GetValue B k result).1 = false := by
  have hfull := Compact_full B _ hc
  obtain ⟨q1, q2, q3, q4, q5⟩ := splitBuckets_quiet B t key ht hc hstay
  obtain ⟨s1, s2, s3, -⟩ := SplitInsert_full B t key value hfull
  obtain ⟨-, s6⟩ := s3 hback
  rw [Insert_full B t key value hfull]
  unfold ExtendibleHashTable.GetValue
  simp only
  have hpage : (t.SplitInsert B key value).2.KeyToPageId k (t.SplitInsert B key value).2.dir =
      t.next_page_id := by
    rw [← hk, s1]
    unfold ExtendibleHashTable.KeyToPageId ExtendibleHashTable.KeyToDirectoryIndex
      ExtendibleHashTable.Hash
    rw [s2]
  rw [hpage, s6, setPage_same]
  cases hgv : ((t.splitBuckets B key).2.GetValue B k result).1
  · rfl
  · obtain ⟨j, -, hrj, -⟩ := (GetValue_true_iff B _ q5 k result).mp hgv
    rw [(q3 j).1] at hrj
    simp at hrj

/-- Pairs that `Insert` puts one after the other into the same bucket, which
has room for all of them and holds none of them: the directory is left alone,
the bucket fills slot by slot, and a property of the pairs in the bucket is
kept. -/
theorem fill_bucket [DecidableEq K] [DecidableEq V] [Inhabited K] [Inhabited V] (B : Nat)
    (P : Int) (Q : K × V → Prop) (qs : List (K × V)) :
    ∀ (t : ExtendibleHashTable K V) (m : Nat),
      (∀ kv, kv ∈ qs → t.KeyToPageId kv.1 t.dir = P) →
      Compact (t.buckets P) m → m + qs.length ≤ B → qs.Nodup →
      (∀ kv, kv ∈ qs → ¬ (t.buckets P).Holds B kv.1 kv.2) →
      (∀ kv, kv ∈ qs → Q kv) → (∀ j, j < m → Q ((t.buckets P).array j)) →
      (runTable B t (qs.map fun kv => TableOp.Insert kv.1 kv.2)).dir = t.dir ∧
      (runTable B t (qs.map fun kv => TableOp.Insert kv.1 kv.2)).next_page_id =
        t.next_page_id ∧
      (runTable B t (qs.map fun kv => TableOp.Insert kv.1 kv.2)).hash_fn = t.hash_fn ∧
      (∀ p, p ≠ P →
        (runTable B t (qs.map fun kv => TableOp.Insert kv.1 kv.2)).buckets p = t.buckets p) ∧
      Compact ((runTable B t (qs.map fun kv => TableOp.Insert kv.1 kv.2)).buckets P)
        (m + qs.length) ∧
      (∀ j, j < m + qs.length →
        Q (((runTable B t (qs.map fun kv => TableOp.Insert kv.1 kv.2)).buckets P).array j)) ∧
      (∀ j, j < m →
        ((runTable B t (qs.map fun kv => TableOp.Insert kv.1 kv.2)).buckets P).array j =
          (t.buckets P).array j) := by
  induction qs with
  | nil =>
    intro t m _ hc _ _ _ _ hQ
    exact ⟨rfl, rfl, rfl, fun _ _ => rfl, hc, hQ, fun _ _ => rfl⟩
  | cons kv l ih =>
    intro t m hpage hc hlen hnd hnh hQl hQ
    rw [List.length_cons] at hlen
    have hnf := Compact_not_full B _ m hc (by omega)
    have hbi := BucketInv_of_Compact B _ m hc (by omega)
    have hins := Insert_compact B _ hbi m hc (by omega) kv.1 kv.2
    have hpk := hpage kv (List.mem_cons_self _ _)
    rcases hins with ⟨h1, -⟩ | ⟨-, h2⟩
    · exact absurd h1 (hnh kv (List.mem_cons_self _ _))
    · obtain ⟨t1, ht1⟩ : ∃ t1 : ExtendibleHashTable K V,
          t1 = { t with buckets := (setPage t.buckets P ((t.buckets P).put m kv.1 kv.2)) } :=
        ⟨_, rfl⟩
      have hstep : (t.Insert B kv.1 kv.2).2 = t1 := by
        rw [ht1]
        unfold ExtendibleHashTable.Insert
        simp only [hpk, hnf, Bool.not_false, if_true, h2]
      have hrun : runTable B t ((kv :: l).map fun kv => TableOp.Insert kv.1 kv.2) =
          runTable B t1 (l.map fun kv => TableOp.Insert kv.1 kv.2) := by
        rw [← hstep]; rfl
      rw [hrun]
      have e1 : t1.dir = t.dir := by rw [ht1]
      have e2 : t1.next_page_id = t.next_page_id := by rw [ht1]
      have e3 : t1.hash_fn = t.hash_fn := by rw [ht1]
      have e4 : t1.buckets P = (t.buckets P).put m kv.1 kv.2 := by
        rw [ht1]; exact setPage_same _ _ _
      have e5 : ∀ p, p ≠ P → t1.buckets p = t.buckets p := by
        intro p hp; rw [ht1]; exact setPage_other _ _ _ _ hp
      have e6 : ∀ k, t1.KeyToPageId k t1.dir = t.KeyToPageId k t.dir := by
        intro k; rw [ht1]; rfl
      rw [List.nodup_cons] at hnd
      have hrm : (t.buckets P).IsReadable m = false := by rw [(hc m).1]; simp
      obtain ⟨r1, r2, r3, r4, r5, r6, r7⟩ := ih t1 (m + 1)
        (fun x hx => by rw [e6]; exact hpage x (List.mem_cons_of_mem _ hx))
        (by rw [e4]; exact Compact_put _ _ _ _ hc) (by omega) hnd.2
        (fun x hx => by
          rw [e4, Holds_put B _ m _ _ _ _ (by omega) hrm]
          rintro (h | h)
          · have : x = kv := by
              have h3 := congrArg Prod.fst h
              have h4 := congrArg Prod.snd h
              exact Prod.ext h3 h4
            rw [this] at hx
            exact hnd.1 hx
          · exact hnh x (List.mem_cons_of_mem _ hx) h)
        (fun x hx => hQl x (List.mem_cons_of_mem _ hx))
        (fun j hj => by
          rw [e4, array_put]
          by_cases hjm : j = m
          · rw [if_pos hjm]; exact hQl kv (List.mem_cons_self _ _)
          · rw [if_neg hjm]; exact hQ j (by omega))
      refine ⟨r1.trans e1, r2.trans e2, r3.trans e3, fun p hp => (r4 p hp).trans (e5 p hp), ?_,
        ?_, ?_⟩
      · rw [List.length_cons]
        have : m + (l.length + 1) = m + 1 + l.length := by omega
        rw [this]; exact r5
      · intro j hj
        rw [List.length_cons] at hj
        exact r6 j (by omega)
      · intro j hj
        rw [r7 j (by omega), e4, array_put, if_neg (by omega)]

end TableQuietSplit

/-! ## Hash table: keys stranded by a split (claim C1) -/

/-- The directory cells and indices of the trace, by evaluation. -/
theorem strand_facts :
    ((dirOnly strandDir0 2).KeyToDirectoryIndex 1 strandDir0 = 0 ∧
      strandDir0.bucket_page_ids 0 = 1 ∧ strandDir1.global_depth = 1 ∧
      ((dirOnly strandDir0 2).splitDepths 1).GetSplitImageIndex 0 = 1 ∧
      strandDir1.bucket_page_ids 1 = 2) ∧
    ((dirOnly strandDir1 3).KeyToDirectoryIndex 3 strandDir1 = 1 ∧
      strandDir2.global_depth = 2 ∧
      ((dirOnly strandDir1 3).splitDepths 3).GetSplitImageIndex 1 = 3 ∧
      strandDir2.bucket_page_ids 3 = 3 ∧ strandDir2.bucket_page_ids 1 = 2) ∧
    ((dirOnly strandDir2 4).KeyToDirectoryIndex 5 strandDir2 = 1 ∧
      strandDir3.global_depth = 3 ∧
      ((dirOnly strandDir2 4).splitDepths 5).GetSplitImageIndex 1 = 5 ∧
      strandDir3.bucket_page_ids 5 = 4 ∧ strandDir3.bucket_page_ids 6 = 1) ∧
    ((dirOnly strandDir3 5).KeyToDirectoryIndex 0 strandDir3 = 0 ∧
      strandDir3.bucket_page_ids 0 = 1 ∧ strandDir4.global_depth = 3 ∧
      ((dirOnly strandDir3 5).splitDepths 0).GetSplitImageIndex 0 = 2 ∧
      strandDir4.bucket_page_ids 0 = 1 ∧ strandDir4.bucket_page_ids 6 = 5) := by
  decide

section Strand

theorem split_dirOnly (t : ExtendibleHashTable Nat Nat) (D : HashTableDirectoryPage) (n : Int)
    (hd : t.dir = D) (hn : t.next_page_id = n) (hh : t.hash_fn = fun k => k) (key : Nat) :
    t.splitDirectory key = (dirOnly D n).splitDirectory key ∧
    t.splitDepths key = (dirOnly D n).splitDepths key ∧
    t.KeyToDirectoryIndex key t.dir = (dirOnly D n).KeyToDirectoryIndex key D := by
  obtain ⟨h, dp, d, bk, n', del⟩ := t
  simp only at hd hn hh
  subst hd hn hh
  exact ⟨rfl, rfl, rfl⟩

theorem index_of_id (t : ExtendibleHashTable Nat Nat) (hh : t.hash_fn = fun k => k) (k : Nat)
    (d : HashTableDirectoryPage) (g : Nat) (hg : d.global_depth = g) :
    t.KeyToDirectoryIndex k d = k % 2 ^ 32 % 2 ^ g := by
  rw [KeyToDirectoryIndex_eq, hg]
  unfold ExtendibleHashTable.Hash
  rw [hh]

/-- One split of the trace: the bucket `X` of `key` is full, none of its keys
has the split image index `nbi`, and the directory sends `key` to the new page
`n`.  The insert succeeds, the state is kept, full buckets stay as they were,
and page `n` holds the new pair alone. -/
theorem strand_split (B : Nat) (hB : 0 < B) (t : ExtendibleHashTable Nat Nat)
    (D D2 : HashTableDirectoryPage) (n X : Int) (key value b nbi g : Nat)
    (hs : StrandState B t D n) (hn1 : (1 : Int) ≠ n)
    (hb : (dirOnly D n).KeyToDirectoryIndex key D = b) (hX : D.bucket_page_ids b = X)
    (hD2 : (dirOnly D n).splitDirectory key = D2)
    (hnbi : ((dirOnly D n).splitDepths key).GetSplitImageIndex b = nbi)
    (hg : D2.global_depth = g)
    (hc : Compact (t.buckets X) B)
    (hstay : ∀ j, j < B → ((t.buckets X).array j).1 % 2 ^ 32 % 2 ^ g ≠ nbi)
    (hgo : D2.bucket_page_ids (key % 2 ^ 32 % 2 ^ g) = n) :
    (t.Insert B key value).1 = true ∧
    StrandState B (t.Insert B key value).2 D2 (n + 1) ∧
    (∀ p, p ≠ n →
      (Compact (t.buckets p) B → Compact ((t.Insert B key value).2.buckets p) B) ∧
      ((t.Insert B key value).2.buckets p).array = (t.buckets p).array) ∧
    Compact ((t.Insert B key value).2.buckets n) 1 ∧
    ((t.Insert B key value).2.buckets n).array 0 = (key, value) := by
  obtain ⟨ht, hd, hn, hh, hc1, hq1, ha1⟩ := hs
  obtain ⟨e1, e2, e3⟩ := split_dirOnly t D n hd hn hh key
  have hbt : t.KeyToDirectoryIndex key t.dir = b := e3.trans hb
  have hXt : t.dir.GetBucketPageId b = X := by
    unfold HashTableDirectoryPage.GetBucketPageId
    rw [hd]; exact hX
  have e1' : t.splitDirectory key = D2 := e1.trans hD2
  have hc' : Compact (t.buckets (t.dir.GetBucketPageId (t.KeyToDirectoryIndex key t.dir))) B := by
    rw [hbt, hXt]; exact hc
  have hstay' : ∀ j, j < B →
      t.KeyToDirectoryIndex
        ((t.buckets (t.dir.GetBucketPageId (t.KeyToDirectoryIndex key t.dir))).array j).1
        (t.splitDirectory key) ≠
      (t.splitDepths key).GetSplitImageIndex (t.KeyToDirectoryIndex key t.dir) := by
    intro j hj
    rw [hbt, hXt, e1', e2, hnbi, index_of_id t hh _ D2 g hg]
    exact hstay j hj
  have hgo' : t.KeyToPageId key (t.splitDirectory key) = t.next_page_id := by
    unfold ExtendibleHashTable.KeyToPageId
    rw [e1', index_of_id t hh _ D2 g hg, hn]
    exact hgo
  obtain ⟨r1, r2, r3, r4, r5, r6, r7⟩ :=
    Insert_quiet_split B hB t key value ht hc' hstay' hgo'
  rw [hn] at r3 r5 r6 r7
  have hkeep : ∀ p, p ≠ n →
      (Compact (t.buckets p) B → Compact ((t.Insert B key value).2.buckets p) B) ∧
      ((t.Insert B key value).2.buckets p).array = (t.buckets p).array := by
    intro p hp
    rcases r5 p hp with h | ⟨-, h2, h3⟩
    · rw [h]; exact ⟨id, rfl⟩
    · exact ⟨fun _ => h2, h3⟩
  refine ⟨r1, ⟨Insert_inv B t key value ht, r2.trans e1', r3, r4.trans hh, ?_, ?_, ?_⟩, hkeep,
    r6, r7⟩
  · exact (hkeep 1 hn1).1 hc1
  · intro j hj
    rw [(hkeep 1 hn1).2]; exact hq1 j hj
  · rw [(hkeep 1 hn1).2]; exact ha1

theorem strandPairs_getElem (c n i : Nat) (hi : i < n) :
    (strandPairs c n)[i]? = some (c + 8 * i, 0) := by
  unfold strandPairs
  rw [List.getElem?_map, List.getElem?_range hi]
  rfl

theorem strandPairs_mem (c n : Nat) (kv : Nat × Nat) (h : kv ∈ strandPairs c n) :
    ∃ j, j < n ∧ kv = (c + 8 * j, 0) := by
  unfold strandPairs at h
  obtain ⟨j, hj, he⟩ := List.mem_map.mp h
  exact ⟨j, List.mem_range.mp hj, he.symm⟩

theorem strandPairs_nodup (c n : Nat) :
    ((strandPairs c n).map Prod.fst).Nodup ∧ (strandPairs c n).Nodup := by
  have h1 : ((strandPairs c n).map Prod.fst).Nodup := by
    unfold strandPairs
    rw [List.map_map]
    apply List.Nodup.map _ (List.nodup_range n)
    intro a b hab
    simp only [Function.comp] at hab
    omega
  exact ⟨h1, List.Nodup.of_map _ h1⟩

/-- The state after the first bucket has been filled. -/
theorem strand_filled (B : Nat) (hB : 0 < B) :
    StrandState B
      (runTable B (ExtendibleHashTable.init (fun k : Nat => k) 0)
        ((strandPairs 6 B).map fun kv => TableOp.Insert kv.1 kv.2))
      strandDir0 2 := by
  have hlen : (strandPairs 6 B).length = B := by
    unfold strandPairs; rw [List.length_map, List.length_range]
  obtain ⟨i1, i2, i3, i4, i5⟩ := fill_first_bucket B (fun k : Nat => k) 0 (strandPairs 6 B)
    (strandPairs_nodup 6 B).1 (le_of_eq hlen)
  have htB := runTable_inv B ((strandPairs 6 B).map fun kv => TableOp.Insert kv.1 kv.2) _
    (TableInv_init B (fun k : Nat => k) 0)
  rw [hlen] at i4 i5
  have e01 : (0 : Int) + 1 = 1 := by norm_num
  have e02 : (0 : Int) + 2 = 2 := by norm_num
  rw [e01] at i4 i5
  rw [e02] at i2
  have harr : ∀ j, j < B → ((runTable B (ExtendibleHashTable.init (fun k : Nat => k) 0)
      ((strandPairs 6 B).map fun kv => TableOp.Insert kv.1 kv.2)).buckets 1).array j =
      (6 + 8 * j, 0) := by
    intro j hj
    have := i5 j hj
    rw [strandPairs_getElem 6 B j hj] at this
    exact (Option.some.inj this).symm
  refine ⟨htB, i1, i2, i3, i4, ?_, ?_⟩
  · intro j hj
    rw [harr j hj]
    show (6 + 8 * j) % 8 = 6
    omega
  · rw [harr 0 hB]

end Strand

section StrandRun

/-- The state after the first split and after the bucket of key 1 has been
filled: page 2 is full of keys congruent to 1 modulo 8. -/
theorem strand_odd_filled (B : Nat) (hB : 0 < B) :
    StrandState B
      (runTable B (ExtendibleHashTable.init (fun k : Nat => k) 0)
        ((strandPairs 6 B).map (fun kv => TableOp.Insert kv.1 kv.2) ++ [TableOp.Insert 1 0] ++
          (strandPairs 9 (B - 1)).map (fun kv => TableOp.Insert kv.1 kv.2)))
      strandDir1 3 ∧
    Compact ((runTable B (ExtendibleHashTable.init (fun k : Nat => k) 0)
      ((strandPairs 6 B).map (fun kv => TableOp.Insert kv.1 kv.2) ++ [TableOp.Insert 1 0] ++
        (strandPairs 9 (B - 1)).map (fun kv => TableOp.Insert kv.1 kv.2))).buckets 2) B ∧
    (∀ j, j < B → (((runTable B (ExtendibleHashTable.init (fun k : Nat => k) 0)
      ((strandPairs 6 B).map (fun kv => TableOp.Insert kv.1 kv.2) ++ [TableOp.Insert 1 0] ++
        (strandPairs 9 (B - 1)).map (fun kv => TableOp.Insert kv.1 kv.2))).buckets 2).array
          j).1 % 8 = 1) := by
  have hA := strand_filled B hB
  rw [runTable_append, runTable_append]
  generalize runTable B (ExtendibleHashTable.init (fun k : Nat => k) 0)
    ((strandPairs 6 B).map fun kv => TableOp.Insert kv.1 kv.2) = tA at hA ⊢
  obtain ⟨f0, -, -, -⟩ := strand_facts
  obtain ⟨f1, f2, f3, f4, f5⟩ := f0
  have hsp := strand_split B hB tA strandDir0 strandDir1 2 1 1 0 0 1 1 hA (by decide) f1 f2 rfl
    f4 f3 hA.2.2.2.2.1
    (fun j hj => by
      have := hA.2.2.2.2.2.1 j hj
      norm_num
      omega)
    (by
      have : 1 % 2 ^ 32 % 2 ^ 1 = 1 := by norm_num
      rw [this]; exact f5)
  have hrun1 : runTable B tA [TableOp.Insert 1 0] = (tA.Insert B 1 0).2 := rfl
  rw [hrun1]
  generalize (tA.Insert B 1 0).2 = tB at hsp ⊢
  obtain ⟨-, hsB, -, hc2, ha2⟩ := hsp
  have e23 : (2 : Int) + 1 = 3 := by norm_num
  rw [e23] at hsB
  obtain ⟨htB, hd, hn, hh, hc1, hq1, ha1⟩ := hsB
  have hlen : (strandPairs 9 (B - 1)).length = B - 1 := by
    unfold strandPairs; rw [List.length_map, List.length_range]
  obtain ⟨r1, r2, r3, r4, r5, r6, -⟩ := fill_bucket B 2 (fun kv : Nat × Nat => kv.1 % 8 = 1)
    (strandPairs 9 (B - 1)) tB 1
    (fun kv hkv => by
      obtain ⟨j, -, he⟩ := strandPairs_mem 9 (B - 1) kv hkv
      unfold ExtendibleHashTable.KeyToPageId
      rw [hd, index_of_id tB hh _ strandDir1 1 f3, he]
      have : (9 + 8 * j) % 2 ^ 32 % 2 ^ 1 = 1 := by
        norm_num
        omega
      rw [this]
      exact f5)
    hc2 (by rw [hlen]; omega) (strandPairs_nodup 9 (B - 1)).2
    (fun kv hkv => by
      obtain ⟨j, -, he⟩ := strandPairs_mem 9 (B - 1) kv hkv
      rintro ⟨i, -, hri, hai⟩
      rw [(hc2 i).1] at hri
      simp only [decide_eq_true_eq] at hri
      have hi0 : i = 0 := by omega
      rw [hi0, ha2, he] at hai
      have := congrArg Prod.fst hai
      simp at this
      omega)
    (fun kv hkv => by
      obtain ⟨j, -, he⟩ := strandPairs_mem 9 (B - 1) kv hkv
      rw [he]
      show (9 + 8 * j) % 8 = 1
      omega)
    (fun j hj => by
      have hj0 : j = 0 := by omega
      rw [hj0, ha2]
      show (1 : Nat) % 8 = 1
      norm_num)
  rw [hlen] at r5 r6
  have hB1 : 1 + (B - 1) = B := by omega
  rw [hB1] at r5 r6
  have h12 : (1 : Int) ≠ 2 := by decide
  refine ⟨⟨runTable_inv B _ tB htB, r1.trans hd, r2.trans hn, r3.trans hh, ?_, ?_, ?_⟩, r5, r6⟩
  · rw [r4 1 h12]; exact hc1
  · intro j hj
    rw [r4 1 h12]; exact hq1 j hj
  · rw [r4 1 h12]; exact ha1

/-- The state after the whole trace: global depth 3, with the first bucket,
still at local depth 1, full of keys congruent to 6 modulo 8. -/
theorem strand_ready (B : Nat) (hB : 0 < B) :
    StrandState B
      (runTable B (ExtendibleHashTable.init (fun k : Nat => k) 0) (strandTrace B))
      strandDir3 5 := by
  obtain ⟨hsC, hcC, hqC⟩ := strand_odd_filled B hB
  unfold strandTrace
  rw [runTable_append]
  generalize runTable B (ExtendibleHashTable.init (fun k : Nat => k) 0)
    ((strandPairs 6 B).map (fun kv => TableOp.Insert kv.1 kv.2) ++ [TableOp.Insert 1 0] ++
      (strandPairs 9 (B - 1)).map (fun kv => TableOp.Insert kv.1 kv.2)) = tC at hsC hcC hqC ⊢
  obtain ⟨f0, f1, f2, -⟩ := strand_facts
  obtain ⟨-, -, -, -, f5⟩ := f0
  obtain ⟨g1, g2, g3, g4, g5⟩ := f1
  obtain ⟨k1, k2, k3, k4, k5⟩ := f2
  have hrun : runTable B tC [TableOp.Insert 3 0, TableOp.Insert 5 0] =
      ((tC.Insert B 3 0).2.Insert B 5 0).2 := rfl
  rw [hrun]
  have hspD := strand_split B hB tC strandDir1 strandDir2 3 2 3 0 1 3 2 hsC (by decide) g1 f5
    rfl g3 g2 hcC
    (fun j hj => by
      have := hqC j hj
      norm_num
      omega)
    (by
      have : 3 % 2 ^ 32 % 2 ^ 2 = 3 := by norm_num
      rw [this]; exact g4)
  generalize (tC.Insert B 3 0).2 = tD at hspD ⊢
  obtain ⟨-, hsD, hkD, -, -⟩ := hspD
  have e34 : (3 : Int) + 1 = 4 := by norm_num
  rw [e34] at hsD
  have h23 : (2 : Int) ≠ 3 := by decide
  have hcD := (hkD 2 h23).1 hcC
  have hspE := strand_split B hB tD strandDir2 strandDir3 4 2 5 0 1 5 3 hsD (by decide) k1
    g5 rfl k3 k2 hcD
    (fun j hj => by
      have := hqC j hj
      rw [(hkD 2 h23).2]
      norm_num
      omega)
    (by
      have : 5 % 2 ^ 32 % 2 ^ 3 = 5 := by norm_num
      rw [this]; exact k4)
  obtain ⟨-, hsE, -, -, -⟩ := hspE
  have e45 : (4 : Int) + 1 = 5 := by norm_num
  rw [e45] at hsE
  exact hsE

end StrandRun

/-- C1 (fails on the code): for every bucket capacity `B >= 1`, with the
identity as hash function on `Nat` keys.  `Insert(6, 0)` is the first call and
returns true, no `Remove` is called, and after the calls of `strandTrace`
(inserts of `B` keys 6, 14, 22, ..., of key 1, of `B - 1` keys 9, 17, ..., and
of keys 3 and 5) `GetValue(6)` returns true with 0 among its results: the
directory has global depth 3 and indices 0, 2, 4, 6 share the full first
bucket at local depth 1.  `Insert(0, 0)` then splits that bucket: indices 2
and 6 are re-pointed to the new page, but the rehash loop of `SplitInsert`
moves only the keys whose directory index under the global mask equals the one
split image index 2, so key 6 (index 6) stays in the old page and `GetValue(6)`
returns false. -/
theorem getValue_fails_after_split (B : Nat) (hB : 0 < B) :
    ((ExtendibleHashTable.init (fun k : Nat => k) 0 : ExtendibleHashTable Nat Nat).Insert B 6
      0).1 = true ∧
    ((runTable B (ExtendibleHashTable.init (fun k : Nat => k) 0) (strandTrace B)).GetValue B 6
      []).1 = true ∧
    0 ∈ ((runTable B (ExtendibleHashTable.init (fun k : Nat => k) 0) (strandTrace B)).GetValue B
      6 []).2 ∧
    ((runTable B (ExtendibleHashTable.init (fun k : Nat => k) 0)
      (strandTrace B ++ [TableOp.Insert 0 0])).GetValue B 6 []).1 = false := by
  obtain ⟨-, -, f2, f3⟩ := strand_facts
  obtain ⟨-, k2, -, -, k5⟩ := f2
  obtain ⟨m1, m2, m3, m4, m5, m6⟩ := f3
  refine ⟨?_, ?_⟩
  · -- the first call
    unfold ExtendibleHashTable.Insert
    simp only
    have hz : ∀ p, (ExtendibleHashTable.init (fun k : Nat => k) 0 :
        ExtendibleHashTable Nat Nat).buckets p = HashTableBucketPage.zero := fun _ => rfl
    rw [hz, Compact_not_full B _ 0 Compact_zero hB]
    simp only [Bool.not_false, if_true]
    exact Insert_succeeds B _ (BucketInv_zero B) 6 0 (Compact_no_holds B _ Compact_zero 6 0)
      ⟨0, hB, by rw [(Compact_zero 0).1]; simp⟩
  · have hs := strand_ready B hB
    rw [runTable_append]
    generalize runTable B (ExtendibleHashTable.init (fun k : Nat => k) 0) (strandTrace B) = tE
      at hs ⊢
    obtain ⟨ht, hd, hn, hh, hc1, hq1, ha1⟩ := hs
    have e6 : 6 % 2 ^ 32 % 2 ^ 3 = 6 := by norm_num
    have e0 : 0 % 2 ^ 32 % 2 ^ 3 = 0 := by norm_num
    have hpage6 : tE.KeyToPageId 6 tE.dir = 1 := by
      unfold ExtendibleHashTable.KeyToPageId
      rw [hd, index_of_id tE hh _ strandDir3 3 k2, e6]
      exact k5
    have hholds : (tE.buckets 1).Holds B 6 0 :=
      ⟨0, hB, by rw [(hc1 0).1]; simpa using hB, ha1⟩
    refine ⟨?_, ?_, ?_⟩
    · unfold ExtendibleHashTable.GetValue
      simp only
      rw [hpage6]
      exact GetValue_of_Holds B _ (ht.buckets_inv 1) 6 0 [] hholds
    · unfold ExtendibleHashTable.GetValue
      simp only
      rw [hpage6]
      exact (GetValue_mem_iff B _ (ht.buckets_inv 1) 6 0).mpr hholds
    · obtain ⟨e1, e2, e3⟩ := split_dirOnly tE strandDir3 5 hd hn hh 0
      have hbt : tE.KeyToDirectoryIndex 0 tE.dir = 0 := e3.trans m1
      have hXt : tE.dir.GetBucketPageId 0 = 1 := by
        unfold HashTableDirectoryPage.GetBucketPageId
        rw [hd]; exact m2
      have e1' : tE.splitDirectory 0 = strandDir4 := e1
      have hrun : runTable B tE [TableOp.Insert 0 0] = (tE.Insert B 0 0).2 := rfl
      rw [hrun]
      apply Insert_split_strands B tE 0 0 ht
      · rw [hbt, hXt]; exact hc1
      · intro j hj
        rw [hbt, hXt, e1', e2, m4, index_of_id tE hh _ strandDir4 3 m3]
        have := hq1 j hj
        norm_num
        omega
      · unfold ExtendibleHashTable.KeyToPageId
        rw [hbt, hXt, e1', index_of_id tE hh _ strandDir4 3 m3, e0]
        exact m5
      · unfold ExtendibleHashTable.KeyToPageId
        rw [e1', index_of_id tE hh _ strandDir4 3 m3, e6, hn]
        exact m6

/-- Witness of `getValue_fails_after_split`: capacity 496, the
`BUCKET_ARRAY_SIZE` of a bucket page of `int` keys and `int` values. -/
theorem getValue_fails_after_split_witness :
    0 < 496 ∧
    ((runTable 496 (ExtendibleHashTable.init (fun k : Nat => k) 0)
      (strandTrace 496 ++ [TableOp.Insert 0 0])).GetValue 496 6 []).1 = false :=
  ⟨by decide, (getValue_fails_after_split 496 (by decide)).2.2.2⟩

/-! ## LRU replacer: order of eviction (claims C19 and C20) -/

theorem ReplacerWf_init : ReplacerWf LRUReplacer.init :=
  ⟨List.nodup_nil, List.nodup_nil, fun _ => Iff.rfl, rfl⟩

theorem size_t_inc_mod (n : Nat) : size_t_inc (n % 2 ^ 64) = (n + 1) % 2 ^ 64 := by
  unfold size_t_inc
  omega

theorem size_t_dec_mod (n : Nat) : size_t_dec ((n + 1) % 2 ^ 64) = n % 2 ^ 64 := by
  unfold size_t_dec
  omega

theorem ReplacerWf_Unpin (r : LRUReplacer) (h : ReplacerWf r) (f : Nat) :
    ReplacerWf (r.Unpin f) := by
  unfold LRUReplacer.Unpin
  split
  · exact h
  · rename_i hf
    have hf2 : f ∉ r.replace_frames := fun hc => hf ((h.map_iff f).mpr hc)
    refine ⟨List.nodup_cons.mpr ⟨hf2, h.frames_nodup⟩, List.nodup_cons.mpr ⟨hf, h.map_nodup⟩,
      ?_, ?_⟩
    · intro g
      simp only [List.mem_cons, h.map_iff g]
    · simp only [List.length_cons]
      rw [h.size_eq, size_t_inc_mod]

theorem length_erase_succ (l : List Nat) (f : Nat) (h : f ∈ l) :
    (l.erase f).length + 1 = l.length := by
  rw [List.length_erase_of_mem h]
  have := List.length_pos_of_mem h
  omega

theorem ReplacerWf_Pin (r : LRUReplacer) (h : ReplacerWf r) (f : Nat) :
    ReplacerWf (r.Pin f) := by
  unfold LRUReplacer.Pin
  split
  · rename_i hf
    have hf2 : f ∈ r.replace_frames := (h.map_iff f).mp hf
    refine ⟨h.frames_nodup.erase f, h.map_nodup.erase f, ?_, ?_⟩
    · intro g
      simp only [h.map_nodup.mem_erase_iff, h.frames_nodup.mem_erase_iff, h.map_iff g]
    · simp only
      rw [h.size_eq, ← length_erase_succ _ f hf2, size_t_dec_mod]
  · exact h

theorem getLast?_split (l : List Nat) (f : Nat) (h : l.getLast? = some f) :
    l = l.dropLast ++ [f] := by
  have := List.dropLast_append_getLast? f h
  exact this.symm

theorem ReplacerWf_Victim (r : LRUReplacer) (h : ReplacerWf r) : ReplacerWf r.Victim.2 := by
  unfold LRUReplacer.Victim
  split
  · exact h
  · rename_i f hf
    have hsplit := getLast?_split _ f hf
    have hnd := h.frames_nodup
    rw [hsplit] at hnd
    have hfn : f ∉ r.replace_frames.dropLast := by
      intro hc
      have := (List.nodup_append.mp hnd).2.2
      exact this hc (List.mem_singleton_self f) 
    have hmem : ∀ g, g ∈ r.replace_frames ↔ g ∈ r.replace_frames.dropLast ∨ g = f := by
      intro g
      constructor
      · intro hg
        rw [hsplit] at hg
        simpa using hg
      · rintro (hg | hg)
        · exact List.mem_of_mem_dropLast hg
        · rw [hg]; exact List.mem_of_getLast?_eq_some hf
    refine ⟨(List.nodup_append.mp hnd).1, h.map_nodup.erase f, ?_, ?_⟩
    · intro g
      simp only [h.map_nodup.mem_erase_iff, h.map_iff g, hmem g]
      constructor
      · rintro ⟨h1, h2 | h2⟩
        · exact h2
        · exact absurd h2 h1
      · intro h2
        exact ⟨fun hc => hfn (hc ▸ h2), Or.inl h2⟩
    · simp only
      have hlen : r.replace_frames.length = r.replace_frames.dropLast.length + 1 := by
        conv_lhs => rw [hsplit]
        simp
      rw [h.size_eq, hlen, size_t_dec_mod]

theorem ReplacerWf_apply (r : LRUReplacer) (h : ReplacerWf r) (op : ReplacerOp) :
    ReplacerWf (op.apply r) := by
  cases op with
  | Unpin f => exact ReplacerWf_Unpin r h f
  | Pin f => exact ReplacerWf_Pin r h f
  | Victim => exact ReplacerWf_Victim r h

theorem foldl_apply_wf (ops : List ReplacerOp) (r : LRUReplacer) (h : ReplacerWf r) :
    ReplacerWf (ops.foldl ReplacerOp.apply r) := by
  induction ops generalizing r with
  | nil => exact h
  | cons op ops ih => exact ih _ (ReplacerWf_apply r h op)

theorem runReplacer_wf (ops : List ReplacerOp) : ReplacerWf (runReplacer ops) :=
  foldl_apply_wf ops _ ReplacerWf_init

theorem TimedWf_init : TimedWf TimedReplacer.init :=
  ⟨ReplacerWf_init, List.Pairwise.nil, fun f hf => by
    simp [TimedReplacer.init, LRUReplacer.init] at hf⟩

theorem TimedWf_step (s : TimedReplacer) (h : TimedWf s) (op : ReplacerOp) :
    TimedWf (s.step op) := by
  refine ⟨ReplacerWf_apply _ h.wf op, ?_, ?_⟩
  · cases op with
    | Unpin f =>
      show (s.replacer.Unpin f).replace_frames.Pairwise _
      unfold LRUReplacer.Unpin
      by_cases hf : f ∈ s.replacer.replace_map
      · have hf2 := (h.wf.map_iff f).mp hf
        simp only [TimedReplacer.step, hf, hf2, if_true]
        exact h.ordered
      · have hf2 : f ∉ s.replacer.replace_frames := fun hc => hf ((h.wf.map_iff f).mpr hc)
        simp only [TimedReplacer.step, hf, hf2, if_false]
        rw [List.pairwise_cons]
        constructor
        · intro a ha
          have hne : a ≠ f := fun hc => hf2 (hc ▸ ha)
          simp only [setAt, hne, if_false, if_true]
          exact h.past a ha
        · apply List.Pairwise.imp_of_mem _ h.ordered
          intro a b ha hb hab
          have hna : a ≠ f := fun hc => hf2 (hc ▸ ha)
          have hnb : b ≠ f := fun hc => hf2 (hc ▸ hb)
          simp only [setAt, hna, hnb, if_false]
          exact hab
    | Pin f =>
      show (s.replacer.Pin f).replace_frames.Pairwise _
      unfold LRUReplacer.Pin
      split
      · exact h.ordered.sublist (List.erase_sublist f _)
      · exact h.ordered
    | Victim =>
      show (s.replacer.Victim.2).replace_frames.Pairwise _
      unfold LRUReplacer.Victim
      split
      · exact h.ordered
      · exact h.ordered.sublist (List.dropLast_sublist _)
  · intro g hg
    show (s.step op).added g < s.clock + 1
    cases op with
    | Unpin f =>
      have hg' : g ∈ (s.replacer.Unpin f).replace_frames := hg
      simp only [TimedReplacer.step]
      by_cases hf : f ∈ s.replacer.replace_frames
      · rw [if_pos hf]
        have hfm := (h.wf.map_iff f).mpr hf
        unfold LRUReplacer.Unpin at hg'
        rw [if_pos hfm] at hg'
        exact Nat.lt_succ_of_lt (h.past g hg')
      · rw [if_neg hf]
        by_cases hgf : g = f
        · simp [setAt, hgf]
        · rcases Unpin_subset _ _ _ hg' with h1 | h1
          · exact absurd h1 hgf
          · simp only [setAt, hgf, if_false]
            exact Nat.lt_succ_of_lt (h.past g h1)
    | Pin f =>
      have hg' : g ∈ (s.replacer.Pin f).replace_frames := hg
      exact Nat.lt_succ_of_lt (h.past g (Pin_subset _ _ _ hg'))
    | Victim =>
      have hg' : g ∈ (s.replacer.Victim.2).replace_frames := hg
      have : g ∈ s.replacer.replace_frames := by
        unfold LRUReplacer.Victim at hg'
        split at hg'
        · exact hg'
        · exact List.mem_of_mem_dropLast hg'
      exact Nat.lt_succ_of_lt (h.past g this)

theorem foldl_step_wf (ops : List ReplacerOp) (s : TimedReplacer) (h : TimedWf s) :
    TimedWf (ops.foldl TimedReplacer.step s) := by
  induction ops generalizing s with
  | nil => exact h
  | cons op ops ih => exact ih _ (TimedWf_step s h op)

theorem runTimed_wf (ops : List ReplacerOp) : TimedWf (runTimed ops) :=
  foldl_step_wf ops _ TimedWf_init

theorem foldl_step_replacer (ops : List ReplacerOp) (s : TimedReplacer) :
    (ops.foldl TimedReplacer.step s).replacer = ops.foldl ReplacerOp.apply s.replacer := by
  induction ops generalizing s with
  | nil => rfl
  | cons op ops ih => exact ih _

/-- The observer does not interfere: the replacer it watches is the replacer of
the code after the same calls. -/
theorem runTimed_replacer (ops : List ReplacerOp) :
    (runTimed ops).replacer = runReplacer ops :=
  foldl_step_replacer ops _

theorem dropLast_eq_filter (l : List Nat) (f : Nat) (hnd : l.Nodup) (h : l.getLast? = some f) :
    l.dropLast = l.filter (fun g => decide (g ≠ f)) := by
  have hsplit := getLast?_split l f h
  have hnd2 := hnd
  rw [hsplit] at hnd2
  have hfn : f ∉ l.dropLast := fun hc =>
    (List.nodup_append.mp hnd2).2.2 hc (List.mem_singleton_self f)
  conv_rhs => rw [hsplit]
  rw [List.filter_append]
  have h1 : l.dropLast.filter (fun g => decide (g ≠ f)) = l.dropLast := by
    apply List.filter_eq_self.mpr
    intro a ha
    have : a ≠ f := fun hc => hfn (hc ▸ ha)
    simpa using this
  rw [h1]
  simp

/-- C19: after every sequence of `Unpin` / `Pin` / `Victim` calls on a new
replacer (the observed run `runTimed` is the run of the code, `runReplacer`, and
`Size()` counts the frames of the list): `Victim` on an empty replacer returns
false and leaves the replacer as it is; on a non-empty one it returns true with
a frame `f` of the replacer that was added by `Unpin` before every other frame
of the replacer, and the list afterwards is the list before without `f`, the
other frames in the same order. -/
theorem victim_least_recently_unpinned (ops : List ReplacerOp) :
    (runTimed ops).replacer = runReplacer ops ∧
    (runReplacer ops).Size = (runReplacer ops).replace_frames.length % 2 ^ 64 ∧
    ((runReplacer ops).replace_frames = [] →
      (runReplacer ops).Victim = (none, runReplacer ops)) ∧
    ((runReplacer ops).replace_frames ≠ [] →
      ∃ f, (runReplacer ops).Victim.1 = some f ∧ f ∈ (runReplacer ops).replace_frames ∧
        (∀ g, g ∈ (runReplacer ops).replace_frames → g ≠ f →
          (runTimed ops).added f < (runTimed ops).added g) ∧
        (runReplacer ops).Victim.2.replace_frames =
          (runReplacer ops).replace_frames.filter (fun g => decide (g ≠ f)) ∧
        (∀ g, g ∈ (runReplacer ops).Victim.2.replace_frames ↔
          g ∈ (runReplacer ops).replace_frames ∧ g ≠ f) ∧
        ReplacerWf (runReplacer ops).Victim.2) := by
  have hw := runTimed_wf ops
  have he := runTimed_replacer ops
  have hr := runReplacer_wf ops
  refine ⟨he, hr.size_eq, ?_, ?_⟩
  · intro hnil
    unfold LRUReplacer.Victim
    rw [hnil]
    rfl
  · intro hne
    obtain ⟨f, hf⟩ : ∃ f, (runReplacer ops).replace_frames.getLast? = some f := by
      cases hl : (runReplacer ops).replace_frames.getLast? with
      | none => exact absurd (List.getLast?_eq_none_iff.mp hl) hne
      | some f => exact ⟨f, rfl⟩
    have hv : (runReplacer ops).Victim =
        (some f,
          { replace_frames := (runReplacer ops).replace_frames.dropLast
            replace_map := (runReplacer ops).replace_map.erase f
            size := size_t_dec (runReplacer ops).size }) := by
      unfold LRUReplacer.Victim
      rw [hf]
    have hsplit := getLast?_split _ f hf
    have hfilter := dropLast_eq_filter _ f hr.frames_nodup hf
    refine ⟨f, by rw [hv], List.mem_of_getLast?_eq_some hf, ?_, ?_, ?_, ReplacerWf_Victim _ hr⟩
    · intro g hg hgf
      have hord := hw.ordered
      rw [he, hsplit, List.pairwise_append] at hord
      have hg2 : g ∈ (runReplacer ops).replace_frames.dropLast := by
        rw [hsplit] at hg
        rcases List.mem_append.mp hg with h1 | h1
        · exact h1
        · exact absurd (List.mem_singleton.mp h1) hgf
      exact hord.2.2 g hg2 f (List.mem_singleton_self f)
    · rw [hv]; exact hfilter
    · intro g
      rw [hv]
      simp only
      rw [hfilter, List.mem_filter]
      simp

/-- Witness of `victim_least_recently_unpinned`: a new replacer is empty; after
`Unpin(1)`, `Unpin(2)`, `Unpin(1)`, `Pin(3)` the victim is frame 1. -/
theorem victim_least_recently_unpinned_witness :
    (runReplacer []).Victim = (none, runReplacer []) ∧
    (runReplacer [.Unpin 1, .Unpin 2, .Unpin 1, .Pin 3]).replace_frames ≠ [] ∧
    ∃ f, (runReplacer [.Unpin 1, .Unpin 2, .Unpin 1, .Pin 3]).Victim.1 = some f ∧
      f ∈ (runReplacer [.Unpin 1, .Unpin 2, .Unpin 1, .Pin 3]).replace_frames :=
  ⟨(victim_least_recently_unpinned []).2.2.1 (by decide), by decide,
    (victim_least_recently_unpinned [.Unpin 1, .Unpin 2, .Unpin 1, .Pin 3]).2.2.2
      (by decide) |>.imp fun _ h => ⟨h.1, h.2.1⟩⟩

theorem runTimed_snoc (ops : List ReplacerOp) (op : ReplacerOp) :
    runTimed (ops ++ [op]) = (runTimed ops).step op := by
  unfold runTimed
  rw [List.foldl_append]
  rfl

/-- C20: after every sequence of calls on a new replacer, for every frame `f`:
`Unpin(f)` of a frame of the replacer leaves the replacer as it is (list,
index and `size_`), and the observed time of addition of every frame too;
`Pin(f)` of a frame that is not in the replacer leaves the replacer as it is;
`Pin(f)` of a frame of the replacer gives the list without `f`, the other
frames in the same order, with `size_` decremented. -/
theorem replacer_noop_laws (ops : List ReplacerOp) (f : Nat) :
    (f ∈ (runReplacer ops).replace_frames →
      (runReplacer ops).Unpin f = runReplacer ops ∧
      (runTimed (ops ++ [.Unpin f])).added = (runTimed ops).added) ∧
    (f ∉ (runReplacer ops).replace_frames → (runReplacer ops).Pin f = runReplacer ops) ∧
    (f ∈ (runReplacer ops).replace_frames →
      ((runReplacer ops).Pin f).replace_frames =
        (runReplacer ops).replace_frames.filter (fun g => decide (g ≠ f)) ∧
      (∀ g, g ∈ ((runReplacer ops).Pin f).replace_frames ↔
        g ∈ (runReplacer ops).replace_frames ∧ g ≠ f) ∧
      ((runReplacer ops).Pin f).replace_frames.length + 1 =
        (runReplacer ops).replace_frames.length ∧
      ((runReplacer ops).Pin f).Size =
        ((runReplacer ops).Pin f).replace_frames.length % 2 ^ 64) := by
  have hr := runReplacer_wf ops
  refine ⟨?_, ?_, ?_⟩
  · intro hf
    have hfm := (hr.map_iff f).mpr hf
    refine ⟨?_, ?_⟩
    · unfold LRUReplacer.Unpin
      rw [if_pos hfm]
    · rw [runTimed_snoc]
      simp only [TimedReplacer.step]
      rw [runTimed_replacer, if_pos hf]
  · intro hf
    have hfm : f ∉ (runReplacer ops).replace_map := fun hc => hf ((hr.map_iff f).mp hc)
    unfold LRUReplacer.Pin
    rw [if_neg hfm]
  · intro hf
    have hfm := (hr.map_iff f).mpr hf
    have hp : ((runReplacer ops).Pin f).replace_frames = (runReplacer ops).replace_frames.erase f := by
      unfold LRUReplacer.Pin
      rw [if_pos hfm]
    refine ⟨?_, ?_, ?_, (ReplacerWf_Pin _ hr f).size_eq⟩
    · rw [hp, hr.frames_nodup.erase_eq_filter f]
      apply List.filter_congr
      intro g _
      by_cases hgf : g = f
      · simp [hgf]
      · simp [hgf]
    · intro g
      rw [hp, hr.frames_nodup.mem_erase_iff]
      exact And.comm
    · rw [hp]
      exact length_erase_succ _ f hf

/-- Witness of `replacer_noop_laws`: after `Unpin(1)`, `Unpin(2)`, `Unpin(3)`
frame 2 is in the replacer and frame 5 is not. -/
theorem replacer_noop_laws_witness :
    (runReplacer [.Unpin 1, .Unpin 2, .Unpin 3]).Unpin 2 =
      runReplacer [.Unpin 1, .Unpin 2, .Unpin 3] ∧
    (runReplacer [.Unpin 1, .Unpin 2, .Unpin 3]).Pin 5 =
      runReplacer [.Unpin 1, .Unpin 2, .Unpin 3] ∧
    ((runReplacer [.Unpin 1, .Unpin 2, .Unpin 3]).Pin 2).replace_frames =
      (runReplacer [.Unpin 1, .Unpin 2, .Unpin 3]).replace_frames.filter
        (fun g => decide (g ≠ 2)) :=
  ⟨((replacer_noop_laws [.Unpin 1, .Unpin 2, .Unpin 3] 2).1 (by decide)).1,
    (replacer_noop_laws [.Unpin 1, .Unpin 2, .Unpin 3] 5).2.1 (by decide),
    ((replacer_noop_laws [.Unpin 1, .Unpin 2, .Unpin 3] 2).2.2 (by decide)).1⟩

/-! ## Buffer pool: what holds in every reachable state -/

theorem PoolWf_init (pool_size num_instances instance_index : Nat) (disk : Disk) :
    PoolWf (BufferPoolManagerInstance.init pool_size num_instances instance_index disk) := by
  refine ⟨List.nodup_range pool_size, ?_, ?_, ?_, ?_, ReplacerWf_init⟩
  · intro f _; exact ⟨rfl, rfl⟩
  · intro f _ p h; simp [BufferPoolManagerInstance.init, tableFind] at h
  · intro p f h; simp [BufferPoolManagerInstance.init, tableFind] at h
  · intro f; exact le_refl _

/-- A change of one frame that keeps its `page_id_`, keeps the pin count
non-negative and leaves a free frame clean and unpinned. -/
theorem PoolWf_setFrame (b c : BufferPoolManagerInstance) (h : PoolWf b) (f : Nat) (pg : Page)
    (h1 : c.free_list = b.free_list) (h2 : c.page_table = b.page_table)
    (h3 : c.pages = setAt b.pages f pg) (h4 : pg.page_id = (b.pages f).page_id)
    (h5 : 0 ≤ pg.pin_count)
    (h6 : f ∈ b.free_list → pg.is_dirty = false ∧ pg.pin_count = 0)
    (h7 : ReplacerWf c.replacer) : PoolWf c := by
  refine ⟨by rw [h1]; exact h.free_nodup, ?_, ?_, ?_, ?_, h7⟩
  · intro g hg
    rw [h1] at hg
    rw [h3]
    by_cases hgf : g = f
    · subst hgf; simpa [setAt] using h6 hg
    · simpa [setAt, hgf] using h.free_clean g hg
  · intro g hg p
    rw [h1] at hg
    rw [h2]
    exact h.free_unmapped g hg p
  · intro p g hpg
    rw [h2] at hpg
    rw [h3]
    by_cases hgf : g = f
    · subst hgf; simpa [setAt, h4] using h.table_ids p g hpg
    · simpa [setAt, hgf] using h.table_ids p g hpg
  · intro g
    rw [h3]
    by_cases hgf : g = f
    · subst hgf; simpa [setAt] using h5
    · simpa [setAt, hgf] using h.pin_nonneg g

/-- A change that leaves the frames, the page table and the free list alone. -/
theorem PoolWf_same (b c : BufferPoolManagerInstance) (h : PoolWf b)
    (h1 : c.free_list = b.free_list) (h2 : c.page_table = b.page_table)
    (h3 : c.pages = b.pages) (h7 : ReplacerWf c.replacer) : PoolWf c := by
  refine ⟨by rw [h1]; exact h.free_nodup, ?_, ?_, ?_, ?_, h7⟩
  · intro g hg; rw [h1] at hg; rw [h3]; exact h.free_clean g hg
  · intro g hg p; rw [h1] at hg; rw [h2]; exact h.free_unmapped g hg p
  · intro p g hpg; rw [h2] at hpg; rw [h3]; exact h.table_ids p g hpg
  · intro g; rw [h3]; exact h.pin_nonneg g

theorem FlushPg_fields (b : BufferPoolManagerInstance) (p : Int) :
    (FlushPg b p).free_list = b.free_list ∧ (FlushPg b p).page_table = b.page_table ∧
    (FlushPg b p).pages = b.pages ∧ (FlushPg b p).replacer = b.replacer ∧
    (FlushPg b p).next_page_id = b.next_page_id ∧
    (FlushPg b p).num_instances = b.num_instances ∧
    (FlushPg b p).instance_index = b.instance_index ∧
    (FlushPg b p).pool_size = b.pool_size := by
  unfold FlushPg
  split
  · exact ⟨rfl, rfl, rfl, rfl, rfl, rfl, rfl, rfl⟩
  · split
    · exact ⟨rfl, rfl, rfl, rfl, rfl, rfl, rfl, rfl⟩
    · exact ⟨rfl, rfl, rfl, rfl, rfl, rfl, rfl, rfl⟩

theorem PoolWf_FlushPg (b : BufferPoolManagerInstance) (h : PoolWf b) (p : Int) :
    PoolWf (FlushPg b p) := by
  obtain ⟨e1, e2, e3, e4, -⟩ := FlushPg_fields b p
  exact PoolWf_same b _ h e1 e2 e3 (by rw [e4]; exact h.repl_wf)

theorem PoolWf_FlushPgImp (b : BufferPoolManagerInstance) (h : PoolWf b) (p : Int) :
    PoolWf (FlushPgImp b p).2 := by
  unfold FlushPgImp
  split
  · exact h
  · rename_i f hf
    simp only
    split
    · exact PoolWf_setFrame b _ h f { b.pages f with is_dirty := false } rfl rfl rfl rfl
        (h.pin_nonneg f) (fun hfr => ⟨rfl, (h.free_clean f hfr).2⟩) h.repl_wf
    · exact PoolWf_setFrame b _ h f { b.pages f with is_dirty := false } rfl rfl rfl rfl
        (h.pin_nonneg f) (fun hfr => ⟨rfl, (h.free_clean f hfr).2⟩) h.repl_wf

theorem PoolWf_foldl_FlushPgImp (l : List Int) (b : BufferPoolManagerInstance) (h : PoolWf b) :
    PoolWf (l.foldl (fun acc p => (FlushPgImp acc p).2) b) := by
  induction l generalizing b with
  | nil => exact h
  | cons p l ih => exact ih _ (PoolWf_FlushPgImp b h p)

theorem PoolWf_FlushAllPgsImp (b : BufferPoolManagerInstance) (h : PoolWf b) :
    PoolWf (FlushAllPgsImp b) :=
  PoolWf_foldl_FlushPgImp _ b h

theorem PoolWf_WriteData (b : BufferPoolManagerInstance) (h : PoolWf b) (p : Int)
    (bytes : List Nat) : PoolWf (WriteData b p bytes) := by
  unfold WriteData
  split
  · exact h
  · rename_i f hf
    exact PoolWf_setFrame b _ h f { b.pages f with data := bytes } rfl rfl rfl rfl
      (h.pin_nonneg f) (fun hfr => h.free_clean f hfr) h.repl_wf

theorem PoolWf_UnpinPgImp (b : BufferPoolManagerInstance) (h : PoolWf b) (p : Int)
    (d : Bool) : PoolWf (UnpinPgImp b p d).2 := by
  unfold UnpinPgImp
  split
  · exact h
  · rename_i f hf
    have hnf : f ∉ b.free_list := fun hc => h.free_unmapped f hc p hf
    split
    · exact h
    · rename_i hpin
      have hpos : 0 ≤ (b.pages f).pin_count - 1 := by
        have := h.pin_nonneg f
        omega
      simp only
      split
      · apply PoolWf_FlushPg
        exact PoolWf_setFrame b _ h f
          { b.pages f with is_dirty := d, pin_count := (b.pages f).pin_count - 1 } rfl rfl rfl
          rfl hpos (fun hc => absurd hc hnf) (ReplacerWf_Unpin _ h.repl_wf f)
      · exact PoolWf_setFrame b _ h f
          { b.pages f with is_dirty := d, pin_count := (b.pages f).pin_count - 1 } rfl rfl rfl
          rfl hpos (fun hc => absurd hc hnf) h.repl_wf

/-- The frame that `GetPg` hands out is clean, neither free nor mapped, with
the pin count it had; no other frame, and no counter, changes. -/
theorem GetPg_some_wf (b b1 : BufferPoolManagerInstance) (f : Nat) (h : PoolWf b)
    (hg : GetPg b = (some f, b1)) :
    PoolWf b1 ∧ f ∉ b1.free_list ∧ (∀ p, tableFind b1.page_table p ≠ some f) ∧
    (b1.pages f).is_dirty = false ∧ (b1.pages f).pin_count = (b.pages f).pin_count ∧
    (∀ g, g ≠ f → b1.pages g = b.pages g) ∧
    b1.next_page_id = b.next_page_id ∧ b1.num_instances = b.num_instances ∧
    b1.instance_index = b.instance_index := by
  unfold GetPg at hg
  split at hg
  · rename_i f0 rest hfl
    simp only [Prod.mk.injEq, Option.some.injEq] at hg
    obtain ⟨hf, hb⟩ := hg
    subst hf hb
    have hnd := h.free_nodup
    rw [hfl] at hnd
    have hmem : ∀ g, g ∈ rest → g ∈ b.free_list := fun g hg => by
      rw [hfl]; exact List.mem_cons_of_mem _ hg
    have hf0 : f0 ∈ b.free_list := by rw [hfl]; exact List.mem_cons_self _ _
    refine ⟨⟨(List.nodup_cons.mp hnd).2, fun g hg => h.free_clean g (hmem g hg),
      fun g hg => h.free_unmapped g (hmem g hg), h.table_ids, h.pin_nonneg, h.repl_wf⟩,
      (List.nodup_cons.mp hnd).1, h.free_unmapped f0 hf0, (h.free_clean f0 hf0).1, rfl,
      fun _ _ => rfl, rfl, rfl, rfl⟩
  · rename_i hfl
    split at hg
    · simp at hg
    · rename_i f0 r hv
      simp only [Prod.mk.injEq, Option.some.injEq] at hg
      obtain ⟨hf, hb⟩ := hg
      subst hf
      obtain ⟨e1, e2, e3, e4, e5, e6, e7, e8⟩ :=
        FlushPg_fields { b with replacer := r } (b.pages f0).page_id
      have hrw : ReplacerWf r := by
        have := ReplacerWf_Victim b.replacer h.repl_wf
        rw [hv] at this
        exact this
      have hfree : b1.free_list = [] := by rw [← hb]; simp only; rw [e1]; exact hfl
      have htab : b1.page_table = tableErase b.page_table (b.pages f0).page_id := by
        rw [← hb]; simp only; rw [e2]
      have hpages : b1.pages = setAt b.pages f0 { b.pages f0 with is_dirty := false } := by
        rw [← hb]; simp only; rw [e3]
      have hrep : b1.replacer = r := by rw [← hb]; simp only; rw [e4]
      have hunm : ∀ p, tableFind b1.page_table p ≠ some f0 := by
        intro p hp
        rw [htab, tableFind_erase] at hp
        split at hp
        · simp at hp
        · rename_i hne
          exact hne (h.table_ids p f0 hp).symm
      refine ⟨⟨by rw [hfree]; exact List.nodup_nil, ?_, ?_, ?_, ?_, by rw [hrep]; exact hrw⟩,
        by rw [hfree]; simp, hunm, by rw [hpages]; simp [setAt],
        by rw [hpages]; simp [setAt], ?_, by rw [← hb]; simp only; rw [e5],
        by rw [← hb]; simp only; rw [e6], by rw [← hb]; simp only; rw [e7]⟩
      · intro g hg; rw [hfree] at hg; simp at hg
      · intro g hg; rw [hfree] at hg; simp at hg
      · intro p g hpg
        rw [htab, tableFind_erase] at hpg
        split at hpg
        · simp at hpg
        · rw [hpages]
          by_cases hgf : g = f0
          · subst hgf; simpa [setAt] using h.table_ids p g hpg
          · simpa [setAt, hgf] using h.table_ids p g hpg
      · intro g
        rw [hpages]
        by_cases hgf : g = f0
        · subst hgf; simpa [setAt] using h.pin_nonneg g
        · simpa [setAt, hgf] using h.pin_nonneg g
      · intro g hgf
        rw [hpages]
        simp [setAt, hgf]

/-- When `GetPg` finds no frame the state is left as it was. -/
theorem GetPg_none_eq (b b1 : BufferPoolManagerInstance) (hg : GetPg b = (none, b1)) :
    b1 = b ∧ b.free_list = [] ∧ b.replacer.replace_frames = [] := by
  unfold GetPg at hg
  split at hg
  · simp at hg
  · rename_i hfl
    split at hg
    · rename_i r hv
      simp only [Prod.mk.injEq, true_and] at hg
      have hr : r = b.replacer := Victim_none _ _ hv
      have hnil : b.replacer.replace_frames = [] := by
        unfold LRUReplacer.Victim at hv
        split at hv
        · rename_i hl
          exact List.getLast?_eq_none_iff.mp hl
        · simp at hv
      subst hr
      exact ⟨hg.symm, hfl, hnil⟩
    · simp at hg

/-- Mapping a page id to a frame that `GetPg` handed out. -/
theorem PoolWf_install (b1 c : BufferPoolManagerInstance) (h : PoolWf b1) (f : Nat) (p : Int)
    (pg : Page) (hnf : f ∉ b1.free_list) (hun : ∀ q, tableFind b1.page_table q ≠ some f)
    (h1 : c.free_list = b1.free_list) (h2 : c.page_table = tableSet b1.page_table p f)
    (h3 : c.pages = setAt b1.pages f pg) (h4 : pg.page_id = p) (h5 : 0 ≤ pg.pin_count)
    (h7 : ReplacerWf c.replacer) : PoolWf c := by
  refine ⟨by rw [h1]; exact h.free_nodup, ?_, ?_, ?_, ?_, h7⟩
  · intro g hg
    rw [h1] at hg
    have hgf : g ≠ f := fun hc => hnf (hc ▸ hg)
    rw [h3]
    simpa [setAt, hgf] using h.free_clean g hg
  · intro g hg q hq
    rw [h1] at hg
    have hgf : g ≠ f := fun hc => hnf (hc ▸ hg)
    rw [h2, tableFind_set] at hq
    split at hq
    · exact hgf (Option.some.inj hq).symm
    · exact h.free_unmapped g hg q hq
  · intro q g hq
    rw [h2, tableFind_set] at hq
    rw [h3]
    split at hq
    · rename_i hqp
      have : g = f := (Option.some.inj hq).symm
      subst this
      simp [setAt, h4, hqp]
    · have hgf : g ≠ f := fun hc => hun q (hc ▸ hq)
      simpa [setAt, hgf] using h.table_ids q g hq
  · intro g
    rw [h3]
    by_cases hgf : g = f
    · subst hgf; simpa [setAt] using h5
    · simpa [setAt, hgf] using h.pin_nonneg g

theorem PoolWf_NewPgImp (b : BufferPoolManagerInstance) (h : PoolWf b) :
    PoolWf (NewPgImp b).2 := by
  unfold NewPgImp
  split
  · rename_i b1 hg
    rw [(GetPg_none_eq b b1 hg).1]
    exact h
  · rename_i f b1 hg
    obtain ⟨w, hnf, hun, -, hpin, -⟩ := GetPg_some_wf b b1 f h hg
    simp only [AllocatePage]
    exact PoolWf_install b1 _ w f b1.next_page_id _ hnf hun rfl rfl rfl rfl
      (by
        have := w.pin_nonneg f
        show 0 ≤ (b1.pages f).pin_count + 1
        omega)
      w.repl_wf

theorem PoolWf_FetchPgImp (b : BufferPoolManagerInstance) (h : PoolWf b) (p : Int) :
    PoolWf (FetchPgImp b p).2 := by
  unfold FetchPgImp
  split
  · rename_i f hf
    have hnf : f ∉ b.free_list := fun hc => h.free_unmapped f hc p hf
    exact PoolWf_setFrame b _ h f
      { b.pages f with pin_count := (b.pages f).pin_count + 1, is_dirty := true } rfl rfl rfl
      rfl (by have := h.pin_nonneg f; show 0 ≤ (b.pages f).pin_count + 1; omega)
      (fun hc => absurd hc hnf) (ReplacerWf_Pin _ h.repl_wf f)
  · split
    · rename_i f b1 hg
      obtain ⟨w, hnf, hun, -, hpin, -⟩ := GetPg_some_wf b b1 f h hg
      exact PoolWf_install b1 _ w f p _ hnf hun rfl rfl rfl rfl
        (by
          have := w.pin_nonneg f
          show 0 ≤ (b1.pages f).pin_count + 1
          omega)
        (ReplacerWf_Pin _ w.repl_wf f)
    · rename_i b1 hg
      rw [(GetPg_none_eq b b1 hg).1]
      exact h

theorem PoolWf_DeletePgImp (b : BufferPoolManagerInstance) (h : PoolWf b) (p : Int) :
    PoolWf (DeletePgImp b p).2 := by
  unfold DeletePgImp
  split
  · exact h
  · rename_i f hf
    split
    · exact h
    · rename_i hpin
      have hpin0 : (b.pages f).pin_count = 0 := by
        by_contra hc
        exact hpin hc
      have hnf : f ∉ b.free_list := fun hc => h.free_unmapped f hc p hf
      refine ⟨?_, ?_, ?_, ?_, ?_, h.repl_wf⟩
      · simp only
        rw [List.nodup_append]
        refine ⟨h.free_nodup, List.nodup_singleton f, ?_⟩
        intro a ha hb
        rw [List.mem_singleton] at hb
        exact hnf (hb ▸ ha)
      · intro g hg
        simp only [List.mem_append, List.mem_singleton] at hg
        by_cases hgf : g = f
        · subst hgf; simpa [setAt] using hpin0
        · rcases hg with hg | hg
          · simpa [setAt, hgf] using h.free_clean g hg
          · exact absurd hg hgf
      · intro g hg q hq
        simp only [List.mem_append, List.mem_singleton] at hg
        simp only at hq
        rw [tableFind_erase] at hq
        split at hq
        · simp at hq
        · rename_i hqp
          rcases hg with hg | hg
          · exact h.free_unmapped g hg q hq
          · subst hg
            have e1 := h.table_ids q g hq
            have e2 := h.table_ids p g hf
            exact hqp (e1.symm.trans e2)
      · intro q g hq
        simp only at hq
        rw [tableFind_erase] at hq
        split at hq
        · simp at hq
        · rename_i hqp
          have hgf : g ≠ f := by
            intro hc
            subst hc
            have e1 := h.table_ids q g hq
            have e2 := h.table_ids p g hf
            exact hqp (e1.symm.trans e2)
          simpa [setAt, hgf] using h.table_ids q g hq
      · intro g
        by_cases hgf : g = f
        · subst hgf; simpa [setAt] using h.pin_nonneg g
        · simpa [setAt, hgf] using h.pin_nonneg g

theorem PoolWf_apply (b : BufferPoolManagerInstance) (h : PoolWf b) (op : BpmOp) :
    PoolWf (op.apply b) := by
  cases op with
  | NewPage => exact PoolWf_NewPgImp b h
  | FetchPage p => exact PoolWf_FetchPgImp b h p
  | UnpinPage p d => exact PoolWf_UnpinPgImp b h p d
  | FlushPage p => exact PoolWf_FlushPgImp b h p
  | FlushAllPages => exact PoolWf_FlushAllPgsImp b h
  | DeletePage p => exact PoolWf_DeletePgImp b h p
  | WriteData p bytes => exact PoolWf_WriteData b h p bytes

theorem PoolWf_runOps (ops : List BpmOp) (b : BufferPoolManagerInstance) (h : PoolWf b) :
    PoolWf (runOps b ops) := by
  induction ops generalizing b with
  | nil => exact h
  | cons op ops ih => exact ih _ (PoolWf_apply b h op)

/-! ## Buffer pool: `UnpinPage`, `DeletePage`, `FlushPage`, `NewPage` (claims C13 to C16) -/

theorem Unpin_mem (r : LRUReplacer) (f : Nat) :
    f ∈ (r.Unpin f).replace_map ∧ (ReplacerWf r → f ∈ (r.Unpin f).replace_frames) := by
  unfold LRUReplacer.Unpin
  split
  · rename_i hf
    exact ⟨hf, fun hw => (hw.map_iff f).mp hf⟩
  · exact ⟨List.mem_cons_self _ _, fun _ => List.mem_cons_self _ _⟩

/-- C13: in every state whose replacer is consistent (as it is in every state
reached from construction), for every page id `p` and flag `d`:
`UnpinPage(p, d)` returns false exactly when `p` is not resident or the pin
count of its frame is 0, and then the state is unchanged; otherwise it returns
true, the pin count of the frame of `p` goes down by exactly 1 and no other
pin count changes; when the count reaches 0 (it was 1) the replacer is the old
one after `Unpin(frame)` and holds the frame, and when it does not the replacer
is unchanged. -/
theorem unpin_page_cases (b : BufferPoolManagerInstance) (p : Int) (d : Bool)
    (hw : ReplacerWf b.replacer) :
    ((UnpinPgImp b p d).1 = false ↔
      (FindPg b p = none ∨ ∃ f, FindPg b p = some f ∧ (b.pages f).pin_count = 0)) ∧
    ((UnpinPgImp b p d).1 = false → (UnpinPgImp b p d).2 = b) ∧
    (∀ f, FindPg b p = some f → (b.pages f).pin_count ≠ 0 →
      (UnpinPgImp b p d).1 = true ∧
      ((UnpinPgImp b p d).2.pages f).pin_count = (b.pages f).pin_count - 1 ∧
      (∀ g, g ≠ f → ((UnpinPgImp b p d).2.pages g).pin_count = (b.pages g).pin_count) ∧
      ((b.pages f).pin_count = 1 →
        (UnpinPgImp b p d).2.replacer = b.replacer.Unpin f ∧
        f ∈ (UnpinPgImp b p d).2.replacer.replace_frames) ∧
      ((b.pages f).pin_count ≠ 1 → (UnpinPgImp b p d).2.replacer = b.replacer)) := by
  cases hfind : FindPg b p with
  | none =>
    have hu : UnpinPgImp b p d = (false, b) := by
      unfold UnpinPgImp; rw [hfind]
    rw [hu]
    refine ⟨⟨fun _ => Or.inl rfl, fun _ => rfl⟩, fun _ => rfl, ?_⟩
    intro f hf; simp at hf
  | some f0 =>
    by_cases hpin : (b.pages f0).pin_count = 0
    · have hu : UnpinPgImp b p d = (false, b) := by
        unfold UnpinPgImp; rw [hfind]; simp only [hpin, if_true]
      rw [hu]
      refine ⟨⟨fun _ => Or.inr ⟨f0, rfl, hpin⟩, fun _ => rfl⟩, fun _ => rfl, ?_⟩
      intro f hf hne
      have : f0 = f := Option.some.inj hf
      subst this
      exact absurd hpin hne
    · by_cases hone : (b.pages f0).pin_count = 1
      · have hu : UnpinPgImp b p d =
            (true, FlushPg { b with
              pages := setAt b.pages f0
                { b.pages f0 with is_dirty := d, pin_count := (b.pages f0).pin_count - 1 }
              replacer := b.replacer.Unpin f0 } p) := by
          unfold UnpinPgImp
          rw [hfind]
          simp only [hpin, if_false]
          have : (setAt b.pages f0
              { b.pages f0 with is_dirty := d, pin_count := (b.pages f0).pin_count - 1 }
              f0).pin_count = 0 := by
            simp [setAt, hone]
          rw [if_pos this]
        rw [hu]
        obtain ⟨-, -, e3, e4, -⟩ := FlushPg_fields { b with
              pages := setAt b.pages f0
                { b.pages f0 with is_dirty := d, pin_count := (b.pages f0).pin_count - 1 }
              replacer := b.replacer.Unpin f0 } p
        refine ⟨⟨fun h => by simp at h, ?_⟩, fun h => by simp at h, ?_⟩
        · rintro (h | ⟨f, hf, hz⟩)
          · simp at h
          · have : f0 = f := Option.some.inj hf
            subst this
            exact absurd hz hpin
        · intro f hf _
          have : f0 = f := Option.some.inj hf
          subst this
          simp only
          rw [e3, e4]
          refine ⟨trivial, by simp [setAt], fun g hg => by simp [setAt, hg],
            fun _ => ⟨rfl, (Unpin_mem b.replacer f0).2 hw⟩, fun h => absurd hone h⟩
      · have hu : UnpinPgImp b p d =
            (true, { b with
              pages := setAt b.pages f0
                { b.pages f0 with is_dirty := d, pin_count := (b.pages f0).pin_count - 1 } }) := by
          unfold UnpinPgImp
          rw [hfind]
          simp only [hpin, if_false]
          have : ¬ (setAt b.pages f0
              { b.pages f0 with is_dirty := d, pin_count := (b.pages f0).pin_count - 1 }
              f0).pin_count = 0 := by
            simp only [setAt, if_true]
            omega
          rw [if_neg this]
        rw [hu]
        refine ⟨⟨fun h => by simp at h, ?_⟩, fun h => by simp at h, ?_⟩
        · rintro (h | ⟨f, hf, hz⟩)
          · simp at h
          · have : f0 = f := Option.some.inj hf
            subst this
            exact absurd hz hpin
        · intro f hf _
          have : f0 = f := Option.some.inj hf
          subst this
          refine ⟨rfl, by simp [setAt], fun g hg => by simp [setAt, hg],
            fun h => absurd h hone, fun _ => rfl⟩

/-- Witness of `unpin_page_cases`: on a pool of one frame page 0 is pinned
once after `NewPage`, so `UnpinPage(0, false)` returns true and frame 0 enters
the replacer. -/
theorem unpin_page_cases_witness :
    FindPg (runOps pool1 [.NewPage]) 0 = some 0 ∧
    (UnpinPgImp (runOps pool1 [.NewPage]) 0 false).1 = true ∧
    0 ∈ (UnpinPgImp (runOps pool1 [.NewPage]) 0 false).2.replacer.replace_frames :=
  ⟨by decide,
    ((unpin_page_cases (runOps pool1 [.NewPage]) 0 false
      (PoolWf_runOps _ _ (PoolWf_init 1 1 0 zeroDisk)).repl_wf).2.2 0 (by decide)
      (by decide)).1,
    (((unpin_page_cases (runOps pool1 [.NewPage]) 0 false
      (PoolWf_runOps _ _ (PoolWf_init 1 1 0 zeroDisk)).repl_wf).2.2 0 (by decide)
      (by decide)).2.2.2.1 (by decide)).2⟩

/-- C14 (fails on the code in its last sentence): for every state and page id
`p`, `DeletePage(p)` returns true and leaves the state as it is when `p` is not
resident; it returns false and leaves the state as it is when `p` is resident
with a pin count that is not 0; when `p` is resident with pin count 0 it
returns true, `p` is no longer in the page table (no other id is touched), its
frame is appended to the free list, and that frame has
`page_id_ = INVALID_PAGE_ID`, dirty flag false and `PAGE_SIZE` zero bytes, no
other frame being touched.  But on a pool of one frame, after `NewPage`,
`UnpinPage(0, false)`, `DeletePage(0)` and `NewPage` (page 1, left pinned),
`NewPage` gives page `P = 2` in frame 0, which it takes from the replacer with
pin count 1 and leaves with pin count 2: `DeletePage(2)` returns false,
`UnpinPage(2, false)` returns true and leaves pin count 1, and `DeletePage(2)`
returns false again. -/
theorem delete_page_cases (b : BufferPoolManagerInstance) (p : Int) :
    (FindPg b p = none → DeletePgImp b p = (true, b)) ∧
    (∀ f, FindPg b p = some f → (b.pages f).pin_count ≠ 0 → DeletePgImp b p = (false, b)) ∧
    (∀ f, FindPg b p = some f → (b.pages f).pin_count = 0 →
      (DeletePgImp b p).1 = true ∧
      FindPg (DeletePgImp b p).2 p = none ∧
      (∀ q, q ≠ p → FindPg (DeletePgImp b p).2 q = FindPg b q) ∧
      (DeletePgImp b p).2.free_list = b.free_list ++ [f] ∧
      ((DeletePgImp b p).2.pages f).page_id = INVALID_PAGE_ID ∧
      ((DeletePgImp b p).2.pages f).is_dirty = false ∧
      ((DeletePgImp b p).2.pages f).data = List.replicate PAGE_SIZE 0 ∧
      (∀ g, g ≠ f → (DeletePgImp b p).2.pages g = b.pages g)) ∧
    ((runOps pool1 staleTrace).out_of_bounds = false ∧
      (NewPgImp (runOps pool1 staleTrace)).1 = some (0, 2) ∧
      (NewPgImp (runOps pool1 staleTrace)).2.out_of_bounds = false ∧
      ((NewPgImp (runOps pool1 staleTrace)).2.pages 0).pin_count = 2 ∧
      (DeletePgImp (NewPgImp (runOps pool1 staleTrace)).2 2).1 = false ∧
      (UnpinPgImp (NewPgImp (runOps pool1 staleTrace)).2 2 false).1 = true ∧
      ((UnpinPgImp (NewPgImp (runOps pool1 staleTrace)).2 2 false).2.pages 0).pin_count = 1 ∧
      (DeletePgImp (UnpinPgImp (NewPgImp (runOps pool1 staleTrace)).2 2 false).2 2).1 =
        false) := by
  refine ⟨?_, ?_, ?_, by decide, by decide, by decide, by decide, by decide, by decide,
    by decide, by decide⟩
  · intro hnone
    unfold DeletePgImp
    rw [hnone]
  · intro f hf hpin
    unfold DeletePgImp
    rw [hf]
    simp only [hpin, ne_eq, not_false_eq_true, if_true]
  · intro f hf hpin0
    have hd : DeletePgImp b p = (true,
        { b with
          page_table := tableErase b.page_table p
          pages := setAt b.pages f
            { b.pages f with page_id := INVALID_PAGE_ID, is_dirty := false, data := zeroData }
          free_list := b.free_list ++ [f] }) := by
      unfold DeletePgImp
      rw [hf]
      simp only [hpin0, ne_eq, not_true_eq_false, if_false]
    rw [hd]
    refine ⟨rfl, ?_, ?_, rfl, by simp [setAt], by simp [setAt], by simp [setAt, zeroData], ?_⟩
    · unfold FindPg
      simp only
      rw [tableFind_erase]
      simp
    · intro q hq
      unfold FindPg
      simp only
      rw [tableFind_erase]
      simp [hq]
    · intro g hg
      simp [setAt, hg]

/-- Witness of `delete_page_cases`: on a new pool of one frame page 0 is not
resident, and after `NewPage` it is resident with pin count 1. -/
theorem delete_page_cases_witness :
    DeletePgImp pool1 0 = (true, pool1) ∧
    DeletePgImp (NewPgImp pool1).2 0 = (false, (NewPgImp pool1).2) :=
  ⟨(delete_page_cases pool1 0).1 (by decide),
    (delete_page_cases (NewPgImp pool1).2 0).2.1 0 (by decide) (by decide)⟩

theorem Page_clean_eq (pg : Page) (h : pg.is_dirty = false) :
    ({ pg with is_dirty := false } : Page) = pg := by
  cases pg
  simp only at h
  simp [h]

theorem setAt_setAt_same {α : Type} (a : Nat → α) (i : Nat) (v : α) :
    setAt (setAt a i v) i v = setAt a i v := by
  funext j
  unfold setAt
  split <;> rfl

theorem flush_clean_again (c : BufferPoolManagerInstance) (f : Nat)
    (h : (c.pages f).is_dirty = false) :
    ({ c with pages := setAt c.pages f { c.pages f with is_dirty := false } } :
      BufferPoolManagerInstance) = c := by
  have hp : setAt c.pages f { c.pages f with is_dirty := false } = c.pages := by
    funext j
    unfold setAt
    split
    · rename_i hj
      rw [hj]
      exact Page_clean_eq _ h
    · rfl
  rw [hp]

/-- C15: in every state, for every page id `p`: `FlushPage(p)` returns false
and leaves the state as it is when `p` is not resident; otherwise it returns
true, the disk is the old disk with the frame's bytes written under `p` when
the page was dirty and the old disk when it was not, the frame's dirty flag is
false, and the frame's pin count, bytes and page id, every other frame, the page
table, the free list and the replacer are unchanged.  It is idempotent: a
second `FlushPage(p)` right after the first finds the page clean (the branch
that writes is not taken), returns the same value and leaves the whole state,
disk included, as the first call left it. -/
theorem flush_page_cases (b : BufferPoolManagerInstance) (p : Int) :
    (FindPg b p = none → FlushPgImp b p = (false, b)) ∧
    (∀ f, FindPg b p = some f →
      (FlushPgImp b p).1 = true ∧
      ((b.pages f).is_dirty = true →
        (FlushPgImp b p).2.disk = b.disk.WritePage p (b.pages f).data) ∧
      ((b.pages f).is_dirty = false → (FlushPgImp b p).2.disk = b.disk) ∧
      ((FlushPgImp b p).2.pages f).is_dirty = false ∧
      ((FlushPgImp b p).2.pages f).pin_count = (b.pages f).pin_count ∧
      ((FlushPgImp b p).2.pages f).data = (b.pages f).data ∧
      ((FlushPgImp b p).2.pages f).page_id = (b.pages f).page_id ∧
      (∀ g, g ≠ f → (FlushPgImp b p).2.pages g = b.pages g) ∧
      (FlushPgImp b p).2.page_table = b.page_table ∧
      (FlushPgImp b p).2.free_list = b.free_list ∧
      (FlushPgImp b p).2.replacer = b.replacer ∧
      (FlushPgImp b p).2.next_page_id = b.next_page_id) ∧
    FlushPgImp (FlushPgImp b p).2 p = FlushPgImp b p := by
  cases hfind : FindPg b p with
  | none =>
    have hfl : FlushPgImp b p = (false, b) := by
      unfold FlushPgImp; rw [hfind]
    refine ⟨fun _ => hfl, fun f hf => by simp at hf, ?_⟩
    rw [hfl]
    exact hfl
  | some f0 =>
    refine ⟨fun h => by simp at h, ?_, ?_⟩
    · intro f hf
      have : f0 = f := Option.some.inj hf
      subst this
      unfold FlushPgImp
      rw [hfind]
      simp only
      by_cases hd : (b.pages f0).is_dirty = true
      · rw [if_pos hd]
        refine ⟨trivial, fun _ => rfl, fun h => by rw [hd] at h; simp at h, by simp [setAt],
          by simp [setAt], by simp [setAt], by simp [setAt], fun g hg => by simp [setAt, hg],
          rfl, rfl, rfl, rfl⟩
      · rw [if_neg hd]
        refine ⟨trivial, fun h => absurd h hd, fun _ => rfl, by simp [setAt],
          by simp [setAt], by simp [setAt], by simp [setAt], fun g hg => by simp [setAt, hg],
          rfl, rfl, rfl, rfl⟩
    · obtain ⟨c, hc⟩ : ∃ c, c = (FlushPgImp b p).2 := ⟨_, rfl⟩
      have hfc : FindPg c p = some f0 := by
        rw [hc]
        unfold FlushPgImp
        rw [hfind]
        simp only
        split <;> exact hfind
      have hdc : (c.pages f0).is_dirty = false := by
        rw [hc]
        unfold FlushPgImp
        rw [hfind]
        simp only
        split <;> simp [setAt]
      have h1 : (FlushPgImp b p).1 = true := by
        unfold FlushPgImp
        rw [hfind]
      have h2 : FlushPgImp c p = (true, c) := by
        unfold FlushPgImp
        rw [hfc]
        simp only [hdc, Bool.false_eq_true, if_false]
        rw [flush_clean_again c f0 hdc]
      rw [← hc, h2, hc]
      exact Prod.ext h1.symm rfl

/-- Witness of `flush_page_cases`: on a pool of one frame, page 5 is not
resident; after `NewPage` and a re-fetch page 0 is resident and dirty. -/
theorem flush_page_cases_witness :
    FlushPgImp pool1 5 = (false, pool1) ∧
    (FlushPgImp (runOps pool1 [.NewPage, .FetchPage 0]) 0).1 = true ∧
    (FlushPgImp (runOps pool1 [.NewPage, .FetchPage 0]) 0).2.disk =
      (runOps pool1 [.NewPage, .FetchPage 0]).disk.WritePage 0
        ((runOps pool1 [.NewPage, .FetchPage 0]).pages 0).data :=
  ⟨(flush_page_cases pool1 5).1 (by decide),
    ((flush_page_cases (runOps pool1 [.NewPage, .FetchPage 0]) 0).2.1 0 (by decide)).1,
    ((flush_page_cases (runOps pool1 [.NewPage, .FetchPage 0]) 0).2.1 0 (by decide)).2.1
      (by decide)⟩

/-! ## Buffer pool: `FlushPg` on a page that is not in the page table
(claims C16 and C18) -/

/-- C16 (fails on the code): on a pool of two frames, page 0 is fetched before
`NewPage` has handed it out and is unpinned; `NewPage` hands out id 0 in the
other frame and page 0 is unpinned; `NewPage` evicts frame 0 and removes the
page table entry of its `page_id_`, which is 0.  No call has indexed `pages_`
out of bounds so far.  Now the free list is empty, the replacer holds frame 1
only, the `page_id_` of frame 1 is 0 and page 0 is not in the page table: the
next `NewPage` calls `FlushPg(0)` in `GetPg`, which indexes `pages_` at `-1`. -/
theorem new_page_indexes_pages_out_of_bounds :
    (runOps pool2 (unmappedTrace 0)).out_of_bounds = false ∧
    (runOps pool2 (unmappedTrace 0)).free_list = [] ∧
    (runOps pool2 (unmappedTrace 0)).replacer.replace_frames = [1] ∧
    ((runOps pool2 (unmappedTrace 0)).pages 1).page_id = 0 ∧
    FindPg (runOps pool2 (unmappedTrace 0)) 0 = none ∧
    (NewPgImp (runOps pool2 (unmappedTrace 0))).2.out_of_bounds = true := by
  refine ⟨by decide, by decide, by decide, by decide, by decide, by decide⟩

/-- C18 (fails on the code): instance 1 of 3 with two frames hands out the ids
1 and 4 in the calls of `unmappedTrace 1`, in which page 1 is fetched before it
is handed out; two `NewPage` calls have returned a frame and none has failed,
and no call has indexed `pages_` out of bounds.  The next `NewPage`, which is
to return the id `1 + 2 * 3`, calls `FlushPg(1)` for frame 1 while page 1 is
not in the page table, and so indexes `pages_` at `-1`. -/
theorem third_new_page_indexes_pages_out_of_bounds :
    newPageCount (BufferPoolManagerInstance.init 2 3 1 zeroDisk) (unmappedTrace 1) = 2 ∧
    (runOps (BufferPoolManagerInstance.init 2 3 1 zeroDisk) (unmappedTrace 1)).next_page_id =
      1 + 2 * 3 ∧
    (runOps (BufferPoolManagerInstance.init 2 3 1 zeroDisk) (unmappedTrace 1)).out_of_bounds =
      false ∧
    FindPg (runOps (BufferPoolManagerInstance.init 2 3 1 zeroDisk) (unmappedTrace 1)) 1 = none ∧
    (NewPgImp (runOps (BufferPoolManagerInstance.init 2 3 1 zeroDisk)
      (unmappedTrace 1))).2.out_of_bounds = true := by
  refine ⟨by decide, by decide, by decide, by decide, by decide⟩

/-! ## Buffer pool: allocated ids and filling the pool (claims C17 and C18) -/

theorem runOps_append (b : BufferPoolManagerInstance) (l1 l2 : List BpmOp) :
    runOps b (l1 ++ l2) = runOps (runOps b l1) l2 := by
  unfold runOps
  rw [List.foldl_append]

theorem newPageCount_append (l1 l2 : List BpmOp) (b : BufferPoolManagerInstance) :
    newPageCount b (l1 ++ l2) = newPageCount b l1 + newPageCount (runOps b l1) l2 := by
  induction l1 generalizing b with
  | nil => simp [newPageCount, runOps]
  | cons op l1 ih =>
    show _ + newPageCount (op.apply b) (l1 ++ l2) = _
    rw [ih]
    show _ = (_ + newPageCount (op.apply b) l1) + newPageCount (runOps (op.apply b) l1) l2
    omega

theorem toInt32_add (x y : Int) : toInt32 (toInt32 x + y) = toInt32 (x + y) := by
  unfold toInt32
  omega

theorem toInt32_of_fits (x : Int) (h0 : -2147483648 ≤ x) (h1 : x < 2147483648) :
    toInt32 x = x := by
  unfold toInt32
  omega

/-- `NewPgImp` when the free list is not empty. -/
theorem NewPgImp_free (s : BufferPoolManagerInstance) (f : Nat) (rest : List Nat)
    (hfl : s.free_list = f :: rest) :
    NewPgImp s = (some (f, s.next_page_id),
      { s with
        free_list := rest
        next_page_id := toInt32 (s.next_page_id + (s.num_instances : Int))
        pages := setAt s.pages f
          { s.pages f with page_id := s.next_page_id,
                           pin_count := (s.pages f).pin_count + 1, data := zeroData }
        page_table := tableSet s.page_table s.next_page_id f }) := by
  unfold NewPgImp GetPg
  rw [hfl]
  simp [AllocatePage]

theorem runOps_replicate_succ (b : BufferPoolManagerInstance) (i : Nat) :
    runOps b (List.replicate (i + 1) BpmOp.NewPage) =
      (NewPgImp (runOps b (List.replicate i BpmOp.NewPage))).2 := by
  rw [List.replicate_succ', runOps_append]
  rfl

/-- The state after `i` calls of `NewPage` on a new pool of `n >= i` frames:
frames `i, ..., n - 1` are free, in this order, with pin count 0; the replacer
is empty; `i` ids have been handed out, the sums being taken in 32 bits; no
call has indexed `pages_` out of bounds. -/
theorem fill_state (n ni ii : Nat) (disk : Disk) (i : Nat) (hi : i ≤ n) :
    (runOps (BufferPoolManagerInstance.init n ni ii disk)
      (List.replicate i BpmOp.NewPage)).free_list = List.range' i (n - i) ∧
    (runOps (BufferPoolManagerInstance.init n ni ii disk)
      (List.replicate i BpmOp.NewPage)).replacer = LRUReplacer.init ∧
    (runOps (BufferPoolManagerInstance.init n ni ii disk)
      (List.replicate i BpmOp.NewPage)).next_page_id =
        toInt32 ((ii : Int) + (i : Int) * (ni : Int)) ∧
    (runOps (BufferPoolManagerInstance.init n ni ii disk)
      (List.replicate i BpmOp.NewPage)).num_instances = ni ∧
    (∀ j, i ≤ j → ((runOps (BufferPoolManagerInstance.init n ni ii disk)
      (List.replicate i BpmOp.NewPage)).pages j).pin_count = 0) ∧
    (runOps (BufferPoolManagerInstance.init n ni ii disk)
      (List.replicate i BpmOp.NewPage)).out_of_bounds = false := by
  induction i with
  | zero =>
    refine ⟨?_, rfl, by simp [runOps, BufferPoolManagerInstance.init], rfl, fun j _ => rfl, rfl⟩
    simp [runOps, BufferPoolManagerInstance.init, List.range_eq_range']
  | succ i ih =>
    obtain ⟨a1, a2, a3, a4, a5, a6⟩ := ih (by omega)
    rw [runOps_replicate_succ]
    generalize runOps (BufferPoolManagerInstance.init n ni ii disk)
      (List.replicate i BpmOp.NewPage) = s at a1 a2 a3 a4 a5 a6
    obtain ⟨m, hm⟩ : ∃ m, n - i = m + 1 := ⟨n - i - 1, by omega⟩
    have hfl : s.free_list = i :: List.range' (i + 1) m := by
      rw [a1, hm, List.range'_succ]
    have hm2 : n - (i + 1) = m := by omega
    rw [NewPgImp_free s i _ hfl, hm2]
    refine ⟨rfl, a2, ?_, a4, ?_, a6⟩
    · simp only
      rw [a3, a4, toInt32_add]
      congr 1
      push_cast
      ring
    · intro j hj
      have : j ≠ i := by omega
      simp only [setAt, this, if_false]
      exact a5 j (by omega)

/-- C17 (fails as stated): an instance of three frames constructed with
`num_instances = 2 ^ 31` and `instance_index = 0`.  The first three `NewPage`
calls return the frames 0, 1 and 2 with the page ids 0, `-2 ^ 31` and 0: the
sum `next_page_id_ += num_instances_` is taken in 32 bits, and the third call
hands out the id of the first, which is still pinned in frame 0.  Each of the
three ids passes the check of `ValidatePageId`. -/
theorem fill_pool_ids_repeat_after_wrap :
    (NewPgImp (runOps (BufferPoolManagerInstance.init 3 2147483648 0 zeroDisk)
      (List.replicate 0 BpmOp.NewPage))).1 = some (0, 0) ∧
    (NewPgImp (runOps (BufferPoolManagerInstance.init 3 2147483648 0 zeroDisk)
      (List.replicate 1 BpmOp.NewPage))).1 = some (1, -2147483648) ∧
    (NewPgImp (runOps (BufferPoolManagerInstance.init 3 2147483648 0 zeroDisk)
      (List.replicate 2 BpmOp.NewPage))).1 = some (2, 0) ∧
    ValidatePageId (BufferPoolManagerInstance.init 3 2147483648 0 zeroDisk) 0 = true ∧
    ValidatePageId (BufferPoolManagerInstance.init 3 2147483648 0 zeroDisk) (-2147483648) =
      true ∧
    ((runOps (BufferPoolManagerInstance.init 3 2147483648 0 zeroDisk)
      (List.replicate 3 BpmOp.NewPage)).pages 0).pin_count = 1 ∧
    ((runOps (BufferPoolManagerInstance.init 3 2147483648 0 zeroDisk)
      (List.replicate 3 BpmOp.NewPage)).pages 0).page_id = 0 ∧
    FindPg (runOps (BufferPoolManagerInstance.init 3 2147483648 0 zeroDisk)
      (List.replicate 3 BpmOp.NewPage)) 0 = some 2 := by
  refine ⟨by decide, by decide, by decide, by decide, by decide, by decide, by decide,
    by decide⟩

/-- C17 (amended): for every pool size `n` and every instance whose first `n`
page ids fit in a signed 32-bit integer
(`instance_index + (n - 1) * num_instances < 2 ^ 31`, with `num_instances > 0`
as the constructor asserts), on the newly constructed instance: for every
`i < n`, call `i` of `NewPage` (counting from 0, made after `i` earlier
`NewPage` calls and nothing else) returns frame `i` with page id
`instance_index + i * num_instances`, and the pin count of that frame is 1 on
return; these frames are pairwise distinct and so are these ids; and the call
made after `n` such calls returns null.  No call indexes `pages_` out of
bounds. -/
theorem fill_pool (n ni ii : Nat) (disk : Disk) (hni : 0 < ni)
    (hfit : (ii : Int) + ((n : Int) - 1) * (ni : Int) < 2147483648) :
    (∀ i, i < n →
      (NewPgImp (runOps (BufferPoolManagerInstance.init n ni ii disk)
        (List.replicate i BpmOp.NewPage))).1 = some (i, (ii : Int) + (i : Int) * (ni : Int)) ∧
      ((NewPgImp (runOps (BufferPoolManagerInstance.init n ni ii disk)
        (List.replicate i BpmOp.NewPage))).2.pages i).pin_count = 1) ∧
    (∀ i j, i < n → j < n → i ≠ j →
      (ii : Int) + (i : Int) * (ni : Int) ≠ (ii : Int) + (j : Int) * (ni : Int)) ∧
    (NewPgImp (runOps (BufferPoolManagerInstance.init n ni ii disk)
      (List.replicate n BpmOp.NewPage))).1 = none ∧
    (NewPgImp (runOps (BufferPoolManagerInstance.init n ni ii disk)
      (List.replicate n BpmOp.NewPage))).2.out_of_bounds = false := by
  refine ⟨?_, ?_, ?_, ?_⟩
  · intro i hi
    obtain ⟨a1, a2, a3, a4, a5, -⟩ := fill_state n ni ii disk i (by omega)
    generalize runOps (BufferPoolManagerInstance.init n ni ii disk)
      (List.replicate i BpmOp.NewPage) = s at a1 a2 a3 a4 a5
    obtain ⟨m, hm⟩ : ∃ m, n - i = m + 1 := ⟨n - i - 1, by omega⟩
    have hfl : s.free_list = i :: List.range' (i + 1) m := by
      rw [a1, hm, List.range'_succ]
    have hle : (i : Int) * (ni : Int) ≤ ((n : Int) - 1) * (ni : Int) := by
      apply Int.mul_le_mul_of_nonneg_right
      · omega
      · omega
    have hnn : (0 : Int) ≤ (i : Int) * (ni : Int) :=
      Int.mul_nonneg (Int.ofNat_nonneg i) (Int.ofNat_nonneg ni)
    have hid : toInt32 ((ii : Int) + (i : Int) * (ni : Int)) =
        (ii : Int) + (i : Int) * (ni : Int) :=
      toInt32_of_fits _ (by omega) (by omega)
    rw [NewPgImp_free s i _ hfl]
    refine ⟨by simp only; rw [a3, hid], ?_⟩
    simp only [setAt, if_true]
    rw [a5 i (le_refl i)]
    rfl
  · intro i j _ _ hij h
    have h2 : (i : Int) * (ni : Int) = (j : Int) * (ni : Int) := by omega
    have h3 : (ni : Int) ≠ 0 := by omega
    have := mul_right_cancel₀ h3 h2
    exact hij (by exact_mod_cast this)
  · obtain ⟨a1, a2, -, -, -, -⟩ := fill_state n ni ii disk n (le_refl n)
    generalize runOps (BufferPoolManagerInstance.init n ni ii disk)
      (List.replicate n BpmOp.NewPage) = s at a1 a2
    unfold NewPgImp GetPg
    rw [a1, a2]
    simp [LRUReplacer.Victim, LRUReplacer.init]
  · obtain ⟨a1, a2, -, -, -, a6⟩ := fill_state n ni ii disk n (le_refl n)
    generalize runOps (BufferPoolManagerInstance.init n ni ii disk)
      (List.replicate n BpmOp.NewPage) = s at a1 a2 a6
    unfold NewPgImp GetPg
    rw [a1, a2]
    simp [LRUReplacer.Victim, LRUReplacer.init, a6]

/-- Witness of `fill_pool`: a pool of two frames, instance 1 of 3; the ids are
1 and 4. -/
theorem fill_pool_witness :
    (0 < 3 ∧ ((1 : Nat) : Int) + (((2 : Nat) : Int) - 1) * ((3 : Nat) : Int) < 2147483648) ∧
    (NewPgImp (runOps (BufferPoolManagerInstance.init 2 3 1 zeroDisk)
      (List.replicate 1 BpmOp.NewPage))).1 = some (1, ((1 : Nat) : Int) + ((1 : Nat) : Int) * ((3 : Nat) : Int)) ∧
    (NewPgImp (runOps (BufferPoolManagerInstance.init 2 3 1 zeroDisk)
      (List.replicate 2 BpmOp.NewPage))).1 = none :=
  ⟨⟨by decide, by decide⟩,
    ((fill_pool 2 3 1 zeroDisk (by decide) (by decide)).1 1 (by decide)).1,
    (fill_pool 2 3 1 zeroDisk (by decide) (by decide)).2.2.1⟩

/-! ## Hash table: a split after which the new key still finds its bucket full -/

section TableSplitStay

variable {K V : Type}

theorem splitDepths_local_depth (t : ExtendibleHashTable K V) (key : K) :
    (t.splitDepths key).local_depths (t.KeyToDirectoryIndex key t.dir) =
      t.dir.local_depths (t.KeyToDirectoryIndex key t.dir) + 1 := by
  have hb := KeyToDirectoryIndex_lt t key t.dir
  unfold ExtendibleHashTable.splitDepths
  simp only [HashTableDirectoryPage.IncrLocalDepth, setAt, if_true]
  split
  · have := IncrGlobalDepth_cells t.dir _
      (lt_of_lt_of_le hb (Nat.pow_le_pow_right (by norm_num) (Nat.le_succ _)))
    rw [Nat.mod_eq_of_lt hb] at this
    rw [this.1]
  · rfl

theorem splitDepths_image (t : ExtendibleHashTable K V) (key : K) :
    (t.splitDepths key).GetSplitImageIndex (t.KeyToDirectoryIndex key t.dir) =
      t.KeyToDirectoryIndex key t.dir ^^^
        2 ^ t.dir.local_depths (t.KeyToDirectoryIndex key t.dir) := by
  rw [GetSplitImageIndex_eq, splitDepths_local_depth, Nat.add_sub_cancel]

/-- The local depth of the split bucket's index after the directory loop. -/
theorem splitDirectory_local_depth (t : ExtendibleHashTable K V) (key : K) :
    (t.splitDirectory key).local_depths (t.KeyToDirectoryIndex key t.dir) =
      t.dir.local_depths (t.KeyToDirectoryIndex key t.dir) + 1 := by
  have hb := KeyToDirectoryIndex_lt t key t.dir
  obtain ⟨f1, f2⟩ := splitDir_fold (t.dir.GetBucketPageId (t.KeyToDirectoryIndex key t.dir))
    t.next_page_id (t.KeyToDirectoryIndex key t.dir)
    ((t.splitDepths key).GetLocalDepth (t.KeyToDirectoryIndex key t.dir))
    ((t.splitDepths key).GetLocalDepthMask (t.KeyToDirectoryIndex key t.dir))
    (t.splitDepths key) (t.splitDepths key).Size
  have e3 : t.splitDirectory key = (List.range (t.splitDepths key).Size).foldl
      (splitDirStep (t.dir.GetBucketPageId (t.KeyToDirectoryIndex key t.dir)) t.next_page_id
        (t.KeyToDirectoryIndex key t.dir)
        ((t.splitDepths key).GetLocalDepth (t.KeyToDirectoryIndex key t.dir))
        ((t.splitDepths key).GetLocalDepthMask (t.KeyToDirectoryIndex key t.dir)))
      (t.splitDepths key) := rfl
  rw [← e3] at f2
  rw [(f2 _).1]
  have hl := splitDepths_local_depth t key
  split
  · exact hl
  · exact hl

/-- A split `Insert` in which no pair moves and the new key stays with the old
page, which is full: the call returns false, the directory has been split all
the same, the old bucket is as it was and the new page is empty. -/
theorem Insert_quiet_stay [DecidableEq K] [DecidableEq V] [Inhabited K] [Inhabited V] (B : Nat)
    (t : ExtendibleHashTable K V) (key : K) (value : V) (ht : TableInv B t)
    (hc : Compact (t.buckets (t.dir.GetBucketPageId (t.KeyToDirectoryIndex key t.dir))) B)
    (hstay : ∀ j, j < B →
      t.KeyToDirectoryIndex
        ((t.buckets (t.dir.GetBucketPageId (t.KeyToDirectoryIndex key t.dir))).array j).1
        (t.splitDirectory key) ≠
      (t.splitDepths key).GetSplitImageIndex (t.KeyToDirectoryIndex key t.dir))
    (hback : t.KeyToPageId key (t.splitDirectory key) =
      t.dir.GetBucketPageId (t.KeyToDirectoryIndex key t.dir)) :
    (t.Insert B key value).1 = false ∧
    (t.Insert B key value).2.dir = t.splitDirectory key ∧
    (t.Insert B key value).2.next_page_id = t.next_page_id + 1 ∧
    (t.Insert B key value).2.hash_fn = t.hash_fn ∧
    (∀ p, p ≠ t.next_page_id →
      (Compact (t.buckets p) B → Compact ((t.Insert B key value).2.buckets p) B) ∧
      ((t.Insert B key value).2.buckets p).array = (t.buckets p).array) ∧
    Compact ((t.Insert B key value).2.buckets t.next_page_id) 0 := by
  have hfull := Compact_full B _ hc
  obtain ⟨q1, q2, q3, q4, q5⟩ := splitBuckets_quiet B t key ht hc hstay
  obtain ⟨s1, s2, s3, -⟩ := SplitInsert_full B t key value hfull
  obtain ⟨s5, s6⟩ := s3 hback
  rw [Insert_full B t key value hfull]
  have hins : (t.splitBuckets B key).1.Insert B key value = (false, (t.splitBuckets B key).1) := by
    rcases Insert_cases B _ q4 key value with ⟨-, h⟩ | ⟨-, -, h⟩ | ⟨r, hr, -, hnr, -⟩
    · exact h
    · exact h
    · rw [(q1 r).1] at hnr
      simp [hr] at hnr
  rw [hins] at s5 s6
  refine ⟨s5, s1, SplitInsert_next B t key value hfull, s2, ?_, ?_⟩
  · intro p hp
    rw [s6, setPage_other _ _ _ _ hp]
    by_cases hpx : p = t.dir.GetBucketPageId (t.KeyToDirectoryIndex key t.dir)
    · rw [hpx, setPage_same]
      exact ⟨fun _ => q1, q2⟩
    · rw [setPage_other _ _ _ _ hpx]
      exact ⟨id, rfl⟩
  · rw [s6, setPage_same]
    exact q3

end TableSplitStay

/-! ## Hash table: growth past `MAX_DEPTH` (claim C11) -/

theorem index_of_const (t : ExtendibleHashTable Nat Nat) (hh : t.hash_fn = fun _ => 0) (k : Nat)
    (d : HashTableDirectoryPage) : t.KeyToDirectoryIndex k d = 0 := by
  rw [KeyToDirectoryIndex_eq]
  unfold ExtendibleHashTable.Hash
  rw [hh]
  simp

/-- One colliding insert into the full bucket of index 0 at local depth equal
to the global depth: it returns false and both depths go up by one. -/
theorem Collided_step (B : Nat) (t : ExtendibleHashTable Nat Nat) (g : Nat)
    (h : Collided B t g) (key value : Nat) :
    (t.Insert B key value).1 = false ∧ Collided B (t.Insert B key value).2 (g + 1) := by
  obtain ⟨ht, hh, hg, hl, hc⟩ := h
  have hidx : ∀ k d, t.KeyToDirectoryIndex k d = 0 := index_of_const t hh
  have hX : t.dir.GetBucketPageId (t.KeyToDirectoryIndex key t.dir) = t.dir.bucket_page_ids 0 := by
    rw [hidx]; rfl
  have hc' : Compact (t.buckets (t.dir.GetBucketPageId (t.KeyToDirectoryIndex key t.dir))) B := by
    rw [hX]; exact hc
  have hstay : ∀ j, j < B →
      t.KeyToDirectoryIndex
        ((t.buckets (t.dir.GetBucketPageId (t.KeyToDirectoryIndex key t.dir))).array j).1
        (t.splitDirectory key) ≠
      (t.splitDepths key).GetSplitImageIndex (t.KeyToDirectoryIndex key t.dir) := by
    intro j _
    rw [hidx, splitDepths_image, hidx]
    simp only [Nat.zero_xor]
    exact (Nat.pos_of_ne_zero (by positivity)).ne
  obtain ⟨c1, c2⟩ := splitDirectory_cells t key
  rw [hidx] at c1 c2
  have hld : t.dir.GetLocalDepth 0 = t.dir.GetGlobalDepth := by
    show t.dir.local_depths 0 = t.dir.global_depth
    rw [hl, hg]
  rw [if_pos hld] at c1
  simp only [hld, if_true] at c2
  have hg3 : (t.splitDirectory key).global_depth = g + 1 := by
    rw [c1]; show t.dir.global_depth + 1 = g + 1; rw [hg]
  have hcell0 : (t.splitDirectory key).bucket_page_ids 0 = t.dir.bucket_page_ids 0 := by
    rw [c2 0 (by positivity)]
    simp only [ne_eq, not_true_eq_false, and_false, if_false]
    have := (IncrGlobalDepth_cells t.dir 0 (by positivity)).2
    rw [this]
    simp
  have hback : t.KeyToPageId key (t.splitDirectory key) =
      t.dir.GetBucketPageId (t.KeyToDirectoryIndex key t.dir) := by
    unfold ExtendibleHashTable.KeyToPageId
    rw [hidx, hX]
    exact hcell0
  obtain ⟨r1, r2, r3, r4, r5, -⟩ := Insert_quiet_stay B t key value ht hc' hstay hback
  have hfresh : t.dir.bucket_page_ids 0 ≠ t.next_page_id :=
    ne_of_lt (ht.fresh 0 (by positivity))
  refine ⟨r1, Insert_inv B t key value ht, r4.trans hh, by rw [r2]; exact hg3, ?_, ?_⟩
  · rw [r2]
    have := splitDirectory_local_depth t key
    rw [hidx] at this
    rw [this, hl]
  · rw [r2, hcell0]
    exact (r5 _ hfresh).1 hc

theorem Collided_run (B : Nat) (qs : List (Nat × Nat)) :
    ∀ (t : ExtendibleHashTable Nat Nat) (g : Nat), Collided B t g →
      Collided B (runTable B t (qs.map fun kv => TableOp.Insert kv.1 kv.2)) (g + qs.length) := by
  induction qs with
  | nil => intro t g h; exact h
  | cons kv qs ih =>
    intro t g h
    have h1 := (Collided_step B t g h kv.1 kv.2).2
    have := ih _ _ h1
    rw [List.length_cons]
    have e : g + (qs.length + 1) = g + 1 + qs.length := by omega
    rw [e]
    exact this

/-- The state after the first `B` inserts of `collideTrace`. -/
theorem Collided_filled (B : Nat) :
    Collided B
      (runTable B (ExtendibleHashTable.init (fun _ : Nat => 0) 0)
        (((List.range B).map fun j => ((j, 0) : Nat × Nat)).map
          fun kv => TableOp.Insert kv.1 kv.2)) 0 := by
  have hlen : ((List.range B).map fun j => ((j, 0) : Nat × Nat)).length = B := by
    rw [List.length_map, List.length_range]
  have hnd : (((List.range B).map fun j => ((j, 0) : Nat × Nat)).map Prod.fst).Nodup := by
    rw [List.map_map]
    have : (Prod.fst ∘ fun j => ((j, 0) : Nat × Nat)) = id := by
      funext j; rfl
    rw [this, List.map_id]
    exact List.nodup_range B
  obtain ⟨i1, i2, i3, i4, -⟩ := fill_first_bucket B (fun _ : Nat => 0) 0 _ hnd (le_of_eq hlen)
  have ht := runTable_inv B (((List.range B).map fun j => ((j, 0) : Nat × Nat)).map
    fun kv => TableOp.Insert kv.1 kv.2) _ (TableInv_init B (fun _ : Nat => 0) 0)
  rw [hlen] at i4
  refine ⟨ht, i3, by rw [i1]; rfl, by rw [i1]; rfl, ?_⟩
  rw [i1]
  exact i4

/-- C11 (fails on the code): for every bucket capacity `B`, with a hash function
that sends every key to 0: after the inserts of the pairs `(j, 0)` for
`j < B + MAX_DEPTH` on a new table the global depth is `MAX_DEPTH`, the bucket
of every key is full and has local depth `MAX_DEPTH`; an `Insert` made then
returns false, but the global depth and the local depth of index 0 are
`MAX_DEPTH + 1` afterwards: `SplitInsert` has doubled the directory once more. -/
theorem insert_grows_past_max_depth (B key value : Nat) :
    (runTable B (ExtendibleHashTable.init (fun _ : Nat => 0) 0)
      (collideTrace B MAX_DEPTH)).dir.global_depth = MAX_DEPTH ∧
    (runTable B (ExtendibleHashTable.init (fun _ : Nat => 0) 0)
      (collideTrace B MAX_DEPTH)).dir.local_depths
        ((runTable B (ExtendibleHashTable.init (fun _ : Nat => 0) 0)
          (collideTrace B MAX_DEPTH)).KeyToDirectoryIndex key
          (runTable B (ExtendibleHashTable.init (fun _ : Nat => 0) 0)
            (collideTrace B MAX_DEPTH)).dir) = MAX_DEPTH ∧
    ((runTable B (ExtendibleHashTable.init (fun _ : Nat => 0) 0)
      (collideTrace B MAX_DEPTH)).buckets
        ((runTable B (ExtendibleHashTable.init (fun _ : Nat => 0) 0)
          (collideTrace B MAX_DEPTH)).KeyToPageId key
          (runTable B (ExtendibleHashTable.init (fun _ : Nat => 0) 0)
            (collideTrace B MAX_DEPTH)).dir)).IsFull B = true ∧
    ((runTable B (ExtendibleHashTable.init (fun _ : Nat => 0) 0)
      (collideTrace B MAX_DEPTH)).Insert B key value).1 = false ∧
    ((runTable B (ExtendibleHashTable.init (fun _ : Nat => 0) 0)
      (collideTrace B MAX_DEPTH)).Insert B key value).2.dir.global_depth = MAX_DEPTH + 1 ∧
    ((runTable B (ExtendibleHashTable.init (fun _ : Nat => 0) 0)
      (collideTrace B MAX_DEPTH)).Insert B key value).2.dir.local_depths 0 = MAX_DEPTH + 1 := by
  have h0 := Collided_run B ((List.range MAX_DEPTH).map fun j => ((B + j, 0) : Nat × Nat)) _ 0
    (Collided_filled B)
  rw [← runTable_append] at h0
  have hlen : ((List.range MAX_DEPTH).map fun j => ((B + j, 0) : Nat × Nat)).length =
      MAX_DEPTH := by
    rw [List.length_map, List.length_range]
  rw [hlen, Nat.zero_add] at h0
  have e : ((List.range B).map fun j => ((j, 0) : Nat × Nat)).map
        (fun kv => TableOp.Insert kv.1 kv.2) ++
      ((List.range MAX_DEPTH).map fun j => ((B + j, 0) : Nat × Nat)).map
        (fun kv => TableOp.Insert kv.1 kv.2) = collideTrace B MAX_DEPTH := rfl
  rw [e] at h0
  generalize runTable B (ExtendibleHashTable.init (fun _ : Nat => 0) 0)
    (collideTrace B MAX_DEPTH) = t at h0 ⊢
  obtain ⟨s1, s2⟩ := Collided_step B t MAX_DEPTH h0 key value
  obtain ⟨ht, hh, hg, hl, hc⟩ := h0
  have hidx := index_of_const t hh key t.dir
  refine ⟨hg, by rw [hidx]; exact hl, ?_, s1, s2.2.2.1, s2.2.2.2.1⟩
  unfold ExtendibleHashTable.KeyToPageId
  rw [hidx]
  exact Compact_full B _ hc

/-! ## Hash table: a duplicate insert at the depth limit (claim C8) -/

theorem splitDir_fold_overrun (X N : Int) (b nd mask : Nat) (d : HashTableDirectoryPage)
    (n : Nat) : ((List.range n).foldl (splitDirStep X N b nd mask) d).overrun = d.overrun := by
  induction n with
  | zero => rfl
  | succ n ih =>
    rw [List.range_succ, List.foldl_append]
    simp only [List.foldl_cons, List.foldl_nil]
    generalize (List.range n).foldl (splitDirStep X N b nd mask) d = r at ih ⊢
    unfold splitDirStep
    simp only
    split
    · split <;> exact ih
    · exact ih

/-- The split of a bucket records an overrun exactly when it doubles a
directory whose global depth is `MAX_DEPTH` or more. -/
theorem splitDirectory_overrun {K V : Type} (t : ExtendibleHashTable K V) (key : K) :
    (t.splitDirectory key).overrun =
      if t.dir.GetLocalDepth (t.KeyToDirectoryIndex key t.dir) = t.dir.GetGlobalDepth then
        (t.dir.overrun || decide (MAX_DEPTH ≤ t.dir.global_depth))
      else t.dir.overrun := by
  unfold ExtendibleHashTable.splitDirectory
  simp only
  rw [splitDir_fold_overrun]
  unfold ExtendibleHashTable.splitDepths
  simp only
  split <;> rfl

theorem mergeDir_fold_overrun (X Y : Int) (d : HashTableDirectoryPage) (n : Nat) :
    ((List.range n).foldl (mergeDirStep X Y) d).overrun = d.overrun := by
  induction n with
  | zero => rfl
  | succ n ih =>
    rw [List.range_succ, List.foldl_append]
    simp only [List.foldl_cons, List.foldl_nil]
    generalize (List.range n).foldl (mergeDirStep X Y) d = r at ih ⊢
    unfold mergeDirStep
    simp only
    split
    · exact ih
    · exact ih

theorem shrinkLoop_overrun (fuel : Nat) (d : HashTableDirectoryPage) :
    (shrinkLoop fuel d).overrun = d.overrun := by
  induction fuel generalizing d with
  | zero => rfl
  | succ f ih =>
    unfold shrinkLoop
    split
    · rw [ih]; rfl
    · rfl

/-- `Remove` writes no cell of the directory beyond those in use. -/
theorem Remove_overrun {K V : Type} [DecidableEq K] [DecidableEq V] [Inhabited K]
    [Inhabited V] (B : Nat) (t : ExtendibleHashTable K V) (key : K) (value : V) :
    (t.Remove B key value).2.dir.overrun = t.dir.overrun := by
  unfold ExtendibleHashTable.Remove
  simp only
  split
  · unfold ExtendibleHashTable.Merge
    simp only
    split
    · rfl
    · split
      · rfl
      · split
        · rfl
        · show (shrinkLoop _ _).overrun = _
          rw [shrinkLoop_overrun, mergeDir_fold_overrun]
  · rfl

/-- `Insert` writes beyond the arrays of the directory only in a call that
leaves the global depth above `MAX_DEPTH`. -/
theorem Insert_overrun {K V : Type} [DecidableEq K] [DecidableEq V] [Inhabited K]
    [Inhabited V] (B : Nat) (t : ExtendibleHashTable K V) (key : K) (value : V)
    (ho : t.dir.overrun = false)
    (hg : (t.Insert B key value).2.dir.global_depth ≤ MAX_DEPTH) :
    (t.Insert B key value).2.dir.overrun = false := by
  cases hfull : (t.buckets (t.dir.GetBucketPageId (t.KeyToDirectoryIndex key t.dir))).IsFull B with
  | false =>
    unfold ExtendibleHashTable.Insert
    simp only [ExtendibleHashTable.KeyToPageId, hfull, Bool.not_false, if_true]
    exact ho
  | true =>
    rw [Insert_full B t key value hfull] at hg ⊢
    obtain ⟨s1, -, -, -⟩ := SplitInsert_full B t key value hfull
    rw [s1] at hg ⊢
    rw [splitDirectory_overrun]
    rw [(splitDirectory_cells t key).1] at hg
    split
    · rename_i h
      rw [if_pos h] at hg
      have hg' : t.dir.global_depth + 1 ≤ MAX_DEPTH := hg
      have : ¬ MAX_DEPTH ≤ t.dir.global_depth := by omega
      simp [ho, this]
    · exact ho

/-- A run of `Insert` and `Remove` calls from a new table, after each of which
the global depth is within `MAX_DEPTH`, writes no cell beyond the arrays of the
directory. -/
theorem runTable_overrun {K V : Type} [DecidableEq K] [DecidableEq V] [Inhabited K]
    [Inhabited V] (B : Nat) (ops : List (TableOp K V)) :
    ∀ t : ExtendibleHashTable K V, t.dir.overrun = false →
      (∀ n, n ≤ ops.length → (runTable B t (ops.take n)).dir.global_depth ≤ MAX_DEPTH) →
      (runTable B t ops).dir.overrun = false := by
  induction ops with
  | nil => intro t ho _; exact ho
  | cons op ops ih =>
    intro t ho hmax
    have h1 := hmax 1 (by simp)
    have hstep : (TableOp.apply B t op).dir.overrun = false := by
      cases op with
      | Insert k v => exact Insert_overrun B t k v ho h1
      | Remove k v =>
        show (t.Remove B k v).2.dir.overrun = false
        rw [Remove_overrun]; exact ho
    show (runTable B (TableOp.apply B t op) ops).dir.overrun = false
    apply ih _ hstep
    intro n hn
    have := hmax (n + 1) (by simp; omega)
    exact this

/-- Where C8 holds: in every state reached from a newly constructed table by
`Insert` and `Remove` calls, along which and along the `Insert` below the global
depth stays within `MAX_DEPTH`, if `GetValue(k)` returns `v` among its results
then `Insert(k, v)` returns false; this holds when the bucket of `k` is not
full (fast path) and when it is full (`Insert` then returns what `SplitInsert`
returns, and `SplitInsert` returns false); and no call, this one included, has
written beyond the arrays of the directory. -/
theorem insert_of_found_pair_false {K V : Type} [DecidableEq K] [DecidableEq V] [Inhabited K] [Inhabited V]
    (B : Nat) (hash_fn : K → Nat) (first_page_id : Int) (ops : List (TableOp K V)) (key : K)
    (value : V)
    (hmax : ∀ n, n ≤ ops.length + 1 →
      (runTable B (ExtendibleHashTable.init hash_fn first_page_id)
        ((ops ++ [TableOp.Insert key value]).take n)).dir.global_depth ≤ MAX_DEPTH)
    (h : value ∈
      ((runTable B (ExtendibleHashTable.init hash_fn first_page_id) ops).GetValue B key []).2) :
    ((runTable B (ExtendibleHashTable.init hash_fn first_page_id) ops).Insert B key value).1 =
      false ∧
    ((runTable B (ExtendibleHashTable.init hash_fn first_page_id) ops).SplitInsert B key
      value).1 = false ∧
    (((runTable B (ExtendibleHashTable.init hash_fn first_page_id) ops).buckets
        ((runTable B (ExtendibleHashTable.init hash_fn first_page_id) ops).KeyToPageId key
          (runTable B (ExtendibleHashTable.init hash_fn first_page_id) ops).dir)).IsFull B = true →
      (runTable B (ExtendibleHashTable.init hash_fn first_page_id) ops).Insert B key value =
        (runTable B (ExtendibleHashTable.init hash_fn first_page_id) ops).SplitInsert B key
          value) ∧
    ((runTable B (ExtendibleHashTable.init hash_fn first_page_id) ops).Insert B key
      value).2.dir.overrun = false := by
  have ht := runTable_inv B ops _ (TableInv_init B hash_fn first_page_id)
  obtain ⟨h1, h2⟩ := Insert_held_table B _ key value ht h
  refine ⟨h1, h2, ?_, ?_⟩
  · intro hfull
    unfold ExtendibleHashTable.Insert
    simp only [hfull, Bool.not_true, Bool.false_eq_true, if_false]
  · have ho := runTable_overrun B (ops ++ [TableOp.Insert key value])
      (ExtendibleHashTable.init hash_fn first_page_id) rfl
      (by intro n hn; rw [List.length_append] at hn; exact hmax n hn)
    rw [runTable_append] at ho
    exact ho

/-- Witness of `insert_of_found_pair_false`: capacity 1, identity hash; the pair
`(1, 10)` sits in a full bucket, so the second insert goes through
`SplitInsert`. -/
theorem insert_of_found_pair_false_witness :
    ((runTable 1 (ExtendibleHashTable.init (fun k : Nat => k) 0)
      [TableOp.Insert 6 60, .Insert 1 10]).Insert 1 1 10).1 = false :=
  (insert_of_found_pair_false 1 (fun k : Nat => k) 0 [TableOp.Insert 6 60, .Insert 1 10] 1 10
    (by decide)
    (by decide)).1

/-- A colliding insert into the full bucket of index 0, as in `Collided_step`:
what it does to the overrun record and to the pairs stored in that bucket. -/
theorem Collided_step_kept (B : Nat) (t : ExtendibleHashTable Nat Nat) (g : Nat)
    (h : Collided B t g) (key value : Nat) :
    (t.Insert B key value).2.dir.overrun = (t.dir.overrun || decide (MAX_DEPTH ≤ g)) ∧
    ((t.Insert B key value).2.buckets ((t.Insert B key value).2.dir.bucket_page_ids 0)).array =
      (t.buckets (t.dir.bucket_page_ids 0)).array := by
  obtain ⟨ht, hh, hg, hl, hc⟩ := h
  have hidx : ∀ k d, t.KeyToDirectoryIndex k d = 0 := index_of_const t hh
  have hX : t.dir.GetBucketPageId (t.KeyToDirectoryIndex key t.dir) = t.dir.bucket_page_ids 0 := by
    rw [hidx]; rfl
  have hc' : Compact (t.buckets (t.dir.GetBucketPageId (t.KeyToDirectoryIndex key t.dir))) B := by
    rw [hX]; exact hc
  have hstay : ∀ j, j < B →
      t.KeyToDirectoryIndex
        ((t.buckets (t.dir.GetBucketPageId (t.KeyToDirectoryIndex key t.dir))).array j).1
        (t.splitDirectory key) ≠
      (t.splitDepths key).GetSplitImageIndex (t.KeyToDirectoryIndex key t.dir) := by
    intro j _
    rw [hidx, splitDepths_image, hidx]
    simp only [Nat.zero_xor]
    exact (Nat.pos_of_ne_zero (by positivity)).ne
  obtain ⟨c1, c2⟩ := splitDirectory_cells t key
  rw [hidx] at c1 c2
  have hld : t.dir.GetLocalDepth 0 = t.dir.GetGlobalDepth := by
    show t.dir.local_depths 0 = t.dir.global_depth
    rw [hl, hg]
  rw [if_pos hld] at c1
  simp only [hld, if_true] at c2
  have hcell0 : (t.splitDirectory key).bucket_page_ids 0 = t.dir.bucket_page_ids 0 := by
    rw [c2 0 (by positivity)]
    simp only [ne_eq, not_true_eq_false, and_false, if_false]
    have := (IncrGlobalDepth_cells t.dir 0 (by positivity)).2
    rw [this]
    simp
  have hback : t.KeyToPageId key (t.splitDirectory key) =
      t.dir.GetBucketPageId (t.KeyToDirectoryIndex key t.dir) := by
    unfold ExtendibleHashTable.KeyToPageId
    rw [hidx, hX]
    exact hcell0
  obtain ⟨-, r2, -, -, r5, -⟩ := Insert_quiet_stay B t key value ht hc' hstay hback
  have hfresh : t.dir.bucket_page_ids 0 ≠ t.next_page_id :=
    ne_of_lt (ht.fresh 0 (by positivity))
  constructor
  · rw [r2, splitDirectory_overrun, hidx, if_pos hld, hg]
  · rw [r2, hcell0]
    exact (r5 _ hfresh).2

theorem Collided_run_kept (B : Nat) (qs : List (Nat × Nat)) :
    ∀ (t : ExtendibleHashTable Nat Nat) (g : Nat), Collided B t g →
      t.dir.overrun = false → g + qs.length ≤ MAX_DEPTH →
      (runTable B t (qs.map fun kv => TableOp.Insert kv.1 kv.2)).dir.overrun = false ∧
      ((runTable B t (qs.map fun kv => TableOp.Insert kv.1 kv.2)).buckets
        ((runTable B t (qs.map fun kv => TableOp.Insert kv.1 kv.2)).dir.bucket_page_ids 0)).array =
        (t.buckets (t.dir.bucket_page_ids 0)).array := by
  induction qs with
  | nil => intro t g _ ho _; exact ⟨ho, rfl⟩
  | cons kv qs ih =>
    intro t g h ho hle
    rw [List.length_cons] at hle
    have h1 := (Collided_step B t g h kv.1 kv.2).2
    obtain ⟨k1, k2⟩ := Collided_step_kept B t g h kv.1 kv.2
    have ho1 : (t.Insert B kv.1 kv.2).2.dir.overrun = false := by
      rw [k1, ho]
      have : ¬ MAX_DEPTH ≤ g := by omega
      simp [this]
    obtain ⟨i1, i2⟩ := ih _ _ h1 ho1 (by omega)
    exact ⟨i1, i2.trans k2⟩

/-- C8 (fails on the code): for every bucket capacity `B >= 1`, with a hash
function that sends every key to 0: after the inserts of the pairs `(j, 0)` for
`j < B + MAX_DEPTH` on a new table, no call has written beyond the arrays of
the directory, the global depth is `MAX_DEPTH`, `GetValue(0)` returns 0 among
its results and the bucket of key 0 is full.  `Insert(0, 0)` then calls
`SplitInsert`, which doubles the directory to `2 ^ (MAX_DEPTH + 1)` slots and
so writes beyond the `2 ^ MAX_DEPTH` cells of its arrays. -/
theorem duplicate_insert_overruns_directory (B : Nat) (hB : 0 < B) :
    (runTable B (ExtendibleHashTable.init (fun _ : Nat => 0) 0)
      (collideTrace B MAX_DEPTH)).dir.overrun = false ∧
    (runTable B (ExtendibleHashTable.init (fun _ : Nat => 0) 0)
      (collideTrace B MAX_DEPTH)).dir.global_depth = MAX_DEPTH ∧
    (0 : Nat) ∈ ((runTable B (ExtendibleHashTable.init (fun _ : Nat => 0) 0)
      (collideTrace B MAX_DEPTH)).GetValue B 0 []).2 ∧
    ((runTable B (ExtendibleHashTable.init (fun _ : Nat => 0) 0)
      (collideTrace B MAX_DEPTH)).buckets
        ((runTable B (ExtendibleHashTable.init (fun _ : Nat => 0) 0)
          (collideTrace B MAX_DEPTH)).KeyToPageId 0
          (runTable B (ExtendibleHashTable.init (fun _ : Nat => 0) 0)
            (collideTrace B MAX_DEPTH)).dir)).IsFull B = true ∧
    ((runTable B (ExtendibleHashTable.init (fun _ : Nat => 0) 0)
      (collideTrace B MAX_DEPTH)).Insert B 0 0).2.dir.global_depth = MAX_DEPTH + 1 ∧
    ((runTable B (ExtendibleHashTable.init (fun _ : Nat => 0) 0)
      (collideTrace B MAX_DEPTH)).Insert B 0 0).2.dir.overrun = true := by
  have hfill := Collided_filled B
  have hlenB : ((List.range B).map fun j => ((j, 0) : Nat × Nat)).length = B := by
    rw [List.length_map, List.length_range]
  have hnd : (((List.range B).map fun j => ((j, 0) : Nat × Nat)).map Prod.fst).Nodup := by
    rw [List.map_map]
    have : (Prod.fst ∘ fun j => ((j, 0) : Nat × Nat)) = id := by
      funext j; rfl
    rw [this, List.map_id]
    exact List.nodup_range B
  obtain ⟨i1, -, -, -, i5⟩ := fill_first_bucket B (fun _ : Nat => 0) 0 _ hnd (le_of_eq hlenB)
  have hlen : ((List.range MAX_DEPTH).map fun j => ((B + j, 0) : Nat × Nat)).length =
      MAX_DEPTH := by
    rw [List.length_map, List.length_range]
  have h0 := Collided_run B ((List.range MAX_DEPTH).map fun j => ((B + j, 0) : Nat × Nat)) _ 0
    hfill
  have hk := Collided_run_kept B ((List.range MAX_DEPTH).map fun j => ((B + j, 0) : Nat × Nat))
    _ 0 hfill (by rw [i1]; rfl) (by rw [hlen]; omega)
  have harr0 : ((runTable B (ExtendibleHashTable.init (fun _ : Nat => 0) 0)
      (((List.range B).map fun j => ((j, 0) : Nat × Nat)).map
        fun kv => TableOp.Insert kv.1 kv.2)).buckets
      ((runTable B (ExtendibleHashTable.init (fun _ : Nat => 0) 0)
        (((List.range B).map fun j => ((j, 0) : Nat × Nat)).map
          fun kv => TableOp.Insert kv.1 kv.2)).dir.bucket_page_ids 0)).array 0 = (0, 0) := by
    have := i5 0 (by rw [hlenB]; exact hB)
    rw [i1]
    simp only [List.getElem?_map, List.getElem?_range hB, Option.map_some'] at this
    exact (Option.some.inj this).symm
  rw [← runTable_append] at h0 hk
  have e : ((List.range B).map fun j => ((j, 0) : Nat × Nat)).map
        (fun kv => TableOp.Insert kv.1 kv.2) ++
      ((List.range MAX_DEPTH).map fun j => ((B + j, 0) : Nat × Nat)).map
        (fun kv => TableOp.Insert kv.1 kv.2) = collideTrace B MAX_DEPTH := rfl
  rw [e] at h0 hk
  rw [hlen, Nat.zero_add] at h0
  obtain ⟨hk1, hk2⟩ := hk
  have harr : ((runTable B (ExtendibleHashTable.init (fun _ : Nat => 0) 0)
      (collideTrace B MAX_DEPTH)).buckets
      ((runTable B (ExtendibleHashTable.init (fun _ : Nat => 0) 0)
        (collideTrace B MAX_DEPTH)).dir.bucket_page_ids 0)).array 0 = (0, 0) := by
    rw [hk2]; exact harr0
  generalize runTable B (ExtendibleHashTable.init (fun _ : Nat => 0) 0)
    (collideTrace B MAX_DEPTH) = t at h0 hk1 harr ⊢
  obtain ⟨-, s2⟩ := Collided_step B t MAX_DEPTH h0 0 0
  obtain ⟨k1, -⟩ := Collided_step_kept B t MAX_DEPTH h0 0 0
  obtain ⟨ht, hh, hg, hl, hc⟩ := h0
  have hidx := index_of_const t hh 0 t.dir
  have hpage : t.KeyToPageId 0 t.dir = t.dir.bucket_page_ids 0 := by
    unfold ExtendibleHashTable.KeyToPageId
    rw [hidx]; rfl
  refine ⟨hk1, hg, ?_, ?_, s2.2.2.1, ?_⟩
  · unfold ExtendibleHashTable.GetValue
    simp only
    rw [hpage, GetValue_mem_iff B _ (ht.buckets_inv _)]
    exact ⟨0, hB, by rw [(hc 0).1]; simpa using hB, harr⟩
  · rw [hpage]
    exact Compact_full B _ hc
  · rw [k1, hk1]
    simp

/-- Witness of `duplicate_insert_overruns_directory` at capacity 496, that of
a bucket of `int` keys and `int` values. -/
theorem duplicate_insert_overruns_directory_witness :
    0 < 496 ∧
    ((runTable 496 (ExtendibleHashTable.init (fun _ : Nat => 0) 0)
      (collideTrace 496 MAX_DEPTH)).Insert 496 0 0).2.dir.overrun = true :=
  ⟨by decide, (duplicate_insert_overruns_directory 496 (by decide)).2.2.2.2.2⟩

/-! ## Hash table: a round trip that finds a stranded pair (claim C12) -/

section TableRoundTrip

variable {K V : Type}

theorem byte_zero_of_no_readable (b : HashTableBucketPage K V)
    (h : ∀ j, b.IsReadable j = false) (i : Nat) : (b.readable i).val = 0 := by
  apply Nat.eq_of_testBit_eq
  intro m
  rw [Nat.zero_testBit]
  by_cases hm : m < 8
  · have := h (8 * i + m)
    rw [IsReadable_eq, (slot_of_byte i m hm).1, (slot_of_byte i m hm).2] at this
    exact this
  · apply Nat.testBit_eq_false_of_lt
    have h1 : (b.readable i).val < 256 := (b.readable i).isLt
    have h2 : 2 ^ 8 ≤ 2 ^ m := Nat.pow_le_pow_right (by norm_num) (by omega)
    omega

theorem foldl_count_of_zero (f : Nat → Nat) (h : ∀ i, f i = 0) (l : List Nat) (c : Nat) :
    l.foldl (fun count i => clearLowestLoop 8 (f i) count) c = c := by
  induction l generalizing c with
  | nil => rfl
  | cons i l ih =>
    simp only [List.foldl_cons]
    rw [h i]
    have : clearLowestLoop 8 0 c = c := by
      unfold clearLowestLoop
      simp
    rw [this]
    exact ih c

theorem NumReadable_of_no_readable (B : Nat) (b : HashTableBucketPage K V)
    (h : ∀ j, b.IsReadable j = false) : b.NumReadable B = 0 := by
  unfold HashTableBucketPage.NumReadable
  exact foldl_count_of_zero (fun i => (b.readable i).val) (byte_zero_of_no_readable b h) _ 0

/-- Removing the only pair of a bucket. -/
theorem Remove_single [DecidableEq K] [DecidableEq V] [Inhabited K] [Inhabited V] (B : Nat)
    (hB : 0 < B) (b : HashTableBucketPage K V) (hc : Compact b 0) (key : K) (value : V) :
    ((b.put 0 key value).Remove B key value).1 = true ∧
    ((b.put 0 key value).Remove B key value).2.NumReadable B = 0 := by
  obtain ⟨n, hn⟩ : ∃ n, B = n + 1 := ⟨B - 1, by omega⟩
  have hr0 : (b.put 0 key value).IsReadable 0 = true := by
    rw [IsReadable_put]; simp
  have hloop : (b.put 0 key value).removeLoop key value B 0 = some 0 := by
    rw [hn]
    unfold HashTableBucketPage.removeLoop
    simp [hr0, HashTableBucketPage.KeyAt, HashTableBucketPage.ValueAt, array_put]
  have hrem : (b.put 0 key value).Remove B key value = (true, (b.put 0 key value).RemoveAt 0) := by
    unfold HashTableBucketPage.Remove
    rw [hloop]
  rw [hrem]
  refine ⟨rfl, NumReadable_of_no_readable B _ ?_⟩
  intro j
  rw [IsReadable_RemoveAt, IsReadable_put, (hc j).1]
  by_cases hj : j = 0
  · simp [hj]
  · simp [hj]

theorem Merge_buckets [DecidableEq K] [DecidableEq V] [Inhabited K] [Inhabited V] (B : Nat)
    (t : ExtendibleHashTable K V) (key : K) (value : V) :
    (t.Merge B key value).buckets = t.buckets := by
  unfold ExtendibleHashTable.Merge
  simp only
  split
  · rfl
  · split
    · rfl
    · split
      · rfl
      · rfl

/-- The parts of the state after `Remove` that do not depend on `Merge`. -/
theorem Remove_fields [DecidableEq K] [DecidableEq V] [Inhabited K] [Inhabited V] (B : Nat)
    (t : ExtendibleHashTable K V) (key : K) (value : V) :
    (t.Remove B key value).1 =
      ((t.buckets (t.dir.GetBucketPageId (t.KeyToDirectoryIndex key t.dir))).Remove B key
        value).1 ∧
    (t.Remove B key value).2.buckets =
      setPage t.buckets (t.dir.GetBucketPageId (t.KeyToDirectoryIndex key t.dir))
        ((t.buckets (t.dir.GetBucketPageId (t.KeyToDirectoryIndex key t.dir))).Remove B key
          value).2 ∧
    (t.Remove B key value).2.hash_fn = t.hash_fn := by
  unfold ExtendibleHashTable.Remove
  simp only
  split
  · refine ⟨rfl, ?_, ?_⟩
    · rw [Merge_buckets]
    · rw [Merge_hash_fn]
  · exact ⟨rfl, rfl, rfl⟩

theorem GetValue_none [DecidableEq K] (B : Nat) (b : HashTableBucketPage K V)
    (hb : BucketInv B b) (key : K) (h : ∀ j, j < B → b.IsReadable j = false) :
    b.GetValue B key [] = (false, []) := by
  apply Prod.ext
  · cases hg : (b.GetValue B key []).1
    · rfl
    · obtain ⟨j, hj, hr, -⟩ := (GetValue_true_iff B b hb key []).mp hg
      rw [h j hj] at hr
      simp at hr
  · apply List.eq_nil_iff_forall_not_mem.mpr
    intro v hv
    obtain ⟨j, hj, hr, -⟩ := (GetValue_mem_iff B b hb key v).mp hv
    rw [h j hj] at hr
    simp at hr

end TableRoundTrip

/-- Cells of the directory after the last split of the trace, by evaluation. -/
theorem strand_merge_facts :
    strandDir4.global_depth = 3 ∧ strandDir4.local_depths 6 = 2 ∧
    strandDir4.GetSplitImageIndex 6 = 4 ∧ strandDir4.local_depths 4 = 2 ∧
    strandDir4.bucket_page_ids 4 = 1 ∧ strandDir4.bucket_page_ids 0 = 1 ∧
    strandDir4.bucket_page_ids 2 = 5 ∧ strandDir4.bucket_page_ids 6 = 5 := by
  decide

/-- The state after the trace and `Insert(0, 0)`: the first bucket (page 1) is
as before, and page 5, to which the directory now sends key 6, is empty. -/
theorem strand_final (B : Nat) (hB : 0 < B) :
    StrandState B
      (runTable B (ExtendibleHashTable.init (fun k : Nat => k) 0)
        (strandTrace B ++ [TableOp.Insert 0 0]))
      strandDir4 6 ∧
    Compact ((runTable B (ExtendibleHashTable.init (fun k : Nat => k) 0)
      (strandTrace B ++ [TableOp.Insert 0 0])).buckets 5) 0 := by
  obtain ⟨-, -, -, f3⟩ := strand_facts
  obtain ⟨m1, m2, m3, m4, m5, m6⟩ := f3
  have hs := strand_ready B hB
  rw [runTable_append]
  generalize runTable B (ExtendibleHashTable.init (fun k : Nat => k) 0) (strandTrace B) = tE
    at hs ⊢
  obtain ⟨ht, hd, hn, hh, hc1, hq1, ha1⟩ := hs
  have e0 : 0 % 2 ^ 32 % 2 ^ 3 = 0 := by norm_num
  obtain ⟨e1, e2, e3⟩ := split_dirOnly tE strandDir3 5 hd hn hh 0
  have hbt : tE.KeyToDirectoryIndex 0 tE.dir = 0 := e3.trans m1
  have hXt : tE.dir.GetBucketPageId 0 = 1 := by
    unfold HashTableDirectoryPage.GetBucketPageId
    rw [hd]; exact m2
  have e1' : tE.splitDirectory 0 = strandDir4 := e1
  have hrun : runTable B tE [TableOp.Insert 0 0] = (tE.Insert B 0 0).2 := rfl
  rw [hrun]
  obtain ⟨-, r2, r3, r4, r5, r6⟩ := Insert_quiet_stay B tE 0 0 ht
    (by rw [hbt, hXt]; exact hc1)
    (by
      intro j hj
      rw [hbt, hXt, e1', e2, m4, index_of_id tE hh _ strandDir4 3 m3]
      have := hq1 j hj
      norm_num
      omega)
    (by
      unfold ExtendibleHashTable.KeyToPageId
      rw [hbt, hXt, e1', index_of_id tE hh _ strandDir4 3 m3, e0]
      exact m5)
  rw [hn] at r3 r5 r6
  have h15 : (1 : Int) ≠ 5 := by decide
  refine ⟨⟨Insert_inv B tE 0 0 ht, r2.trans e1', by rw [r3]; norm_num, r4.trans hh,
    (r5 1 h15).1 hc1, ?_, ?_⟩, r6⟩
  · intro j hj
    rw [(r5 1 h15).2]; exact hq1 j hj
  · rw [(r5 1 h15).2]; exact ha1

/-- C12 (fails on the code): for every bucket capacity `B >= 1`, with the
identity as hash function on `Nat` keys, in the state reached by the calls of
`strandTrace` and `Insert(0, 0)` (all of them `Insert` calls on a new table):
`GetValue(6)` returns false with no value; `Insert(6, v)` returns true;
`Remove(6, v)` returns true; and `GetValue(6)` then returns true with 0 among
its results.  The removal empties the page that held `(6, v)`, `Merge` points
the directory index of key 6 back to the first bucket, and that bucket still
holds the pair `(6, 0)` that the earlier split left behind. -/
theorem round_trip_finds_stranded_pair (B : Nat) (hB : 0 < B) (v : Nat) :
    (runTable B (ExtendibleHashTable.init (fun k : Nat => k) 0)
      (strandTrace B ++ [TableOp.Insert 0 0])).GetValue B 6 [] = (false, []) ∧
    ((runTable B (ExtendibleHashTable.init (fun k : Nat => k) 0)
      (strandTrace B ++ [TableOp.Insert 0 0])).Insert B 6 v).1 = true ∧
    (((runTable B (ExtendibleHashTable.init (fun k : Nat => k) 0)
      (strandTrace B ++ [TableOp.Insert 0 0])).Insert B 6 v).2.Remove B 6 v).1 = true ∧
    ((((runTable B (ExtendibleHashTable.init (fun k : Nat => k) 0)
      (strandTrace B ++ [TableOp.Insert 0 0])).Insert B 6 v).2.Remove B 6 v).2.GetValue B 6
        []).1 = true ∧
    0 ∈ ((((runTable B (ExtendibleHashTable.init (fun k : Nat => k) 0)
      (strandTrace B ++ [TableOp.Insert 0 0])).Insert B 6 v).2.Remove B 6 v).2.GetValue B 6
        []).2 := by
  obtain ⟨g1, g2, g3, g4, g5, g6, g7, g8⟩ := strand_merge_facts
  obtain ⟨hs, hc5⟩ := strand_final B hB
  generalize runTable B (ExtendibleHashTable.init (fun k : Nat => k) 0)
    (strandTrace B ++ [TableOp.Insert 0 0]) = tF at hs hc5 ⊢
  obtain ⟨ht, hd, hn, hh, hc1, hq1, ha1⟩ := hs
  have e6 : 6 % 2 ^ 32 % 2 ^ 3 = 6 := by norm_num
  have hidx : tF.KeyToDirectoryIndex 6 tF.dir = 6 := by
    rw [index_of_id tF hh 6 tF.dir 3 (by rw [hd]; exact g1), e6]
  have hpage : tF.KeyToPageId 6 tF.dir = 5 := by
    unfold ExtendibleHashTable.KeyToPageId
    rw [hidx, hd]
    exact g8
  -- the lookup before
  have hget : tF.GetValue B 6 [] = (false, []) := by
    unfold ExtendibleHashTable.GetValue
    simp only
    rw [hpage]
    apply GetValue_none B _ (ht.buckets_inv 5)
    intro j _
    rw [(hc5 j).1]; simp
  -- the insert, on the fast path
  have hnf := Compact_not_full B _ 0 hc5 hB
  have hins : (tF.buckets 5).Insert B 6 v = (true, (tF.buckets 5).put 0 6 v) := by
    rcases Insert_compact B _ (ht.buckets_inv 5) 0 hc5 hB 6 v with ⟨h1, -⟩ | ⟨-, h2⟩
    · exact absurd h1 (Compact_no_holds B _ hc5 6 v)
    · exact h2
  obtain ⟨tG, htG⟩ : ∃ tG : ExtendibleHashTable Nat Nat,
      tG = { tF with buckets := (setPage tF.buckets 5 ((tF.buckets 5).put 0 6 v)) } := ⟨_, rfl⟩
  have hstep : tF.Insert B 6 v = (true, tG) := by
    rw [htG]
    unfold ExtendibleHashTable.Insert
    simp only [hpage, hnf, Bool.not_false, if_true, hins]
  rw [hstep]
  simp only
  have hGd : tG.dir = strandDir4 := by rw [htG]; exact hd
  have hGh : tG.hash_fn = fun k => k := by rw [htG]; exact hh
  have hGb : tG.buckets = setPage tF.buckets 5 ((tF.buckets 5).put 0 6 v) := by rw [htG]
  have h15 : (1 : Int) ≠ 5 := by decide
  have hG5 : tG.buckets 5 = (tF.buckets 5).put 0 6 v := by
    rw [hGb]; exact setPage_same _ _ _
  have hG1 : tG.buckets 1 = tF.buckets 1 := by
    rw [hGb]; exact setPage_other _ _ _ _ h15
  have hGt : TableInv B tG := by
    have := Insert_inv B tF 6 v ht
    rw [hstep] at this
    exact this
  have hGidx : tG.KeyToDirectoryIndex 6 tG.dir = 6 := by
    rw [index_of_id tG hGh 6 tG.dir 3 (by rw [hGd]; exact g1), e6]
  have hGpage : tG.dir.GetBucketPageId 6 = 5 := by
    show tG.dir.bucket_page_ids 6 = 5
    rw [hGd]; exact g8
  -- the removal
  obtain ⟨k1, k2⟩ := Remove_single B hB (tF.buckets 5) hc5 6 v
  obtain ⟨u1, u2, u3⟩ := Remove_fields B tG 6 v
  rw [hGidx, hGpage, hG5] at u1 u2
  have hz : ((tG.buckets (tG.dir.bucket_page_ids (tG.KeyToDirectoryIndex 6 tG.dir))).Remove B 6
      v).2.NumReadable B = 0 := by
    rw [hGidx]
    have : tG.dir.bucket_page_ids 6 = 5 := hGpage
    rw [this, hG5]
    exact k2
  have himg : tG.dir.GetSplitImageIndex (tG.KeyToDirectoryIndex 6 tG.dir) = 4 := by
    rw [hGidx, hGd]; exact g3
  obtain ⟨w1, -, w3, -, -⟩ := Remove_merges B tG 6 v hGt.dir_inv hz
    (by rw [hGidx, hGd, g2]; norm_num)
    (by rw [himg, hGidx, hGd, g4, g2])
  rw [himg, hGidx, hGd] at w1
  rw [hGd, g1] at w3
  have hsz : strandDir4.Size = 8 := by rw [Size_eq, g1]; norm_num
  rw [hsz, g5, g8] at w1
  generalize tG.Remove B 6 v = res at u1 u2 u3 w1 w3 ⊢
  have hRh : res.2.hash_fn = fun k => k := u3.trans hGh
  have hR1 : res.2.buckets 1 = tF.buckets 1 := by
    rw [u2, setPage_other _ _ _ _ h15]
    exact hG1
  have hRpage : res.2.KeyToPageId 6 res.2.dir = 1 := by
    unfold ExtendibleHashTable.KeyToPageId
    rw [index_of_id res.2 hRh 6 res.2.dir res.2.dir.global_depth rfl]
    show res.2.dir.bucket_page_ids _ = 1
    have hcases : res.2.dir.global_depth = 0 ∨ res.2.dir.global_depth = 1 ∨
        res.2.dir.global_depth = 2 ∨ res.2.dir.global_depth = 3 := by omega
    rcases hcases with h | h | h | h
    · rw [h]
      have : 6 % 2 ^ 32 % 2 ^ 0 = 0 := by norm_num
      rw [this]
      exact (w1 0 (by norm_num) (Or.inr g6)).1
    · rw [h]
      have : 6 % 2 ^ 32 % 2 ^ 1 = 0 := by norm_num
      rw [this]
      exact (w1 0 (by norm_num) (Or.inr g6)).1
    · rw [h]
      have : 6 % 2 ^ 32 % 2 ^ 2 = 2 := by norm_num
      rw [this]
      exact (w1 2 (by norm_num) (Or.inl g7)).1
    · rw [h]
      have : 6 % 2 ^ 32 % 2 ^ 3 = 6 := by norm_num
      rw [this]
      exact (w1 6 (by norm_num) (Or.inl g8)).1
  have hholds : (tF.buckets 1).Holds B 6 0 :=
    ⟨0, hB, by rw [(hc1 0).1]; simpa using hB, ha1⟩
  refine ⟨hget, trivial, by rw [u1]; exact k1, ?_, ?_⟩
  · unfold ExtendibleHashTable.GetValue
    simp only
    rw [hRpage, hR1]
    exact GetValue_of_Holds B _ (ht.buckets_inv 1) 6 0 [] hholds
  · unfold ExtendibleHashTable.GetValue
    simp only
    rw [hRpage, hR1]
    exact (GetValue_mem_iff B _ (ht.buckets_inv 1) 6 0).mpr hholds

/-- Witness of `round_trip_finds_stranded_pair`: capacity 496, the
`BUCKET_ARRAY_SIZE` of a bucket page of `int` keys and `int` values. -/
theorem round_trip_finds_stranded_pair_witness :
    0 < 496 ∧
    ((((runTable 496 (ExtendibleHashTable.init (fun k : Nat => k) 0)
      (strandTrace 496 ++ [TableOp.Insert 0 0])).Insert 496 6 7).2.Remove 496 6 7).2.GetValue
        496 6 []).1 = true :=
  ⟨by decide, (round_trip_finds_stranded_pair 496 (by decide) 7).2.2.2.1⟩

/-! ## LRU replacer: the size invariant (claim C21) -/

theorem runReplacer_snoc (ops : List ReplacerOp) (op : ReplacerOp) :
    runReplacer (ops ++ [op]) = op.apply (runReplacer ops) := by
  simp [runReplacer, List.foldl_append]

theorem Waiting_snoc (ops : List ReplacerOp) (op : ReplacerOp) (f : Nat) :
    Waiting (ops ++ [op]) f ↔
      op = ReplacerOp.Unpin f ∨
        (Waiting ops f ∧ op ≠ ReplacerOp.Pin f ∧
          (op = ReplacerOp.Victim → (runReplacer ops).Victim.1 ≠ some f)) := by
  constructor
  · rintro ⟨pre, post, heq, hpin, hvic⟩
    rcases List.eq_nil_or_concat post with hp | ⟨post1, x, hp⟩
    · subst hp
      left
      have := List.append_inj_right' (heq.trans (by simp : pre ++ [ReplacerOp.Unpin f] = pre ++ [ReplacerOp.Unpin f])) rfl
      simpa using this
    · subst hp
      have heq2 : ops ++ [op] = (pre ++ ReplacerOp.Unpin f :: post1) ++ [x] := by
        rw [heq]; simp
      have h1 := List.append_inj_left' heq2 rfl
      have h2 := List.append_inj_right' heq2 rfl
      simp only [List.cons.injEq, and_true] at h2
      subst h2
      right
      refine ⟨⟨pre, post1, h1, ?_, ?_⟩, ?_, ?_⟩
      · intro hc
        exact hpin (by simp [hc])
      · intro mid rest hr
        exact hvic mid (rest ++ [op]) (by rw [hr]; simp)
      · intro hc
        exact hpin (by simp [hc])
      · intro hc
        have := hvic post1 [] (by rw [hc]; simp)
        rw [h1]
        exact this
  · rintro (h | ⟨⟨pre, post, heq, hpin, hvic⟩, hne, hv⟩)
    · subst h
      exact ⟨ops, [], rfl, by simp, by
        intro mid rest hr
        simp at hr⟩
    · refine ⟨pre, post ++ [op], by rw [heq]; simp, ?_, ?_⟩
      · intro hc
        rcases List.mem_append.mp hc with hc | hc
        · exact hpin hc
        · simp at hc
          exact hne hc.symm
      · intro mid rest hr
        rcases List.eq_nil_or_concat rest with hrn | ⟨rest1, y, hrn⟩
        · subst hrn
          have hr2 : post ++ [op] = mid ++ [ReplacerOp.Victim] := hr
          have h1 := List.append_inj_left' hr2 rfl
          have h2 := List.append_inj_right' hr2 rfl
          simp only [List.cons.injEq, and_true] at h2
          rw [← h1, ← heq]
          exact hv h2
        · subst hrn
          have hr2 : post ++ [op] = (mid ++ ReplacerOp.Victim :: rest1) ++ [y] := by
            rw [hr]; simp
          have h1 := List.append_inj_left' hr2 rfl
          exact hvic mid rest1 h1

theorem mem_frames_apply (r : LRUReplacer) (h : ReplacerWf r) (op : ReplacerOp) (f : Nat) :
    f ∈ (op.apply r).replace_frames ↔
      op = ReplacerOp.Unpin f ∨
        (f ∈ r.replace_frames ∧ op ≠ ReplacerOp.Pin f ∧
          (op = ReplacerOp.Victim → r.Victim.1 ≠ some f)) := by
  cases op with
  | Unpin g =>
    simp only [ReplacerOp.apply, LRUReplacer.Unpin, ReplacerOp.Unpin.injEq, ne_eq,
      not_false_eq_true, true_and, false_implies, and_true, reduceCtorEq]
    split
    · rename_i hg
      constructor
      · intro hf; exact Or.inr hf
      · rintro (hf | hf)
        · rw [← hf]; exact (h.map_iff g).mp hg
        · exact hf
    · simp only [List.mem_cons]
      constructor
      · rintro (hf | hf)
        · exact Or.inl hf.symm
        · exact Or.inr hf
      · rintro (hf | hf)
        · exact Or.inl hf.symm
        · exact Or.inr hf
  | Pin g =>
    simp only [ReplacerOp.apply, LRUReplacer.Pin, ReplacerOp.Pin.injEq, ne_eq,
      false_implies, and_true, reduceCtorEq, false_or]
    split
    · simp only [h.frames_nodup.mem_erase_iff]
      constructor
      · rintro ⟨h1, h2⟩; exact ⟨h2, fun hc => h1 hc.symm⟩
      · rintro ⟨h1, h2⟩; exact ⟨fun hc => h2 hc.symm, h1⟩
    · rename_i hg
      constructor
      · intro hf
        refine ⟨hf, fun hc => hg ?_⟩
        rw [hc]; exact (h.map_iff f).mpr hf
      · rintro ⟨h1, _⟩; exact h1
  | Victim =>
    simp only [ReplacerOp.apply, ne_eq, not_false_eq_true, true_and, forall_const, reduceCtorEq,
      false_or]
    unfold LRUReplacer.Victim
    split
    · simp
    · rename_i g hg
      simp only [Option.some.injEq]
      have hsplit := getLast?_split _ g hg
      have hnd := h.frames_nodup
      rw [hsplit] at hnd
      have hgn : g ∉ r.replace_frames.dropLast := fun hc =>
        (List.nodup_append.mp hnd).2.2 hc (List.mem_singleton_self g)
      constructor
      · intro hf
        exact ⟨List.mem_of_mem_dropLast hf, fun hc => hgn (hc ▸ hf)⟩
      · rintro ⟨h1, h2⟩
        rw [hsplit] at h1
        rcases List.mem_append.mp h1 with h1 | h1
        · exact h1
        · simp at h1
          exact absurd h1.symm h2

theorem mem_frames_iff_Waiting (ops : List ReplacerOp) (f : Nat) :
    f ∈ (runReplacer ops).replace_frames ↔ Waiting ops f := by
  induction ops using List.reverseRecOn with
  | nil =>
    constructor
    · intro h
      simp [runReplacer, LRUReplacer.init] at h
    · rintro ⟨pre, post, heq, _⟩
      simp at heq
  | append_singleton ops op ih =>
    rw [runReplacer_snoc, mem_frames_apply _ (runReplacer_wf ops), Waiting_snoc, ih]

theorem Waiting_unpinned (ops : List ReplacerOp) (f : Nat) (h : Waiting ops f) :
    ReplacerOp.Unpin f ∈ ops := by
  obtain ⟨pre, post, heq, _⟩ := h
  rw [heq]
  simp

theorem length_le_of_nodup_lt (l : List Nat) (n : Nat) (hn : l.Nodup) (hl : ∀ f, f ∈ l → f < n) :
    l.length ≤ n := by
  rw [← List.toFinset_card_of_nodup hn, ← Finset.card_range n]
  apply Finset.card_le_card
  intro f hf
  rw [List.mem_toFinset] at hf
  exact Finset.mem_range.mpr (hl f hf)

/-- C21: after every sequence of `Unpin` / `Pin` / `Victim` calls on a new
replacer, with frame ids that fit a `frame_id_t` (below `2 ^ 31`), `Size()` is
the length of `replace_frames_`, which is the number of keys of `replace_map_`;
no frame id occurs twice in `replace_frames_`; a frame is in `replace_frames_`
exactly when it was unpinned and not since pinned or chosen as victim, so that
`Size()` is the number of those frames. -/
theorem replacer_size_invariant (ops : List ReplacerOp)
    (hf : ∀ f, ReplacerOp.Unpin f ∈ ops → f < 2 ^ 31) :
    (runReplacer ops).Size = (runReplacer ops).replace_frames.length ∧
    (runReplacer ops).replace_frames.length = (runReplacer ops).replace_map.length ∧
    (runReplacer ops).replace_frames.Nodup ∧
    (∀ f, f ∈ (runReplacer ops).replace_frames ↔ Waiting ops f) ∧
    ∃ s : Finset Nat, (∀ f, f ∈ s ↔ Waiting ops f) ∧ (runReplacer ops).Size = s.card := by
  have hw := runReplacer_wf ops
  have hlen : (runReplacer ops).replace_frames.length ≤ 2 ^ 31 :=
    length_le_of_nodup_lt _ _ hw.frames_nodup fun f hm =>
      hf f (Waiting_unpinned ops f ((mem_frames_iff_Waiting ops f).mp hm))
  have hsize : (runReplacer ops).Size = (runReplacer ops).replace_frames.length := by
    unfold LRUReplacer.Size
    rw [hw.size_eq]
    apply Nat.mod_eq_of_lt
    calc (runReplacer ops).replace_frames.length ≤ 2 ^ 31 := hlen
      _ < 2 ^ 64 := by norm_num
  refine ⟨hsize, ?_, hw.frames_nodup, mem_frames_iff_Waiting ops, ?_⟩
  · exact ((List.perm_ext_iff_of_nodup hw.frames_nodup hw.map_nodup).mpr
      fun f => (hw.map_iff f).symm).length_eq
  · refine ⟨(runReplacer ops).replace_frames.toFinset, fun f => ?_, ?_⟩
    · rw [List.mem_toFinset]
      exact mem_frames_iff_Waiting ops f
    · rw [hsize, List.toFinset_card_of_nodup hw.frames_nodup]

/-- C21 at the calls `Unpin 1`, `Unpin 2`, `Unpin 1`, `Pin 2`, `Unpin 3`,
`Victim`: frame 1 is chosen and frame 3 is left. -/
theorem replacer_size_invariant_witness :
    (runReplacer [.Unpin 1, .Unpin 2, .Unpin 1, .Pin 2, .Unpin 3, .Victim]).Size = 1 ∧
    (runReplacer [.Unpin 1, .Unpin 2, .Unpin 1, .Pin 2, .Unpin 3, .Victim]).replace_frames
      = [3] ∧
    Waiting [.Unpin 1, .Unpin 2, .Unpin 1, .Pin 2, .Unpin 3, .Victim] 3 :=
  have h := replacer_size_invariant [.Unpin 1, .Unpin 2, .Unpin 1, .Pin 2, .Unpin 3, .Victim]
    (by
      intro f hm
      simp only [List.mem_cons, ReplacerOp.Unpin.injEq, reduceCtorEq, List.mem_singleton,
        false_or, or_false, List.not_mem_nil] at hm
      omega)
  ⟨by decide, by decide, (h.2.2.2.1 3).mp (by decide)⟩

/-! ## Bucket page: every bucket reached from an all-zero page -/

section BucketRun

variable {K V : Type}

theorem DistinctPairs_zero [Inhabited K] [Inhabited V] :
    DistinctPairs (HashTableBucketPage.zero : HashTableBucketPage K V) := by
  intro i j hi
  rw [IsReadable_zero] at hi
  exact absurd hi (by decide)

theorem DistinctPairs_RemoveAt (b : HashTableBucketPage K V) (h : DistinctPairs b) (r : Nat) :
    DistinctPairs (b.RemoveAt r) := by
  intro i j hi hj ha
  rw [IsReadable_RemoveAt] at hi hj
  simp only [Bool.and_eq_true] at hi hj
  exact h i j hi.2 hj.2 ha

theorem DistinctPairs_put (B : Nat) (b : HashTableBucketPage K V) (hb : BucketInv B b)
    (h : DistinctPairs b) (r : Nat) (key : K) (value : V) (hn : ¬ b.Holds B key value) :
    DistinctPairs (b.put r key value) := by
  intro i j hi hj ha
  rw [IsReadable_put] at hi hj
  rw [array_put, array_put] at ha
  by_cases hir : i = r
  · by_cases hjr : j = r
    · rw [hir, hjr]
    · simp only [hjr, decide_False, Bool.false_or] at hj
      simp only [hir, if_true, hjr, if_false] at ha
      exact absurd ⟨j, hb.readable_lt j hj, hj, ha.symm⟩ hn
  · simp only [hir, decide_False, Bool.false_or] at hi
    by_cases hjr : j = r
    · simp only [hir, if_false, hjr, if_true] at ha
      exact absurd ⟨i, hb.readable_lt i hi, hi, ha⟩ hn
    · simp only [hjr, decide_False, Bool.false_or] at hj
      simp only [hir, if_false, hjr] at ha
      exact h i j hi hj ha

theorem DistinctPairs_Insert [DecidableEq K] [DecidableEq V] [Inhabited V] (B : Nat)
    (b : HashTableBucketPage K V) (hb : BucketInv B b) (h : DistinctPairs b) (key : K)
    (value : V) : DistinctPairs (b.Insert B key value).2 := by
  rcases Insert_cases B b hb key value with ⟨-, he⟩ | ⟨-, -, he⟩ | ⟨r, -, hn, -, -, he⟩
  · rw [he]; exact h
  · rw [he]; exact h
  · rw [he]; exact DistinctPairs_put B b hb h r key value hn

theorem DistinctPairs_Remove [DecidableEq K] [DecidableEq V] [Inhabited K] [Inhabited V]
    (B : Nat) (b : HashTableBucketPage K V) (h : DistinctPairs b) (key : K) (value : V) :
    DistinctPairs (b.Remove B key value).2 := by
  unfold HashTableBucketPage.Remove
  split
  · exact DistinctPairs_RemoveAt b h _
  · exact h

/-- Every bucket reached from an all-zero page is well-formed and holds no pair
twice. -/
theorem runBucket_inv [DecidableEq K] [DecidableEq V] [Inhabited K] [Inhabited V] (B : Nat)
    (ops : List (BucketOp B K V)) :
    BucketInv B (runBucket B ops) ∧ DistinctPairs (runBucket B ops) := by
  have key : ∀ (l : List (BucketOp B K V)) (b : HashTableBucketPage K V),
      BucketInv B b → DistinctPairs b →
      BucketInv B (l.foldl BucketOp.apply b) ∧ DistinctPairs (l.foldl BucketOp.apply b) := by
    intro l
    induction l with
    | nil => intro b h1 h2; exact ⟨h1, h2⟩
    | cons op l ih =>
      intro b h1 h2
      rw [List.foldl_cons]
      cases op with
      | Insert k v =>
        exact ih _ (BucketInv_Insert B b h1 k v) (DistinctPairs_Insert B b h1 h2 k v)
      | Remove k v =>
        exact ih _ (BucketInv_Remove B b h1 k v) (DistinctPairs_Remove B b h2 k v)
      | RemoveAt i =>
        exact ih _ (BucketInv_RemoveAt h1 i.val) (DistinctPairs_RemoveAt b h2 i.val)
  exact key ops _ (BucketInv_zero B) DistinctPairs_zero

/-- C27: in every bucket reached from an all-zero page by `Insert`, `Remove`
and `RemoveAt`, a readable slot is occupied. -/
theorem readable_implies_occupied [DecidableEq K] [DecidableEq V] [Inhabited K] [Inhabited V]
    (B : Nat) (ops : List (BucketOp B K V)) (i : Nat) (_hi : i < B)
    (hr : (runBucket B ops).IsReadable i = true) : (runBucket B ops).IsOccupied i = true :=
  (runBucket_inv B ops).1.readable_occupied i hr

/-- C27 at capacity 3, after two inserts and the removal of the first pair:
slot 1 is readable and occupied. -/
theorem readable_implies_occupied_witness :
    (runBucket 3 [BucketOp.Insert 7 70, .Insert 8 80, .Remove 7 70] :
      HashTableBucketPage Nat Nat).IsOccupied 1 = true :=
  readable_implies_occupied 3 [BucketOp.Insert 7 70, .Insert 8 80, .Remove 7 70] 1 (by decide)
    (by decide)

end BucketRun

/-! ## Bucket page: `Insert`, `GetValue`, `Remove` on a reached bucket
(claims C24 to C26) -/

section BucketCalls

variable {K V : Type}

/-- C24: on every bucket reached from an all-zero page by `Insert`, `Remove`
and `RemoveAt`, `Insert(key, value)` returns false exactly when a readable slot
holds the pair or `IsFull()` holds, and then the bucket is unchanged; when it
returns true, the pair is stored in the lowest slot `r` that was not readable,
the occupied and readable bits of `r` are set, and no other slot changes. -/
theorem bucket_insert_cases [DecidableEq K] [DecidableEq V] [Inhabited K] [Inhabited V]
    (B : Nat) (ops : List (BucketOp B K V)) (key : K) (value : V) :
    (((runBucket B ops).Insert B key value).1 = false ↔
      ((runBucket B ops).Holds B key value ∨ (runBucket B ops).IsFull B = true)) ∧
    (((runBucket B ops).Insert B key value).1 = false →
      ((runBucket B ops).Insert B key value).2 = runBucket B ops) ∧
    (((runBucket B ops).Insert B key value).1 = true →
      ∃ r, r < B ∧ (runBucket B ops).IsReadable r = false ∧
        (∀ j, j < r → (runBucket B ops).IsReadable j = true) ∧
        ((runBucket B ops).Insert B key value).2.array r = (key, value) ∧
        ((runBucket B ops).Insert B key value).2.IsOccupied r = true ∧
        ((runBucket B ops).Insert B key value).2.IsReadable r = true ∧
        ∀ j, j ≠ r →
          ((runBucket B ops).Insert B key value).2.array j = (runBucket B ops).array j ∧
          ((runBucket B ops).Insert B key value).2.IsOccupied j =
            (runBucket B ops).IsOccupied j ∧
          ((runBucket B ops).Insert B key value).2.IsReadable j =
            (runBucket B ops).IsReadable j) := by
  obtain ⟨hb, -⟩ := runBucket_inv B ops
  generalize runBucket B ops = b at hb
  rcases Insert_cases B b hb key value with ⟨hh, he⟩ | ⟨-, hall, he⟩ | ⟨r, hr, hn, hnr, hlow, he⟩
  · rw [he]
    exact ⟨⟨fun _ => Or.inl hh, fun _ => rfl⟩, fun _ => rfl, fun h => Bool.noConfusion h⟩
  · rw [he]
    exact ⟨⟨fun _ => Or.inr ((IsFull_iff B b hb).mpr hall), fun _ => rfl⟩, fun _ => rfl,
      fun h => Bool.noConfusion h⟩
  · rw [he]
    refine ⟨⟨fun h => Bool.noConfusion h, ?_⟩, fun h => Bool.noConfusion h, fun _ => ?_⟩
    · rintro (h | h)
      · exact absurd h hn
      · have := (IsFull_iff B b hb).mp h r hr
        rw [hnr] at this
        exact absurd this (by decide)
    · refine ⟨r, hr, hnr, hlow, ?_, ?_, ?_, ?_⟩
      · simp only [array_put, if_true]
      · simp only [IsOccupied_put, decide_True, Bool.true_or]
      · simp only [IsReadable_put, decide_True, Bool.true_or]
      · intro j hj
        simp only [array_put, IsOccupied_put, IsReadable_put, hj, if_false, decide_False,
          Bool.false_or, and_self]

/-- The loop of `GetValue` on a well-formed bucket appends the values of the
readable slots with the key, in slot order, and sets the flag when there is
one. -/
theorem getValueLoop_exact [DecidableEq K] (B : Nat) (b : HashTableBucketPage K V)
    (hb : BucketInv B b) (key : K) (n i : Nat) (done : Bool) (result : List V)
    (hn : i + n = B) :
    b.getValueLoop key n i done result =
      (done ||
          !(((List.range' i n).filter
            (fun j => b.IsReadable j && decide ((b.array j).1 = key))).map
              (fun j => (b.array j).2)).isEmpty,
        result ++ ((List.range' i n).filter
          (fun j => b.IsReadable j && decide ((b.array j).1 = key))).map
            (fun j => (b.array j).2)) := by
  induction n generalizing i done result with
  | zero => simp [HashTableBucketPage.getValueLoop]
  | succ n ih =>
    unfold HashTableBucketPage.getValueLoop
    simp only [List.range'_succ]
    by_cases ho : b.IsOccupied i = true
    · simp only [ho, Bool.not_true, Bool.false_eq_true, if_false]
      rw [ih (i + 1) _ _ (by omega)]
      by_cases hs : (b.IsReadable i && decide ((b.array i).1 = key)) = true
      · simp [hs, List.filter_cons]
      · simp [hs, List.filter_cons]
    · have hni : ∀ j, i ≤ j → b.IsReadable j = false := by
        intro j hj
        cases hr : b.IsReadable j
        · rfl
        · exfalso
          have hoj := hb.readable_occupied j hr
          rcases Nat.eq_or_lt_of_le hj with h | h
          · rw [← h] at hoj; exact ho hoj
          · exact ho (hb.occupied_closed j i hoj h)
      have hrest : (List.range' (i + 1) n).filter
          (fun j => b.IsReadable j && decide ((b.array j).1 = key)) = [] := by
        rw [List.filter_eq_nil_iff]
        intro j hj
        have := (List.mem_range'_1.mp hj).1
        simp [hni j (by omega)]
      simp [ho, hni i (Nat.le_refl i), List.filter_cons, hrest]

/-- C25: on every bucket reached from an all-zero page by `Insert`, `Remove`
and `RemoveAt`, `GetValue(key)` appends to the vector the values of all
readable slots whose key is `key`, in increasing slot order, and returns true
exactly when it appended a value.  (The embedding of `GetValue` returns no
bucket: the member assigns to no field.) -/
theorem bucket_getValue_exact [DecidableEq K] [DecidableEq V] [Inhabited K] [Inhabited V]
    (B : Nat) (ops : List (BucketOp B K V)) (key : K) (result : List V) :
    ((runBucket B ops).GetValue B key result).2 =
      result ++ (runBucket B ops).valuesOf B key ∧
    (((runBucket B ops).GetValue B key result).1 = true ↔
      result.length < ((runBucket B ops).GetValue B key result).2.length) ∧
    (((runBucket B ops).GetValue B key result).1 = true ↔
      ∃ i, i < B ∧ (runBucket B ops).IsReadable i = true ∧
        ((runBucket B ops).array i).1 = key) := by
  obtain ⟨hb, -⟩ := runBucket_inv B ops
  generalize runBucket B ops = b at hb
  refine ⟨?_, ?_, GetValue_true_iff B b hb key result⟩
  · unfold HashTableBucketPage.GetValue HashTableBucketPage.valuesOf
    rw [getValueLoop_exact B b hb key B 0 false result (by omega), List.range_eq_range']
  · unfold HashTableBucketPage.GetValue
    rw [getValueLoop_exact B b hb key B 0 false result (by omega)]
    simp only [Bool.false_or, List.length_append, Bool.not_eq_true', List.isEmpty_eq_false]
    constructor
    · intro h
      have := List.length_pos_of_ne_nil h
      omega
    · intro h hc
      rw [hc] at h
      simp at h

theorem removeLoop_spec [DecidableEq K] [DecidableEq V] [Inhabited K] [Inhabited V] (B : Nat)
    (b : HashTableBucketPage K V) (hb : BucketInv B b) (key : K) (value : V) (n i : Nat)
    (hn : i + n = B) :
    (∀ r, b.removeLoop key value n i = some r →
      i ≤ r ∧ r < B ∧ b.IsReadable r = true ∧ b.array r = (key, value)) ∧
    (b.removeLoop key value n i = none →
      ∀ j, i ≤ j → b.IsReadable j = true → b.array j ≠ (key, value)) := by
  induction n generalizing i with
  | zero =>
    simp only [HashTableBucketPage.removeLoop]
    refine ⟨fun r h => by simp at h, fun _ j hj hr => ?_⟩
    have := hb.readable_lt j hr
    omega
  | succ n ih =>
    unfold HashTableBucketPage.removeLoop
    by_cases hc : b.IsReadable i = true ∧ b.KeyAt i = key ∧ value = b.ValueAt i
    · rw [if_pos hc]
      obtain ⟨h1, h2, h3⟩ := hc
      rw [KeyAt_readable b i h1] at h2
      rw [ValueAt_readable b i h1] at h3
      refine ⟨fun r hr => ?_, fun h => by simp at h⟩
      simp only [Option.some.injEq] at hr
      subst hr
      exact ⟨Nat.le_refl _, hb.readable_lt i h1, h1, Prod.ext h2 h3.symm⟩
    · rw [if_neg hc]
      have hi : b.IsReadable i = true → b.array i ≠ (key, value) := by
        intro h1 ha
        apply hc
        refine ⟨h1, ?_, ?_⟩
        · rw [KeyAt_readable b i h1, ha]
        · rw [ValueAt_readable b i h1, ha]
      by_cases ho : b.IsOccupied i = true
      · simp only [ho, Bool.not_true, Bool.false_eq_true, if_false]
        obtain ⟨a1, a2⟩ := ih (i + 1) (by omega)
        refine ⟨fun r hr => ?_, fun h j hj hr => ?_⟩
        · obtain ⟨b1, b2⟩ := a1 r hr
          exact ⟨by omega, b2⟩
        · rcases Nat.eq_or_lt_of_le hj with h1 | h1
          · rw [← h1] at hr ⊢; exact hi hr
          · exact a2 h j h1 hr
      · simp only [ho, Bool.not_false, if_true]
        refine ⟨fun r h => by simp at h, fun _ j hj hr => ?_⟩
        exfalso
        have hoj := hb.readable_occupied j hr
        rcases Nat.eq_or_lt_of_le hj with h | h
        · rw [← h] at hoj; exact ho hoj
        · exact ho (hb.occupied_closed j i hoj h)

/-- C26: on every bucket reached from an all-zero page by `Insert`, `Remove`
and `RemoveAt`, `Remove(key, value)` returns true exactly when a readable slot
holds the pair; then it clears the readable bit of that slot `r` and changes
no other readable bit, no occupied bit and no stored pair, and afterwards
`GetValue(key)` does not return `value`; when it returns false the bucket is
unchanged. -/
theorem bucket_remove_cases [DecidableEq K] [DecidableEq V] [Inhabited K] [Inhabited V]
    (B : Nat) (ops : List (BucketOp B K V)) (key : K) (value : V) :
    (((runBucket B ops).Remove B key value).1 = true ↔ (runBucket B ops).Holds B key value) ∧
    (((runBucket B ops).Remove B key value).1 = true →
      (∃ r, r < B ∧ (runBucket B ops).IsReadable r = true ∧
        (runBucket B ops).array r = (key, value) ∧
        ((runBucket B ops).Remove B key value).2.IsReadable r = false ∧
        ∀ j, j ≠ r → ((runBucket B ops).Remove B key value).2.IsReadable j =
          (runBucket B ops).IsReadable j) ∧
      (∀ j, ((runBucket B ops).Remove B key value).2.IsOccupied j =
        (runBucket B ops).IsOccupied j) ∧
      ((runBucket B ops).Remove B key value).2.occupied = (runBucket B ops).occupied ∧
      ((runBucket B ops).Remove B key value).2.array = (runBucket B ops).array ∧
      value ∉ (((runBucket B ops).Remove B key value).2.GetValue B key []).2) ∧
    (((runBucket B ops).Remove B key value).1 = false →
      ((runBucket B ops).Remove B key value).2 = runBucket B ops) := by
  obtain ⟨hb, hd⟩ := runBucket_inv B ops
  generalize runBucket B ops = b at hb hd
  obtain ⟨s1, s2⟩ := removeLoop_spec B b hb key value B 0 (by omega)
  cases hl : b.removeLoop key value B 0 with
  | none =>
    have he : b.Remove B key value = (false, b) := by
      unfold HashTableBucketPage.Remove
      rw [hl]
    rw [he]
    refine ⟨⟨fun h => Bool.noConfusion h, ?_⟩, fun h => Bool.noConfusion h, fun _ => rfl⟩
    rintro ⟨j, -, h2, h3⟩
    exact absurd h3 (s2 hl j (Nat.zero_le _) h2)
  | some r =>
    have he : b.Remove B key value = (true, b.RemoveAt r) := by
      unfold HashTableBucketPage.Remove
      rw [hl]
    obtain ⟨-, hr, hrr, hra⟩ := s1 r hl
    rw [he]
    refine ⟨⟨fun _ => ⟨r, hr, hrr, hra⟩, fun _ => rfl⟩, fun _ => ?_, fun h => Bool.noConfusion h⟩
    refine ⟨⟨r, hr, hrr, hra, ?_, ?_⟩, fun j => rfl, rfl, rfl, ?_⟩
    · simp only [IsReadable_RemoveAt, decide_True, Bool.not_true, Bool.false_and]
    · intro j hj
      simp only [IsReadable_RemoveAt, hj, decide_False, Bool.not_false, Bool.true_and]
    · rw [GetValue_mem_iff B _ (BucketInv_RemoveAt hb r)]
      rintro ⟨j, -, h2, h3⟩
      rw [IsReadable_RemoveAt] at h2
      simp only [Bool.and_eq_true, Bool.not_eq_true', decide_eq_false_iff_not] at h2
      rw [array_RemoveAt] at h3
      exact h2.1 (hd j r h2.2 hrr (h3.trans hra.symm))

end BucketCalls

/-! ## Bucket page: `IsFull`, `IsEmpty`, `NumReadable` on a reached bucket
(claims C28 and C29) -/

section BucketCount

variable {K V : Type}

theorem IsEmpty_iff (B : Nat) (b : HashTableBucketPage K V) (hb : BucketInv B b) :
    b.IsEmpty B = true ↔ ∀ j, j < B → b.IsReadable j = false := by
  constructor
  · intro h j hj
    unfold HashTableBucketPage.IsEmpty at h
    rw [List.all_eq_true] at h
    have hm : j / 8 ∈ List.range ((B - 1) / 8 + 1) := by
      rw [List.mem_range]
      have : j / 8 ≤ (B - 1) / 8 := Nat.div_le_div_right (by omega)
      omega
    have h2 := h (j / 8) hm
    simp only [decide_eq_true_eq] at h2
    rw [IsReadable_eq, (byte_of_slot j).1, h2]
    simp [toChar]
  · intro h
    have hall : ∀ j, b.IsReadable j = false := by
      intro j
      by_cases hj : j < B
      · exact h j hj
      · cases hr : b.IsReadable j
        · rfl
        · exact absurd (hb.readable_lt j hr) hj
    unfold HashTableBucketPage.IsEmpty
    rw [List.all_eq_true]
    intro i _
    simp only [decide_eq_true_eq]
    apply Fin.ext
    rw [byte_zero_of_no_readable b hall i]
    rfl

/-- C28: for every capacity `B >= 1` and every bucket reached from an all-zero
page by `Insert`, `Remove` and `RemoveAt`, `IsFull()` is true exactly when
every slot below `B` is readable, and `IsEmpty()` is true exactly when no slot
below `B` is readable. -/
theorem bucket_full_empty [DecidableEq K] [DecidableEq V] [Inhabited K] [Inhabited V]
    (B : Nat) (_hB : 1 ≤ B) (ops : List (BucketOp B K V)) :
    ((runBucket B ops).IsFull B = true ↔
      ∀ i, i < B → (runBucket B ops).IsReadable i = true) ∧
    ((runBucket B ops).IsEmpty B = true ↔
      ∀ i, i < B → (runBucket B ops).IsReadable i = false) :=
  ⟨IsFull_iff B _ (runBucket_inv B ops).1, IsEmpty_iff B _ (runBucket_inv B ops).1⟩

/-- C28 at capacity 3, which is not a multiple of 8: after three inserts the
bucket is full, and after the three pairs are removed it is empty. -/
theorem bucket_full_empty_witness :
    (runBucket 3 [BucketOp.Insert 1 10, .Insert 2 20, .Insert 3 30] :
      HashTableBucketPage Nat Nat).IsFull 3 = true ∧
    (runBucket 3 [BucketOp.Insert 1 10, .Insert 2 20, .Insert 3 30, .Remove 1 10,
      .RemoveAt 1, .Remove 3 30] : HashTableBucketPage Nat Nat).IsEmpty 3 = true :=
  ⟨(bucket_full_empty 3 (by decide)
      [BucketOp.Insert 1 10, .Insert 2 20, .Insert 3 30]).1.mpr (by decide),
    (bucket_full_empty 3 (by decide)
      [BucketOp.Insert 1 10, .Insert 2 20, .Insert 3 30, .Remove 1 10, .RemoveAt 1,
        .Remove 3 30]).2.mpr (by decide)⟩

theorem clearLowestLoop_add (fuel n c : Nat) :
    clearLowestLoop fuel n c = c + clearLowestLoop fuel n 0 := by
  induction fuel generalizing n c with
  | zero => simp [clearLowestLoop]
  | succ f ih =>
    unfold clearLowestLoop
    split
    · simp
    · rw [ih _ (c + 1), ih _ (0 + 1)]
      omega

set_option maxRecDepth 100000 in
theorem popcount_byte : ∀ n : Fin 256, clearLowestLoop 8 n.val 0 =
    (if n.val.testBit 0 then 1 else 0) + (if n.val.testBit 1 then 1 else 0) +
    (if n.val.testBit 2 then 1 else 0) + (if n.val.testBit 3 then 1 else 0) +
    (if n.val.testBit 4 then 1 else 0) + (if n.val.testBit 5 then 1 else 0) +
    (if n.val.testBit 6 then 1 else 0) + (if n.val.testBit 7 then 1 else 0) := by
  decide

set_option maxRecDepth 100000 in
theorem byte_cleared : ∀ n : Fin 256, (fun m : Nat => m &&& (m - 1))^[8] n.val = 0 := by
  decide

theorem clearLowestLoop_fuel (k : Nat) :
    ∀ n fuel count, (fun m : Nat => m &&& (m - 1))^[k] n = 0 → k ≤ fuel →
      clearLowestLoop fuel n count = clearLowestLoop k n count := by
  induction k with
  | zero =>
    intro n fuel count h _
    simp only [Function.iterate_zero, id_eq] at h
    subst h
    cases fuel <;> simp [clearLowestLoop]
  | succ k ih =>
    intro n fuel count h hk
    obtain ⟨f, rfl⟩ : ∃ f, fuel = f + 1 := ⟨fuel - 1, by omega⟩
    rw [Function.iterate_succ_apply] at h
    unfold clearLowestLoop
    split
    · rfl
    · exact ih _ f _ h (by omega)

theorem readableCount_succ (b : HashTableBucketPage K V) (n : Nat) :
    readableCount b (n + 1) = readableCount b n + if b.IsReadable n = true then 1 else 0 := by
  unfold readableCount
  rw [Finset.range_succ, Finset.filter_insert]
  split
  · rw [Finset.card_insert_of_not_mem]
    simp
  · rfl

theorem readableCount_byte (b : HashTableBucketPage K V) (m : Nat) :
    readableCount b (8 * (m + 1)) =
      readableCount b (8 * m) + clearLowestLoop 8 (b.readable m).val 0 := by
  have e : ∀ t, t < 8 → b.IsReadable (8 * m + t) = (b.readable m).val.testBit t := by
    intro t ht
    rw [IsReadable_eq, (slot_of_byte m t ht).1, (slot_of_byte m t ht).2]
  have e0 := readableCount_succ b (8 * m + 0)
  have e1 := readableCount_succ b (8 * m + 1)
  have e2 := readableCount_succ b (8 * m + 2)
  have e3 := readableCount_succ b (8 * m + 3)
  have e4 := readableCount_succ b (8 * m + 4)
  have e5 := readableCount_succ b (8 * m + 5)
  have e6 := readableCount_succ b (8 * m + 6)
  have e7 := readableCount_succ b (8 * m + 7)
  rw [e _ (by decide)] at e0 e1 e2 e3 e4 e5 e6 e7
  rw [popcount_byte (b.readable m)]
  have h8 : 8 * (m + 1) = 8 * m + 7 + 1 := by ring
  rw [h8, e7, e6, e5, e4, e3, e2, e1, e0]
  simp only [Nat.add_zero]
  omega

theorem foldl_count_eq (b : HashTableBucketPage K V) (m : Nat) :
    (List.range m).foldl (fun count i => clearLowestLoop 8 (b.readable i).val count) 0 =
      readableCount b (8 * m) := by
  induction m with
  | zero => simp [readableCount]
  | succ m ih =>
    rw [List.range_succ, List.foldl_append, ih, readableCount_byte]
    simp only [List.foldl_cons, List.foldl_nil]
    exact clearLowestLoop_add _ _ _

theorem readableCount_beyond (B : Nat) (b : HashTableBucketPage K V) (hb : BucketInv B b)
    (d : Nat) : readableCount b (B + d) = readableCount b B := by
  induction d with
  | zero => rfl
  | succ d ih =>
    rw [← Nat.add_assoc, readableCount_succ, ih]
    have : b.IsReadable (B + d) ≠ true := fun h => by
      have := hb.readable_lt _ h
      omega
    simp [this]

/-- On a well-formed bucket `NumReadable()` is the number of readable slots. -/
theorem NumReadable_eq (B : Nat) (b : HashTableBucketPage K V) (hb : BucketInv B b) :
    b.NumReadable B = readableCount b B := by
  unfold HashTableBucketPage.NumReadable
  rw [foldl_count_eq]
  obtain ⟨d, hd⟩ : ∃ d, 8 * ((B - 1) / 8 + 1) = B + d :=
    ⟨8 * ((B - 1) / 8 + 1) - B, by omega⟩
  rw [hd, readableCount_beyond B b hb d]

theorem readableCount_set (b c : HashTableBucketPage K V) (r : Nat)
    (hne : ∀ j, j ≠ r → c.IsReadable j = b.IsReadable j) (hb : b.IsReadable r = false)
    (hc : c.IsReadable r = true) (n : Nat) :
    readableCount c n = readableCount b n + if r < n then 1 else 0 := by
  induction n with
  | zero => simp [readableCount]
  | succ n ih =>
    rw [readableCount_succ, readableCount_succ, ih]
    by_cases hn : n = r
    · subst hn
      simp [hb, hc]
    · rw [hne n hn]
      by_cases h1 : r < n
      · have h2 : r < n + 1 := by omega
        simp only [h1, h2, if_true]
        omega
      · have h2 : ¬ r < n + 1 := by omega
        simp only [h1, h2, if_false]
        omega

/-- C29: for every bucket reached from an all-zero page by `Insert`, `Remove`
and `RemoveAt` (capacity `B >= 1`), `NumReadable()` is the number of readable
slots below `B`; an `Insert` that returns true increases it by 1 and a `Remove`
that returns true decreases it by 1; and for every byte the loop
`while (n != 0) n &= n - 1` reaches `n = 0` within 8 rounds, so that more than
8 rounds of fuel change nothing. -/
theorem num_readable_counts [DecidableEq K] [DecidableEq V] [Inhabited K] [Inhabited V]
    (B : Nat) (_hB : 1 ≤ B) (ops : List (BucketOp B K V)) (key : K) (value : V) :
    (runBucket B ops).NumReadable B = readableCount (runBucket B ops) B ∧
    (((runBucket B ops).Insert B key value).1 = true →
      ((runBucket B ops).Insert B key value).2.NumReadable B =
        (runBucket B ops).NumReadable B + 1) ∧
    (((runBucket B ops).Remove B key value).1 = true →
      ((runBucket B ops).Remove B key value).2.NumReadable B + 1 =
        (runBucket B ops).NumReadable B) ∧
    ∀ n, n < 256 →
      (fun m : Nat => m &&& (m - 1))^[8] n = 0 ∧
      ∀ fuel count, 8 ≤ fuel → clearLowestLoop fuel n count = clearLowestLoop 8 n count := by
  obtain ⟨hb, -⟩ := runBucket_inv B ops
  generalize runBucket B ops = b at hb
  refine ⟨NumReadable_eq B b hb, ?_, ?_, ?_⟩
  · intro h
    rw [NumReadable_eq B _ (BucketInv_Insert B b hb key value), NumReadable_eq B b hb]
    rcases Insert_cases B b hb key value with ⟨-, he⟩ | ⟨-, -, he⟩ | ⟨r, hr, -, hnr, -, he⟩
    · rw [he] at h; exact Bool.noConfusion h
    · rw [he] at h; exact Bool.noConfusion h
    · rw [he]
      rw [readableCount_set b (b.put r key value) r ?_ hnr ?_ B, if_pos hr]
      · intro j hj
        simp only [IsReadable_put, hj, decide_False, Bool.false_or]
      · simp only [IsReadable_put, decide_True, Bool.true_or]
  · intro h
    rw [NumReadable_eq B _ (BucketInv_Remove B b hb key value), NumReadable_eq B b hb]
    obtain ⟨s1, -⟩ := removeLoop_spec B b hb key value B 0 (by omega)
    cases hl : b.removeLoop key value B 0 with
    | none =>
      have he : b.Remove B key value = (false, b) := by
        unfold HashTableBucketPage.Remove
        rw [hl]
      rw [he] at h; exact Bool.noConfusion h
    | some r =>
      have he : b.Remove B key value = (true, b.RemoveAt r) := by
        unfold HashTableBucketPage.Remove
        rw [hl]
      obtain ⟨-, hr, hrr, -⟩ := s1 r hl
      rw [he]
      rw [readableCount_set (b.RemoveAt r) b r ?_ ?_ hrr B, if_pos hr]
      · intro j hj
        simp only [IsReadable_RemoveAt, hj, decide_False, Bool.not_false, Bool.true_and]
      · simp only [IsReadable_RemoveAt, decide_True, Bool.not_true, Bool.false_and]
  · intro n hn
    have hz := byte_cleared ⟨n, hn⟩
    exact ⟨hz, fun fuel count hf => clearLowestLoop_fuel 8 n fuel count hz hf⟩

/-- C29 at capacity 3: after two inserts `NumReadable()` is 2, a third insert
makes it 3 and the removal of the first pair makes it 1. -/
theorem num_readable_counts_witness :
    (runBucket 3 [BucketOp.Insert 1 10, .Insert 2 20] :
      HashTableBucketPage Nat Nat).NumReadable 3 = 2 ∧
    ((runBucket 3 [BucketOp.Insert 1 10, .Insert 2 20] :
      HashTableBucketPage Nat Nat).Insert 3 3 30).2.NumReadable 3 = 3 ∧
    ((runBucket 3 [BucketOp.Insert 1 10, .Insert 2 20] :
      HashTableBucketPage Nat Nat).Remove 3 1 10).2.NumReadable 3 = 1 :=
  have h := num_readable_counts 3 (by decide) [BucketOp.Insert 1 10, .Insert 2 20] 3 30
  have g := num_readable_counts 3 (by decide) [BucketOp.Insert 1 10, .Insert 2 20] 1 10
  ⟨by decide, (h.2.1 (by decide)).trans (by decide), by
    have := g.2.2.1 (by decide)
    have e : (runBucket 3 [BucketOp.Insert 1 10, .Insert 2 20] :
      HashTableBucketPage Nat Nat).NumReadable 3 = 2 := by decide
    omega⟩

end BucketCount

/-! ## Parallel buffer pool: round-robin `NewPage` (claim C23) -/

theorem setAt_self {α : Type} (a : Nat → α) (i : Nat) : setAt a i (a i) = a := by
  funext j
  unfold setAt
  split
  · rename_i h; rw [h]
  · rfl

theorem NewPgImp_none (b : BufferPoolManagerInstance) (h : (NewPgImp b).1 = none) :
    (NewPgImp b).2 = b := by
  unfold NewPgImp at h ⊢
  split at h
  · rename_i b1 hg
    exact (GetPg_none_eq b b1 hg).1
  · simp at h

theorem call_none (p : ParallelBufferPoolManager) (i : Nat)
    (h : (NewPgImp (p.bpmi i)).1 = none) : p.call i NewPgImp = (none, p) := by
  have h2 := NewPgImp_none _ h
  unfold ParallelBufferPoolManager.call
  rw [h, h2]
  show (none, ({ p with bpmis := setAt p.bpmis i (p.bpmis i), disk := p.disk } :
    ParallelBufferPoolManager)) = (none, p)
  rw [setAt_self]

theorem next_index (N c j : Nat) (h32 : N < 2 ^ 32) (hN : 0 < N) :
    (((c + j) % N + 1) % 2 ^ 32) % N % 2 ^ 32 = (c + (j + 1)) % N := by
  have h1 : (c + j) % N < N := Nat.mod_lt _ hN
  have h2 : ((c + j) % N + 1) % 2 ^ 32 = (c + j) % N + 1 := Nat.mod_eq_of_lt (by omega)
  rw [h2, Nat.mod_add_mod, Nat.add_assoc]
  exact Nat.mod_eq_of_lt (lt_trans (Nat.mod_lt _ hN) h32)

theorem next_index_eq (N c j : Nat) (hc : c < N) (hj : j + 1 ≤ N) :
    (c + (j + 1)) % N = c ↔ j + 1 = N := by
  by_cases h : c + (j + 1) < N
  · rw [Nat.mod_eq_of_lt h]
    omega
  · rw [Nat.mod_eq_sub_mod (by omega), Nat.mod_eq_of_lt (by omega)]
    omega

/-- The loop of `NewPgImp`, entered at the instance `c + j` with `k = N - j`
instances left to try and at least `k` rounds: either some instance `c + t`
is the first to succeed, or all of them fail. -/
theorem newPgLoop_spec (p : ParallelBufferPoolManager) (N c : Nat) (hN : p.num_instances = N)
    (hc : p.last_alloc_index = c) (hcN : c < N) (h32 : N < 2 ^ 32) :
    ∀ k j fuel tried, j + k = N → 0 < k → k ≤ fuel →
      (∃ t f id, j ≤ t ∧ t < N ∧
        (∀ s, j ≤ s → s < t → (NewPgImp (p.bpmi ((c + s) % N))).1 = none) ∧
        (NewPgImp (p.bpmi ((c + t) % N))).1 = some (f, id) ∧
        ParallelBufferPoolManager.newPgLoop fuel p ((c + j) % N) tried =
          some (some ((c + t) % N, f, id),
            { (p.call ((c + t) % N) NewPgImp).2 with last_alloc_index := (c + 1) % N },
            tried ++ (List.range' j (t + 1 - j)).map (fun s => (c + s) % N))) ∨
      ((∀ s, j ≤ s → s < N → (NewPgImp (p.bpmi ((c + s) % N))).1 = none) ∧
        ParallelBufferPoolManager.newPgLoop fuel p ((c + j) % N) tried =
          some (none, { p with last_alloc_index := (c + 1) % N },
            tried ++ (List.range' j k).map (fun s => (c + s) % N))) := by
  have hNpos : 0 < N := by omega
  intro k
  induction k with
  | zero => intro j fuel tried _ h; omega
  | succ k ih =>
    intro j fuel tried hjk _ hfuel
    obtain ⟨fuel1, rfl⟩ : ∃ g, fuel = g + 1 := ⟨fuel - 1, by omega⟩
    have hmm : (c + j) % N % N = (c + j) % N := Nat.mod_mod _ _
    cases hr : (NewPgImp (p.bpmi ((c + j) % N))).1 with
    | some fp =>
      obtain ⟨f, id⟩ := fp
      left
      refine ⟨j, f, id, Nat.le_refl _, by omega, fun s h1 h2 => by omega, hr, ?_⟩
      have hcall : p.call ((c + j) % N) NewPgImp =
          (some (f, id), (p.call ((c + j) % N) NewPgImp).2) := Prod.ext hr rfl
      unfold ParallelBufferPoolManager.newPgLoop
      simp only [hN, hmm]
      generalize hq : p.call ((c + j) % N) NewPgImp = q at hcall ⊢
      have hq1 : q.2.last_alloc_index = c := by rw [← hq]; exact hc
      have hq2 : q.2.num_instances = N := by rw [← hq]; exact hN
      rw [hcall]
      simp only [hq1, hq2]
      have : j + 1 - j = 1 := by omega
      rw [this]
      simp [List.range']
    | none =>
      have hcall := call_none p _ hr
      have hstep : ParallelBufferPoolManager.newPgLoop (fuel1 + 1) p ((c + j) % N) tried =
          if (c + (j + 1)) % N ≠ c then
            ParallelBufferPoolManager.newPgLoop fuel1 p ((c + (j + 1)) % N)
              (tried ++ [(c + j) % N])
          else some (none, { p with last_alloc_index := (c + 1) % N },
            tried ++ [(c + j) % N]) := by
        conv_lhs => unfold ParallelBufferPoolManager.newPgLoop
        simp only [hN, hmm, hcall, hc, next_index N c j h32 hNpos]
      rw [hstep]
      by_cases hlast : j + 1 = N
      · right
        have hk : k = 0 := by omega
        subst hk
        rw [if_neg (by
          rw [not_not]
          exact (next_index_eq N c j hcN (by omega)).mpr hlast)]
        refine ⟨fun s h1 h2 => ?_, by simp [List.range']⟩
        have : s = j := by omega
        rw [this]; exact hr
      · rw [if_pos (fun h => hlast ((next_index_eq N c j hcN (by omega)).mp h))]
        rcases ih (j + 1) fuel1 (tried ++ [(c + j) % N]) (by omega) (by omega) (by omega) with
          ⟨t, f, id, h1, h2, h3, h4, h5⟩ | ⟨h3, h5⟩
        · left
          refine ⟨t, f, id, by omega, h2, fun s g1 g2 => ?_, h4, ?_⟩
          · rcases Nat.eq_or_lt_of_le g1 with g | g
            · rw [← g]; exact hr
            · exact h3 s g g2
          · rw [h5]
            have : t + 1 - j = (t + 1 - (j + 1)) + 1 := by omega
            rw [this, List.range'_succ]
            simp
        · right
          refine ⟨fun s g1 g2 => ?_, ?_⟩
          · rcases Nat.eq_or_lt_of_le g1 with g | g
            · rw [← g]; exact hr
            · exact h3 s g g2
          · rw [h5, List.range'_succ]
            simp

theorem roundRobin_inj (N c s t : Nat) (hs : s < N) (ht : t < N)
    (h : (c + s) % N = (c + t) % N) : s = t := by
  have h1 : s % N = t % N := Nat.ModEq.add_left_cancel' c h
  rwa [Nat.mod_eq_of_lt hs, Nat.mod_eq_of_lt ht] at h1

theorem roundRobin_nodup (c N : Nat) : (roundRobin c N).Nodup := by
  unfold roundRobin
  apply List.Nodup.map_on _ (List.nodup_range N)
  intro s hs t ht h
  exact roundRobin_inj N c s t (List.mem_range.mp hs) (List.mem_range.mp ht) h

theorem roundRobin_onto (N c i : Nat) (hc : c < N) (hi : i < N) :
    ∃ t, t < N ∧ (c + t) % N = i := by
  refine ⟨(i + N - c) % N, Nat.mod_lt _ (by omega), ?_⟩
  rw [Nat.add_mod_mod]
  have : c + (i + N - c) = i + N := by omega
  rw [this, Nat.add_mod_right, Nat.mod_eq_of_lt hi]

theorem take_roundRobin (c N m : Nat) (hm : m ≤ N) :
    (List.range' 0 m).map (fun s => (c + s) % N) = (roundRobin c N).take m := by
  unfold roundRobin
  rw [← List.map_take, ← List.range_eq_range', List.take_range, Nat.min_eq_left hm]

/-- C23: for `N > 0` instances (`N` below `2 ^ 32`), a cursor `c < N` and at
least `N` rounds, `NewPgImp` returns; the instances whose `NewPage` it calls
are a beginning of `c, c + 1, ..., c + N - 1` modulo `N`, hence each at most
once; `NewPage` fails on all of them but the last; the result is null exactly
when `NewPage` fails on all `N` instances (all of them are called then), and
otherwise what the last instance called returns; in both cases the cursor
afterwards is `(c + 1) mod N`. -/
theorem parallel_new_page_round_robin (p : ParallelBufferPoolManager) (fuel : Nat)
    (hN : 0 < p.num_instances) (h32 : p.num_instances < 2 ^ 32)
    (hc : p.last_alloc_index < p.num_instances) (hfuel : p.num_instances ≤ fuel) :
    ∃ r p1 tried, p.NewPgImp fuel = some (r, p1, tried) ∧
      p1.last_alloc_index = (p.last_alloc_index + 1) % p.num_instances ∧
      tried <+: roundRobin p.last_alloc_index p.num_instances ∧ tried ≠ [] ∧ tried.Nodup ∧
      (∀ i, i ∈ tried.dropLast → (NewPgImp (p.bpmi i)).1 = none) ∧
      (r = none ↔ ∀ i, i < p.num_instances → (NewPgImp (p.bpmi i)).1 = none) ∧
      (r = none →
        tried = roundRobin p.last_alloc_index p.num_instances ∧
        p1 = { p with last_alloc_index := (p.last_alloc_index + 1) % p.num_instances }) ∧
      (∀ i f id, r = some (i, f, id) →
        tried.getLast? = some i ∧ (NewPgImp (p.bpmi i)).1 = some (f, id) ∧
        p1 = { (p.call i NewPgImp).2 with
          last_alloc_index := (p.last_alloc_index + 1) % p.num_instances }) := by
  obtain ⟨N, hNe⟩ : ∃ N, p.num_instances = N := ⟨_, rfl⟩
  obtain ⟨c, hce⟩ : ∃ c, p.last_alloc_index = c := ⟨_, rfl⟩
  rw [hNe] at hN h32 hc hfuel ⊢
  rw [hce] at hc ⊢
  have hstart : p.NewPgImp fuel = ParallelBufferPoolManager.newPgLoop fuel p ((c + 0) % N) [] := by
    unfold ParallelBufferPoolManager.NewPgImp
    rw [hce, Nat.add_zero, Nat.mod_eq_of_lt (lt_trans hc h32), Nat.mod_eq_of_lt hc]
  rcases newPgLoop_spec p N c hNe hce hc h32 N 0 fuel [] (by omega) hN hfuel with
    ⟨t, f, id, -, h2, h3, h4, h5⟩ | ⟨h3, h5⟩
  · rw [← hstart] at h5
    have htake := take_roundRobin c N (t + 1) (by omega)
    refine ⟨_, _, _, h5, rfl, ?_, ?_, ?_, ?_, ?_, ?_, ?_⟩
    · simp only [List.nil_append, Nat.sub_zero]
      rw [htake]
      exact List.take_prefix _ _
    · simp [List.range'_succ]
    · simp only [List.nil_append, Nat.sub_zero]
      rw [htake]
      exact (roundRobin_nodup c N).sublist (List.take_sublist _ _)
    · intro i hi
      simp only [List.nil_append, Nat.sub_zero] at hi
      rw [List.range'_concat, List.map_append, List.map_singleton, List.dropLast_concat] at hi
      obtain ⟨s, hs, rfl⟩ := List.mem_map.mp hi
      have := (List.mem_range'_1.mp hs)
      exact h3 s (by omega) (by omega)
    · constructor
      · intro h; exact absurd h (by simp)
      · intro h
        have := h ((c + t) % N) (Nat.mod_lt _ hN)
        rw [h4] at this
        exact absurd this (by simp)
    · intro h; exact absurd h (by simp)
    · intro i g gid h
      simp only [Option.some.injEq, Prod.mk.injEq] at h
      obtain ⟨rfl, rfl, rfl⟩ := h
      refine ⟨?_, h4, rfl⟩
      simp only [List.nil_append, Nat.sub_zero]
      rw [List.range'_concat, List.map_append, List.map_singleton, List.getLast?_concat]
      simp
  · rw [← hstart] at h5
    have htake := take_roundRobin c N N (Nat.le_refl _)
    have hfull : (List.range' 0 N).map (fun s => (c + s) % N) = roundRobin c N := by
      rw [htake]
      apply List.take_of_length_le
      simp [roundRobin]
    refine ⟨_, _, _, h5, rfl, ?_, ?_, ?_, ?_, ?_, ?_, ?_⟩
    · simp only [List.nil_append]
      rw [hfull]
    · simp only [List.nil_append]
      obtain ⟨n, rfl⟩ : ∃ n, N = n + 1 := ⟨N - 1, by omega⟩
      simp [List.range'_succ]
    · simp only [List.nil_append]
      rw [hfull]
      exact roundRobin_nodup c N
    · intro i hi
      have hi2 := List.mem_of_mem_dropLast hi
      simp only [List.nil_append] at hi2
      obtain ⟨s, hs, rfl⟩ := List.mem_map.mp hi2
      exact h3 s (Nat.zero_le _) (by have := List.mem_range'_1.mp hs; omega)
    · constructor
      · intro _ i hi
        obtain ⟨s, hs, rfl⟩ := roundRobin_onto N c i hc hi
        exact h3 s (Nat.zero_le _) hs
      · intro _; rfl
    · intro _
      exact ⟨by simp only [List.nil_append]; rw [hfull], by rw [hNe]⟩
    · intro i g gid h
      exact absurd h (by simp)

/-- C23 on three instances of one frame each with the cursor at 1: the first
`NewPage` is served by instance 1, and when every frame is pinned the call
tries the instances 1, 2, 0 and returns null; the cursor moves to 2 both
times. -/
theorem parallel_new_page_round_robin_witness :
    ((ParallelBufferPoolManager.init 3 1 1 zeroDisk).NewPgImp 3).map
      (fun r => (r.1, r.2.1.last_alloc_index, r.2.2)) = some (some (1, 0, 1), 2, [1]) ∧
    ∃ r p1 tried,
      (ParallelBufferPoolManager.init 3 0 1 zeroDisk).NewPgImp 3 = some (r, p1, tried) ∧
      p1.last_alloc_index = 2 ∧ tried <+: roundRobin 1 3 :=
  ⟨by decide,
    have h := parallel_new_page_round_robin (ParallelBufferPoolManager.init 3 0 1 zeroDisk) 3
      (by decide) (by decide) (by decide) (by decide)
    h.imp fun _ h1 => h1.imp fun _ h2 => h2.imp fun _ h3 => ⟨h3.1, h3.2.1, h3.2.2.1⟩⟩

/-! ## Parallel buffer pool: routing by page id (claim C22) -/

theorem GetBufferPoolManager_lt (p : ParallelBufferPoolManager) (q : Int)
    (hN : 0 < p.num_instances) : p.GetBufferPoolManager q < p.num_instances :=
  Nat.mod_lt _ hN

/-- C22 (fails on the code): a parallel manager of one instance with two
frames.  The calls of `unmappedTrace 0`, each delegated to instance 0, end and
index `pages_` nowhere out of bounds; `NewPage` has returned the ids 0 and 1.
The next `NewPage` of the manager, delegated to instance 0, calls `FlushPg(0)`
there while page 0 is not in the page table of the instance, and so indexes its
`pages_` at `-1`. -/
theorem parallel_new_page_indexes_pages_out_of_bounds :
    (runParallel (ParallelBufferPoolManager.init 1 2 0 zeroDisk)
      [.FetchPage 0, .UnpinPage 0 false, .NewPage, .UnpinPage 0 false, .NewPage]).map
        (fun p => ((p.bpmi 0).out_of_bounds, FindPg (p.bpmi 0) 0,
          (p.bpmi 0).replacer.replace_frames, ((p.bpmi 0).pages 1).page_id)) =
      some (false, none, [1], 0) ∧
    ((runParallel (ParallelBufferPoolManager.init 1 2 0 zeroDisk)
      [.FetchPage 0, .UnpinPage 0 false, .NewPage, .UnpinPage 0 false, .NewPage]).bind
        (fun p => p.NewPgImp 1)).map
        (fun r => (r.2.2, (r.2.1.bpmi 0).out_of_bounds)) =
      some ([0], true) := by
  refine ⟨by decide, by decide⟩

/-! ## Primer matrices: the dimension test of `Multiply` (claim C30) -/

/-- C30 (fails on the code): for matrices that are not null, `Multiply(A, B)`
returns `nullptr` exactly when the row count of `A` differs from the column
count of `B`, which is not the test of matrix multiplication.  With `A` of 1
row and 2 columns and `B` of 2 rows and 3 columns the column count of `A` is
the row count of `B`, and `Multiply` returns `nullptr`.  With `A` of 1 row and
2 columns and `B` of 1 row and 1 column the dimensions mismatch, and `Multiply`
throws `OUT_OF_RANGE` (from `B.GetElement(1, 0)`).  With `A` of 2 rows and 1
column and `B` of 3 rows and 2 columns the dimensions mismatch, and `Multiply`
returns a matrix of 2 rows and 2 columns. -/
theorem multiply_tests_rows_against_columns :
    (∀ a b : RowMatrix,
      RowMatrixOperations.Multiply (some a) (some b) = .ok none ↔
        a.GetRowCount ≠ b.GetColumnCount) ∧
    ((matrixOf 1 2 [1, 2]).GetColumnCount = (matrixOf 2 3 [1, 2, 3, 4, 5, 6]).GetRowCount ∧
      RowMatrixOperations.Multiply (some (matrixOf 1 2 [1, 2]))
        (some (matrixOf 2 3 [1, 2, 3, 4, 5, 6])) = .ok none) ∧
    ((matrixOf 1 2 [1, 2]).GetColumnCount ≠ (matrixOf 1 1 [5]).GetRowCount ∧
      RowMatrixOperations.Multiply (some (matrixOf 1 2 [1, 2])) (some (matrixOf 1 1 [5])) =
        .error .OUT_OF_RANGE) ∧
    ((matrixOf 2 1 [1, 2]).GetColumnCount ≠ (matrixOf 3 2 [1, 2, 3, 4, 5, 6]).GetRowCount ∧
      ∃ r, RowMatrixOperations.Multiply (some (matrixOf 2 1 [1, 2]))
          (some (matrixOf 3 2 [1, 2, 3, 4, 5, 6])) = .ok (some r) ∧
        r.GetRowCount = 2 ∧ r.GetColumnCount = 2) := by
  refine ⟨fun a b => ?_, ⟨rfl, rfl⟩, ⟨by decide, rfl⟩, ⟨by decide, _, rfl, rfl, rfl⟩⟩
  unfold RowMatrixOperations.Multiply
  simp only
  split
  · rename_i h
    exact ⟨fun _ => h, fun _ => rfl⟩
  · rename_i h
    constructor
    · intro hc
      split at hc <;> simp at hc
    · intro hc
      exact absurd hc h

/-! ## Buffer pool: `FetchPage` of a resident page and the free list
(claims C32 and C33) -/

/-- C32: in every state whose replacer is consistent (as it is in every state
reached from construction), `FetchPage(p)` of a page resident in frame `f`
returns `f`, adds exactly 1 to the pin count of `f`, removes `f` from the
replacer (`Pin(f)`), sets the dirty flag of `f`, and changes nothing else: not
the disk, the bytes or the page id of `f`, any other frame, the page table, the
free list or the next page id. -/
theorem fetch_resident_page (b : BufferPoolManagerInstance) (p : Int) (f : Nat)
    (hw : ReplacerWf b.replacer) (hf : FindPg b p = some f) :
    (FetchPgImp b p).1 = some f ∧
    ((FetchPgImp b p).2.pages f).pin_count = (b.pages f).pin_count + 1 ∧
    (FetchPgImp b p).2.replacer = b.replacer.Pin f ∧
    f ∉ (FetchPgImp b p).2.replacer.replace_frames ∧
    ((FetchPgImp b p).2.pages f).is_dirty = true ∧
    (FetchPgImp b p).2.disk = b.disk ∧
    ((FetchPgImp b p).2.pages f).data = (b.pages f).data ∧
    ((FetchPgImp b p).2.pages f).page_id = (b.pages f).page_id ∧
    (∀ g, g ≠ f → (FetchPgImp b p).2.pages g = b.pages g) ∧
    (FetchPgImp b p).2.page_table = b.page_table ∧
    (FetchPgImp b p).2.free_list = b.free_list ∧
    (FetchPgImp b p).2.next_page_id = b.next_page_id := by
  have he : FetchPgImp b p = (some f,
      { b with
        replacer := b.replacer.Pin f
        pages := setAt b.pages f
          { b.pages f with pin_count := (b.pages f).pin_count + 1, is_dirty := true } }) := by
    unfold FetchPgImp
    rw [hf]
  rw [he]
  refine ⟨rfl, by simp [setAt], rfl, ?_, by simp [setAt], rfl, by simp [setAt],
    by simp [setAt], fun g hg => by simp [setAt, hg], rfl, rfl, rfl⟩
  show f ∉ (b.replacer.Pin f).replace_frames
  unfold LRUReplacer.Pin
  split
  · intro hc
    exact ((hw.frames_nodup.mem_erase_iff).mp hc).1 rfl
  · rename_i hn
    exact fun hc => hn ((hw.map_iff f).mpr hc)

/-- C32 on a pool of one frame: after `NewPage` and `UnpinPage(0, false)` page
0 is resident in frame 0, unpinned and in the replacer; `FetchPage(0)` returns
frame 0 with pin count 1, dirty, and the replacer is empty. -/
theorem fetch_resident_page_witness :
    (FetchPgImp (runOps pool1 [.NewPage, .UnpinPage 0 false]) 0).1 = some 0 ∧
    ((FetchPgImp (runOps pool1 [.NewPage, .UnpinPage 0 false]) 0).2.pages 0).pin_count = 1 ∧
    ((FetchPgImp (runOps pool1 [.NewPage, .UnpinPage 0 false]) 0).2.pages 0).is_dirty = true ∧
    0 ∉ (FetchPgImp (runOps pool1 [.NewPage, .UnpinPage 0 false]) 0).2.replacer.replace_frames :=
  have h := fetch_resident_page (runOps pool1 [.NewPage, .UnpinPage 0 false]) 0 0
    (PoolWf_runOps _ _ (PoolWf_init _ _ _ _)).repl_wf (by decide)
  ⟨h.1, h.2.1.trans (by decide), h.2.2.2.2.1, h.2.2.2.1⟩

/-- C33: in every state whose free list is not empty, `GetPg` returns the front
of the free list and changes nothing else (the replacer is not asked for a
victim).  `NewPage` then returns that frame under the next page id, and
`FetchPage` of a page that is not resident returns that frame; neither writes
to the disk, and every page id other than the one installed keeps its page
table entry, so that no page id leaves the page table.  `NewPage` leaves the
replacer as it is and `FetchPage` only calls `Pin` on the frame. -/
theorem free_list_first (b : BufferPoolManagerInstance) (f : Nat) (rest : List Nat)
    (hfl : b.free_list = f :: rest) :
    GetPg b = (some f, { b with free_list := rest }) ∧
    ((NewPgImp b).1 = some (f, b.next_page_id) ∧
      (NewPgImp b).2.free_list = rest ∧
      (NewPgImp b).2.disk = b.disk ∧
      (NewPgImp b).2.replacer = b.replacer ∧
      FindPg (NewPgImp b).2 b.next_page_id = some f ∧
      (∀ q, q ≠ b.next_page_id → FindPg (NewPgImp b).2 q = FindPg b q) ∧
      (∀ q, FindPg b q ≠ none → FindPg (NewPgImp b).2 q ≠ none)) ∧
    (∀ p, FindPg b p = none →
      (FetchPgImp b p).1 = some f ∧
      (FetchPgImp b p).2.free_list = rest ∧
      (FetchPgImp b p).2.disk = b.disk ∧
      (FetchPgImp b p).2.replacer = b.replacer.Pin f ∧
      FindPg (FetchPgImp b p).2 p = some f ∧
      (∀ q g, FindPg b q = some g → FindPg (FetchPgImp b p).2 q = some g)) := by
  have hg : GetPg b = (some f, { b with free_list := rest }) := by
    unfold GetPg
    rw [hfl]
  refine ⟨hg, ?_, ?_⟩
  · rw [NewPgImp_free b f rest hfl]
    refine ⟨rfl, rfl, rfl, rfl, ?_, ?_, ?_⟩
    · simp [FindPg, tableFind_set]
    · intro q hq
      simp [FindPg, tableFind_set, hq]
    · intro q hq
      by_cases h : q = b.next_page_id
      · simp [FindPg, tableFind_set, h]
      · simpa [FindPg, tableFind_set, h] using hq
  · intro p hp
    have he : FetchPgImp b p = (some f,
        { b with
          free_list := rest
          page_table := tableSet b.page_table p f
          replacer := b.replacer.Pin f
          pages := setAt b.pages f
            { page_id := p, pin_count := (b.pages f).pin_count + 1, is_dirty := false,
              data := b.disk p } }) := by
      unfold FetchPgImp
      rw [hp, hg]
    rw [he]
    refine ⟨rfl, rfl, rfl, rfl, ?_, ?_⟩
    · simp [FindPg, tableFind_set]
    · intro q g hq
      have hne : q ≠ p := by
        intro hc
        rw [hc, hp] at hq
        exact Option.noConfusion hq
      simpa [FindPg, tableFind_set, hne] using hq

/-- C33 on a new pool of two frames: `NewPage` takes frame 0, the front of the
free list, under page id 0, and `FetchPage(7)` then takes frame 1 and keeps the
entry of page 0. -/
theorem free_list_first_witness :
    (NewPgImp pool2).1 = some (0, 0) ∧
    (FetchPgImp (runOps pool2 [.NewPage]) 7).1 = some 1 ∧
    FindPg (FetchPgImp (runOps pool2 [.NewPage]) 7).2 0 = some 0 :=
  ⟨(free_list_first pool2 0 [1] (by decide)).2.1.1,
    ((free_list_first (runOps pool2 [.NewPage]) 1 [] (by decide)).2.2 7 (by decide)).1,
    ((free_list_first (runOps pool2 [.NewPage]) 1 [] (by decide)).2.2 7 (by decide)).2.2.2.2.2
      0 0 (by decide)⟩

/-! ## Hash table: `Merge` without effect (claim C34) -/

section MergeNoop

variable {K V : Type}

/-- C34: when the local depth of the key's directory index is 0, or the local
depth of its split image differs from it, or the key's bucket is not empty,
`Merge` leaves the table as it is: the global depth, every bucket page id and
every local depth of the directory, every bucket page, and the list of pages
passed to `DeletePage`. -/
theorem merge_noop [DecidableEq K] [DecidableEq V] [Inhabited K] [Inhabited V] (B : Nat)
    (t : ExtendibleHashTable K V) (key : K) (value : V)
    (h : t.dir.GetLocalDepth (t.KeyToDirectoryIndex key t.dir) = 0 ∨
      t.dir.GetLocalDepth (t.dir.GetSplitImageIndex (t.KeyToDirectoryIndex key t.dir)) ≠
        t.dir.GetLocalDepth (t.KeyToDirectoryIndex key t.dir) ∨
      (t.buckets (t.dir.GetBucketPageId (t.KeyToDirectoryIndex key t.dir))).IsEmpty B =
        false) :
    t.Merge B key value = t ∧
    (t.Merge B key value).deleted = t.deleted ∧
    (t.Merge B key value).dir.global_depth = t.dir.global_depth ∧
    (∀ i, (t.Merge B key value).dir.bucket_page_ids i = t.dir.bucket_page_ids i) ∧
    (∀ i, (t.Merge B key value).dir.local_depths i = t.dir.local_depths i) ∧
    (t.Merge B key value).buckets = t.buckets := by
  have he : t.Merge B key value = t := by
    unfold ExtendibleHashTable.Merge
    simp only
    split
    · rfl
    · split
      · rfl
      · split
        · rfl
        · rename_i h1 h2 h3
          rcases h with h | h | h
          · exact absurd h h1
          · exact absurd h h2
          · rw [h] at h3
            exact absurd rfl h3
  rw [he]
  exact ⟨rfl, rfl, rfl, fun _ => rfl, fun _ => rfl, rfl⟩

/-- C34 on a new table (identity hash, capacity 2): the only index has local
depth 0 and `Merge` does nothing. -/
theorem merge_noop_witness :
    ((ExtendibleHashTable.init (fun k : Nat => k) 0 : ExtendibleHashTable Nat Nat).Merge 2 5
      0).deleted = [] ∧
    ((ExtendibleHashTable.init (fun k : Nat => k) 0 : ExtendibleHashTable Nat Nat).Merge 2 5
      0).dir.global_depth = 0 :=
  have h := merge_noop 2 (ExtendibleHashTable.init (fun k : Nat => k) 0 :
    ExtendibleHashTable Nat Nat) 5 0 (Or.inl (by decide))
  ⟨h.2.1, h.2.2.1⟩

end MergeNoop

/-! ## Bucket page: the occupied slots are a prefix (claim C39) -/

section BucketPrefix

variable {K V : Type}

/-- C39: in every bucket reached from an all-zero page by `Insert`, `Remove`
and `RemoveAt`, the occupied slots are closed downwards, no two readable slots
hold the same pair, and hence no slot at or after a slot that is not occupied
is readable: a scan that stops at the first slot that is not occupied has seen
every readable slot. -/
theorem occupied_prefix [DecidableEq K] [DecidableEq V] [Inhabited K] [Inhabited V]
    (B : Nat) (ops : List (BucketOp B K V)) :
    (∀ i j, (runBucket B ops).IsOccupied i = true → j < i →
      (runBucket B ops).IsOccupied j = true) ∧
    (∀ i j, (runBucket B ops).IsReadable i = true → (runBucket B ops).IsReadable j = true →
      (runBucket B ops).array i = (runBucket B ops).array j → i = j) ∧
    (∀ i, (runBucket B ops).IsOccupied i = false →
      ∀ j, i ≤ j → (runBucket B ops).IsReadable j = false) := by
  obtain ⟨hb, hd⟩ := runBucket_inv B ops
  refine ⟨hb.occupied_closed, hd, fun i hi j hij => ?_⟩
  cases hr : (runBucket B ops).IsReadable j
  · rfl
  · exfalso
    have hoj := hb.readable_occupied j hr
    rcases Nat.eq_or_lt_of_le hij with h | h
    · rw [← h, hi] at hoj
      exact Bool.noConfusion hoj
    · have := hb.occupied_closed j i hoj h
      rw [hi] at this
      exact Bool.noConfusion this

/-- A bucket of capacity 3 after two inserts and the removal of the first
pair: slot 1 is occupied, and so is slot 0 below it, although it is no longer
readable. -/
theorem occupied_prefix_witness :
    (runBucket 3 [BucketOp.Insert 7 70, .Insert 8 80, .Remove 7 70] :
        HashTableBucketPage Nat Nat).IsOccupied 1 = true ∧
      (runBucket 3 [BucketOp.Insert 7 70, .Insert 8 80, .Remove 7 70] :
        HashTableBucketPage Nat Nat).IsReadable 0 = false ∧
      (runBucket 3 [BucketOp.Insert 7 70, .Insert 8 80, .Remove 7 70] :
        HashTableBucketPage Nat Nat).IsOccupied 0 = true :=
  ⟨by decide, by decide,
    ( occupied_prefix 3 [BucketOp.Insert 7 70, .Insert 8 80, .Remove 7 70]).1 1 0 (by decide)
      (by decide)⟩

end BucketPrefix

/-! ## Hash table: a doubling split of a bucket that holds stranded pairs
(claim C37) -/

/-- Cells of the directories after the second and the third insert of key 0,
by evaluation. -/
theorem strand_double_facts :
    ((dirOnly strandDir4 6).KeyToDirectoryIndex 0 strandDir4 = 0 ∧
      strandDir4.bucket_page_ids 0 = 1 ∧ strandDir5.global_depth = 3 ∧
      ((dirOnly strandDir4 6).splitDepths 0).GetSplitImageIndex 0 = 4 ∧
      strandDir5.bucket_page_ids 0 = 1) ∧
    ((dirOnly strandDir5 7).KeyToDirectoryIndex 0 strandDir5 = 0 ∧
      strandDir5.bucket_page_ids 0 = 1 ∧ strandDir6.global_depth = 4 ∧
      ((dirOnly strandDir5 7).splitDepths 0).GetSplitImageIndex 0 = 8 ∧
      strandDir6.bucket_page_ids 0 = 1) ∧
    strandDir5.local_depths 0 = 3 ∧ strandDir6.bucket_page_ids 6 = 5 ∧
    strandDir6.bucket_page_ids 8 = 7 := by
  decide

/-- One more insert of key 0 into the full first bucket of the trace: no pair
of that bucket has the split image index `nbi`, and the directory sends key 0
to the first bucket again.  The insert returns false, the directory has been
split, the first bucket is as it was and the new page is empty. -/
theorem strand_stay (B : Nat) (t : ExtendibleHashTable Nat Nat)
    (D D2 : HashTableDirectoryPage) (n : Int) (nbi g : Nat)
    (hs : StrandState B t D n) (hn1 : (1 : Int) ≠ n)
    (hb : (dirOnly D n).KeyToDirectoryIndex 0 D = 0) (hX : D.bucket_page_ids 0 = 1)
    (hD2 : (dirOnly D n).splitDirectory 0 = D2)
    (hnbi : ((dirOnly D n).splitDepths 0).GetSplitImageIndex 0 = nbi)
    (hg : D2.global_depth = g) (hg3 : 3 ≤ g) (hn6 : nbi % 8 ≠ 6)
    (hback : D2.bucket_page_ids 0 = 1) :
    (t.Insert B 0 0).1 = false ∧
    StrandState B (t.Insert B 0 0).2 D2 (n + 1) ∧
    Compact ((t.Insert B 0 0).2.buckets n) 0 ∧
    t.Insert B 0 0 = t.SplitInsert B 0 0 ∧
    t.KeyToPageId 0 t.dir = 1 ∧
    t.dir.GetBucketPageId (t.KeyToDirectoryIndex 0 t.dir) = 1 ∧
    t.KeyToDirectoryIndex 0 t.dir = 0 := by
  obtain ⟨ht, hd, hn, hh, hc1, hq1, ha1⟩ := hs
  obtain ⟨e1, e2, e3⟩ := split_dirOnly t D n hd hn hh 0
  have hbt : t.KeyToDirectoryIndex 0 t.dir = 0 := e3.trans hb
  have hXt : t.dir.GetBucketPageId 0 = 1 := by
    unfold HashTableDirectoryPage.GetBucketPageId
    rw [hd]; exact hX
  have e1' : t.splitDirectory 0 = D2 := e1.trans hD2
  have e0 : 0 % 2 ^ 32 % 2 ^ g = 0 := by simp
  have hc' : Compact (t.buckets (t.dir.GetBucketPageId (t.KeyToDirectoryIndex 0 t.dir))) B := by
    rw [hbt, hXt]; exact hc1
  obtain ⟨r1, r2, r3, r4, r5, r6⟩ := Insert_quiet_stay B t 0 0 ht hc'
    (by
      intro j hj
      rw [hbt, hXt, e1', e2, hnbi, index_of_id t hh _ D2 g hg]
      intro hc
      apply hn6
      rw [← hc]
      have h8g : 8 ∣ 2 ^ g := by
        have : (2 : Nat) ^ 3 ∣ 2 ^ g := Nat.pow_dvd_pow 2 hg3
        simpa using this
      have h832 : 8 ∣ 2 ^ 32 := by norm_num
      rw [Nat.mod_mod_of_dvd _ h8g, Nat.mod_mod_of_dvd _ h832]
      exact hq1 j hj)
    (by
      unfold ExtendibleHashTable.KeyToPageId
      rw [hbt, hXt, e1', index_of_id t hh _ D2 g hg, e0]
      exact hback)
  rw [hn] at r3 r5 r6
  refine ⟨r1, ⟨Insert_inv B t 0 0 ht, r2.trans e1', r3, r4.trans hh, (r5 1 hn1).1 hc1, ?_, ?_⟩,
    r6, Insert_full B t 0 0 (Compact_full B _ hc'), ?_, ?_, hbt⟩
  · intro j hj
    rw [(r5 1 hn1).2]; exact hq1 j hj
  · rw [(r5 1 hn1).2]; exact ha1
  · unfold ExtendibleHashTable.KeyToPageId
    rw [hbt]; exact hXt
  · rw [hbt]; exact hXt

/-- The state after the trace and two inserts of key 0, both refused: global
depth 3, and the first bucket, full of keys congruent to 6 modulo 8, is the
bucket of index 0 at local depth 3. -/
theorem strand_twice (B : Nat) (hB : 0 < B) :
    StrandState B
      (runTable B (ExtendibleHashTable.init (fun k : Nat => k) 0)
        (strandTrace B ++ [TableOp.Insert 0 0, TableOp.Insert 0 0]))
      strandDir5 7 := by
  obtain ⟨⟨m1, m2, m3, m4, m5⟩, -, -⟩ := strand_double_facts
  have hs := (strand_final B hB).1
  have e : strandTrace B ++ [TableOp.Insert 0 0, TableOp.Insert 0 0] =
      (strandTrace B ++ [TableOp.Insert 0 0]) ++ [TableOp.Insert 0 0] := by simp
  rw [e, runTable_append]
  generalize runTable B (ExtendibleHashTable.init (fun k : Nat => k) 0)
    (strandTrace B ++ [TableOp.Insert 0 0]) = tE at hs ⊢
  have hrun : runTable B tE [TableOp.Insert 0 0] = (tE.Insert B 0 0).2 := rfl
  rw [hrun]
  exact (strand_stay B tE strandDir4 strandDir5 6 4 3 hs (by decide) m1 m2 rfl m4 m3
    (by decide) (by decide) m5).2.1

/-- C37 (fails on the code): for every bucket capacity `B >= 1`, with the
identity as hash function on `Nat` keys, in the state `t` reached by the calls
of `strandTrace` and two calls `Insert(0, 0)` (all of them `Insert` calls on a
new table): the directory invariant holds, the bucket of key 0 (page 1) is
full, its local depth is the global depth, and it holds the pair `(6, 0)`.
`SplitInsert(0, 0)` then doubles the directory and returns false; the pair
`(6, 0)` is still in the old bucket and not in the new one, but the directory
holds another page (page 5) at the index of key 6. -/
theorem doubling_split_keeps_stranded_pair (B : Nat) (hB : 0 < B) :
    DirectoryInvariant
      (runTable B (ExtendibleHashTable.init (fun k : Nat => k) 0)
        (strandTrace B ++ [TableOp.Insert 0 0, TableOp.Insert 0 0])).dir ∧
    (∃ t : ExtendibleHashTable Nat Nat,
      t = runTable B (ExtendibleHashTable.init (fun k : Nat => k) 0)
        (strandTrace B ++ [TableOp.Insert 0 0, TableOp.Insert 0 0]) ∧
      (t.buckets (t.KeyToPageId 0 t.dir)).IsFull B = true ∧
      t.dir.GetLocalDepth (t.KeyToDirectoryIndex 0 t.dir) = t.dir.GetGlobalDepth ∧
      (t.buckets (t.KeyToPageId 0 t.dir)).Holds B 6 0 ∧
      (t.SplitInsert B 0 0).1 = false ∧
      (t.SplitInsert B 0 0).2.dir.global_depth = t.dir.global_depth + 1 ∧
      ((t.SplitInsert B 0 0).2.buckets (t.KeyToPageId 0 t.dir)).Holds B 6 0 ∧
      ¬ ((t.SplitInsert B 0 0).2.buckets t.next_page_id).Holds B 6 0 ∧
      (t.SplitInsert B 0 0).2.KeyToPageId 6 (t.SplitInsert B 0 0).2.dir ≠
        t.KeyToPageId 0 t.dir ∧
      (t.SplitInsert B 0 0).2.KeyToPageId 6 (t.SplitInsert B 0 0).2.dir ≠ t.next_page_id) := by
  obtain ⟨⟨-, -, g5, -, -⟩, ⟨m1, m2, m3, m4, m5⟩, l0, c6, -⟩ := strand_double_facts
  have hs := strand_twice B hB
  generalize runTable B (ExtendibleHashTable.init (fun k : Nat => k) 0)
    (strandTrace B ++ [TableOp.Insert 0 0, TableOp.Insert 0 0]) = t at hs ⊢
  obtain ⟨r1, r2, r3, r4, r5, r6, r7⟩ := strand_stay B t strandDir5 strandDir6 7 8 4 hs
    (by decide) m1 m2 rfl m4 m3 (by decide) (by decide) m5
  obtain ⟨ht, hd, hn, hh, hc1, hq1, ha1⟩ := hs
  obtain ⟨ht2, hd2, hn2, hh2, hc2, hq2, ha2⟩ := r2
  refine ⟨(DirectoryInvariant_of_DirInv _ ht.dir_inv).1, t, rfl, ?_, ?_, ?_, ?_, ?_, ?_, ?_, ?_,
    ?_⟩
  · rw [r5]; exact Compact_full B _ hc1
  · rw [r7]
    unfold HashTableDirectoryPage.GetLocalDepth HashTableDirectoryPage.GetGlobalDepth
    rw [hd, l0, g5]
  · rw [r5]
    exact ⟨0, hB, by rw [(hc1 0).1]; simpa using hB, ha1⟩
  · rw [← r4]; exact r1
  · rw [← r4, hd2, hd, m3, g5]
  · rw [← r4, r5]
    exact ⟨0, hB, by rw [(hc2 0).1]; simpa using hB, ha2⟩
  · rw [← r4, hn]
    exact Compact_no_holds B _ r3 6 0
  · rw [← r4, r5]
    unfold ExtendibleHashTable.KeyToPageId HashTableDirectoryPage.GetBucketPageId
    rw [index_of_id _ hh2 6 _ 4 (by rw [hd2]; exact m3), hd2]
    norm_num
    rw [c6]
    decide
  · rw [← r4, hn]
    unfold ExtendibleHashTable.KeyToPageId HashTableDirectoryPage.GetBucketPageId
    rw [index_of_id _ hh2 6 _ 4 (by rw [hd2]; exact m3), hd2]
    norm_num
    rw [c6]
    decide

/-- C37 at capacity 496: after the trace and two refused inserts of key 0,
`SplitInsert(0, 0)` returns false, leaves the pair `(6, 0)` in the bucket of
key 0 and leaves the directory index of key 6 on another page. -/
theorem doubling_split_keeps_stranded_pair_witness :
    ∃ t : ExtendibleHashTable Nat Nat,
      t = runTable 496 (ExtendibleHashTable.init (fun k : Nat => k) 0)
        (strandTrace 496 ++ [TableOp.Insert 0 0, TableOp.Insert 0 0]) ∧
      (t.SplitInsert 496 0 0).1 = false ∧
      ((t.SplitInsert 496 0 0).2.buckets (t.KeyToPageId 0 t.dir)).Holds 496 6 0 ∧
      (t.SplitInsert 496 0 0).2.KeyToPageId 6 (t.SplitInsert 496 0 0).2.dir ≠
        t.KeyToPageId 0 t.dir :=
  (doubling_split_keeps_stranded_pair 496 (by decide)).2.imp fun _ h =>
    ⟨h.1, h.2.2.2.2.1, h.2.2.2.2.2.2.1, h.2.2.2.2.2.2.2.2.1⟩

/-! ## Hash table: what an `Insert` that returns false leaves behind
(claim C38) -/

/-- C38 (fails as stated): capacity 496, every key hashing to 0.  After the
inserts of the pairs `(j, 0)` for `j < 496` on a new table the global depth is
0.  `Insert(496, 0)` finds the bucket full, splits it, finds it full again and
returns false; `Insert(0, 0)`, a duplicate, does the same.  Both leave global
depth 1 and local depth 1 at index 0. -/
theorem failed_insert_splits_directory :
    (runTable 496 (ExtendibleHashTable.init (fun _ : Nat => 0) 0)
      (collideTrace 496 0)).dir.global_depth = 0 ∧
    ((runTable 496 (ExtendibleHashTable.init (fun _ : Nat => 0) 0)
      (collideTrace 496 0)).Insert 496 496 0).1 = false ∧
    ((runTable 496 (ExtendibleHashTable.init (fun _ : Nat => 0) 0)
      (collideTrace 496 0)).Insert 496 496 0).2.dir.global_depth = 1 ∧
    ((runTable 496 (ExtendibleHashTable.init (fun _ : Nat => 0) 0)
      (collideTrace 496 0)).Insert 496 0 0).1 = false ∧
    ((runTable 496 (ExtendibleHashTable.init (fun _ : Nat => 0) 0)
      (collideTrace 496 0)).Insert 496 0 0).2.dir.global_depth = 1 ∧
    ((runTable 496 (ExtendibleHashTable.init (fun _ : Nat => 0) 0)
      (collideTrace 496 0)).Insert 496 0 0).2.dir.local_depths 0 = 1 := by
  have hf := Collided_filled 496
  have e : collideTrace 496 0 =
      ((List.range 496).map fun j => ((j, 0) : Nat × Nat)).map
        (fun kv => TableOp.Insert kv.1 kv.2) := by
    simp [collideTrace]
  rw [e]
  generalize runTable 496 (ExtendibleHashTable.init (fun _ : Nat => 0) 0)
    (((List.range 496).map fun j => ((j, 0) : Nat × Nat)).map
      (fun kv => TableOp.Insert kv.1 kv.2)) = t at hf ⊢
  obtain ⟨a1, a2⟩ := Collided_step 496 t 0 hf 496 0
  obtain ⟨b1, b2⟩ := Collided_step 496 t 0 hf 0 0
  exact ⟨hf.2.2.1, a1, a2.2.2.1, b1, b2.2.2.1, b2.2.2.2.1⟩

section FailedInsert

variable {K V : Type}

theorem bucket_Insert_false [DecidableEq K] [DecidableEq V] [Inhabited V] (B : Nat)
    (b : HashTableBucketPage K V) (key : K) (value : V)
    (h : (b.Insert B key value).1 = false) : (b.Insert B key value).2 = b := by
  unfold HashTableBucketPage.Insert at h ⊢
  split
  · rfl
  · split
    · rfl
    · rename_i h1 h2
      simp only [h1, h2, if_false] at h
      exact Bool.noConfusion h

theorem setPage_self (m : Int → HashTableBucketPage K V) (p : Int) :
    setPage m p (m p) = m := by
  funext q
  unfold setPage
  split
  · rename_i h; rw [h]
  · rfl

/-- C38 as amended: in every state reached from a new table by `Insert` and
`Remove` calls, along which and along the `Insert` below the global depth
stays within `MAX_DEPTH`, an `Insert` that returns false when the bucket of the
key is not full leaves the table as it was; an `Insert` that finds the bucket
of the key full has split it whatever it returns: the local depth of the key's
directory index is one more than before, one bucket page has been allocated,
the global depth is the old one or one more, the table is not the one before
the call, and the directory invariant holds; and no call, this one included,
has written beyond the arrays of the directory. -/
theorem failed_insert_effects [DecidableEq K] [DecidableEq V] [Inhabited K] [Inhabited V]
    (B : Nat) (hash_fn : K → Nat) (first_page_id : Int) (ops : List (TableOp K V)) (key : K)
    (value : V)
    (hmax : ∀ n, n ≤ ops.length + 1 →
      (runTable B (ExtendibleHashTable.init hash_fn first_page_id)
        ((ops ++ [TableOp.Insert key value]).take n)).dir.global_depth ≤ MAX_DEPTH) :
    ∃ t : ExtendibleHashTable K V,
      t = runTable B (ExtendibleHashTable.init hash_fn first_page_id) ops ∧
      ((t.buckets (t.KeyToPageId key t.dir)).IsFull B = false →
        (t.Insert B key value).1 = false → (t.Insert B key value).2 = t) ∧
      ((t.buckets (t.KeyToPageId key t.dir)).IsFull B = true →
        (t.Insert B key value).2.dir.local_depths (t.KeyToDirectoryIndex key t.dir) =
          t.dir.local_depths (t.KeyToDirectoryIndex key t.dir) + 1 ∧
        (t.Insert B key value).2.next_page_id = t.next_page_id + 1 ∧
        t.dir.global_depth ≤ (t.Insert B key value).2.dir.global_depth ∧
        (t.Insert B key value).2.dir.global_depth ≤ t.dir.global_depth + 1 ∧
        (t.Insert B key value).2 ≠ t ∧
        DirectoryInvariant (t.Insert B key value).2.dir) ∧
      (t.Insert B key value).2.dir.overrun = false := by
  have ht := runTable_inv B ops _ (TableInv_init B hash_fn first_page_id)
  have ho := runTable_overrun B (ops ++ [TableOp.Insert key value])
    (ExtendibleHashTable.init hash_fn first_page_id) rfl
    (by intro n hn; rw [List.length_append] at hn; exact hmax n hn)
  rw [runTable_append] at ho
  have ho' : ((runTable B (ExtendibleHashTable.init hash_fn first_page_id) ops).Insert B key
      value).2.dir.overrun = false := ho
  generalize runTable B (ExtendibleHashTable.init hash_fn first_page_id) ops = t at ht ho' ⊢
  refine ⟨t, rfl, ?_, ?_, ho'⟩
  · intro hnf hfalse
    unfold ExtendibleHashTable.Insert at hfalse ⊢
    simp only [hnf, Bool.not_false, if_true] at hfalse ⊢
    rw [bucket_Insert_false B _ key value hfalse, setPage_self]
  · intro hfull
    have hfull' : (t.buckets (t.dir.GetBucketPageId (t.KeyToDirectoryIndex key t.dir))).IsFull B =
        true := hfull
    rw [Insert_full B t key value hfull']
    obtain ⟨s1, -, -, -⟩ := SplitInsert_full B t key value hfull'
    have s2 := SplitInsert_next B t key value hfull'
    obtain ⟨p1, -, p3, p4⟩ := splitDirectory_props t key ht.dir_inv ht.fresh
    refine ⟨?_, s2, ?_, ?_, ?_, ?_⟩
    · rw [s1]; exact splitDirectory_local_depth t key
    · rw [s1]; exact p3
    · rw [s1]; exact p4
    · intro hc
      have := congrArg ExtendibleHashTable.next_page_id hc
      rw [s2] at this
      omega
    · rw [s1]; exact (DirectoryInvariant_of_DirInv _ p1).1

/-- C38 as amended, at capacity 2 with every key hashing to 0: after
`Insert(0, 0)` the bucket is not full and the duplicate `Insert(0, 0)` changes
nothing; after `Insert(1, 0)` as well the bucket is full and `Insert(2, 0)`
raises the local depth of index 0 from 0 to 1. -/
theorem failed_insert_effects_witness :
    ((runTable 2 (ExtendibleHashTable.init (fun _ : Nat => 0) 0)
        [TableOp.Insert 0 0]).Insert 2 0 0).2 =
      runTable 2 (ExtendibleHashTable.init (fun _ : Nat => 0) 0) [TableOp.Insert 0 0] ∧
    ((runTable 2 (ExtendibleHashTable.init (fun _ : Nat => 0) 0)
        [TableOp.Insert 0 0, TableOp.Insert 1 0]).Insert 2 2 0).2.dir.local_depths 0 = 1 := by
  obtain ⟨t, ht, h1, -⟩ := failed_insert_effects 2 (fun _ : Nat => 0) 0 [TableOp.Insert 0 0] 0 0
    (by decide)
  obtain ⟨u, hu, -, h2, -⟩ := failed_insert_effects 2 (fun _ : Nat => 0) 0
    [TableOp.Insert 0 0, TableOp.Insert 1 0] 2 0 (by decide)
  subst ht
  subst hu
  exact ⟨h1 (by decide) (by decide), (h2 (by decide)).1⟩

end FailedInsert

/-! ## Hash table: pins and latches of each operation (claims C35 and C36) -/

/-- Balanced calls leave the pin counts alone: with `held` the fetches not yet
matched, counted in `pins`, the counts after the calls are the counts before
less the fetches that were still to be matched. -/
theorem pinsAfter_of_balanced (events : List TableEvent) :
    ∀ (held : List Int) (pins : Int → Int), (∀ p, (held.count p : Int) ≤ pins p) →
      pinBalanced held events = true →
      ∀ p, pinsAfter pins events p = pins p - (held.count p : Int) := by
  induction events with
  | nil =>
    intro held pins _ hb p
    simp only [pinBalanced, List.isEmpty_iff] at hb
    subst hb
    simp [pinsAfter]
  | cons e es ih =>
    intro held pins hp hb p
    have hstep : pinsAfter pins (e :: es) = pinsAfter (pinStep pins e) es := rfl
    rw [hstep]
    have pin_case : ∀ q : Int, pinBalanced (q :: held) es = true →
        pinsAfter (fun r => if r = q then pins q + 1 else pins r) es p =
          pins p - (held.count p : Int) := by
      intro q hb'
      have := ih (q :: held) (fun r => if r = q then pins q + 1 else pins r) (by
        intro r
        by_cases hr : r = q
        · subst hr
          have := hp r
          simp only [List.count_cons_self, if_true]
          push_cast
          omega
        · have := hp r
          have hqr : ¬ q = r := fun h => hr h.symm
          simp only [List.count_cons, hr, if_false, beq_iff_eq, hqr]
          simpa using this) hb' p
      rw [this]
      by_cases hr : p = q
      · subst hr
        simp only [List.count_cons_self, if_true]
        push_cast
        omega
      · have hqr : ¬ q = p := fun h => hr h.symm
        simp [List.count_cons, hr, hqr]
    cases e with
    | FetchPage q => exact pin_case q hb
    | NewPage q => exact pin_case q hb
    | UnpinPage q d =>
      simp only [pinBalanced, Bool.and_eq_true] at hb
      obtain ⟨hmem0, hb'⟩ := hb
      have hmem : q ∈ held := by simpa using hmem0
      have hpos : 0 < held.count q := List.count_pos_iff.mpr hmem
      have hq := hp q
      have hne : pins q ≠ 0 := by omega
      have hs : pinStep pins (TableEvent.UnpinPage q d) =
          fun r => if r = q then pins q - 1 else pins r := by
        simp only [pinStep, hne, if_false]
      rw [hs]
      have := ih (held.erase q) (fun r => if r = q then pins q - 1 else pins r) (by
        intro r
        by_cases hr : r = q
        · subst hr
          simp only [List.count_erase_self, if_true]
          have := hp r
          omega
        · have := hp r
          have hqr : ¬ q = r := fun h => hr h.symm
          simp only [hr, if_false, List.count_erase_of_ne hr]
          exact this) hb' p
      rw [this]
      by_cases hr : p = q
      · subst hr
        simp only [List.count_erase_self, if_true]
        omega
      · simp only [hr, if_false, List.count_erase_of_ne hr]
    | RLock => exact ih held pins hp hb p
    | RUnlock => exact ih held pins hp hb p
    | WLock => exact ih held pins hp hb p
    | WUnlock => exact ih held pins hp hb p
    | RLatch q => exact ih held pins hp hb p
    | RUnlatch q => exact ih held pins hp hb p
    | WLatch q => exact ih held pins hp hb p
    | WUnlatch q => exact ih held pins hp hb p
    | DeletePage q => exact ih held pins hp hb p

theorem PinNeutral_of_balanced (events : List TableEvent)
    (h : pinBalanced [] events = true) : PinNeutral events := by
  refine ⟨h, fun pins hp => ?_⟩
  funext p
  have := pinsAfter_of_balanced events [] pins (by intro q; simpa using hp q) h p
  simpa using this

section TablePins

variable {K V : Type}

theorem GetValueEvents_balanced [DecidableEq K] [DecidableEq V] [Inhabited K] [Inhabited V]
    (t : ExtendibleHashTable K V) (key : K) : pinBalanced [] (t.GetValueEvents key) = true := by
  simp only [ExtendibleHashTable.GetValueEvents]
  generalize t.KeyToPageId key t.dir = b
  generalize t.directory_page_id = d
  by_cases h : b = d
  · subst h
    simp [pinBalanced]
  · have h' : ¬ d = b := fun hc => h hc.symm
    simp [pinBalanced, h, h', List.erase_cons]

theorem InsertOwnEvents_balanced [DecidableEq K] [DecidableEq V] [Inhabited K] [Inhabited V]
    (t : ExtendibleHashTable K V) (key : K) (rest : List TableEvent) :
    pinBalanced [] (t.InsertOwnEvents key ++ rest) = pinBalanced [] rest := by
  simp only [ExtendibleHashTable.InsertOwnEvents]
  generalize t.KeyToPageId key t.dir = b
  generalize t.directory_page_id = d
  by_cases h : b = d
  · subst h
    simp [pinBalanced]
  · have h' : ¬ d = b := fun hc => h hc.symm
    simp [pinBalanced, h, h', List.erase_cons]

theorem SplitInsertEvents_balanced [DecidableEq K] [DecidableEq V] [Inhabited K] [Inhabited V]
    (B : Nat) (t : ExtendibleHashTable K V) (key : K) :
    pinBalanced [] (t.SplitInsertEvents B key) = true := by
  simp only [ExtendibleHashTable.SplitInsertEvents]
  generalize t.dir.GetBucketPageId (t.KeyToDirectoryIndex key t.dir) = b
  generalize t.directory_page_id = d
  generalize t.next_page_id = n
  split
  · by_cases h : b = d
    · subst h
      simp [pinBalanced]
    · have h' : ¬ d = b := fun hc => h hc.symm
      simp [pinBalanced, h, h', List.erase_cons]
  · by_cases h1 : n = b <;> by_cases h2 : n = d <;> by_cases h3 : b = d <;>
      simp_all [List.erase_cons, pinBalanced]

theorem MergeEvents_balanced [DecidableEq K] [DecidableEq V] [Inhabited K] [Inhabited V]
    (B : Nat) (t : ExtendibleHashTable K V) (key : K) :
    pinBalanced [] (t.MergeEvents B key) = true := by
  simp only [ExtendibleHashTable.MergeEvents]
  split
  · simp [pinBalanced]
  · split
    · simp [pinBalanced]
    · split
      · generalize t.dir.GetBucketPageId (t.KeyToDirectoryIndex key t.dir) = b
        generalize t.directory_page_id = d
        by_cases h : b = d
        · subst h
          simp [pinBalanced]
        · have h' : ¬ d = b := fun hc => h hc.symm
          simp [pinBalanced, h, h', List.erase_cons]
      · generalize t.dir.GetBucketPageId (t.KeyToDirectoryIndex key t.dir) = b
        generalize t.directory_page_id = d
        by_cases h : b = d
        · subst h
          simp [pinBalanced]
        · have h' : ¬ d = b := fun hc => h hc.symm
          simp [pinBalanced, h, h', List.erase_cons]

/-- C35: every operation of the hash table unpins what it pins.  In the calls
of the constructor, `GetValue`, `Insert` (with the `SplitInsert` it may call),
`SplitInsert`, `Remove` (with the `Merge` it may call), `Merge`,
`GetGlobalDepth` and `VerifyIntegrity`, on whatever path the state selects,
each `UnpinPage` follows a `FetchPage` or `NewPage` of the same page id not yet
unpinned and each `FetchPage` and `NewPage` is followed by one `UnpinPage` of
its page id; so, with pin counts that go up by 1 on a fetch or a creation and
down by 1 on an unpin, every pin count after the operation is the one before
it. -/
theorem pin_balance [DecidableEq K] [DecidableEq V] [Inhabited K] [Inhabited V] (B : Nat)
    (t : ExtendibleHashTable K V) (key : K) (value : V) (first_page_id : Int) :
    PinNeutral (constructorEvents first_page_id) ∧
    PinNeutral (t.GetValueEvents key) ∧
    PinNeutral (t.InsertEvents B key) ∧
    PinNeutral (t.SplitInsertEvents B key) ∧
    PinNeutral (t.RemoveEvents B key value) ∧
    PinNeutral (t.MergeEvents B key) ∧
    PinNeutral t.GetGlobalDepthEvents ∧
    PinNeutral t.VerifyIntegrityEvents := by
  refine ⟨PinNeutral_of_balanced _ ?_, PinNeutral_of_balanced _ (GetValueEvents_balanced t key),
    PinNeutral_of_balanced _ ?_, PinNeutral_of_balanced _ (SplitInsertEvents_balanced B t key),
    PinNeutral_of_balanced _ ?_, PinNeutral_of_balanced _ (MergeEvents_balanced B t key),
    PinNeutral_of_balanced _ ?_, PinNeutral_of_balanced _ ?_⟩
  · simp [constructorEvents, pinBalanced, List.erase_cons]
  · simp only [ExtendibleHashTable.InsertEvents]
    rw [InsertOwnEvents_balanced]
    split
    · exact SplitInsertEvents_balanced B t key
    · rfl
  · simp only [ExtendibleHashTable.RemoveEvents]
    have e := InsertOwnEvents_balanced t key
    simp only [ExtendibleHashTable.InsertOwnEvents, ExtendibleHashTable.KeyToPageId] at e
    rw [e]
    split
    · exact MergeEvents_balanced B _ key
    · rfl
  · simp [ExtendibleHashTable.GetGlobalDepthEvents, pinBalanced]
  · simp [ExtendibleHashTable.VerifyIntegrityEvents, pinBalanced]

theorem latchOrdered_own [DecidableEq K] [DecidableEq V] [Inhabited K] [Inhabited V]
    (t : ExtendibleHashTable K V) (key : K) (rest : List TableEvent) :
    latchOrdered none [] (t.InsertOwnEvents key ++ rest) = latchOrdered none [] rest := by
  simp [ExtendibleHashTable.InsertOwnEvents, latchOrdered]

theorem SplitInsertEvents_ordered [DecidableEq K] [DecidableEq V] [Inhabited K] [Inhabited V]
    (B : Nat) (t : ExtendibleHashTable K V) (key : K) :
    latchOrdered none [] (t.SplitInsertEvents B key) = true := by
  simp only [ExtendibleHashTable.SplitInsertEvents]
  split
  · simp [latchOrdered]
  · generalize t.dir.GetBucketPageId (t.KeyToDirectoryIndex key t.dir) = b
    generalize t.next_page_id = n
    by_cases h : n = b
    · subst h
      simp [latchOrdered]
    · have h' : ¬ b = n := fun hc => h hc.symm
      simp [latchOrdered, h, h', List.erase_cons]

theorem MergeEvents_ordered [DecidableEq K] [DecidableEq V] [Inhabited K] [Inhabited V]
    (B : Nat) (t : ExtendibleHashTable K V) (key : K) :
    latchOrdered none [] (t.MergeEvents B key) = true := by
  simp only [ExtendibleHashTable.MergeEvents]
  split
  · simp [latchOrdered]
  · split
    · simp [latchOrdered]
    · split
      · simp [latchOrdered]
      · simp [latchOrdered]

/-- C36: along the calls of `GetValue`, `Insert`, `SplitInsert`, `Remove` and
`Merge`, on whatever path the state selects, a page latch is taken only while
the operation holds `table_latch_`, `table_latch_` is released only when no
page latch is held, and nothing is held at the end.  When `Insert` finds the
bucket full, its calls are its own calls, which release the bucket latch and
the read lock, followed by the calls of `SplitInsert`, which start with
`WLock`. -/
theorem latch_order [DecidableEq K] [DecidableEq V] [Inhabited K] [Inhabited V] (B : Nat)
    (t : ExtendibleHashTable K V) (key : K) (value : V) :
    latchOrdered none [] (t.GetValueEvents key) = true ∧
    latchOrdered none [] (t.InsertEvents B key) = true ∧
    latchOrdered none [] (t.SplitInsertEvents B key) = true ∧
    latchOrdered none [] (t.RemoveEvents B key value) = true ∧
    latchOrdered none [] (t.MergeEvents B key) = true ∧
    latchOrdered none [] (t.InsertOwnEvents key) = true ∧
    ((t.buckets (t.KeyToPageId key t.dir)).IsFull B = true →
      t.InsertEvents B key = t.InsertOwnEvents key ++ t.SplitInsertEvents B key ∧
      (t.InsertOwnEvents key).getLast? = some TableEvent.RUnlock ∧
      (t.SplitInsertEvents B key).head? = some TableEvent.WLock) := by
  refine ⟨by simp [ExtendibleHashTable.GetValueEvents, latchOrdered], ?_,
    SplitInsertEvents_ordered B t key, ?_, MergeEvents_ordered B t key,
    by simp [ExtendibleHashTable.InsertOwnEvents, latchOrdered], fun hfull => ⟨?_, ?_, ?_⟩⟩
  · simp only [ExtendibleHashTable.InsertEvents]
    rw [latchOrdered_own]
    split
    · exact SplitInsertEvents_ordered B t key
    · rfl
  · simp only [ExtendibleHashTable.RemoveEvents]
    have e := latchOrdered_own t key
    simp only [ExtendibleHashTable.InsertOwnEvents, ExtendibleHashTable.KeyToPageId] at e
    rw [e]
    split
    · exact MergeEvents_ordered B _ key
    · rfl
  · simp only [ExtendibleHashTable.InsertEvents, hfull, if_true]
  · simp [ExtendibleHashTable.InsertOwnEvents]
  · simp only [ExtendibleHashTable.SplitInsertEvents]
    rfl

/-- A table of capacity 2 whose one bucket is full: the calls of `Insert` of a
third key are its own calls followed by those of `SplitInsert`. -/
theorem latch_order_witness :
    ((runTable 2 (ExtendibleHashTable.init (fun _ : Nat => 0) 0)
        [TableOp.Insert 0 0, TableOp.Insert 1 0]).buckets
      ((runTable 2 (ExtendibleHashTable.init (fun _ : Nat => 0) 0)
        [TableOp.Insert 0 0, TableOp.Insert 1 0]).KeyToPageId 2
        (runTable 2 (ExtendibleHashTable.init (fun _ : Nat => 0) 0)
          [TableOp.Insert 0 0, TableOp.Insert 1 0]).dir)).IsFull 2 = true ∧
    (runTable 2 (ExtendibleHashTable.init (fun _ : Nat => 0) 0)
        [TableOp.Insert 0 0, TableOp.Insert 1 0]).InsertEvents 2 2 =
      (runTable 2 (ExtendibleHashTable.init (fun _ : Nat => 0) 0)
        [TableOp.Insert 0 0, TableOp.Insert 1 0]).InsertOwnEvents 2 ++
      (runTable 2 (ExtendibleHashTable.init (fun _ : Nat => 0) 0)
        [TableOp.Insert 0 0, TableOp.Insert 1 0]).SplitInsertEvents 2 2 :=
  ⟨by decide,
    ((latch_order 2 (runTable 2 (ExtendibleHashTable.init (fun _ : Nat => 0) 0)
      [TableOp.Insert 0 0, TableOp.Insert 1 0]) 2 0).2.2.2.2.2.2 (by decide)).1⟩

end TablePins

/-! ## Distinct executor (claim C31) -/

section Distinct

variable {T V : Type}

theorem expectedResults_nil (n : Nat) :
    expectedResults ([] : List T) n = List.replicate n none := by
  simp [expectedResults]

theorem expectedResults_cons (x : T) (out : List T) (n : Nat) :
    expectedResults (x :: out) (n + 1) = some x :: expectedResults out n := by
  simp [expectedResults]

theorem DistinctPlan.rowEq_iff [DecidableEq V] (plan : DistinctPlan T V) (a b : T) :
    plan.rowEq a b = true ↔ ∀ i, i < plan.cols → plan.GetValue a i = plan.GetValue b i := by
  simp [DistinctPlan.rowEq, List.all_eq_true]

theorem DistinctKey.eq_makeKey [DecidableEq V] (plan : DistinctPlan T V) (a b : T) :
    (plan.makeKey a).eq (plan.makeKey b) = plan.rowEq a b := by
  rw [Bool.eq_iff_iff, DistinctPlan.rowEq_iff]
  simp only [DistinctKey.eq, DistinctPlan.makeKey, List.length_map, List.length_range,
    List.all_eq_true, List.mem_range, List.getElem?_map]
  constructor
  · intro h i hi
    have := h i hi
    rw [List.getElem?_range hi] at this
    simpa [CompareEqualsTrue] using this
  · intro h i hi
    rw [List.getElem?_range hi]
    simpa [CompareEqualsTrue] using h i hi

theorem DistinctExecutor.count_le_zero [DecidableEq V] (hash_table : List (DistinctKey V))
    (key : DistinctKey V) :
    DistinctExecutor.count hash_table key ≤ 0 ↔ hash_table.any (fun k => key.eq k) = false := by
  simp [DistinctExecutor.count, List.filter_eq_nil_iff]

theorem DistinctSeen_nil [DecidableEq V] (plan : DistinctPlan T V) : DistinctSeen plan [] [] := by
  intro row
  simp

theorem DistinctSeen_fresh [DecidableEq V] (plan : DistinctPlan T V)
    (hash_table : List (DistinctKey V)) (earlier : List T) (tuple : T)
    (h : DistinctSeen plan hash_table earlier) :
    DistinctSeen plan (hash_table ++ [plan.makeKey tuple]) (earlier ++ [tuple]) := by
  intro row
  rw [List.any_append, List.any_append, h row]
  congr 1
  simp only [List.any_cons, List.any_nil, Bool.or_false, DistinctKey.eq_makeKey]
  rw [Bool.eq_iff_iff, DistinctPlan.rowEq_iff, DistinctPlan.rowEq_iff]
  exact ⟨fun hh i hi => (hh i hi).symm, fun hh i hi => (hh i hi).symm⟩

theorem DistinctSeen_repeat [DecidableEq V] (plan : DistinctPlan T V)
    (hash_table : List (DistinctKey V)) (earlier : List T) (tuple : T)
    (h : DistinctSeen plan hash_table earlier)
    (hdup : earlier.any (fun s => plan.rowEq s tuple) = true) :
    DistinctSeen plan hash_table (earlier ++ [tuple]) := by
  intro row
  rw [List.any_append, h row]
  simp only [List.any_cons, List.any_nil, Bool.or_false]
  cases hr : plan.rowEq tuple row
  · simp
  · obtain ⟨s, hs, hst⟩ := List.any_eq_true.mp hdup
    have : earlier.any (fun s => plan.rowEq s row) = true := by
      refine List.any_eq_true.mpr ⟨s, hs, ?_⟩
      rw [DistinctPlan.rowEq_iff] at hst hr ⊢
      exact fun i hi => (hst i hi).trans (hr i hi)
    simp [this]

/-- One run of the loop of `Next`: either no row is left that differs from
all earlier ones and the loop ends with the child exhausted, or it returns the
first such row. -/
theorem DistinctExecutor.nextLoop_spec [DecidableEq V] (plan : DistinctPlan T V) :
    ∀ (rest : List T) (hash_table : List (DistinctKey V)) (earlier : List T),
      DistinctSeen plan hash_table earlier →
      (plan.firstOccurrencesFrom earlier rest = [] ∧
        DistinctExecutor.nextLoop plan rest hash_table = (none, [], hash_table)) ∨
      ∃ x rest1 hash_table1 earlier1,
        DistinctExecutor.nextLoop plan rest hash_table = (some x, rest1, hash_table1) ∧
        plan.firstOccurrencesFrom earlier rest = x :: plan.firstOccurrencesFrom earlier1 rest1 ∧
        DistinctSeen plan hash_table1 earlier1 := by
  intro rest
  induction rest with
  | nil =>
    intro hash_table earlier _
    exact Or.inl ⟨rfl, rfl⟩
  | cons tuple rest ih =>
    intro hash_table earlier h
    cases hany : earlier.any (fun s => plan.rowEq s tuple)
    · have hc : DistinctExecutor.count hash_table (plan.makeKey tuple) ≤ 0 := by
        rw [DistinctExecutor.count_le_zero, h tuple, hany]
      refine Or.inr ⟨tuple, rest, hash_table ++ [plan.makeKey tuple], earlier ++ [tuple], ?_, ?_,
        DistinctSeen_fresh plan hash_table earlier tuple h⟩
      · simp only [DistinctExecutor.nextLoop, hc, if_true]
      · simp [DistinctPlan.firstOccurrencesFrom, hany]
    · have hc : ¬ DistinctExecutor.count hash_table (plan.makeKey tuple) ≤ 0 := by
        rw [DistinctExecutor.count_le_zero, h tuple, hany]
        simp
      have hl : DistinctExecutor.nextLoop plan (tuple :: rest) hash_table =
          DistinctExecutor.nextLoop plan rest hash_table := by
        simp only [DistinctExecutor.nextLoop, hc, if_false]
      have hf : plan.firstOccurrencesFrom earlier (tuple :: rest) =
          plan.firstOccurrencesFrom (earlier ++ [tuple]) rest := by
        simp [DistinctPlan.firstOccurrencesFrom, hany]
      rw [hl, hf]
      exact ih hash_table (earlier ++ [tuple]) (DistinctSeen_repeat plan hash_table earlier tuple h hany)

/-- `Next` written with the calls of the source: one `Next` of the child per
iteration of the loop. -/
theorem DistinctExecutor.Next_loop [DecidableEq V] (e : DistinctExecutor T V) :
    e.Next =
      match e.child_executor.Next with
      | (none, child) => (none, { e with child_executor := child })
      | (some tuple, child) =>
        if DistinctExecutor.count e.hash_table (e.plan.makeKey tuple) ≤ 0 then
          (some tuple, { e with child_executor := child, hash_table := e.hash_table ++ [e.plan.makeKey tuple] })
        else
          ({ e with child_executor := child } : DistinctExecutor T V).Next := by
  obtain ⟨plan, ⟨rows, rest⟩, hash_table⟩ := e
  cases rest with
  | nil => rfl
  | cons tuple rest =>
    by_cases hc : DistinctExecutor.count hash_table (plan.makeKey tuple) ≤ 0
    · simp only [DistinctExecutor.Next, DistinctExecutor.nextLoop, ListExecutor.Next, hc, if_true]
    · simp only [DistinctExecutor.Next, DistinctExecutor.nextLoop, ListExecutor.Next, hc, if_false]

theorem DistinctExecutor.results_exhausted [DecidableEq V] (n : Nat) :
    ∀ e : DistinctExecutor T V, e.child_executor.rest = [] →
      DistinctExecutor.results n e = List.replicate n none := by
  induction n with
  | zero => intro e _; rfl
  | succ n ih =>
    intro e he
    have h1 : (e.Next).1 = none := by
      simp only [DistinctExecutor.Next, he, DistinctExecutor.nextLoop]
    have h2 : (e.Next).2.child_executor.rest = [] := by
      simp only [DistinctExecutor.Next, he, DistinctExecutor.nextLoop]
    rw [DistinctExecutor.results, h1, ih _ h2, List.replicate_succ]

theorem DistinctExecutor.results_spec [DecidableEq V] (n : Nat) :
    ∀ (e : DistinctExecutor T V) (earlier : List T),
      DistinctSeen e.plan e.hash_table earlier →
      DistinctExecutor.results n e =
        expectedResults (e.plan.firstOccurrencesFrom earlier e.child_executor.rest) n := by
  induction n with
  | zero => intro e earlier _; simp [DistinctExecutor.results, expectedResults]
  | succ n ih =>
    intro e earlier h
    rcases DistinctExecutor.nextLoop_spec e.plan e.child_executor.rest e.hash_table earlier h with
      ⟨hf, hl⟩ | ⟨x, rest1, hash_table1, earlier1, hl, hf, h1⟩
    · have h1 : (e.Next).1 = none := by simp only [DistinctExecutor.Next, hl]
      have h2 : (e.Next).2.child_executor.rest = [] := by simp only [DistinctExecutor.Next, hl]
      rw [DistinctExecutor.results, h1, DistinctExecutor.results_exhausted n _ h2, hf,
        expectedResults_nil, List.replicate_succ]
    · have hx : (e.Next).1 = some x := by simp only [DistinctExecutor.Next, hl]
      have hp : (e.Next).2.plan = e.plan := rfl
      have hr : (e.Next).2.child_executor.rest = rest1 := by simp only [DistinctExecutor.Next, hl]
      have hh : (e.Next).2.hash_table = hash_table1 := by simp only [DistinctExecutor.Next, hl]
      have := ih (e.Next).2 earlier1 (by rw [hp, hh]; exact h1)
      rw [DistinctExecutor.results, hx, this, hp, hr, hf, expectedResults_cons]

/-- Claim C31: after `Init`, the results of any number `n` of calls of `Next`
of the distinct executor are the rows of the child that are equal (column by
column, over the columns of the plan) to no earlier row of the child, in the
child's order, each returned once, and nothing (the source's `false`) for every
call after them; and `Next` returns nothing whenever the child is
exhausted. -/
theorem distinct_first_occurrences [DecidableEq V] (e : DistinctExecutor T V) (n : Nat) :
    DistinctExecutor.results n e.Init =
        expectedResults (e.plan.firstOccurrences e.child_executor.rows) n ∧
      (({ e with child_executor := { e.child_executor with rest := [] } } :
        DistinctExecutor T V).Next).1 = none := by
  refine ⟨?_, rfl⟩
  exact DistinctExecutor.results_spec n e.Init [] (DistinctSeen_nil e.plan)

end Distinct

/-! ## Hash join executor (claim C40) -/

section HashJoin

variable {T V : Type}

theorem HashJoinExecutor.find_nil [DecidableEq V] (k : HashJoinKey V) :
    HashJoinExecutor.find ([] : List (HashJoinKey V × List T)) k = [] := rfl

theorem HashJoinExecutor.find_of_count_zero [DecidableEq V] (hash_table : List (HashJoinKey V × List T))
    (k : HashJoinKey V) (h : HashJoinExecutor.count hash_table k = 0) :
    hash_table.find? (fun entry => k.eq entry.1) = none := by
  rw [List.find?_eq_none]
  intro x hx hk
  have : x ∈ hash_table.filter (fun entry => k.eq entry.1) := List.mem_filter.mpr ⟨hx, hk⟩
  rw [HashJoinExecutor.count, List.length_eq_zero] at h
  rw [h] at this
  exact absurd this (List.not_mem_nil x)

theorem HashJoinKey.eq_iff [DecidableEq V] (a b : HashJoinKey V) :
    a.eq b = true ↔ a.join_key = b.join_key := by
  simp [HashJoinKey.eq, CompareEqualsTrue]

/-- The vector of a key after `push_back` of a tuple under a key that is in
the map. -/
theorem HashJoinExecutor.find_pushBack [DecidableEq V] (jk k : HashJoinKey V) (tuple : T) :
    ∀ hash_table : List (HashJoinKey V × List T), HashJoinExecutor.count hash_table jk ≠ 0 →
      HashJoinExecutor.find (HashJoinExecutor.pushBack hash_table jk tuple) k =
        HashJoinExecutor.find hash_table k ++ if jk.join_key = k.join_key then [tuple] else [] := by
  intro hash_table
  induction hash_table with
  | nil => intro h; exact absurd rfl h
  | cons entry hash_table ih =>
    intro h
    by_cases hk : k.eq entry.1 = true
    · have hk1 := (HashJoinKey.eq_iff k entry.1).mp hk
      by_cases hj : jk.eq entry.1 = true
      · have hj1 := (HashJoinKey.eq_iff jk entry.1).mp hj
        simp [HashJoinExecutor.find, HashJoinExecutor.pushBack, hk, hj, hj1, hk1]
      · have hj1 : ¬ jk.join_key = k.join_key := by
          intro hh
          exact hj ((HashJoinKey.eq_iff jk entry.1).mpr (hh.trans hk1))
        simp [HashJoinExecutor.find, HashJoinExecutor.pushBack, hk, hj, hj1]
    · by_cases hj : jk.eq entry.1 = true
      · have hc : HashJoinExecutor.find (HashJoinExecutor.pushBack (entry :: hash_table) jk tuple) k =
            HashJoinExecutor.find (HashJoinExecutor.pushBack hash_table jk tuple) k := by
          simp [HashJoinExecutor.find, HashJoinExecutor.pushBack, hk, hj]
        have hc2 : HashJoinExecutor.find (entry :: hash_table) k = HashJoinExecutor.find hash_table k := by
          simp [HashJoinExecutor.find, hk]
        rw [hc, hc2]
        by_cases hz : HashJoinExecutor.count hash_table jk = 0
        · have hne : ¬ jk.join_key = k.join_key := by
            intro hh
            exact hk ((HashJoinKey.eq_iff k entry.1).mpr (hh.symm.trans ((HashJoinKey.eq_iff jk entry.1).mp hj)))
          have hf := HashJoinExecutor.find_of_count_zero hash_table jk hz
          have hp : HashJoinExecutor.pushBack hash_table jk tuple = hash_table := by
            unfold HashJoinExecutor.pushBack
            conv_rhs => rw [← List.map_id hash_table]
            apply List.map_congr_left
            intro x hx
            have := (List.find?_eq_none.mp hf) x hx
            simp [this]
          rw [hp]
          simp [hne]
        · exact ih hz
      · have hc : HashJoinExecutor.find (HashJoinExecutor.pushBack (entry :: hash_table) jk tuple) k =
            HashJoinExecutor.find (HashJoinExecutor.pushBack hash_table jk tuple) k := by
          simp [HashJoinExecutor.find, HashJoinExecutor.pushBack, hk, hj]
        have hc2 : HashJoinExecutor.find (entry :: hash_table) k = HashJoinExecutor.find hash_table k := by
          simp [HashJoinExecutor.find, hk]
        have hz : HashJoinExecutor.count hash_table jk ≠ 0 := by
          intro hz
          apply h
          have hcount : HashJoinExecutor.count (entry :: hash_table) jk =
              HashJoinExecutor.count hash_table jk := by
            simp [HashJoinExecutor.count, List.filter_cons, hj]
          rw [hcount]
          exact hz
        rw [hc, hc2]
        exact ih hz

/-- The vector of a key after `insert` of a new key with one tuple. -/
theorem HashJoinExecutor.find_insert [DecidableEq V] (jk k : HashJoinKey V) (tuple : T)
    (hash_table : List (HashJoinKey V × List T)) (h : HashJoinExecutor.count hash_table jk = 0) :
    HashJoinExecutor.find (hash_table ++ [(jk, [tuple])]) k =
      HashJoinExecutor.find hash_table k ++ if jk.join_key = k.join_key then [tuple] else [] := by
  have hf := HashJoinExecutor.find_of_count_zero hash_table jk h
  unfold HashJoinExecutor.find
  rw [List.find?_append]
  cases hfk : hash_table.find? (fun entry => k.eq entry.1) with
  | none =>
    by_cases hj : jk.join_key = k.join_key
    · have : k.eq jk = true := (HashJoinKey.eq_iff k jk).mpr hj.symm
      simp [hj, this]
    · have : ¬ k.eq jk = true := fun hh => hj ((HashJoinKey.eq_iff k jk).mp hh).symm
      simp [hj, this]
  | some entry =>
    have hk := List.find?_some hfk
    have hm := List.mem_of_find?_eq_some hfk
    have hne : ¬ jk.join_key = k.join_key := by
      intro hh
      have := (List.find?_eq_none.mp hf) entry hm
      apply this
      simp only at hk
      exact (HashJoinKey.eq_iff jk entry.1).mpr (hh.trans ((HashJoinKey.eq_iff k entry.1).mp hk))
    simp [hne]

/-- The vector of a key after the build loop: the vector the map held before,
followed by the rows read from the left child that have this key, in order. -/
theorem HashJoinExecutor.find_buildLoop [DecidableEq V] (plan : HashJoinPlan T V) (k : HashJoinKey V) :
    ∀ (rows : List T) (hash_table : List (HashJoinKey V × List T)),
      HashJoinExecutor.find (HashJoinExecutor.buildLoop plan rows hash_table) k =
        HashJoinExecutor.find hash_table k ++
          rows.filter fun l => decide (plan.LeftJoinKey l = k.join_key) := by
  intro rows
  induction rows with
  | nil => intro hash_table; simp [HashJoinExecutor.buildLoop]
  | cons tuple rows ih =>
    intro hash_table
    by_cases hc : HashJoinExecutor.count hash_table ⟨plan.LeftJoinKey tuple⟩ = 0
    · have : HashJoinExecutor.buildLoop plan (tuple :: rows) hash_table =
          HashJoinExecutor.buildLoop plan rows (hash_table ++ [(⟨plan.LeftJoinKey tuple⟩, [tuple])]) := by
        simp [HashJoinExecutor.buildLoop, hc]
      rw [this, ih, HashJoinExecutor.find_insert _ _ _ _ hc, List.append_assoc]
      congr 1
      by_cases hj : plan.LeftJoinKey tuple = k.join_key <;> simp [hj]
    · have : HashJoinExecutor.buildLoop plan (tuple :: rows) hash_table =
          HashJoinExecutor.buildLoop plan rows
            (HashJoinExecutor.pushBack hash_table ⟨plan.LeftJoinKey tuple⟩ tuple) := by
        simp [HashJoinExecutor.buildLoop, hc]
      rw [this, ih, HashJoinExecutor.find_pushBack _ _ _ _ hc, List.append_assoc]
      congr 1
      by_cases hj : plan.LeftJoinKey tuple = k.join_key <;> simp [hj]

/-- The probe returns the joined tuple of the left tuple at `next_pos`, if
there is one. -/
theorem HashJoinExecutor.probe_eq [DecidableEq V] (plan : HashJoinPlan T V)
    (hash_table : List (HashJoinKey V × List T)) (right_tuple : T) (next_pos : Nat) :
    HashJoinExecutor.probe plan hash_table right_tuple next_pos =
      ((HashJoinExecutor.find hash_table ⟨plan.RightJoinKey right_tuple⟩)[next_pos]?).map
        fun l => plan.Output l right_tuple := by
  unfold HashJoinExecutor.probe
  by_cases hc : HashJoinExecutor.count hash_table ⟨plan.RightJoinKey right_tuple⟩ = 0
  · have hf := HashJoinExecutor.find_of_count_zero hash_table _ hc
    simp [hc, HashJoinExecutor.find, hf]
  · simp only [ne_eq, hc, not_false_eq_true, if_true]
    cases (HashJoinExecutor.find hash_table ⟨plan.RightJoinKey right_tuple⟩)[next_pos]? <;> rfl

/-- One run of the loop of `Next`: either no joined row is pending and the
loop ends with the right child exhausted and `non_empty_` false, or it returns
the first pending row. -/
theorem HashJoinExecutor.nextLoop_pending [DecidableEq V] (plan : HashJoinPlan T V)
    (hash_table : List (HashJoinKey V × List T)) :
    ∀ (rest : List T) (right_tuple : T) (next_pos : Nat),
      (HashJoinExecutor.pending plan hash_table rest right_tuple next_pos = [] ∧
        ∃ rt pos, HashJoinExecutor.nextLoop plan hash_table rest right_tuple next_pos =
          (none, [], rt, pos, false)) ∨
      ∃ x rest1 rt pos,
        HashJoinExecutor.nextLoop plan hash_table rest right_tuple next_pos =
          (some x, rest1, rt, pos, true) ∧
        HashJoinExecutor.pending plan hash_table rest right_tuple next_pos =
          x :: HashJoinExecutor.pending plan hash_table rest1 rt pos := by
  intro rest
  induction rest with
  | nil =>
    intro right_tuple next_pos
    cases hg : (HashJoinExecutor.find hash_table ⟨plan.RightJoinKey right_tuple⟩)[next_pos]? with
    | none =>
      refine Or.inl ⟨?_, right_tuple, next_pos, ?_⟩
      · have := List.getElem?_eq_none_iff.mp hg
        simp [HashJoinExecutor.pending, List.drop_eq_nil_of_le this]
      · simp [HashJoinExecutor.nextLoop, HashJoinExecutor.probe_eq, hg]
    | some l =>
      refine Or.inr ⟨plan.Output l right_tuple, [], right_tuple, next_pos + 1, ?_, ?_⟩
      · simp [HashJoinExecutor.nextLoop, HashJoinExecutor.probe_eq, hg]
      · obtain ⟨hlt, hl⟩ := List.getElem?_eq_some_iff.mp hg
        simp [HashJoinExecutor.pending, List.drop_eq_getElem_cons hlt, hl]
  | cons next_right rest ih =>
    intro right_tuple next_pos
    cases hg : (HashJoinExecutor.find hash_table ⟨plan.RightJoinKey right_tuple⟩)[next_pos]? with
    | none =>
      have hl : HashJoinExecutor.nextLoop plan hash_table (next_right :: rest) right_tuple next_pos =
          HashJoinExecutor.nextLoop plan hash_table rest next_right 0 := by
        simp [HashJoinExecutor.nextLoop, HashJoinExecutor.probe_eq, hg]
      have hp : HashJoinExecutor.pending plan hash_table (next_right :: rest) right_tuple next_pos =
          HashJoinExecutor.pending plan hash_table rest next_right 0 := by
        have := List.getElem?_eq_none_iff.mp hg
        simp [HashJoinExecutor.pending, List.drop_eq_nil_of_le this]
      rw [hl, hp]
      exact ih next_right 0
    | some l =>
      refine Or.inr ⟨plan.Output l right_tuple, next_right :: rest, right_tuple, next_pos + 1, ?_, ?_⟩
      · simp [HashJoinExecutor.nextLoop, HashJoinExecutor.probe_eq, hg]
      · obtain ⟨hlt, hl⟩ := List.getElem?_eq_some_iff.mp hg
        simp [HashJoinExecutor.pending, List.drop_eq_getElem_cons hlt, hl]

theorem HashJoinExecutor.results_done [DecidableEq V] (n : Nat) :
    ∀ e : HashJoinExecutor T V, e.non_empty = false →
      HashJoinExecutor.results n e = List.replicate n none := by
  induction n with
  | zero => intro e _; rfl
  | succ n ih =>
    intro e he
    have h1 : e.Next = (none, e) := by simp [HashJoinExecutor.Next, he]
    rw [HashJoinExecutor.results, h1, ih e he, List.replicate_succ]

theorem HashJoinExecutor.results_empty [DecidableEq V] (n : Nat) :
    ∀ e : HashJoinExecutor T V, e.hash_table = [] →
      HashJoinExecutor.results n e = List.replicate n none := by
  induction n with
  | zero => intro e _; rfl
  | succ n ih =>
    intro e he
    have h1 : e.Next = (none, e) := by simp [HashJoinExecutor.Next, he]
    rw [HashJoinExecutor.results, h1, ih e he, List.replicate_succ]

theorem HashJoinExecutor.pending_empty [DecidableEq V] (plan : HashJoinPlan T V) (rest : List T)
    (right_tuple : T) (next_pos : Nat) :
    HashJoinExecutor.pending plan [] rest right_tuple next_pos = [] := by
  simp [HashJoinExecutor.pending, HashJoinExecutor.find_nil]

/-- The results of the calls of `Next` while `non_empty_` is true: the pending
rows, then nothing. -/
theorem HashJoinExecutor.results_pending [DecidableEq V] (n : Nat) :
    ∀ e : HashJoinExecutor T V, e.non_empty = true →
      HashJoinExecutor.results n e =
        expectedResults
          (HashJoinExecutor.pending e.plan e.hash_table e.right_executor.rest e.right_tuple e.next_pos) n := by
  induction n with
  | zero => intro e _; simp [HashJoinExecutor.results, expectedResults]
  | succ n ih =>
    intro e he
    by_cases hh : e.hash_table = []
    · rw [HashJoinExecutor.results_empty _ e hh, hh, HashJoinExecutor.pending_empty, expectedResults_nil]
    · have hne : e.hash_table.isEmpty = false := by
        cases hq : e.hash_table with
        | nil => exact absurd hq hh
        | cons _ _ => rfl
      have hN : e.Next =
          ((HashJoinExecutor.nextLoop e.plan e.hash_table e.right_executor.rest e.right_tuple e.next_pos).1,
            { e with
              right_executor := { e.right_executor with rest := (HashJoinExecutor.nextLoop e.plan e.hash_table e.right_executor.rest e.right_tuple e.next_pos).2.1 }
              right_tuple := (HashJoinExecutor.nextLoop e.plan e.hash_table e.right_executor.rest e.right_tuple e.next_pos).2.2.1
              next_pos := (HashJoinExecutor.nextLoop e.plan e.hash_table e.right_executor.rest e.right_tuple e.next_pos).2.2.2.1
              non_empty := (HashJoinExecutor.nextLoop e.plan e.hash_table e.right_executor.rest e.right_tuple e.next_pos).2.2.2.2 }) := by
        simp [HashJoinExecutor.Next, hne, he]
      rcases HashJoinExecutor.nextLoop_pending e.plan e.hash_table e.right_executor.rest e.right_tuple
          e.next_pos with ⟨hp, rt, pos, hl⟩ | ⟨x, rest1, rt, pos, hl, hp⟩
      · rw [hl] at hN
        rw [HashJoinExecutor.results, hN, hp, expectedResults_nil, List.replicate_succ]
        rw [HashJoinExecutor.results_done n _ rfl]
      · rw [hl] at hN
        rw [HashJoinExecutor.results, hN, hp, expectedResults_cons]
        rw [ih _ rfl]

/-- The results of the calls of `Next` after `Init`, whatever the map held
before `Init`: for each right row in order, the rows the map held under its key
and then the left rows with this key. -/
theorem HashJoinExecutor.results_Init [DecidableEq V] (e : HashJoinExecutor T V) (n : Nat) :
    HashJoinExecutor.results n e.Init =
      expectedResults
        (e.right_executor.rows.flatMap fun r =>
          (HashJoinExecutor.find e.hash_table ⟨e.plan.RightJoinKey r⟩ ++
            e.left_executor.rows.filter fun l => decide (e.plan.LeftJoinKey l = e.plan.RightJoinKey r)).map
              fun l => e.plan.Output l r) n := by
  obtain ⟨plan, ⟨lrows, lrest⟩, ⟨rrows, rrest⟩, hash_table, right_tuple, next_pos, non_empty⟩ := e
  cases rrows with
  | nil =>
    rw [HashJoinExecutor.results_done n _ rfl]
    simp [expectedResults_nil]
  | cons r0 rrows =>
    rw [HashJoinExecutor.results_pending n _ rfl]
    congr 1
    simp [HashJoinExecutor.Init, ListExecutor.Init, ListExecutor.Next, HashJoinExecutor.pending,
      HashJoinExecutor.find_buildLoop]

theorem HashJoinExecutor.Next_keeps [DecidableEq V] (e : HashJoinExecutor T V) :
    (e.Next).2.plan = e.plan ∧ (e.Next).2.hash_table = e.hash_table ∧
      (e.Next).2.left_executor = e.left_executor ∧
      (e.Next).2.right_executor.rows = e.right_executor.rows := by
  unfold HashJoinExecutor.Next
  split <;> exact ⟨rfl, rfl, rfl, rfl⟩

theorem HashJoinExecutor.afterNext_keeps [DecidableEq V] (k : Nat) :
    ∀ e : HashJoinExecutor T V,
      (HashJoinExecutor.afterNext k e).plan = e.plan ∧
      (HashJoinExecutor.afterNext k e).hash_table = e.hash_table ∧
      (HashJoinExecutor.afterNext k e).left_executor = e.left_executor ∧
      (HashJoinExecutor.afterNext k e).right_executor.rows = e.right_executor.rows := by
  induction k with
  | zero => intro e; exact ⟨rfl, rfl, rfl, rfl⟩
  | succ k ih =>
    intro e
    obtain ⟨h1, h2, h3, h4⟩ := ih (e.Next).2
    obtain ⟨g1, g2, g3, g4⟩ := HashJoinExecutor.Next_keeps e
    rw [HashJoinExecutor.afterNext]
    exact ⟨h1.trans g1, h2.trans g2, h3.trans g3, h4.trans g4⟩

theorem HashJoinPlan.joinRows_length_double [DecidableEq V] (plan : HashJoinPlan T V) (left : List T) :
    ∀ right : List T,
      (plan.joinRows (left ++ left) right).length = 2 * (plan.joinRows left right).length := by
  intro right
  induction right with
  | nil => simp [HashJoinPlan.joinRows]
  | cons r right ih =>
    simp only [HashJoinPlan.joinRows, List.flatMap_cons, List.length_append, List.length_map,
      List.filter_append] at ih ⊢
    omega

/-- Claim C40 (as the code behaves): for a hash join executor whose map is
empty, as the constructor leaves it, the results of `n` calls of `Next` after
the first `Init` are the join of the left and right rows (for each right row in
order, one joined row per left row with an equal key, in left order, then
nothing); after a second `Init`, made after any number `k` of calls of `Next`,
they are the join of the left rows taken twice with the right rows, which has
twice as many rows: the map is not cleared and every left row is added to it a
second time. -/
theorem hash_join_second_init_doubles [DecidableEq V] (e : HashJoinExecutor T V)
    (he : e.hash_table = []) (k n : Nat) :
    HashJoinExecutor.results n e.Init =
        expectedResults (e.plan.joinRows e.left_executor.rows e.right_executor.rows) n ∧
      HashJoinExecutor.results n (HashJoinExecutor.afterNext k e.Init).Init =
        expectedResults
          (e.plan.joinRows (e.left_executor.rows ++ e.left_executor.rows) e.right_executor.rows) n ∧
      (e.plan.joinRows (e.left_executor.rows ++ e.left_executor.rows) e.right_executor.rows).length =
        2 * (e.plan.joinRows e.left_executor.rows e.right_executor.rows).length := by
  refine ⟨?_, ?_, HashJoinPlan.joinRows_length_double _ _ _⟩
  · rw [HashJoinExecutor.results_Init, he]
    simp [HashJoinPlan.joinRows, HashJoinExecutor.find_nil]
  · obtain ⟨h1, h2, h3, h4⟩ := HashJoinExecutor.afterNext_keeps k e.Init
    rw [HashJoinExecutor.results_Init, h1, h2, h3, h4]
    have hp : e.Init.plan = e.plan := rfl
    have hl : e.Init.left_executor.rows = e.left_executor.rows := rfl
    have hr : e.Init.right_executor.rows = e.right_executor.rows := by
      obtain ⟨plan, ⟨lrows, lrest⟩, ⟨rrows, rrest⟩, hash_table, right_tuple, next_pos, non_empty⟩ := e
      cases rrows <;> rfl
    have hh : e.Init.hash_table = HashJoinExecutor.buildLoop e.plan e.left_executor.rows [] := by
      rw [← he]; rfl
    rw [hp, hl, hr, hh]
    simp [HashJoinPlan.joinRows, HashJoinExecutor.find_buildLoop, HashJoinExecutor.find_nil]

/-- One left row and one right row with the same key: the first `Init` is
followed by one joined row, a second `Init` by the same row twice. -/
theorem hash_join_second_init_doubles_witness :
    joinExample.hash_table = [] ∧
      HashJoinExecutor.results 3 joinExample.Init = [some [1, 10, 1, 20], none, none] ∧
      HashJoinExecutor.results 3 (HashJoinExecutor.afterNext 1 joinExample.Init).Init =
        [some [1, 10, 1, 20], some [1, 10, 1, 20], none] :=
  ⟨rfl, (hash_join_second_init_doubles joinExample rfl 1 3).1.trans (by decide),
    (hash_join_second_init_doubles joinExample rfl 1 3).2.1.trans (by decide)⟩

end HashJoin

end Bustub
